import Mathlib

/-! # Project reconciliation controller (kubeclipper `pkg/controller/projectcontroller`)

A shallow embedding of `controller.go`: the Go values it manipulates, the
resource store it calls (explicit state passing, with a log of the calls
issued), and the reconciler's functions, followed by theorems about them.
-/

namespace projectcontroller

/-! ## Errors -/

/-- Errors a call can return (the error kinds of the store contract), plus
Go run-time panics, which the controller recovers and reports as a failed
pass, and `pkgerrors.WithMessagef` wrapping. -/
inductive Err where
  | notFound
  | alreadyExists
  | conflict
  | transient
  | validation
  | cancelled
  | panic (msg : String)
  | withMessage (msg : String) (cause : Err)
  deriving DecidableEq, Repr

deriving instance DecidableEq for Except

/-- The Go test `errors.IsNotFound(err)`; it looks through message wrapping. -/
def Err.IsNotFound : Err → Bool
  | .notFound => true
  | .withMessage _ cause => cause.IsNotFound
  | _ => false

/-- Failures of a store call that do not depend on the store's content. -/
inductive Fault where
  | conflict
  | transient
  | cancelled
  deriving DecidableEq, Repr

/-- The error a caller sees for an injected failure. -/
def Fault.toErr : Fault → Err
  | .conflict => .conflict
  | .transient => .transient
  | .cancelled => .cancelled

/-! ## Go values -/

/-- A Go `map[string]string`: `none` is the nil map, `some kvs` a non-nil map
holding the entries `kvs` (a well-formed map has pairwise distinct keys). -/
abbrev GoMap := Option (List (String × String))

namespace GoMap

/-- Value stored under `k` in an entry list, if any. -/
def find (k : String) : List (String × String) → Option String
  | [] => none
  | (k', v) :: rest => if k' = k then some v else find k rest

/-- The Go read `m[k]`: the zero value `""` when the key is absent or the map is nil. -/
def get (m : GoMap) (k : String) : String :=
  match m with
  | none => ""
  | some l => (find k l).getD ""

/-- The two-valued Go read `_, ok := m[k]`. -/
def has (m : GoMap) (k : String) : Bool :=
  match m with
  | none => false
  | some l => (find k l).isSome

/-- Entry list after `m[k] = v` on a non-nil map. -/
def setEntry (k v : String) : List (String × String) → List (String × String)
  | [] => [(k, v)]
  | (k', v') :: rest => if k' = k then (k, v) :: rest else (k', v') :: setEntry k v rest

/-- The Go assignment `m[k] = v`; it panics on a nil map. -/
def set (m : GoMap) (k v : String) : Except Err GoMap :=
  match m with
  | none => .error (.panic "assignment to entry in nil map")
  | some l => .ok (some (setEntry k v l))

/-- The Go builtin `delete(m, k)`; a no-op on a nil map. -/
def delete (m : GoMap) (k : String) : GoMap :=
  match m with
  | none => none
  | some l => some (l.filter (fun kv => decide (kv.1 ≠ k)))

/-- The Go `reflect.DeepEqual` on two maps: both nil, or both non-nil with the
same length and the same value under every key. -/
def deepEqual (a b : GoMap) : Bool :=
  match a, b with
  | none, none => true
  | some x, some y =>
      decide (x.length = y.length) && x.all (fun kv => decide (find kv.1 y = some kv.2))
  | _, _ => false

end GoMap

/-- A Go slice with its nil/non-nil distinction, which `reflect.DeepEqual` observes. -/
abbrev GoSlice (α : Type) := Option (List α)

namespace sets

/-- The `sets.String` of apimachinery, kept as the ascending duplicate-free
list of its members (what `List()` returns). -/
structure StringSet where
  keys : List String
  deriving DecidableEq, Repr

/-- `sets.NewString(items...)`. -/
def NewString (items : List String) : StringSet :=
  ⟨(items.dedup).insertionSort (· ≤ ·)⟩

/-- `s.Has(item)`. -/
def StringSet.Has (s : StringSet) (item : String) : Bool := decide (item ∈ s.keys)

/-- `s.Insert(items...)`. -/
def StringSet.Insert (s : StringSet) (items : List String) : StringSet :=
  NewString (s.keys ++ items)

/-- `s.Delete(item)`. -/
def StringSet.Delete (s : StringSet) (item : String) : StringSet :=
  ⟨s.keys.filter (fun x => decide (x ≠ item))⟩

/-- `s1.Equal(s2)`: same size and `s1` a superset of `s2`. -/
def StringSet.Equal (s1 s2 : StringSet) : Bool :=
  decide (s1.keys.length = s2.keys.length) && s2.keys.all (fun x => s1.Has x)

/-- `s.List()`: the members in ascending order. -/
def StringSet.List (s : StringSet) : List String := s.keys

end sets

/-! ## Resources -/

/-- An instant, counted from Go's zero time. -/
abbrev Time := Nat

/-- The `(*metav1.Time).IsZero` test: a nil pointer or the zero instant. -/
def Time.IsZero : Option Time → Bool
  | none => true
  | some t => decide (t = 0)

/-- The part of `metav1.ObjectMeta` the controller reads or writes. -/
structure ObjectMeta where
  name : String
  labels : GoMap := none
  annotations : GoMap := none
  finalizers : List String := []
  deletionTimestamp : Option Time := none
  deriving DecidableEq, Repr

/-- `tenantv1.ProjectSpec`. -/
structure ProjectSpec where
  manager : String
  nodes : List String
  deriving DecidableEq, Repr

/-- `tenantv1.ProjectCount`. -/
structure ProjectCount where
  cluster : Int := 0
  node : Int := 0
  deriving DecidableEq, Repr

/-- `tenantv1.ProjectStatus`. -/
structure ProjectStatus where
  count : ProjectCount := {}
  deriving DecidableEq, Repr

/-- `tenantv1.Project`. -/
structure Project where
  objectMeta : ObjectMeta
  spec : ProjectSpec
  status : ProjectStatus := {}
  deriving DecidableEq, Repr

/-- `v1.Cluster`, with the node identifiers it owns (its masters and workers). -/
structure Cluster where
  objectMeta : ObjectMeta
  nodes : List String
  deriving DecidableEq, Repr

/-- `(*v1.Cluster).GetAllNodes`: the set of node identifiers of the cluster. -/
def Cluster.GetAllNodes (c : Cluster) : sets.StringSet := sets.NewString c.nodes

/-- `v1.Node`. -/
structure Node where
  objectMeta : ObjectMeta
  deriving DecidableEq, Repr

/-- `rbacv1.PolicyRule`. -/
structure PolicyRule where
  verbs : GoSlice String := none
  apiGroups : GoSlice String := none
  resources : GoSlice String := none
  resourceNames : GoSlice String := none
  nonResourceURLs : GoSlice String := none
  deriving DecidableEq, Repr

/-- `iamv1.ProjectRole` (its constant type metadata left out). -/
structure ProjectRole where
  objectMeta : ObjectMeta
  rules : GoSlice PolicyRule
  deriving DecidableEq, Repr

/-- `rbacv1.RoleRef`. -/
structure RoleRef where
  apiGroup : String
  kind : String
  name : String
  deriving DecidableEq, Repr

/-- `rbacv1.Subject`. -/
structure Subject where
  apiGroup : String
  kind : String
  name : String
  deriving DecidableEq, Repr

/-- `iamv1.ProjectRoleBinding` and `iamv1.GlobalRoleBinding` (same shape; constant
type metadata left out). -/
structure RoleBinding where
  objectMeta : ObjectMeta
  roleRef : RoleRef
  subjects : List Subject
  deriving DecidableEq, Repr

/-! ## The resource store -/

/-- Content of the resource store: the four resource kinds of the project
controller, scoped roles and bindings, and the global role bindings. Next to
the stored nodes it keeps `editedNodes`, the objects of the node lister's cache
that were changed in place and whose change is not stored: the lister hands out
the objects of its cache, and `syncNodeLabel` writes their labels through the
pointer before it calls `UpdateNode`. -/
structure Store where
  projects : List Project := []
  clusters : List Cluster := []
  nodes : List Node := []
  projectRoles : List ProjectRole := []
  projectRoleBindings : List RoleBinding := []
  roleBindings : List RoleBinding := []
  editedNodes : List Node := []
  deriving DecidableEq, Repr

/-- The store together with the failures scheduled for the coming calls: each
call consumes the head of `faults`, and fails with it when it is `some`. -/
structure World where
  store : Store
  faults : List (Option Fault) := []
  deriving DecidableEq, Repr

/-- A requirement of a label selector. -/
inductive Requirement where
  | equals (key value : String)
  | exists (key : String)
  deriving DecidableEq, Repr

/-- The calls the controller makes on its listers, writers and the IAM operator. -/
inductive Op where
  | getProject (name : String)
  | updateProject (p : Project)
  | listClusters (selector : List Requirement)
  | listNodes (selector : List Requirement)
  | getNode (name : String)
  | updateNode (n : Node)
  | getProjectRole (name : String)
  | createProjectRole (r : ProjectRole)
  | updateProjectRole (r : ProjectRole)
  | listProjectRoles (labelSelector : String)
  | deleteProjectRole (name : String)
  | listProjectRoleBinding (labelSelector : String)
  | createProjectRoleBinding (b : RoleBinding)
  | deleteProjectRoleBinding (name : String)
  | deleteRoleBinding (name : String)
  deriving DecidableEq, Repr

/-- Whether the call is a create, update or delete. -/
def Op.isWrite : Op → Bool
  | .updateProject _ | .updateNode _ | .createProjectRole _ | .updateProjectRole _
  | .deleteProjectRole _ | .createProjectRoleBinding _ | .deleteProjectRoleBinding _
  | .deleteRoleBinding _ => true
  | _ => false

/-- One issued call with the error it returned, if any. -/
structure Call where
  op : Op
  err : Option Err
  deriving DecidableEq, Repr

/-- Outcome of running a piece of the controller: what it returned, the world
it left, and the calls it issued, in order. -/
structure Out (α : Type) where
  res : Except Err α
  world : World
  calls : List Call

/-- The outcome with earlier calls put in front of its log. -/
def Out.prepend {α : Type} (calls : List Call) (o : Out α) : Out α :=
  ⟨o.res, o.world, calls ++ o.calls⟩

/-- Computations of the controller: they read and write the world and log
their calls. -/
def M (α : Type) : Type := World → Out α

namespace M

/-- Run a computation from a world. -/
def run {α : Type} (m : M α) (w : World) : Out α := m w

/-- Return a value without touching the world. -/
def ret {α : Type} (a : α) : M α := fun w => ⟨.ok a, w, []⟩

/-- Sequence two computations; an error of the first ends the sequence. -/
def andThen {α β : Type} (m : M α) (f : α → M β) : M β := fun w =>
  match m w with
  | ⟨.ok a, w1, c1⟩ =>
      match f a w1 with
      | ⟨r, w2, c2⟩ => ⟨r, w2, c1 ++ c2⟩
  | ⟨.error e, w1, c1⟩ => ⟨.error e, w1, c1⟩

/-- Return an error (Go `return err`, or a panic unwinding the pass). -/
def fail {α : Type} (e : Err) : M α := fun w => ⟨.error e, w, []⟩

/-- Run a computation and hand its error to the caller as a value (Go's
`x, err := f()` followed by an inspection of `err`). -/
def attempt {α : Type} (m : M α) : M (Except Err α) := fun w =>
  match m w with
  | ⟨r, w1, c1⟩ => ⟨.ok r, w1, c1⟩

/-- Use the result of a pure fallible step. -/
def ofExcept {α : Type} (r : Except Err α) : M α := fun w => ⟨r, w, []⟩

end M

instance : Monad M where
  pure := M.ret
  bind := M.andThen

/-! ### Store contract

The store's implementation is outside the controller; the operations below
follow its interface contract. -/

/-- Modelled from the spec: `get(kind, name) → object | NotFound`, the store's
lookup of an object by its name (the store itself is not part of the
controller's sources). -/
def getByName {α : Type} (nameOf : α → String) (xs : List α) (name : String) : Option α :=
  xs.find? (fun x => decide (nameOf x = name))

/-- Modelled from the spec: `update(object) → object | Conflict | NotFound`
replaces the stored object of the same name. -/
def replaceByName {α : Type} (nameOf : α → String) (xs : List α) (obj : α) : List α :=
  xs.map (fun x => if nameOf x = nameOf obj then obj else x)

/-- Modelled from the spec: `delete(kind, name) → () | NotFound` removes the
stored object of that name. -/
def removeByName {α : Type} (nameOf : α → String) (xs : List α) (name : String) : List α :=
  xs.filter (fun x => decide (nameOf x ≠ name))

/-- Modelled from the spec: `list(kind, labelSelector) → ordered-by-name
sequence of objects`; this is the ordering by name. -/
def sortByName {α : Type} (nameOf : α → String) (xs : List α) : List α :=
  xs.insertionSort (fun a b => nameOf a ≤ nameOf b)

/-- Modelled from the spec: whether a label set satisfies one requirement of a
label selector (the selector machinery is apimachinery's, outside the
controller's sources). -/
def Requirement.holds (labels : GoMap) : Requirement → Bool
  | .equals key value => labels.has key && decide (labels.get key = value)
  | .exists key => labels.has key

/-- Modelled from the spec: a label selector is the conjunction of its requirements. -/
def selectorMatches (selector : List Requirement) (labels : GoMap) : Bool :=
  selector.all (fun r => r.holds labels)

/-- Pieces of a character list between the occurrences of a separator. -/
def splitOnChar (sep : Char) : List Char → List (List Char)
  | [] => [[]]
  | c :: cs =>
      if c = sep then [] :: splitOnChar sep cs
      else
        match splitOnChar sep cs with
        | [] => [[c]]
        | piece :: pieces => (c :: piece) :: pieces

/-- Split a character list at the first occurrence of a separator. -/
def breakAtChar (sep : Char) : List Char → Option (List Char × List Char)
  | [] => none
  | c :: cs =>
      if c = sep then some ([], cs)
      else
        match breakAtChar sep cs with
        | none => none
        | some (before, after) => some (c :: before, after)

/-- Modelled from the spec: one term of a textual label selector, `key=value`
for equality and a bare `key` for the presence of the label. -/
def parseRequirement (term : List Char) : Requirement :=
  match breakAtChar '=' term with
  | some (key, value) => .equals (String.mk key) (String.mk value)
  | none => .exists (String.mk term)

/-- Modelled from the spec: the textual label selector of a query, a
comma-separated conjunction of terms; the empty text selects everything. -/
def parseSelector (text : String) : List Requirement :=
  if text = "" then [] else (splitOnChar ',' text.data).map parseRequirement

/-- Modelled from the spec: the syntax of a label value (at most 63
characters, alphanumerics, `-`, `_` and `.`, beginning and ending with an
alphanumeric), which `labels.NewRequirement` enforces on the values of an
equality requirement. -/
def validLabelValue (value : String) : Bool :=
  let cs := value.data
  decide (cs.length ≤ 63) &&
  cs.all (fun c => c.isAlphanum || c = '-' || c = '_' || c = '.') &&
  (match cs.head? with | none => true | some c => c.isAlphanum) &&
  (match cs.getLast? with | none => true | some c => c.isAlphanum)

/-- The failure scheduled for the next call, if any. -/
def World.nextFault (w : World) : Option Fault :=
  match w.faults with
  | some f :: _ => some f
  | _ => none

/-- The world once a call has consumed its slot of the failure schedule. -/
def World.advance (w : World) : World := { w with faults := w.faults.tail }

/-- One call on the store: it consumes the next slot of the failure schedule
and returns the failure if one is scheduled, otherwise performs `body` on the
store; the call and its error are logged. A failed call leaves the store as it was. -/
def storeCall {α : Type} (op : Op) (body : Store → Except Err (α × Store)) : M α := fun w =>
  match w.nextFault with
  | some f => ⟨.error f.toErr, w.advance, [⟨op, some f.toErr⟩]⟩
  | none =>
      match body w.store with
      | .ok (a, s) => ⟨.ok a, { store := s, faults := w.faults.tail }, [⟨op, none⟩]⟩
      | .error e => ⟨.error e, w.advance, [⟨op, some e⟩]⟩

/-- Modelled from the spec: `get` on a kind of the store. -/
def storeGet {α : Type} (nameOf : α → String) (xs : List α) (name : String) : Except Err α :=
  match getByName nameOf xs name with
  | some x => .ok x
  | none => .error .notFound

/-- Modelled from the spec: `create(object) → object | AlreadyExists` on a kind of the store. -/
def storeCreate {α : Type} (nameOf : α → String) (xs : List α) (obj : α) : Except Err (List α) :=
  match getByName nameOf xs (nameOf obj) with
  | some _ => .error .alreadyExists
  | none => .ok (xs ++ [obj])

/-- Modelled from the spec: `update(object) → object | Conflict | NotFound` on a
kind of the store (a conflict is a scheduled failure). -/
def storeUpdate {α : Type} (nameOf : α → String) (xs : List α) (obj : α) : Except Err (List α) :=
  match getByName nameOf xs (nameOf obj) with
  | some _ => .ok (replaceByName nameOf xs obj)
  | none => .error .notFound

/-- Modelled from the spec: `delete(kind, name) → () | NotFound` on a kind of the store. -/
def storeDelete {α : Type} (nameOf : α → String) (xs : List α) (name : String) : Except Err (List α) :=
  match getByName nameOf xs name with
  | some _ => .ok (removeByName nameOf xs name)
  | none => .error .notFound

/-- Modelled from the spec: `list(kind, labelSelector)` on a kind of the store. -/
def storeList {α : Type} (nameOf : α → String) (labelsOf : α → GoMap) (xs : List α)
    (selector : List Requirement) : List α :=
  sortByName nameOf (xs.filter (fun x => selectorMatches selector (labelsOf x)))

/-! ### Constants declared outside the controller's file -/

/-- Modelled from the spec: the key of the project-association label
(`common.LabelProject`, declared outside the controller's sources). -/
def LabelProject : String := "kubeclipper.io/project"

/-- Modelled from the spec: the key of the "is-manager-binding" marker label
(`common.LabelProjectRoleBindingManager`, declared outside the controller's sources). -/
def LabelProjectRoleBindingManager : String := "kubeclipper.io/project-role-binding-manager"

/-- Modelled from the spec: the controller's finalizer token
(`v1.ProjectFinalizer`, declared outside the controller's sources). -/
def ProjectFinalizer : String := "finalizer.project.kubeclipper.io"

/-- Modelled from the spec: the kind name of scoped roles (`iamv1.KindProjectRole`). -/
def KindProjectRole : String := "ProjectRole"

/-- Modelled from the spec: the kind name of users (`iamv1.KindUser`). -/
def KindUser : String := "User"

/-! ### Listers, writers and the IAM operator -/

/-- Name of a project. -/
def Project.name (p : Project) : String := p.objectMeta.name

/-- Name of a cluster. -/
def Cluster.name (c : Cluster) : String := c.objectMeta.name

/-- Name of a node. -/
def Node.name (n : Node) : String := n.objectMeta.name

/-- Name of a scoped role. -/
def ProjectRole.name (r : ProjectRole) : String := r.objectMeta.name

/-- Name of a binding. -/
def RoleBinding.name (b : RoleBinding) : String := b.objectMeta.name

/-- The lister `projectLister.Get` of `lister/tenant/v1/project.go`: an indexer
error is returned as it is, an absent key gives NotFound. -/
def ProjectLister.Get (name : String) : M Project :=
  storeCall (.getProject name) (fun s =>
    match storeGet Project.name s.projects name with
    | .ok p => .ok (p, s)
    | .error e => .error e)

/-- `ProjectWriter.UpdateProject`; it returns the persisted object. -/
def ProjectWriter.UpdateProject (p : Project) : M Project :=
  storeCall (.updateProject p) (fun s =>
    match storeUpdate Project.name s.projects p with
    | .ok l => .ok (p, { s with projects := l })
    | .error e => .error e)

/-- `ClusterLister.List`. -/
def ClusterLister.List (selector : List Requirement) : M (List Cluster) :=
  storeCall (.listClusters selector) (fun s =>
    .ok (storeList Cluster.name (fun c => c.objectMeta.labels) s.clusters selector, s))

/-- The object the node lister hands out for a stored node: the object of its
cache, which is the stored node unless that object was changed in place since. -/
def Store.cachedNode (s : Store) (n : Node) : Node :=
  (getByName Node.name s.editedNodes n.name).getD n

/-- The node lister's cache: one object for each stored node. -/
def Store.nodeCache (s : Store) : List Node := s.nodes.map s.cachedNode

/-- The store once an object of the node lister's cache has been changed in
place into `node`: the cache holds `node`, the stored node is untouched. -/
def Store.withEdit (s : Store) (node : Node) : Store :=
  { s with editedNodes := node :: removeByName Node.name s.editedNodes node.name }

/-- `NodeLister.List`; like `projectLister.List` it returns the objects of the
lister's cache themselves. -/
def NodeLister.List (selector : List Requirement) : M (List Node) :=
  storeCall (.listNodes selector) (fun s =>
    .ok (storeList Node.name (fun n => n.objectMeta.labels) s.nodeCache selector, s))

/-- `NodeLister.Get`; like `projectLister.Get` it returns the object of the
lister's cache itself. -/
def NodeLister.Get (name : String) : M Node :=
  storeCall (.getNode name) (fun s =>
    match storeGet Node.name s.nodeCache name with
    | .ok n => .ok (n, s)
    | .error e => .error e)

/-- The world once an object of the node lister's cache has been changed in
place into `node`. -/
def World.withEdit (w : World) (node : Node) : World := { w with store := w.store.withEdit node }

/-- A write through the pointer to an object the node lister handed out
(`delete(node.Labels, key)`, `node.Labels[key] = value`), `node` being the
object after the write: the lister's cache holds the changed object from then
on, the stored node is as it was, and no call is issued. -/
def NodeLister.mutate (node : Node) : M Unit := fun w => ⟨.ok (), w.withEdit node, []⟩

/-- `NodeWriter.UpdateNode`: it stores the node, and the stored node replaces
the object the lister's cache held under that name. -/
def NodeWriter.UpdateNode (n : Node) : M Node :=
  storeCall (.updateNode n) (fun s =>
    match storeUpdate Node.name s.nodes n with
    | .ok l => .ok (n, { s with nodes := l, editedNodes := removeByName Node.name s.editedNodes n.name })
    | .error e => .error e)

/-- `IAMOperator.GetProjectRole`. -/
def IAMOperator.GetProjectRole (name : String) : M ProjectRole :=
  storeCall (.getProjectRole name) (fun s =>
    match storeGet ProjectRole.name s.projectRoles name with
    | .ok r => .ok (r, s)
    | .error e => .error e)

/-- `IAMOperator.CreateProjectRole`. -/
def IAMOperator.CreateProjectRole (r : ProjectRole) : M ProjectRole :=
  storeCall (.createProjectRole r) (fun s =>
    match storeCreate ProjectRole.name s.projectRoles r with
    | .ok l => .ok (r, { s with projectRoles := l })
    | .error e => .error e)

/-- `IAMOperator.UpdateProjectRole`. -/
def IAMOperator.UpdateProjectRole (r : ProjectRole) : M ProjectRole :=
  storeCall (.updateProjectRole r) (fun s =>
    match storeUpdate ProjectRole.name s.projectRoles r with
    | .ok l => .ok (r, { s with projectRoles := l })
    | .error e => .error e)

/-- `IAMOperator.ListProjectRoles` for a query with the given label selector. -/
def IAMOperator.ListProjectRoles (labelSelector : String) : M (List ProjectRole) :=
  storeCall (.listProjectRoles labelSelector) (fun s =>
    .ok (storeList ProjectRole.name (fun r => r.objectMeta.labels) s.projectRoles
      (parseSelector labelSelector), s))

/-- `IAMOperator.DeleteProjectRole`. -/
def IAMOperator.DeleteProjectRole (name : String) : M Unit :=
  storeCall (.deleteProjectRole name) (fun s =>
    match storeDelete ProjectRole.name s.projectRoles name with
    | .ok l => .ok ((), { s with projectRoles := l })
    | .error e => .error e)

/-- `IAMOperator.ListProjectRoleBinding` for a query with the given label selector. -/
def IAMOperator.ListProjectRoleBinding (labelSelector : String) : M (List RoleBinding) :=
  storeCall (.listProjectRoleBinding labelSelector) (fun s =>
    .ok (storeList RoleBinding.name (fun b => b.objectMeta.labels) s.projectRoleBindings
      (parseSelector labelSelector), s))

/-- `IAMOperator.CreateProjectRoleBinding`. -/
def IAMOperator.CreateProjectRoleBinding (b : RoleBinding) : M RoleBinding :=
  storeCall (.createProjectRoleBinding b) (fun s =>
    match storeCreate RoleBinding.name s.projectRoleBindings b with
    | .ok l => .ok (b, { s with projectRoleBindings := l })
    | .error e => .error e)

/-- `IAMOperator.DeleteProjectRoleBinding`. -/
def IAMOperator.DeleteProjectRoleBinding (name : String) : M Unit :=
  storeCall (.deleteProjectRoleBinding name) (fun s =>
    match storeDelete RoleBinding.name s.projectRoleBindings name with
    | .ok l => .ok ((), { s with projectRoleBindings := l })
    | .error e => .error e)

/-- `IAMOperator.DeleteRoleBinding`: delete a global role binding. -/
def IAMOperator.DeleteRoleBinding (name : String) : M Unit :=
  storeCall (.deleteRoleBinding name) (fun s =>
    match storeDelete RoleBinding.name s.roleBindings name with
    | .ok l => .ok ((), { s with roleBindings := l })
    | .error e => .error e)

/-- `labels.NewRequirement(key, selection.Equals, []string{value})`: it rejects
a value that is not a label value. -/
def NewRequirement (key value : String) : Except Err Requirement :=
  if validLabelValue value then .ok (.equals key value) else .error .validation

/-- Modelled from the spec: `(*query.Query).AddLabelSelector` on a fresh query
joins the given terms with commas (the query package is outside the
controller's sources). -/
def AddLabelSelector (terms : List String) : String := ",".intercalate terms

/-! ## The role template catalog -/

/-- The catalog `ProjectRoles`: the admin, user and view templates. -/
def ProjectRoles : List ProjectRole :=
  [ { objectMeta :=
        { name := "admin"
          annotations := some
            [ ("kubeclipper.io/aggregation-roles", "[\"role-template-view-users\",\"role-template-view-dns\",\"role-template-view-backuppoints\",\"role-template-view-templates\",\"role-template-view-registries\",\"role-template-view-projectroles\",\"role-template-create-projectroles\",\"role-template-edit-projectroles\",\"role-template-delete-projectroles\",\"role-template-view-projectmembers\",\"role-template-create-projectmembers\",\"role-template-edit-projectmembers\",\"role-template-delete-projectmembers\",\"role-template-view-clusters\",\"role-template-access-clusters\",\"role-template-create-clusters\",\"role-template-edit-clusters\",\"role-template-delete-clusters\",\"role-template-view-nodes\",\"role-template-create-nodes\",\"role-template-edit-nodes\",\"role-template-delete-nodes\"]"),
              ("kubeclipper.io/internal", "true") ] }
      rules := some
        [ { apiGroups := some ["*"], resources := some ["*"], verbs := some ["*"] },
          { nonResourceURLs := some ["*"], verbs := some ["*"] } ] },
    { objectMeta :=
        { name := "user"
          annotations := some
            [ ("kubeclipper.io/aggregation-roles", "[\"role-template-view-dns\",\"role-template-view-backuppoints\",\"role-template-view-templates\",\"role-template-view-registries\",\"role-template-view-clusters\",\"role-template-access-clusters\",\"role-template-create-clusters\",\"role-template-edit-clusters\",\"role-template-delete-clusters\",\"role-template-view-nodes\",\"role-template-create-nodes\",\"role-template-edit-nodes\",\"role-template-delete-nodes\"]"),
              ("kubeclipper.io/internal", "true") ] }
      rules := some
        [ { apiGroups := some ["core.kubeclipper.io"]
            resources := some ["domains", "domains/records", "backuppoints", "templates", "templates"]
            verbs := some ["get", "list", "watch"] },
          { apiGroups := some ["core.kubeclipper.io"]
            resources := some ["clusters", "clusters/plugins", "clusters/join", "clusters/nodes", "clusters/backups", "clusters/cronbackups", "clusters/certification", "clusters/kubeconfig", "nodes", "operations"]
            verbs := some ["*"] } ] },
    { objectMeta :=
        { name := "view"
          annotations := some
            [ ("kubeclipper.io/aggregation-roles", "[\"role-template-view-dns\",\"role-template-view-backuppoints\",\"role-template-view-templates\",\"role-template-view-registries\",\"role-template-view-projectroles\",\"role-template-view-projectmembers\",\"role-template-view-clusters\",\"role-template-view-nodes\"]"),
              ("kubeclipper.io/internal", "true") ] }
      rules := some
        [ { apiGroups := some ["*"], resources := some ["*"], verbs := some ["get", "list", "watch"] } ] } ]

/-! ## The reconciler -/

namespace ProjectReconciler

/-- The Go idiom `if err = f(); err != nil && !errors.IsNotFound(err) { return err }`. -/
def tolerateNotFound (m : M Unit) : M Unit := do
  let r ← M.attempt m
  match r with
  | .error err => if err.IsNotFound then pure () else M.fail err
  | .ok _ => pure ()

/-- The Go index expression `xs[0]`; it panics on an empty slice. -/
def index0 {α : Type} (xs : List α) : Except Err α :=
  match xs with
  | [] => .error (.panic "runtime error: index out of range [0] with length 0")
  | x :: _ => .ok x

/-- `findObjectsFromCluster`: the reconcile key of a changed cluster. -/
def findObjectsFromCluster (clu : ObjectMeta) : List String :=
  let projectName := clu.labels.get LabelProject
  [projectName]

/-- `findObjectsFromNode`: the reconcile keys of a changed node. -/
def findObjectsFromNode (clu : ObjectMeta) : List String :=
  if Time.IsZero clu.deletionTimestamp then []
  else
    let project := clu.labels.get LabelProject
    if project = "" then [] else [project]

/-- The loop of `syncProjectNodeFromCluster` collecting the nodes of the listed clusters. -/
def collectNodes (set : sets.StringSet) : List Cluster → sets.StringSet
  | [] => set
  | clu :: rest => collectNodes (set.Insert clu.GetAllNodes.List) rest

/-- `syncProjectNodeFromCluster`; it returns the project as the caller sees it
afterwards (the Go code assigns `p.Spec.Nodes` through the pointer). -/
def syncProjectNodeFromCluster (p : Project) : M Project := do
  let requirement ← M.ofExcept (NewRequirement LabelProject p.name)
  let clusters ← ClusterLister.List [requirement]
  let set := collectNodes (sets.NewString []) clusters
  if !set.Equal (sets.NewString p.spec.nodes) then do
    let p1 : Project := { p with spec := { p.spec with nodes := set.List } }
    let _ ← ProjectWriter.UpdateProject p1
    pure p1
  else pure p

/-- The role `initProjectRole` wants for a template: the template with the
project label added and the name `{project}-{template}`. -/
def desiredRole (p : Project) (template : ProjectRole) : ProjectRole :=
  let entries : List (String × String) :=
    match template.objectMeta.labels with
    | none => []
    | some l => l
  { template with
    objectMeta :=
      { template.objectMeta with
        labels := some (GoMap.setEntry LabelProject p.name entries)
        name := p.name ++ "-" ++ template.objectMeta.name } }

/-- Body of the loop of `initProjectRole` for one template. -/
def initProjectRoleBody (p : Project) (template : ProjectRole) : M Unit := do
  let rule := desiredRole p template
  let r ← M.attempt (IAMOperator.GetProjectRole rule.name)
  match r with
  | .error err =>
      if err.IsNotFound then do
        let _ ← IAMOperator.CreateProjectRole rule
        pure ()
      else M.fail err
  | .ok projectRole =>
      if !GoMap.deepEqual rule.objectMeta.labels projectRole.objectMeta.labels ||
          !GoMap.deepEqual rule.objectMeta.annotations projectRole.objectMeta.annotations ||
          decide (rule.rules ≠ projectRole.rules) then do
        let _ ← IAMOperator.UpdateProjectRole rule
        pure ()
      else pure ()

/-- The loop of `initProjectRole` over a list of templates. -/
def initProjectRoleLoop (p : Project) : List ProjectRole → M Unit
  | [] => pure ()
  | template :: rest => do
      initProjectRoleBody p template
      initProjectRoleLoop p rest

/-- `initProjectRole`. -/
def initProjectRole (p : Project) : M Unit :=
  initProjectRoleLoop p ProjectRoles

/-- The binding `target` built by `initManagerRoleBinding`. -/
def managerBindingTarget (p : Project) : RoleBinding :=
  { objectMeta :=
      { name := p.name ++ "-" ++ p.spec.manager
        annotations := some [("kubeclipper.io/internal", "true")]
        labels := some [(LabelProject, p.name), (LabelProjectRoleBindingManager, "true")] }
    roleRef := { apiGroup := "iam.kubeclipper.io", kind := KindProjectRole, name := p.name ++ "-admin" }
    subjects := [{ apiGroup := "rbac.authorization.k8s.io", kind := KindUser, name := p.spec.manager }] }

/-- Body of the loop of `initManagerRoleBinding` for one listed binding. -/
def initManagerRoleBindingBody (p : Project) (target item : RoleBinding) : M Unit :=
  if decide (item.subjects.length = 0) ||
      decide (item.subjects.head?.map Subject.name ≠ some p.spec.manager) then do
    let first ← M.ofExcept (index0 item.subjects)
    let name := p.name ++ "-" ++ first.name
    tolerateNotFound (IAMOperator.DeleteProjectRoleBinding item.name)
    tolerateNotFound (IAMOperator.DeleteRoleBinding name)
    let _ ← IAMOperator.CreateProjectRoleBinding target
    pure ()
  else pure ()

/-- The loop of `initManagerRoleBinding` over the listed bindings. -/
def initManagerRoleBindingLoop (p : Project) (target : RoleBinding) : List RoleBinding → M Unit
  | [] => pure ()
  | item :: rest => do
      initManagerRoleBindingBody p target item
      initManagerRoleBindingLoop p target rest

/-- The label selector `initManagerRoleBinding` lists with. -/
def managerBindingQuery (p : Project) : String :=
  AddLabelSelector [LabelProject ++ "=" ++ p.name, LabelProjectRoleBindingManager ++ "=" ++ "true"]

/-- `initManagerRoleBinding`. -/
def initManagerRoleBinding (p : Project) : M Unit := do
  let target := managerBindingTarget p
  let roleBinding ← IAMOperator.ListProjectRoleBinding (managerBindingQuery p)
  if roleBinding.length = 0 then do
    let _ ← IAMOperator.CreateProjectRoleBinding target
    pure ()
  else initManagerRoleBindingLoop p target roleBinding

/-- The first loop of `deleteRoleAndRoleBinding`, over the listed roles. -/
def deleteRolesLoop : List ProjectRole → M Unit
  | [] => pure ()
  | role :: rest => do
      tolerateNotFound (IAMOperator.DeleteProjectRole role.name)
      deleteRolesLoop rest

/-- The second loop of `deleteRoleAndRoleBinding`, over the listed bindings. -/
def deleteRoleBindingsLoop : List RoleBinding → M Unit
  | [] => pure ()
  | roleBinding :: rest => do
      tolerateNotFound (IAMOperator.DeleteProjectRoleBinding roleBinding.name)
      deleteRoleBindingsLoop rest

/-- The label selector `deleteRoleAndRoleBinding` lists with. -/
def cleanupQuery (p : Project) : String := LabelProject ++ "-" ++ p.name

/-- `deleteRoleAndRoleBinding`. -/
def deleteRoleAndRoleBinding (p : Project) : M Unit := do
  let roles ← IAMOperator.ListProjectRoles (cleanupQuery p)
  deleteRolesLoop roles
  let roleBindings ← IAMOperator.ListProjectRoleBinding (cleanupQuery p)
  deleteRoleBindingsLoop roleBindings
  let name := p.name ++ "-" ++ p.spec.manager
  tolerateNotFound (IAMOperator.DeleteRoleBinding name)

/-- The first loop of `syncNodeLabel`: remove the label from nodes that left
the project. `node` is the lister's own object, so that `delete(node.Labels, ...)`
changes the lister's cache before `UpdateNode` is called, and the change stays
there when the call fails. -/
def removeLabelLoop (p : Project) : List Node → M Unit
  | [] => pure ()
  | node :: rest => do
      let set := sets.NewString p.spec.nodes
      if !set.Has node.name then do
        let node1 : Node :=
          { node with objectMeta :=
              { node.objectMeta with labels := node.objectMeta.labels.delete LabelProject } }
        NodeLister.mutate node1
        let r ← M.attempt (NodeWriter.UpdateNode node1)
        match r with
        | .error err => M.fail (.withMessage ("delete node " ++ node.name ++ "'s label") err)
        | .ok _ => removeLabelLoop p rest
      else removeLabelLoop p rest

/-- The second loop of `syncNodeLabel`: label the nodes that joined the
project. `node` is the lister's own object, so that `node.Labels[...] = p.Name`
changes the lister's cache before `UpdateNode` is called, and the change stays
there when the call fails. -/
def addLabelLoop (p : Project) : List String → M Unit
  | [] => pure ()
  | nodeID :: rest => do
      let node ← NodeLister.Get nodeID
      if node.objectMeta.labels.get LabelProject ≠ p.name then do
        let labels ← M.ofExcept (node.objectMeta.labels.set LabelProject p.name)
        let node1 : Node := { node with objectMeta := { node.objectMeta with labels := labels } }
        NodeLister.mutate node1
        let _ ← NodeWriter.UpdateNode node1
        addLabelLoop p rest
      else addLabelLoop p rest

/-- `syncNodeLabel`. -/
def syncNodeLabel (p : Project) : M Unit := do
  let requirement ← M.ofExcept (NewRequirement LabelProject p.name)
  let list ← NodeLister.List [requirement]
  removeLabelLoop p list
  addLabelLoop p p.spec.nodes

/-- The copy `cp` of `count` with its counters replaced. -/
def countedCopy (p : Project) (clusters : List Cluster) : Project :=
  { p with status := { p.status with count :=
      { p.status.count with cluster := (clusters.length : Int), node := (p.spec.nodes.length : Int) } } }

/-- `count`. -/
def count (p : Project) : M Unit := do
  let requirement ← M.ofExcept (NewRequirement LabelProject p.name)
  let clusters ← ClusterLister.List [requirement]
  let cp := countedCopy p clusters
  if p ≠ cp then do
    let _ ← ProjectWriter.UpdateProject cp
    pure ()
  else pure ()

/-- The five phases run on an active project, in order. -/
def runPhases (project : Project) : M Unit := do
  initProjectRole project
  initManagerRoleBinding project
  let project1 ← syncProjectNodeFromCluster project
  syncNodeLabel project1
  count project1

/-- The finalizer list `Reconcile` persists for an active project. -/
def withFinalizer (project : Project) : Project :=
  if !(sets.NewString project.objectMeta.finalizers).Has ProjectFinalizer then
    { project with objectMeta :=
        { project.objectMeta with finalizers := project.objectMeta.finalizers ++ [ProjectFinalizer] } }
  else project

/-- The finalizer list `Reconcile` persists once the cleanup of a deleted project is done. -/
def withoutFinalizer (project : Project) : Project :=
  let finalizers := (sets.NewString project.objectMeta.finalizers).Delete ProjectFinalizer
  { project with objectMeta := { project.objectMeta with finalizers := finalizers.List } }

/-- `Reconcile` for the request key `name`. -/
def Reconcile (name : String) : M Unit := do
  let r ← M.attempt (ProjectLister.Get name)
  match r with
  | .error err => if err.IsNotFound then pure () else M.fail err
  | .ok project =>
      if Time.IsZero project.objectMeta.deletionTimestamp then do
        let project1 ← ProjectWriter.UpdateProject (withFinalizer project)
        runPhases project1
      else
        if (sets.NewString project.objectMeta.finalizers).Has ProjectFinalizer then do
          deleteRoleAndRoleBinding project
          let _ ← ProjectWriter.UpdateProject (withoutFinalizer project)
          pure ()
        else pure ()

end ProjectReconciler

/-! ## Reading the call log -/

/-- The resource kind a call addresses. -/
inductive Kind where
  | project | cluster | node | role | binding | globalBinding
  deriving DecidableEq, Repr

/-- Kind addressed by a call. -/
def Op.kind : Op → Kind
  | .getProject _ | .updateProject _ => .project
  | .listClusters _ => .cluster
  | .listNodes _ | .getNode _ | .updateNode _ => .node
  | .getProjectRole _ | .createProjectRole _ | .updateProjectRole _
  | .listProjectRoles _ | .deleteProjectRole _ => .role
  | .listProjectRoleBinding _ | .createProjectRoleBinding _
  | .deleteProjectRoleBinding _ => .binding
  | .deleteRoleBinding _ => .globalBinding

/-- Whether the call is a delete. -/
def Op.isDelete : Op → Bool
  | .deleteProjectRole _ | .deleteProjectRoleBinding _ | .deleteRoleBinding _ => true
  | _ => false

/-- Whether the call is a create. -/
def Op.isCreate : Op → Bool
  | .createProjectRole _ | .createProjectRoleBinding _ => true
  | _ => false

/-- Effect of one logged call on the store: a successful write changes its
kind's objects; a failed node update leaves the change made in place to the
lister's object, which is the object of the call; any other call changes nothing. -/
def applyCall (s : Store) (c : Call) : Store :=
  match c.err with
  | some _ =>
      match c.op with
      | .updateNode n => s.withEdit n
      | _ => s
  | none =>
      match c.op with
      | .updateProject p => { s with projects := replaceByName Project.name s.projects p }
      | .updateNode n => { s with nodes := replaceByName Node.name s.nodes n, editedNodes := removeByName Node.name s.editedNodes n.name }
      | .createProjectRole r => { s with projectRoles := s.projectRoles ++ [r] }
      | .updateProjectRole r =>
          { s with projectRoles := replaceByName ProjectRole.name s.projectRoles r }
      | .deleteProjectRole name =>
          { s with projectRoles := removeByName ProjectRole.name s.projectRoles name }
      | .createProjectRoleBinding b =>
          { s with projectRoleBindings := s.projectRoleBindings ++ [b] }
      | .deleteProjectRoleBinding name =>
          { s with projectRoleBindings := removeByName RoleBinding.name s.projectRoleBindings name }
      | .deleteRoleBinding name =>
          { s with roleBindings := removeByName RoleBinding.name s.roleBindings name }
      | _ => s

/-- Store obtained by replaying a call log. -/
def replay (s : Store) (calls : List Call) : Store := calls.foldl applyCall s

/-- A computation whose log accounts for its effect: the store it leaves is
the replay of its calls. -/
def M.Logged {α : Type} (m : M α) : Prop :=
  ∀ w, (m w).world.store = replay w.store (m w).calls

/-- Every call the computation issues satisfies `Q`, and every value it
returns satisfies `P`. -/
def M.Issues {α : Type} (m : M α) (Q : Call → Prop) (P : α → Prop) : Prop :=
  ∀ w, (∀ c ∈ (m w).calls, Q c) ∧ ∀ a, (m w).res = .ok a → P a

/-- The project last persisted in a call log: the object of its last successful
project update. -/
def lastPersisted : List Call → Option Project
  | [] => none
  | c :: rest =>
      match lastPersisted rest with
      | some p => some p
      | none =>
          match c.op, c.err with
          | .updateProject p, none => some p
          | _, _ => none



/-! ## Concrete stores -/

namespace ProjectReconciler

/-- A store with one project being deleted that still holds the finalizer,
together with its admin role and its manager binding. -/
def terminatingWorld : World :=
  { store :=
      { projects :=
          [ { objectMeta :=
                { name := "p", finalizers := [ProjectFinalizer], deletionTimestamp := some 1 }
              spec := { manager := "m", nodes := [] } } ]
        projectRoles :=
          [ { objectMeta := { name := "p-admin", labels := some [(LabelProject, "p")] }
              rules := none } ]
        projectRoleBindings :=
          [ managerBindingTarget
              { objectMeta := { name := "p" }, spec := { manager := "m", nodes := [] } } ] } }

/-- A store with one active project that does not hold the finalizer yet. -/
def freshWorld : World :=
  { store :=
      { projects := [ { objectMeta := { name := "p" }, spec := { manager := "m", nodes := [] } } ] } }

/-- A store with one active project that holds the finalizer. -/
def activeWorld : World :=
  { store :=
      { projects :=
          [ { objectMeta := { name := "p", finalizers := [ProjectFinalizer] }
              spec := { manager := "m", nodes := [] } } ] } }

end ProjectReconciler

/-- A failing call, other than one that reports not-found, ends the computation
with the error of that call. -/
def M.Strict {α : Type} (m : M α) : Prop :=
  ∀ w, ∀ c ∈ (m w).calls, ∀ e, c.err = some e → e.IsNotFound = false → (m w).res = .error e

/-- The calls of the finalizer cleanup: listings and deletions of scoped roles
and bindings, and the deletion of a global binding. -/
def Op.isCleanupCall : Op → Bool
  | .listProjectRoles _ | .deleteProjectRole _ | .listProjectRoleBinding _
  | .deleteProjectRoleBinding _ | .deleteRoleBinding _ => true
  | _ => false

namespace ProjectReconciler

/-- The store of `terminatingWorld` with a transient failure scheduled for the
second call of the pass, the role listing of the cleanup. -/
def terminatingWorldFailing : World :=
  { terminatingWorld with faults := [none, some Fault.transient] }

end ProjectReconciler

namespace ProjectReconciler

/-- The test `initManagerRoleBinding` applies to a listed binding: no subject,
or a first subject other than the current manager. -/
def isStaleBinding (p : Project) (item : RoleBinding) : Bool :=
  decide (item.subjects.length = 0) ||
    decide (item.subjects.head?.map Subject.name ≠ some p.spec.manager)

/-- The project `p` managed by `bob`. -/
def projectOfBob : Project :=
  { objectMeta := { name := "p", finalizers := [ProjectFinalizer] }
    spec := { manager := "bob", nodes := [] } }

/-- The manager binding of project `p` for a user. -/
def bindingOf (user : String) : RoleBinding :=
  managerBindingTarget { objectMeta := { name := "p" }, spec := { manager := user, nodes := [] } }

/-- A store where the manager binding of project `p` is still the one of
`alice`, with her legacy global binding, while the project's manager is `bob`. -/
def rotationWorld : World :=
  { store :=
      { projects := [projectOfBob]
        projectRoleBindings := [bindingOf "alice"]
        roleBindings := [bindingOf "alice"] } }

/-- A store where project `p`, managed by `bob`, has two stale manager
bindings, the ones of `alice` and of `carol`. -/
def twoStaleWorld : World :=
  { store :=
      { projects := [projectOfBob]
        projectRoleBindings := [bindingOf "alice", bindingOf "carol"] } }

/-- A store where the only manager binding belongs to another project. -/
def otherProjectWorld : World :=
  { store :=
      { projects := [projectOfBob]
        projectRoleBindings :=
          [ managerBindingTarget
              { objectMeta := { name := "q" }, spec := { manager := "bob", nodes := [] } } ] } }

end ProjectReconciler

/-- The object a write call addresses: its kind and name. -/
def Op.target : Op → Option (Kind × String)
  | .updateProject p => some (.project, p.name)
  | .updateNode n => some (.node, n.name)
  | .createProjectRole r => some (.role, r.name)
  | .updateProjectRole r => some (.role, r.name)
  | .deleteProjectRole name => some (.role, name)
  | .createProjectRoleBinding b => some (.binding, b.name)
  | .deleteProjectRoleBinding name => some (.binding, name)
  | .deleteRoleBinding name => some (.globalBinding, name)
  | _ => none

namespace ProjectReconciler

/-- The comparison of `initProjectRole` between the desired role and the
stored one: labels, annotations and rules deeply equal. -/
def roleSettled (rule stored : ProjectRole) : Bool :=
  GoMap.deepEqual rule.objectMeta.labels stored.objectMeta.labels &&
    GoMap.deepEqual rule.objectMeta.annotations stored.objectMeta.annotations &&
    decide (rule.rules = stored.rules)

/-- Every template's role is stored and passes the comparison of `initProjectRole`. -/
def RolesSettled (s : Store) (p : Project) (templates : List ProjectRole) : Prop :=
  ∀ t ∈ templates, ∃ r,
    getByName ProjectRole.name s.projectRoles (desiredRole p t).name = some r ∧
      roleSettled (desiredRole p t) r = true

/-- The manager-binding listing is not empty and holds no stale binding. -/
def BindingSettled (s : Store) (p : Project) : Prop :=
  storeList RoleBinding.name (fun b => b.objectMeta.labels) s.projectRoleBindings
      (parseSelector (managerBindingQuery p)) ≠ [] ∧
    ∀ b ∈ storeList RoleBinding.name (fun b => b.objectMeta.labels) s.projectRoleBindings
      (parseSelector (managerBindingQuery p)), isStaleBinding p b = false

/-- The clusters labelled with the project. -/
def projectClusters (s : Store) (p : Project) : List Cluster :=
  storeList Cluster.name (fun c => c.objectMeta.labels) s.clusters
    [.equals LabelProject p.name]

/-- The member list of the project is, as a set, the nodes of its clusters. -/
def NodesSettled (s : Store) (p : Project) : Prop :=
  (collectNodes (sets.NewString []) (projectClusters s p)).Equal
    (sets.NewString p.spec.nodes) = true

/-- The nodes the lister hands out labelled with the project are members, and
every member is handed out by the lister, labelled with the project. -/
def LabelsSettled (s : Store) (p : Project) : Prop :=
  (∀ n ∈ s.nodeCache, (Requirement.equals LabelProject p.name).holds n.objectMeta.labels = true →
      n.name ∈ p.spec.nodes) ∧
    ∀ id ∈ p.spec.nodes, ∃ n, getByName Node.name s.nodeCache id = some n ∧
      n.objectMeta.labels.get LabelProject = p.name

/-- The counters of the project are the ones `count` computes. -/
def CountSettled (s : Store) (p : Project) : Prop :=
  p = countedCopy p (projectClusters s p)

end ProjectReconciler

namespace ProjectReconciler

/-- The store holds the project under its name, and nothing else under that name. -/
def StoredAs (s : Store) (p : Project) : Prop :=
  (∃ q ∈ s.projects, q.name = p.name) ∧ ∀ q ∈ s.projects, q.name = p.name → q = p

/-- All five phases find their state right for the project. -/
def Settled (s : Store) (p : Project) : Prop :=
  validLabelValue p.name = true ∧ RolesSettled s p ProjectRoles ∧ BindingSettled s p ∧
    NodesSettled s p ∧ LabelsSettled s p ∧ CountSettled s p

end ProjectReconciler

namespace ProjectReconciler

/-- A node with an (empty, non-nil) label map. -/
def plainNode (name : String) : Node := { objectMeta := { name := name, labels := some [] } }

/-- A store where project `p` owns two clusters, of three and of two nodes with
one node in common, while its member list is still empty. -/
def clusterWorld : World :=
  { store :=
      { projects := [projectOfBob]
        clusters :=
          [ { objectMeta := { name := "c1", labels := some [(LabelProject, "p")] }
              nodes := ["n1", "n2", "n3"] },
            { objectMeta := { name := "c2", labels := some [(LabelProject, "p")] }
              nodes := ["n3", "n4"] } ]
        nodes := [plainNode "n1", plainNode "n2", plainNode "n3", plainNode "n4"] } }

end ProjectReconciler

namespace ProjectReconciler

/-- A store where project `p` owns a cluster whose one node `n1` is not stored. -/
def missingNodeWorld : World :=
  { store :=
      { projects := [projectOfBob]
        clusters :=
          [ { objectMeta := { name := "c1", labels := some [(LabelProject, "p")] }
              nodes := ["n1"] } ] } }

end ProjectReconciler

/-- The computation stops at a failed call that satisfies `Q`: it returns the
error of that call, bare or wrapped in a message, and the call ends its log. -/
def M.StopsAt {α : Type} (m : M α) (Q : Call → Prop) : Prop :=
  ∀ w, ∀ c ∈ (m w).calls, Q c → ∀ err, c.err = some err →
    (∃ e, (m w).res = .error e ∧ (e = err ∨ ∃ msg, e = .withMessage msg err)) ∧
      ∃ pre, (m w).calls = pre ++ [c]

namespace ProjectReconciler

/-- The store of `clusterWorld` with a transient failure scheduled for the
fifteenth call of the pass, the first node update of `syncNodeLabel`. -/
def failingNodeWorld : World :=
  { clusterWorld with faults := List.replicate 14 none ++ [some .transient] }

end ProjectReconciler

/-- An error the computation returns is the error of one of its calls, and is
not a not-found. -/
def M.Blames {α : Type} (m : M α) : Prop :=
  ∀ w e, (m w).res = .error e → e.IsNotFound = false ∧ ∃ c ∈ (m w).calls, c.err = some e

namespace ProjectReconciler

/-- A store where project `p` has an admin role without rules, next to a role
of another project. -/
def staleRoleWorld : World :=
  { store :=
      { projects := [projectOfBob]
        projectRoles :=
          [ { objectMeta := { name := "p-admin", labels := some [(LabelProject, "p")] }
              rules := none },
            { objectMeta := { name := "q-view" }, rules := none } ] } }

end ProjectReconciler

namespace ProjectReconciler

/-- A store where project `p` owns one cluster of two nodes, both labelled for
it, and lists one of them twice among its members. -/
def duplicateMemberWorld : World :=
  { store :=
      { projects :=
          [ { objectMeta := { name := "p", finalizers := [ProjectFinalizer] }
              spec := { manager := "bob", nodes := ["n1", "n1", "n2"] } } ]
        clusters :=
          [ { objectMeta := { name := "c1", labels := some [(LabelProject, "p")] }
              nodes := ["n1", "n2"] } ]
        nodes :=
          [ { objectMeta := { name := "n1", labels := some [(LabelProject, "p")] } },
            { objectMeta := { name := "n2", labels := some [(LabelProject, "p")] } } ] } }

end ProjectReconciler

namespace ProjectReconciler

end ProjectReconciler

namespace ProjectReconciler

/-- Project `p` with the members `n1`, `n3` and `n4`. -/
def projectOfThree : Project :=
  { objectMeta := { name := "p", finalizers := [ProjectFinalizer] }
    spec := { manager := "bob", nodes := ["n1", "n3", "n4"] } }

end ProjectReconciler

namespace ProjectReconciler

/-- A store where project `p` owns a cluster of the nodes `n1` and `n2`, of
which only `n2` is stored. -/
def absentMemberWorld : World :=
  { store :=
      { projects := [projectOfBob]
        clusters :=
          [ { objectMeta := { name := "c1", labels := some [(LabelProject, "p")] }
              nodes := ["n1", "n2"] } ]
        nodes := [plainNode "n2"] } }

end ProjectReconciler

namespace ProjectReconciler

/-- A store where the manager binding of project `p` has no subject. -/
def emptySubjectsWorld : World :=
  { store :=
      { projects := [projectOfBob]
        projectRoleBindings := [ { bindingOf "bob" with subjects := [] } ] } }

end ProjectReconciler

namespace ProjectReconciler

/-- Project `p` being deleted, holding the controller's finalizer and two
other tokens, of which one twice. -/
def projectWithTokens : Project :=
  { objectMeta :=
      { name := "p"
        finalizers := ["z.example.io", ProjectFinalizer, "a.example.io", "z.example.io"]
        deletionTimestamp := some 1 }
    spec := { manager := "m", nodes := [] } }

/-- A store holding `projectWithTokens` alone. -/
def tokensWorld : World := { store := { projects := [projectWithTokens] } }

end ProjectReconciler

namespace ProjectReconciler

/-- Project `a-b` managed by `c`. -/
def projectAB : Project := { objectMeta := { name := "a-b" }, spec := { manager := "c", nodes := [] } }

/-- Project `a` managed by `b-c`, being deleted and holding the finalizer. -/
def projectA : Project :=
  { objectMeta := { name := "a", finalizers := [ProjectFinalizer], deletionTimestamp := some 1 }
    spec := { manager := "b-c", nodes := [] } }

/-- A store holding both projects and the global binding of the manager of `a-b`. -/
def sharedNameWorld : World :=
  { store :=
      { projects := [projectAB, projectA]
        roleBindings := [managerBindingTarget projectAB] } }

end ProjectReconciler

/-! ## The cluster proxy (`pkg/apis/proxy/handler.go`) -/

namespace proxy

/-- The constant `ProxyHandlerPrefix`. -/
def ProxyHandlerPrefix : String := "/cluster/"

/-- The Go `strings.TrimPrefix(s, prefix)`: `s` without the leading `prefix`
when it has it, `s` itself otherwise. -/
def TrimPrefix (s pre : String) : String :=
  if pre.data.isPrefixOf s.data then String.mk (s.data.drop pre.data.length) else s

/-- The pieces of `strings.SplitN(s, sep, n)` for a one-character separator
and `n ≥ 0`: at most `n` pieces, the last one being the unsplit remainder. -/
def splitNChars (sep : Char) : Nat → List Char → List (List Char)
  | 0, _ => []
  | 1, s => [s]
  | n + 2, s =>
      match projectcontroller.breakAtChar sep s with
      | none => [s]
      | some (before, after) => before :: splitNChars sep (n + 1) after

/-- The Go `strings.SplitN(s, sep, n)` for a one-character separator. -/
def SplitN (s : String) (sep : Char) (n : Nat) : List String :=
  (splitNChars sep n s.data).map String.mk

/-- `parseClusterFromPath`. -/
def parseClusterFromPath (p : String) : String × String :=
  let p1 := TrimPrefix p ProxyHandlerPrefix
  let items := SplitN p1 '/' 2
  match items with
  | [a, b] => (a, b)
  | [a] => (a, "")
  | _ => ("", "")

/-- The first check of `handler.ServeHTTP`: whether the request is answered
with 400, "cluster name cannot be empty". -/
def rejectsEmptyClusterName (path : String) : Bool :=
  decide ((parseClusterFromPath path).1 = "")

end proxy

/-! ## The global role catalog (`pkg/server/config.go`) -/

namespace server

/-- `iamv1.GlobalRole` (its constant type metadata left out). -/
structure GlobalRole where
  objectMeta : ObjectMeta
  rules : GoSlice PolicyRule
  deriving DecidableEq, Repr

/-- Name of a global role. -/
def GlobalRole.name (r : GlobalRole) : String := r.objectMeta.name

/-- The catalog `Roles`. -/
def Roles : List GlobalRole :=
  [ { objectMeta :=
        { name := "role-template-view-users"
          annotations := some
            [ ("kubeclipper.io/module", "Access Control"),
              ("kubeclipper.io/role-template-rules", "\x7b\"users\": \"view\"\x7d"),
              ("kubeclipper.io/alias-name", "Users View"),
              ("kubeclipper.io/internal", "true") ]
          labels := some [ ("kubeclipper.io/role-template", "true") ] }
      rules := some
        [ { apiGroups := some ["iam.kubeclipper.io"], resources := some ["users", "users/loginrecords"], verbs := some ["get", "list", "watch"] } ] },
    { objectMeta :=
        { name := "role-template-view-roles"
          annotations := some
            [ ("kubeclipper.io/dependencies", "[\"role-template-view-users\"]"),
              ("kubeclipper.io/module", "Access Control"),
              ("kubeclipper.io/role-template-rules", "\x7b\"roles\": \"view\"\x7d"),
              ("kubeclipper.io/alias-name", "Roles View"),
              ("kubeclipper.io/internal", "true") ]
          labels := some [ ("kubeclipper.io/role-template", "true") ] }
      rules := some
        [ { apiGroups := some ["iam.kubeclipper.io"], resources := some ["roles"], verbs := some ["get", "list", "watch"] } ] },
    { objectMeta :=
        { name := "role-template-create-roles"
          annotations := some
            [ ("kubeclipper.io/dependencies", "[\"role-template-view-roles\"]"),
              ("kubeclipper.io/module", "Access Control"),
              ("kubeclipper.io/role-template-rules", "\x7b\"roles\": \"create\"\x7d"),
              ("kubeclipper.io/alias-name", "Roles Create"),
              ("kubeclipper.io/internal", "true") ]
          labels := some [ ("kubeclipper.io/role-template", "true") ] }
      rules := some
        [ { apiGroups := some ["iam.kubeclipper.io"], resources := some ["roles"], verbs := some ["create"] } ] },
    { objectMeta :=
        { name := "role-template-edit-roles"
          annotations := some
            [ ("kubeclipper.io/dependencies", "[\"role-template-view-roles\"]"),
              ("kubeclipper.io/module", "Access Control"),
              ("kubeclipper.io/role-template-rules", "\x7b\"roles\": \"edit\"\x7d"),
              ("kubeclipper.io/alias-name", "Roles Edit"),
              ("kubeclipper.io/internal", "true") ]
          labels := some [ ("kubeclipper.io/role-template", "true") ] }
      rules := some
        [ { apiGroups := some ["iam.kubeclipper.io"], resources := some ["roles"], verbs := some ["update", "patch"] } ] },
    { objectMeta :=
        { name := "role-template-delete-roles"
          annotations := some
            [ ("kubeclipper.io/dependencies", "[\"role-template-view-roles\"]"),
              ("kubeclipper.io/module", "Access Control"),
              ("kubeclipper.io/role-template-rules", "\x7b\"roles\": \"delete\"\x7d"),
              ("kubeclipper.io/alias-name", "Roles Delete"),
              ("kubeclipper.io/internal", "true") ]
          labels := some [ ("kubeclipper.io/role-template", "true") ] }
      rules := some
        [ { apiGroups := some ["iam.kubeclipper.io"], resources := some ["roles"], verbs := some ["delete"] } ] },
    { objectMeta :=
        { name := "role-template-create-users"
          annotations := some
            [ ("kubeclipper.io/dependencies", "[\"role-template-view-users\",\"role-template-view-roles\"]"),
              ("kubeclipper.io/module", "Access Control"),
              ("kubeclipper.io/role-template-rules", "\x7b\"users\": \"create\"\x7d"),
              ("kubeclipper.io/alias-name", "Users Create"),
              ("kubeclipper.io/internal", "true") ]
          labels := some [ ("kubeclipper.io/role-template", "true") ] }
      rules := some
        [ { apiGroups := some ["iam.kubeclipper.io"], resources := some ["users"], verbs := some ["create"] } ] },
    { objectMeta :=
        { name := "role-template-edit-users"
          annotations := some
            [ ("kubeclipper.io/dependencies", "[\"role-template-view-users\",\"role-template-view-roles\"]"),
              ("kubeclipper.io/module", "Access Control"),
              ("kubeclipper.io/role-template-rules", "\x7b\"users\": \"edit\"\x7d"),
              ("kubeclipper.io/alias-name", "Users Edit"),
              ("kubeclipper.io/internal", "true") ]
          labels := some [ ("kubeclipper.io/role-template", "true") ] }
      rules := some
        [ { apiGroups := some ["iam.kubeclipper.io"], resources := some ["users", "users/password", "users/enable", "users/disable"], verbs := some ["update", "patch"] } ] },
    { objectMeta :=
        { name := "role-template-delete-users"
          annotations := some
            [ ("kubeclipper.io/dependencies", "[\"role-template-view-users\",\"role-template-view-roles\"]"),
              ("kubeclipper.io/module", "Access Control"),
              ("kubeclipper.io/role-template-rules", "\x7b\"users\": \"delete\"\x7d"),
              ("kubeclipper.io/alias-name", "Users Delete"),
              ("kubeclipper.io/internal", "true") ]
          labels := some [ ("kubeclipper.io/role-template", "true") ] }
      rules := some
        [ { apiGroups := some ["iam.kubeclipper.io"], resources := some ["users"], verbs := some ["delete"] } ] },
    { objectMeta :=
        { name := "role-template-access-clusters"
          annotations := some
            [ ("kubeclipper.io/dependencies", "[\"role-template-view-clusters\"]"),
              ("kubeclipper.io/module", "Cluster Management"),
              ("kubeclipper.io/role-template-rules", "\x7b\"clusters\": \"access\"\x7d"),
              ("kubeclipper.io/alias-name", "Cluster Access"),
              ("kubeclipper.io/internal", "true") ]
          labels := some [ ("kubeclipper.io/role-template", "true") ] }
      rules := some
        [ { apiGroups := some ["core.kubeclipper.io"], resources := some ["clusters/terminal"], verbs := some ["get"] },
          { apiGroups := some ["core.kubeclipper.io"], resources := some ["clusters/proxy"], verbs := some ["*"] } ] },
    { objectMeta :=
        { name := "role-template-view-backuppoints"
          annotations := some
            [ ("kubeclipper.io/module", "Cluster Management"),
              ("kubeclipper.io/role-template-rules", "\x7b\"backuppoints\": \"view\"\x7d"),
              ("kubeclipper.io/alias-name", "BackupPoint View"),
              ("kubeclipper.io/internal", "true") ]
          labels := some [ ("kubeclipper.io/role-template", "true") ] }
      rules := some
        [ { apiGroups := some ["core.kubeclipper.io"], resources := some ["backuppoints"], verbs := some ["get", "list", "watch"] } ] },
    { objectMeta :=
        { name := "role-template-edit-backuppoints"
          annotations := some
            [ ("kubeclipper.io/dependencies", "[\"role-template-view-backuppoints\"]"),
              ("kubeclipper.io/module", "Cluster Management"),
              ("kubeclipper.io/role-template-rules", "\x7b\"backuppoints\": \"edit\"\x7d"),
              ("kubeclipper.io/alias-name", "BackupPoint Edit"),
              ("kubeclipper.io/internal", "true") ]
          labels := some [ ("kubeclipper.io/role-template", "true") ] }
      rules := some
        [ { apiGroups := some ["core.kubeclipper.io"], resources := some ["backuppoints"], verbs := some ["create", "delete", "update", "patch"] } ] },
    { objectMeta :=
        { name := "role-template-view-registries"
          annotations := some
            [ ("kubeclipper.io/module", "Cluster Management"),
              ("kubeclipper.io/role-template-rules", "\x7b\"registries\": \"view\"\x7d"),
              ("kubeclipper.io/alias-name", "Registry View"),
              ("kubeclipper.io/internal", "true") ]
          labels := some [ ("kubeclipper.io/role-template", "true") ] }
      rules := some
        [ { apiGroups := some ["core.kubeclipper.io"], resources := some ["registries"], verbs := some ["get", "list", "watch"] } ] },
    { objectMeta :=
        { name := "role-template-edit-registries"
          annotations := some
            [ ("kubeclipper.io/dependencies", "[\"role-template-view-registries\"]"),
              ("kubeclipper.io/module", "Cluster Management"),
              ("kubeclipper.io/role-template-rules", "\x7b\"registries\": \"edit\"\x7d"),
              ("kubeclipper.io/alias-name", "Registry Edit"),
              ("kubeclipper.io/internal", "true") ]
          labels := some [ ("kubeclipper.io/role-template", "true") ] }
      rules := some
        [ { apiGroups := some ["core.kubeclipper.io"], resources := some ["registries"], verbs := some ["create", "update", "patch", "delete"] } ] },
    { objectMeta :=
        { name := "role-template-view-cloudproviders"
          annotations := some
            [ ("kubeclipper.io/module", "Cluster Management"),
              ("kubeclipper.io/role-template-rules", "\x7b\"cloudproviders\": \"view\"\x7d"),
              ("kubeclipper.io/alias-name", "CloudProvider View"),
              ("kubeclipper.io/internal", "true") ]
          labels := some [ ("kubeclipper.io/role-template", "true") ] }
      rules := some
        [ { apiGroups := some ["core.kubeclipper.io"], resources := some ["cloudproviders", "cloudproviders/precheck"], verbs := some ["get", "list", "watch"] } ] },
    { objectMeta :=
        { name := "role-template-edit-cloudproviders"
          annotations := some
            [ ("kubeclipper.io/dependencies", "[\"role-template-view-cloudproviders\"]"),
              ("kubeclipper.io/module", "Cluster Management"),
              ("kubeclipper.io/role-template-rules", "\x7b\"cloudproviders\": \"edit\"\x7d"),
              ("kubeclipper.io/alias-name", "CloudProvider Edit"),
              ("kubeclipper.io/internal", "true") ]
          labels := some [ ("kubeclipper.io/role-template", "true") ] }
      rules := some
        [ { apiGroups := some ["core.kubeclipper.io"], resources := some ["cloudproviders", "cloudproviders/precheck"], verbs := some ["*"] } ] },
    { objectMeta :=
        { name := "role-template-view-clusters"
          annotations := some
            [ ("kubeclipper.io/module", "Cluster Management"),
              ("kubeclipper.io/role-template-rules", "\x7b\"clusters\": \"view\"\x7d"),
              ("kubeclipper.io/alias-name", "Cluster View"),
              ("kubeclipper.io/internal", "true") ]
          labels := some [ ("kubeclipper.io/role-template", "true") ] }
      rules := some
        [ { apiGroups := some ["core.kubeclipper.io"], resources := some ["clusters", "nodes", "regions", "operations", "logs", "clusters/upgrade", "nodes/terminal"], verbs := some ["get", "list", "watch"] },
          { apiGroups := some ["config.kubeclipper.io"], resources := some ["terminal.key"], verbs := some ["get", "list", "watch"] },
          { apiGroups := some ["core.kubeclipper.io"], resources := some ["templates"], verbs := some ["get", "list", "watch"] } ] },
    { objectMeta :=
        { name := "role-template-create-clusters"
          annotations := some
            [ ("kubeclipper.io/dependencies", "[\"role-template-view-clusters\",\"role-template-view-backuppoints\",\"role-template-view-registries\"]"),
              ("kubeclipper.io/module", "Cluster Management"),
              ("kubeclipper.io/role-template-rules", "\x7b\"clusters\": \"create\"\x7d"),
              ("kubeclipper.io/alias-name", "Cluster Create"),
              ("kubeclipper.io/internal", "true") ]
          labels := some [ ("kubeclipper.io/role-template", "true") ] }
      rules := some
        [ { apiGroups := some ["core.kubeclipper.io"], resources := some ["clusters", "nodes", "regions", "operations/retry", "clusters/upgrade"], verbs := some ["create"] },
          { apiGroups := some ["config.kubeclipper.io"], resources := some ["template"], verbs := some ["get", "list", "watch"] },
          { apiGroups := some ["core.kubeclipper.io"], resources := some ["templates"], verbs := some ["get", "list", "watch"] } ] },
    { objectMeta :=
        { name := "role-template-edit-clusters"
          annotations := some
            [ ("kubeclipper.io/dependencies", "[\"role-template-view-clusters\",\"role-template-view-backuppoints\",\"role-template-view-registries\"]"),
              ("kubeclipper.io/module", "Cluster Management"),
              ("kubeclipper.io/role-template-rules", "\x7b\"clusters\": \"edit\"\x7d"),
              ("kubeclipper.io/alias-name", "Cluster Edit"),
              ("kubeclipper.io/internal", "true") ]
          labels := some [ ("kubeclipper.io/role-template", "true") ] }
      rules := some
        [ { apiGroups := some ["core.kubeclipper.io"], resources := some ["clusters", "clusters/status", "regions", "nodes/disable", "nodes/enable", "nodes/join"], verbs := some ["update", "patch"] },
          { apiGroups := some ["core.kubeclipper.io"], resources := some ["clusters/plugins", "clusters/join", "clusters/nodes", "clusters/backups", "clusters/cronbackups", "clusters/certification", "clusters/kubeconfig"], verbs := some ["*"] },
          { apiGroups := some ["core.kubeclipper.io"], resources := some ["templates"], verbs := some ["*"] },
          { apiGroups := some ["core.kubeclipper.io"], resources := some ["clusters/proxy"], verbs := some ["*"] } ] },
    { objectMeta :=
        { name := "role-template-delete-clusters"
          annotations := some
            [ ("kubeclipper.io/dependencies", "[\"role-template-view-clusters\"]"),
              ("kubeclipper.io/module", "Cluster Management"),
              ("kubeclipper.io/role-template-rules", "\x7b\"clusters\": \"delete\"\x7d"),
              ("kubeclipper.io/alias-name", "Cluster Delete"),
              ("kubeclipper.io/internal", "true") ]
          labels := some [ ("kubeclipper.io/role-template", "true") ] }
      rules := some
        [ { apiGroups := some ["core.kubeclipper.io"], resources := some ["clusters", "nodes", "regions", "clusters/plugins", "clusters/nodes"], verbs := some ["update", "patch"] },
          { apiGroups := some ["core.kubeclipper.io"], resources := some ["clusters/plugins", "clusters/nodes"], verbs := some ["*"] } ] },
    { objectMeta :=
        { name := "role-template-view-platform"
          annotations := some
            [ ("kubeclipper.io/module", "Platform Setting"),
              ("kubeclipper.io/role-template-rules", "\x7b\"platform\": \"view\"\x7d"),
              ("kubeclipper.io/alias-name", "Platform View"),
              ("kubeclipper.io/internal", "true") ]
          labels := some [ ("kubeclipper.io/role-template", "true") ] }
      rules := some
        [ { apiGroups := some ["config.kubeclipper.io"], resources := some ["template"], verbs := some ["get", "list", "watch"] },
          { apiGroups := some ["core.kubeclipper.io"], resources := some ["templates"], verbs := some ["get", "list", "watch"] } ] },
    { objectMeta :=
        { name := "role-template-edit-platform"
          annotations := some
            [ ("kubeclipper.io/dependencies", "[\"role-template-view-platform\"]"),
              ("kubeclipper.io/module", "Platform Setting"),
              ("kubeclipper.io/role-template-rules", "\x7b\"platform\": \"edit\"\x7d"),
              ("kubeclipper.io/alias-name", "Platform Edit"),
              ("kubeclipper.io/internal", "true") ]
          labels := some [ ("kubeclipper.io/role-template", "true") ] }
      rules := some
        [ { apiGroups := some ["config.kubeclipper.io"], resources := some ["template"], verbs := some ["update", "patch"] },
          { apiGroups := some ["config.kubeclipper.io"], resources := some ["terminal.key"], verbs := some ["create"] },
          { apiGroups := some ["config.kubeclipper.io"], resources := some ["templates"], verbs := some ["update", "patch", "create", "delete"] },
          { apiGroups := some ["core.kubeclipper.io"], resources := some ["configmaps"], verbs := some ["*"] } ] },
    { objectMeta :=
        { name := "role-template-view-audit"
          annotations := some
            [ ("kubeclipper.io/module", "Audit"),
              ("kubeclipper.io/role-template-rules", "\x7b\"audit\": \"view\"\x7d"),
              ("kubeclipper.io/alias-name", "Audit View"),
              ("kubeclipper.io/internal", "true") ]
          labels := some [ ("kubeclipper.io/role-template", "true") ] }
      rules := some
        [ { apiGroups := some ["audit.kubeclipper.io"], resources := some ["events"], verbs := some ["get", "list", "watch"] } ] },
    { objectMeta :=
        { name := "role-template-view-dns"
          annotations := some
            [ ("kubeclipper.io/module", "DNS"),
              ("kubeclipper.io/role-template-rules", "\x7b\"dns\": \"view\"\x7d"),
              ("kubeclipper.io/alias-name", "DNS View"),
              ("kubeclipper.io/internal", "true") ]
          labels := some [ ("kubeclipper.io/role-template", "true") ] }
      rules := some
        [ { apiGroups := some ["core.kubeclipper.io"], resources := some ["domains", "domains/records"], verbs := some ["get", "list", "watch"] } ] },
    { objectMeta :=
        { name := "role-template-delete-dns"
          annotations := some
            [ ("kubeclipper.io/dependencies", "[\"role-template-view-dns\"]"),
              ("kubeclipper.io/module", "DNS"),
              ("kubeclipper.io/role-template-rules", "\x7b\"dns\": \"delete\"\x7d"),
              ("kubeclipper.io/alias-name", "DNS Delete"),
              ("kubeclipper.io/internal", "true") ]
          labels := some [ ("kubeclipper.io/role-template", "true") ] }
      rules := some
        [ { apiGroups := some ["core.kubeclipper.io"], resources := some ["domains", "domains/records"], verbs := some ["delete"] } ] },
    { objectMeta :=
        { name := "role-template-create-dns"
          annotations := some
            [ ("kubeclipper.io/dependencies", "[\"role-template-view-dns\"]"),
              ("kubeclipper.io/module", "DNS"),
              ("kubeclipper.io/role-template-rules", "\x7b\"dns\": \"create\"\x7d"),
              ("kubeclipper.io/alias-name", "DNS Create"),
              ("kubeclipper.io/internal", "true") ]
          labels := some [ ("kubeclipper.io/role-template", "true") ] }
      rules := some
        [ { apiGroups := some ["core.kubeclipper.io"], resources := some ["domains", "domains/records"], verbs := some ["create"] } ] },
    { objectMeta :=
        { name := "role-template-edit-dns"
          annotations := some
            [ ("kubeclipper.io/dependencies", "[\"role-template-view-dns\"]"),
              ("kubeclipper.io/module", "DNS"),
              ("kubeclipper.io/role-template-rules", "\x7b\"dns\": \"edit\"\x7d"),
              ("kubeclipper.io/alias-name", "DNS Edit"),
              ("kubeclipper.io/internal", "true") ]
          labels := some [ ("kubeclipper.io/role-template", "true") ] }
      rules := some
        [ { apiGroups := some ["core.kubeclipper.io"], resources := some ["domains", "domains/records"], verbs := some ["update", "patch"] } ] },
    { objectMeta :=
        { name := "platform-admin"
          annotations := some
            [ ("kubeclipper.io/aggregation-roles", "[\"role-template-view-projects\",\"role-template-delete-projects\",\"role-template-create-projects\",\"role-template-edit-projects\",\"role-template-view-cloudproviders\",\"role-template-edit-cloudproviders\",\"role-template-access-clusters\",\"role-template-view-backuppoints\",\"role-template-edit-backuppoints\",\"role-template-view-registries\",\"role-template-edit-registries\",\"role-template-create-clusters\",\"role-template-edit-clusters\",\"role-template-delete-clusters\",\"role-template-view-clusters\",\"role-template-view-roles\",\"role-template-create-roles\",\"role-template-edit-roles\",\"role-template-delete-roles\",\"role-template-create-users\",\"role-template-edit-users\",\"role-template-delete-users\",\"role-template-view-users\",\"role-template-view-platform\",\"role-template-edit-platform\",\"role-template-view-audit\",\"role-template-create-dns\",\"role-template-edit-dns\",\"role-template-delete-dns\",\"role-template-view-dns\"]"),
              ("kubeclipper.io/internal", "true") ] }
      rules := some
        [ { apiGroups := some ["*"], resources := some ["*"], verbs := some ["*"] },
          { nonResourceURLs := some ["*"], verbs := some ["*"] } ] },
    { objectMeta :=
        { name := "platform-view"
          annotations := some
            [ ("kubeclipper.io/aggregation-roles", "[\"role-template-view-cloudproviders\",\"role-template-view-backuppoints\",\"role-template-view-registries\",\"role-template-view-clusters\",\"role-template-view-roles\",\"role-template-view-users\",\"role-template-view-platform\",\"role-template-view-audit\",\"role-template-view-dns\"]"),
              ("kubeclipper.io/internal", "true") ] }
      rules := some
        [ { apiGroups := some ["*"], resources := some ["*"], verbs := some ["get", "list", "watch"] } ] },
    { objectMeta :=
        { name := "platform-regular"
          annotations := some
            [ ("kubeclipper.io/aggregation-roles", "[]"),
              ("kubeclipper.io/internal", "true") ] }
      rules := some [] },
    { objectMeta :=
        { name := "platform-global-view"
          annotations := some
            [ ("kubeclipper.io/aggregation-roles", "[\"role-template-view-dns\",\"role-template-view-backuppoints\",\"role-template-view-registries\"]"),
              ("kubeclipper.io/internal", "true") ]
          labels := some [ ("kubeclipper.io/hidden", "true") ] }
      rules := some
        [ { apiGroups := some ["core.kubeclipper.io"], resources := some ["domains", "domains/records"], verbs := some ["get", "list", "watch"] },
          { apiGroups := some ["core.kubeclipper.io"], resources := some ["backuppoints"], verbs := some ["get", "list", "watch"] },
          { apiGroups := some ["core.kubeclipper.io"], resources := some ["registries"], verbs := some ["get", "list", "watch"] },
          { apiGroups := some ["core.kubeclipper.io"], resources := some ["templates"], verbs := some ["get", "list", "watch"] } ] },
    { objectMeta :=
        { name := "platform-user-view"
          annotations := some
            [ ("kubeclipper.io/aggregation-roles", "[\"role-template-view-users\"]"),
              ("kubeclipper.io/internal", "true") ]
          labels := some [ ("kubeclipper.io/hidden", "true") ] }
      rules := some
        [ { apiGroups := some ["iam.kubeclipper.io"], resources := some ["users"], verbs := some ["get", "list", "watch"] } ] },
    { objectMeta :=
        { name := "authenticated"
          annotations := some
            [ ("kubeclipper.io/rego-override", "package authz\ndefault allow = false\nallow = true \x7b\n  allowedResources := [\"users\",\"projectmembers\"]\n  allowedResources[_] == input.Resource\n  input.User.Name == input.Name\n\x7d\nallow = true \x7b\nallowedResources := [\"projects\"]\nallowedResources[_] == input.Resource\ninput.Verb=\"list\"\n\x7d"),
              ("kubeclipper.io/internal", "true") ]
          labels := some [ ("kubeclipper.io/hidden", "true") ] }
      rules := some
        [ { nonResourceURLs := some ["*"], verbs := some ["*"] },
          { apiGroups := some ["config.kubeclipper.io"], resources := some ["configz", "components", "componentmeta"], verbs := some ["get", "list", "watch"] },
          { apiGroups := some ["config.kubeclipper.io"], resources := some ["oauth"], verbs := some ["get", "list", "watch", "update", "patch"] } ] },
    { objectMeta :=
        { name := "anonymous"
          annotations := some
            [ ("kubeclipper.io/internal", "true") ]
          labels := some [ ("kubeclipper.io/hidden", "true") ] }
      rules := some
        [ { nonResourceURLs := some ["*"], verbs := some ["*"] },
          { apiGroups := some ["config.kubeclipper.io"], resources := some ["oauth"], verbs := some ["get", "list", "watch", "update", "patch"] } ] },
    { objectMeta :=
        { name := "iam-manager"
          annotations := some
            [ ("kubeclipper.io/aggregation-roles", "[\"role-template-view-roles\",\"role-template-create-roles\",\"role-template-edit-roles\",\"role-template-delete-roles\",\"role-template-create-users\",\"role-template-edit-users\",\"role-template-delete-users\",\"role-template-view-users\"]"),
              ("kubeclipper.io/internal", "true") ] }
      rules := some
        [ { apiGroups := some ["iam.kubeclipper.io"], resources := some ["users"], verbs := some ["get", "list", "watch"] },
          { apiGroups := some ["iam.kubeclipper.io"], resources := some ["users", "users/password"], verbs := some ["*"] },
          { apiGroups := some ["iam.kubeclipper.io"], resources := some ["roles"], verbs := some ["get", "list", "watch"] },
          { apiGroups := some ["iam.kubeclipper.io"], resources := some ["roles"], verbs := some ["*"] } ] },
    { objectMeta :=
        { name := "cluster-manager"
          annotations := some
            [ ("kubeclipper.io/aggregation-roles", "[\"role-template-view-cloudproviders\",\"role-template-edit-cloudproviders\",\"role-template-access-clusters\",\"role-template-view-backuppoints\",\"role-template-edit-backuppoints\",\"role-template-view-registries\",\"role-template-edit-registries\",\"role-template-create-clusters\",\"role-template-edit-clusters\",\"role-template-delete-clusters\",\"role-template-view-clusters\"]"),
              ("kubeclipper.io/internal", "true") ] }
      rules := some
        [ { apiGroups := some ["core.kubeclipper.io"], resources := some ["clusters", "nodes", "regions", "operations"], verbs := some ["get", "list", "watch"] },
          { apiGroups := some ["core.kubeclipper.io"], resources := some ["clusters", "clusters/nodes", "clusters/plugins", "nodes", "regions", "operations"], verbs := some ["*"] } ] },
    { objectMeta :=
        { name := "role-template-view-projects"
          annotations := some
            [ ("kubeclipper.io/module", "Project"),
              ("kubeclipper.io/role-template-rules", "\x7b\"projects\": \"view\"\x7d"),
              ("kubeclipper.io/alias-name", "Project View"),
              ("kubeclipper.io/internal", "true") ]
          labels := some [ ("kubeclipper.io/role-template", "true") ] }
      rules := some
        [ { apiGroups := some ["tenant.kubeclipper.io"], resources := some ["projects"], verbs := some ["get", "list", "watch"] } ] },
    { objectMeta :=
        { name := "role-template-delete-projects"
          annotations := some
            [ ("kubeclipper.io/dependencies", "[\"role-template-view-project\"]"),
              ("kubeclipper.io/module", "Project"),
              ("kubeclipper.io/role-template-rules", "\x7b\"projects\": \"delete\"\x7d"),
              ("kubeclipper.io/alias-name", "Project Delete"),
              ("kubeclipper.io/internal", "true") ]
          labels := some [ ("kubeclipper.io/role-template", "true") ] }
      rules := some
        [ { apiGroups := some ["tenant.kubeclipper.io"], resources := some ["projects"], verbs := some ["delete"] } ] },
    { objectMeta :=
        { name := "role-template-create-projects"
          annotations := some
            [ ("kubeclipper.io/dependencies", "[\"role-template-view-project\"]"),
              ("kubeclipper.io/module", "Project"),
              ("kubeclipper.io/role-template-rules", "\x7b\"projects\": \"create\"\x7d"),
              ("kubeclipper.io/alias-name", "Project Create"),
              ("kubeclipper.io/internal", "true") ]
          labels := some [ ("kubeclipper.io/role-template", "true") ] }
      rules := some
        [ { apiGroups := some ["tenant.kubeclipper.io"], resources := some ["projects"], verbs := some ["create"] } ] },
    { objectMeta :=
        { name := "role-template-edit-projects"
          annotations := some
            [ ("kubeclipper.io/dependencies", "[\"role-template-view-project\"]"),
              ("kubeclipper.io/module", "Project"),
              ("kubeclipper.io/role-template-rules", "\x7b\"projects\": \"edit\"\x7d"),
              ("kubeclipper.io/alias-name", "Project Edit"),
              ("kubeclipper.io/internal", "true") ]
          labels := some [ ("kubeclipper.io/role-template", "true") ] }
      rules := some
        [ { apiGroups := some ["tenant.kubeclipper.io"], resources := some ["projects"], verbs := some ["update", "patch"] } ] } ]

/-- The annotation key under which a role lists the roles it depends on. -/
def DependenciesAnnotation : String := "kubeclipper.io/dependencies"

/-- The texts between the successive pairs of double quotes of a text. -/
def quotedPieces : List (List Char) → List (List Char)
  | _ :: inside :: rest => inside :: quotedPieces rest
  | _ => []

/-- Modelled from the spec: the role names listed in a dependencies
annotation, a JSON array of strings (the names hold no quote and no escape, so
they are the texts between the successive pairs of double quotes; the reader
of the annotation is outside these sources). -/
def dependencyNames (text : String) : List String :=
  (quotedPieces (splitOnChar '"' text.data)).map String.mk

/-- The role names a role lists in its dependencies annotation. -/
def GlobalRole.dependencies (r : GlobalRole) : List String :=
  if r.objectMeta.annotations.has DependenciesAnnotation then
    dependencyNames (r.objectMeta.annotations.get DependenciesAnnotation)
  else []

/-- The dependencies of the catalog that name no role of the catalog, each
with the role that lists it. -/
def danglingDependencies (roles : List GlobalRole) : List (String × String) :=
  roles.flatMap (fun r =>
    (r.dependencies.filter (fun d => decide (d ∉ roles.map GlobalRole.name))).map
      (fun d => (r.name, d)))

end server

namespace ProjectReconciler

/-- A store where a binding named `p-bob` exists that carries the project
label of `p` and no manager marker, while the project's manager is `bob`. -/
def takenNameWorld : World :=
  { store :=
      { projects := [projectOfBob]
        projectRoleBindings :=
          [ { objectMeta := { name := "p-bob", labels := some [(LabelProject, "p")] }
              roleRef := { apiGroup := "iam.kubeclipper.io", kind := KindProjectRole, name := "p-view" }
              subjects := [{ apiGroup := "rbac.authorization.k8s.io", kind := KindUser, name := "bob" }] } ] } }

end ProjectReconciler

namespace GoMap

/-- Whether the keys of the entries are pairwise distinct, as the keys of a Go
map are. -/
def distinctKeys (m : GoMap) : Bool :=
  match m with
  | none => true
  | some l => decide (l.map Prod.fst).Nodup

/-- Modelled from the spec: structural equality of two label or annotation
maps, stated by what can be read from them: both are nil or both are not, and
every key is present in both or in neither, with the same value. -/
def Same (a b : GoMap) : Prop :=
  a.isSome = b.isSome ∧ ∀ k, a.has k = b.has k ∧ a.get k = b.get k

end GoMap

namespace ProjectReconciler

/-- Modelled from the spec: "structural-equality check across labels,
annotations, and rule set; any mismatch triggers a full update": the stored
role differs from the desired one in its labels, its annotations or its rules. -/
def roleDiffers (rule stored : ProjectRole) : Prop :=
  ¬ GoMap.Same rule.objectMeta.labels stored.objectMeta.labels ∨
    ¬ GoMap.Same rule.objectMeta.annotations stored.objectMeta.annotations ∨
    rule.rules ≠ stored.rules

/-- The first template of the catalog, `admin`. -/
def adminTemplate : ProjectRole :=
  ProjectRoles.headD { objectMeta := { name := "admin" }, rules := none }

/-- The admin role of project `p` as `initProjectRole` wants it, except for its
project label, which names project `q`. -/
def driftedAdminRole : ProjectRole :=
  { desiredRole projectOfBob adminTemplate with objectMeta := { (desiredRole projectOfBob adminTemplate).objectMeta with labels := some [(LabelProject, "q")] } }

/-- A store where the admin role of project `p` differs from the desired one
in the value of its project label only. -/
def driftedLabelWorld : World :=
  { store := { projects := [projectOfBob], projectRoles := [driftedAdminRole] } }

end ProjectReconciler

/-! # Theorems -/

/-! ## Sequencing -/

theorem M.bind_eq {α β : Type} (m : M α) (f : α → M β) : (m >>= f) = M.andThen m f := rfl

theorem M.pure_eq {α : Type} (a : α) : (pure a : M α) = M.ret a := rfl

/-- A sequence either stops at the error of its first part or continues with the second. -/
theorem M.andThen_cases {α β : Type} (m : M α) (f : α → M β) (w : World) :
    (∃ e, (m w).res = .error e ∧ M.andThen m f w = ⟨.error e, (m w).world, (m w).calls⟩) ∨
    (∃ a, (m w).res = .ok a ∧
      M.andThen m f w = ⟨(f a (m w).world).res, (f a (m w).world).world,
        (m w).calls ++ (f a (m w).world).calls⟩) := by
  unfold M.andThen
  rcases h : m w with ⟨r, w1, c1⟩
  cases r with
  | error e => left; exact ⟨e, rfl, rfl⟩
  | ok a => right; exact ⟨a, rfl, rfl⟩

theorem M.andThen_of_error {α β : Type} {m : M α} (f : α → M β) {w : World} {e : Err}
    (h : (m w).res = .error e) :
    M.andThen m f w = ⟨.error e, (m w).world, (m w).calls⟩ := by
  rcases M.andThen_cases m f w with ⟨e', h1, h2⟩ | ⟨a, h1, _⟩
  · rw [h] at h1; cases h1; exact h2
  · rw [h] at h1; cases h1

theorem M.andThen_of_ok {α β : Type} {m : M α} (f : α → M β) {w : World} {a : α}
    (h : (m w).res = .ok a) :
    M.andThen m f w = ⟨(f a (m w).world).res, (f a (m w).world).world,
        (m w).calls ++ (f a (m w).world).calls⟩ := by
  rcases M.andThen_cases m f w with ⟨e', h1, _⟩ | ⟨a', h1, h2⟩
  · rw [h] at h1; cases h1
  · rw [h] at h1; cases h1; exact h2

theorem M.attempt_res {α : Type} (m : M α) (w : World) :
    (M.attempt m w).res = .ok (m w).res := rfl

theorem M.attempt_world {α : Type} (m : M α) (w : World) :
    (M.attempt m w).world = (m w).world := rfl

theorem M.attempt_calls {α : Type} (m : M α) (w : World) :
    (M.attempt m w).calls = (m w).calls := rfl

theorem replay_append (s : Store) (c1 c2 : List Call) :
    replay s (c1 ++ c2) = replay (replay s c1) c2 := by
  simp [replay, List.foldl_append]

theorem M.logged_bind {α β : Type} {m : M α} {f : α → M β}
    (hm : m.Logged) (hf : ∀ a, (f a).Logged) : (m >>= f).Logged := by
  intro w
  rw [M.bind_eq]
  rcases M.andThen_cases m f w with ⟨e, _, h⟩ | ⟨a, _, h⟩
  · rw [h]; exact hm w
  · rw [h]
    show (f a (m w).world).world.store = _
    rw [replay_append, ← hm w]
    exact hf a _

theorem M.logged_pure {α : Type} (a : α) : (pure a : M α).Logged := fun _ => rfl

theorem M.logged_fail {α : Type} (e : Err) : (M.fail e : M α).Logged := fun _ => rfl

theorem M.logged_ofExcept {α : Type} (r : Except Err α) : (M.ofExcept r : M α).Logged :=
  fun _ => rfl

theorem M.logged_attempt {α : Type} {m : M α} (hm : m.Logged) : (M.attempt m).Logged :=
  fun w => hm w

theorem M.issues_bind {α β : Type} {m : M α} {f : α → M β} {Q : Call → Prop}
    {P : α → Prop} {R : β → Prop}
    (hm : m.Issues Q P) (hf : ∀ a, P a → (f a).Issues Q R) : (m >>= f).Issues Q R := by
  intro w
  rw [M.bind_eq]
  rcases M.andThen_cases m f w with ⟨e, _, h⟩ | ⟨a, ha, h⟩
  · rw [h]
    exact ⟨(hm w).1, fun a h1 => (by cases h1)⟩
  · rw [h]
    have hfa := hf a ((hm w).2 a ha) (m w).world
    refine ⟨?_, hfa.2⟩
    intro c hc
    rcases List.mem_append.mp hc with hc | hc
    · exact (hm w).1 c hc
    · exact hfa.1 c hc

theorem M.issues_pure {α : Type} {a : α} {Q : Call → Prop} {P : α → Prop} (h : P a) :
    (pure a : M α).Issues Q P := by
  intro w
  refine ⟨fun c hc => (by cases hc), fun b hb => ?_⟩
  cases hb
  exact h

theorem M.issues_fail {α : Type} (e : Err) {Q : Call → Prop} {P : α → Prop} :
    (M.fail e : M α).Issues Q P := by
  intro w
  exact ⟨fun c hc => (by cases hc), fun b hb => by cases hb⟩

theorem M.issues_ofExcept {α : Type} (r : Except Err α) {Q : Call → Prop} {P : α → Prop}
    (h : ∀ a, r = .ok a → P a) : (M.ofExcept r : M α).Issues Q P := by
  intro w
  exact ⟨fun c hc => (by cases hc), fun b hb => h b hb⟩

theorem M.issues_attempt {α : Type} {m : M α} {Q : Call → Prop} {P : α → Prop}
    (hm : m.Issues Q P) :
    (M.attempt m).Issues Q (fun r => ∀ a, r = .ok a → P a) := by
  intro w
  refine ⟨(hm w).1, fun r hr a ha => ?_⟩
  rw [M.attempt_res] at hr
  cases hr
  exact (hm w).2 a ha

/-- What a single store call does, case by case. -/
theorem storeCall_cases {α : Type} (op : Op) (body : Store → Except Err (α × Store))
    (w : World) :
    (∃ f, w.nextFault = some f ∧
      storeCall op body w = ⟨.error f.toErr, w.advance, [⟨op, some f.toErr⟩]⟩) ∨
    (∃ a s, w.nextFault = none ∧ body w.store = .ok (a, s) ∧
      storeCall op body w = ⟨.ok a, { store := s, faults := w.faults.tail }, [⟨op, none⟩]⟩) ∨
    (∃ e, w.nextFault = none ∧ body w.store = .error e ∧
      storeCall op body w = ⟨.error e, w.advance, [⟨op, some e⟩]⟩) := by
  unfold storeCall
  cases hf : w.nextFault with
  | some f => left; exact ⟨f, rfl, rfl⟩
  | none =>
    right
    cases hb : body w.store with
    | ok r => left; exact ⟨r.1, r.2, rfl, rfl, rfl⟩
    | error e => right; exact ⟨e, rfl, rfl, rfl⟩

theorem applyCall_failed_of_ne {s : Store} {op : Op} (hop : ∀ n, op ≠ .updateNode n) (e : Err) :
    applyCall s ⟨op, some e⟩ = s := by
  unfold applyCall
  cases op <;> first | rfl | exact absurd rfl (hop _)

theorem storeCall_logged {α : Type} (op : Op) (body : Store → Except Err (α × Store))
    (hop : ∀ n, op ≠ .updateNode n)
    (h : ∀ s a s', body s = .ok (a, s') → s' = applyCall s ⟨op, none⟩) :
    (storeCall op body).Logged := by
  intro w
  rcases storeCall_cases op body w with ⟨f, _, h1⟩ | ⟨a, s, _, hb, h1⟩ | ⟨e, _, _, h1⟩
  · rw [h1]
    show w.store = applyCall w.store ⟨op, some f.toErr⟩
    rw [applyCall_failed_of_ne hop]
  · rw [h1]; exact h _ _ _ hb
  · rw [h1]
    show w.store = applyCall w.store ⟨op, some e⟩
    rw [applyCall_failed_of_ne hop]

theorem storeCall_issues {α : Type} (op : Op) (body : Store → Except Err (α × Store))
    {Q : Call → Prop} {P : α → Prop} (hQ : ∀ e, Q ⟨op, e⟩)
    (hP : ∀ s a s', body s = .ok (a, s') → P a) :
    (storeCall op body).Issues Q P := by
  intro w
  rcases storeCall_cases op body w with ⟨f, _, h1⟩ | ⟨a, s, _, hb, h1⟩ | ⟨e, _, _, h1⟩
  · rw [h1]
    exact ⟨fun c hc => (by simp at hc; subst hc; exact hQ _), fun a ha => by cases ha⟩
  · rw [h1]
    refine ⟨fun c hc => (by simp at hc; subst hc; exact hQ _), fun b hb' => ?_⟩
    cases hb'
    exact hP _ _ _ hb
  · rw [h1]
    exact ⟨fun c hc => (by simp at hc; subst hc; exact hQ _), fun a ha => by cases ha⟩


/-! ## The log accounts for every effect -/

theorem getProject_logged (name : String) : (ProjectLister.Get name).Logged := by
  refine storeCall_logged _ _ (fun _ h => by cases h) ?_
  intro s a s' h
  split at h
  · cases h; rfl
  · cases h

theorem updateProject_logged (p : Project) :
    (ProjectWriter.UpdateProject p).Logged := by
  refine storeCall_logged _ _ (fun _ h => by cases h) ?_
  intro s a s' h
  split at h
  · rename_i l hl
    cases h
    simp only [storeUpdate] at hl
    split at hl
    · cases hl; rfl
    · cases hl
  · cases h

theorem listClusters_logged (sel : List Requirement) : (ClusterLister.List sel).Logged := by
  refine storeCall_logged _ _ (fun _ h => by cases h) ?_
  intro s a s' h
  cases h; rfl

theorem listNodes_logged (sel : List Requirement) : (NodeLister.List sel).Logged := by
  refine storeCall_logged _ _ (fun _ h => by cases h) ?_
  intro s a s' h
  cases h; rfl

theorem getNode_logged (name : String) : (NodeLister.Get name).Logged := by
  refine storeCall_logged _ _ (fun _ h => by cases h) ?_
  intro s a s' h
  split at h
  · cases h; rfl
  · cases h

theorem M.mutate_bind_run {β : Type} (n : Node) (f : Unit → M β) (w : World) :
    (NodeLister.mutate n >>= f) w = f () (w.withEdit n) := rfl

theorem removeByName_withEdit (l : List Node) (n : Node) :
    removeByName Node.name (n :: removeByName Node.name l n.name) n.name =
      removeByName Node.name l n.name := by
  unfold removeByName
  rw [List.filter_cons]
  simp

/-- A node update on an object changed in place just before: the change stays
in the lister's cache when the update fails, and is stored when it succeeds. -/
theorem updateNode_edited_run (n : Node) (w : World) :
    (∃ f, w.nextFault = some f ∧ NodeWriter.UpdateNode n (w.withEdit n) =
      ⟨.error f.toErr, (w.withEdit n).advance, [⟨.updateNode n, some f.toErr⟩]⟩) ∨
    (w.nextFault = none ∧ (getByName Node.name w.store.nodes n.name).isSome = true ∧
      NodeWriter.UpdateNode n (w.withEdit n) =
        ⟨.ok n, World.mk { w.store with nodes := replaceByName Node.name w.store.nodes n, editedNodes := removeByName Node.name w.store.editedNodes n.name } w.faults.tail,
          [⟨.updateNode n, none⟩]⟩) ∨
    (w.nextFault = none ∧ getByName Node.name w.store.nodes n.name = none ∧
      NodeWriter.UpdateNode n (w.withEdit n) =
        ⟨.error .notFound, (w.withEdit n).advance, [⟨.updateNode n, some .notFound⟩]⟩) := by
  unfold NodeWriter.UpdateNode
  rcases storeCall_cases (.updateNode n) (fun s =>
    match storeUpdate Node.name s.nodes n with
    | .ok l => .ok (n, { s with nodes := l, editedNodes := removeByName Node.name s.editedNodes n.name })
    | .error e => .error e) (w.withEdit n) with ⟨f, hf, h1⟩ | ⟨a, s, hf, hb, h1⟩ | ⟨e, hf, hb, h1⟩
  · exact Or.inl ⟨f, hf, h1⟩
  · right; left
    have hb' : (match storeUpdate Node.name w.store.nodes n with
      | .ok l => Except.ok (n, ({ w.store.withEdit n with nodes := l, editedNodes := removeByName Node.name (w.store.withEdit n).editedNodes n.name } : Store))
      | .error e => .error e) = .ok (a, s) := hb
    unfold storeUpdate at hb'
    cases hg : getByName Node.name w.store.nodes n.name with
    | none => rw [hg] at hb'; cases hb'
    | some x =>
      rw [hg] at hb'
      cases hb'
      refine ⟨hf, rfl, ?_⟩
      rw [h1]
      show _ = (⟨.ok n, World.mk _ w.faults.tail, _⟩ : Out Node)
      congr 2
      show ({ w.store.withEdit n with nodes := replaceByName Node.name w.store.nodes n, editedNodes := removeByName Node.name (n :: removeByName Node.name w.store.editedNodes n.name) n.name } : Store) = _
      rw [removeByName_withEdit]
      rfl
  · right; right
    have hb' : (match storeUpdate Node.name w.store.nodes n with
      | .ok l => Except.ok (n, ({ w.store.withEdit n with nodes := l, editedNodes := removeByName Node.name (w.store.withEdit n).editedNodes n.name } : Store))
      | .error e => .error e) = .error e := hb
    unfold storeUpdate at hb'
    cases hg : getByName Node.name w.store.nodes n.name with
    | none =>
      rw [hg] at hb'
      cases hb'
      exact ⟨hf, rfl, h1⟩
    | some x => rw [hg] at hb'; cases hb'

/-- The log accounts for a node update on an object changed in place just before. -/
theorem updateNode_edited_logged (n : Node) :
    (NodeLister.mutate n >>= fun _ => NodeWriter.UpdateNode n).Logged := by
  intro w
  rw [M.mutate_bind_run]
  rcases updateNode_edited_run n w with ⟨f, _, h⟩ | ⟨_, _, h⟩ | ⟨_, _, h⟩ <;> rw [h] <;> rfl

theorem M.logged_edit_attempt {β : Type} (n : Node) {k : Except Err Node → M β}
    (hk : ∀ r, (k r).Logged) :
    (NodeLister.mutate n >>= fun _ => M.attempt (NodeWriter.UpdateNode n) >>= k).Logged := by
  have h : (M.attempt (NodeLister.mutate n >>= fun _ => NodeWriter.UpdateNode n) >>= k).Logged :=
    M.logged_bind (M.logged_attempt (updateNode_edited_logged n)) hk
  exact fun w => h w

theorem M.logged_edit_update {β : Type} (n : Node) {k : Node → M β}
    (hk : ∀ r, (k r).Logged) :
    (NodeLister.mutate n >>= fun _ => NodeWriter.UpdateNode n >>= k).Logged := by
  have h : ((NodeLister.mutate n >>= fun _ => NodeWriter.UpdateNode n) >>= k).Logged :=
    M.logged_bind (updateNode_edited_logged n) hk
  exact fun w => h w

theorem M.issues_mutate (n : Node) {Q : Call → Prop} :
    (NodeLister.mutate n).Issues Q (fun _ => True) :=
  fun _ => ⟨fun c hc => (by cases hc), fun _ _ => trivial⟩

theorem getProjectRole_logged (name : String) :
    (IAMOperator.GetProjectRole name).Logged := by
  refine storeCall_logged _ _ (fun _ h => by cases h) ?_
  intro s a s' h
  split at h
  · cases h; rfl
  · cases h

theorem createProjectRole_logged (r : ProjectRole) :
    (IAMOperator.CreateProjectRole r).Logged := by
  refine storeCall_logged _ _ (fun _ h => by cases h) ?_
  intro s a s' h
  split at h
  · rename_i l hl
    cases h
    simp only [storeCreate] at hl
    split at hl
    · cases hl
    · cases hl; rfl
  · cases h

theorem updateProjectRole_logged (r : ProjectRole) :
    (IAMOperator.UpdateProjectRole r).Logged := by
  refine storeCall_logged _ _ (fun _ h => by cases h) ?_
  intro s a s' h
  split at h
  · rename_i l hl
    cases h
    simp only [storeUpdate] at hl
    split at hl
    · cases hl; rfl
    · cases hl
  · cases h

theorem listProjectRoles_logged (q : String) :
    (IAMOperator.ListProjectRoles q).Logged := by
  refine storeCall_logged _ _ (fun _ h => by cases h) ?_
  intro s a s' h
  cases h; rfl

theorem deleteProjectRole_logged (name : String) :
    (IAMOperator.DeleteProjectRole name).Logged := by
  refine storeCall_logged _ _ (fun _ h => by cases h) ?_
  intro s a s' h
  split at h
  · rename_i l hl
    cases h
    simp only [storeDelete] at hl
    split at hl
    · cases hl; rfl
    · cases hl
  · cases h

theorem listProjectRoleBinding_logged (q : String) :
    (IAMOperator.ListProjectRoleBinding q).Logged := by
  refine storeCall_logged _ _ (fun _ h => by cases h) ?_
  intro s a s' h
  cases h; rfl

theorem createProjectRoleBinding_logged (b : RoleBinding) :
    (IAMOperator.CreateProjectRoleBinding b).Logged := by
  refine storeCall_logged _ _ (fun _ h => by cases h) ?_
  intro s a s' h
  split at h
  · rename_i l hl
    cases h
    simp only [storeCreate] at hl
    split at hl
    · cases hl
    · cases hl; rfl
  · cases h

theorem deleteProjectRoleBinding_logged (name : String) :
    (IAMOperator.DeleteProjectRoleBinding name).Logged := by
  refine storeCall_logged _ _ (fun _ h => by cases h) ?_
  intro s a s' h
  split at h
  · rename_i l hl
    cases h
    simp only [storeDelete] at hl
    split at hl
    · cases hl; rfl
    · cases hl
  · cases h

theorem deleteRoleBinding_logged (name : String) :
    (IAMOperator.DeleteRoleBinding name).Logged := by
  refine storeCall_logged _ _ (fun _ h => by cases h) ?_
  intro s a s' h
  split at h
  · rename_i l hl
    cases h
    simp only [storeDelete] at hl
    split at hl
    · cases hl; rfl
    · cases hl
  · cases h

namespace ProjectReconciler

theorem tolerateNotFound_logged {m : M Unit} (hm : m.Logged) : (tolerateNotFound m).Logged := by
  unfold tolerateNotFound
  apply M.logged_bind (M.logged_attempt hm)
  intro r
  cases r with
  | error e =>
    dsimp only
    split
    · exact M.logged_pure _
    · exact M.logged_fail _
  | ok a => exact M.logged_pure _

theorem deleteRolesLoop_logged (roles : List ProjectRole) : (deleteRolesLoop roles).Logged := by
  induction roles with
  | nil => exact M.logged_pure _
  | cons role rest ih =>
    unfold deleteRolesLoop
    exact M.logged_bind (tolerateNotFound_logged (deleteProjectRole_logged _))
      (fun _ => ih)

theorem deleteRoleBindingsLoop_logged (bs : List RoleBinding) :
    (deleteRoleBindingsLoop bs).Logged := by
  induction bs with
  | nil => exact M.logged_pure _
  | cons b rest ih =>
    unfold deleteRoleBindingsLoop
    exact M.logged_bind (tolerateNotFound_logged (deleteProjectRoleBinding_logged _))
      (fun _ => ih)

theorem deleteRoleAndRoleBinding_logged (p : Project) : (deleteRoleAndRoleBinding p).Logged := by
  unfold deleteRoleAndRoleBinding
  refine M.logged_bind (listProjectRoles_logged _) (fun roles => ?_)
  refine M.logged_bind (deleteRolesLoop_logged _) (fun _ => ?_)
  refine M.logged_bind (listProjectRoleBinding_logged _) (fun bs => ?_)
  refine M.logged_bind (deleteRoleBindingsLoop_logged _) (fun _ => ?_)
  exact tolerateNotFound_logged (deleteRoleBinding_logged _)

theorem initProjectRoleBody_logged (p : Project) (t : ProjectRole) :
    (initProjectRoleBody p t).Logged := by
  unfold initProjectRoleBody
  refine M.logged_bind (M.logged_attempt (getProjectRole_logged _)) (fun r => ?_)
  cases r with
  | error e =>
    dsimp only
    split
    · exact M.logged_bind (createProjectRole_logged _) (fun _ => M.logged_pure _)
    · exact M.logged_fail _
  | ok role =>
    dsimp only
    split
    · exact M.logged_bind (updateProjectRole_logged _) (fun _ => M.logged_pure _)
    · exact M.logged_pure _

theorem initProjectRoleLoop_logged (p : Project) (ts : List ProjectRole) :
    (initProjectRoleLoop p ts).Logged := by
  induction ts with
  | nil => exact M.logged_pure _
  | cons t rest ih =>
    unfold initProjectRoleLoop
    exact M.logged_bind (initProjectRoleBody_logged p t) (fun _ => ih)

theorem initProjectRole_logged (p : Project) : (initProjectRole p).Logged :=
  initProjectRoleLoop_logged p _

theorem initManagerRoleBindingBody_logged (p : Project) (target item : RoleBinding) :
    (initManagerRoleBindingBody p target item).Logged := by
  unfold initManagerRoleBindingBody
  split
  · refine M.logged_bind (M.logged_ofExcept _) (fun first => ?_)
    refine M.logged_bind
      (tolerateNotFound_logged (deleteProjectRoleBinding_logged _)) (fun _ => ?_)
    refine M.logged_bind
      (tolerateNotFound_logged (deleteRoleBinding_logged _)) (fun _ => ?_)
    exact M.logged_bind (createProjectRoleBinding_logged _)
      (fun _ => M.logged_pure _)
  · exact M.logged_pure _

theorem initManagerRoleBindingLoop_logged (p : Project) (target : RoleBinding)
    (items : List RoleBinding) : (initManagerRoleBindingLoop p target items).Logged := by
  induction items with
  | nil => exact M.logged_pure _
  | cons item rest ih =>
    unfold initManagerRoleBindingLoop
    exact M.logged_bind (initManagerRoleBindingBody_logged p target item) (fun _ => ih)

theorem initManagerRoleBinding_logged (p : Project) : (initManagerRoleBinding p).Logged := by
  unfold initManagerRoleBinding
  refine M.logged_bind (listProjectRoleBinding_logged _) (fun l => ?_)
  dsimp only
  split
  · exact M.logged_bind (createProjectRoleBinding_logged _)
      (fun _ => M.logged_pure _)
  · exact initManagerRoleBindingLoop_logged _ _ _

theorem syncProjectNodeFromCluster_logged (p : Project) :
    (syncProjectNodeFromCluster p).Logged := by
  unfold syncProjectNodeFromCluster
  refine M.logged_bind (M.logged_ofExcept _) (fun req => ?_)
  refine M.logged_bind (listClusters_logged _) (fun clusters => ?_)
  dsimp only
  split
  · exact M.logged_bind (updateProject_logged _) (fun _ => M.logged_pure _)
  · exact M.logged_pure _

theorem removeLabelLoop_logged (p : Project) (nodes : List Node) :
    (removeLabelLoop p nodes).Logged := by
  induction nodes with
  | nil => exact M.logged_pure _
  | cons node rest ih =>
    unfold removeLabelLoop
    dsimp only
    split
    · refine M.logged_edit_attempt _ (fun r => ?_)
      cases r with
      | error e => exact M.logged_fail _
      | ok _ => exact ih
    · exact ih

theorem addLabelLoop_logged (p : Project) (ids : List String) :
    (addLabelLoop p ids).Logged := by
  induction ids with
  | nil => exact M.logged_pure _
  | cons nodeID rest ih =>
    unfold addLabelLoop
    refine M.logged_bind (getNode_logged _) (fun node => ?_)
    dsimp only
    split
    · refine M.logged_bind (M.logged_ofExcept _) (fun labels => ?_)
      exact M.logged_edit_update _ (fun _ => ih)
    · exact ih

theorem syncNodeLabel_logged (p : Project) : (syncNodeLabel p).Logged := by
  unfold syncNodeLabel
  refine M.logged_bind (M.logged_ofExcept _) (fun req => ?_)
  refine M.logged_bind (listNodes_logged _) (fun l => ?_)
  exact M.logged_bind (removeLabelLoop_logged _ _) (fun _ => addLabelLoop_logged _ _)

theorem count_logged (p : Project) : (count p).Logged := by
  unfold count
  refine M.logged_bind (M.logged_ofExcept _) (fun req => ?_)
  refine M.logged_bind (listClusters_logged _) (fun clusters => ?_)
  dsimp only
  split
  · exact M.logged_bind (updateProject_logged _) (fun _ => M.logged_pure _)
  · exact M.logged_pure _

theorem runPhases_logged (p : Project) : (runPhases p).Logged := by
  unfold runPhases
  refine M.logged_bind (initProjectRole_logged _) (fun _ => ?_)
  refine M.logged_bind (initManagerRoleBinding_logged _) (fun _ => ?_)
  refine M.logged_bind (syncProjectNodeFromCluster_logged _) (fun p1 => ?_)
  exact M.logged_bind (syncNodeLabel_logged _) (fun _ => count_logged _)

theorem Reconcile_logged (name : String) : (Reconcile name).Logged := by
  unfold Reconcile
  refine M.logged_bind (M.logged_attempt (getProject_logged _)) (fun r => ?_)
  cases r with
  | error e =>
    dsimp only
    split
    · exact M.logged_pure _
    · exact M.logged_fail _
  | ok project =>
    dsimp only
    split
    · exact M.logged_bind (updateProject_logged _) (fun p1 => runPhases_logged _)
    · split
      · refine M.logged_bind (deleteRoleAndRoleBinding_logged _) (fun _ => ?_)
        exact M.logged_bind (updateProject_logged _) (fun _ => M.logged_pure _)
      · exact M.logged_pure _

end ProjectReconciler


/-! ## Which calls each function can issue -/

namespace ProjectReconciler

theorem tolerateNotFound_issues {m : M Unit} {Q : Call → Prop} (hm : m.Issues Q (fun _ => True)) :
    (tolerateNotFound m).Issues Q (fun _ => True) := by
  unfold tolerateNotFound
  refine M.issues_bind (M.issues_attempt hm) (fun r _ => ?_)
  cases r with
  | error e =>
    dsimp only
    split
    · exact M.issues_pure trivial
    · exact M.issues_fail _
  | ok a => exact M.issues_pure trivial

theorem deleteRolesLoop_issues (roles : List ProjectRole) {Q : Call → Prop}
    (hdel : ∀ name e, Q ⟨.deleteProjectRole name, e⟩) :
    (deleteRolesLoop roles).Issues Q (fun _ => True) := by
  induction roles with
  | nil => exact M.issues_pure trivial
  | cons role rest ih =>
    unfold deleteRolesLoop
    exact M.issues_bind
      (tolerateNotFound_issues (storeCall_issues _ _ (hdel _) (fun _ _ _ _ => trivial)))
      (fun _ _ => ih)

theorem deleteRoleBindingsLoop_issues (bs : List RoleBinding) {Q : Call → Prop}
    (hdel : ∀ name e, Q ⟨.deleteProjectRoleBinding name, e⟩) :
    (deleteRoleBindingsLoop bs).Issues Q (fun _ => True) := by
  induction bs with
  | nil => exact M.issues_pure trivial
  | cons b rest ih =>
    unfold deleteRoleBindingsLoop
    exact M.issues_bind
      (tolerateNotFound_issues (storeCall_issues _ _ (hdel _) (fun _ _ _ _ => trivial)))
      (fun _ _ => ih)

/-- The calls of the cleanup: the two listings with the cleanup selector,
deletions of scoped roles and bindings, and the deletion of the global binding
`{project}-{manager}`. -/
theorem deleteRoleAndRoleBinding_issues (p : Project) {Q : Call → Prop}
    (h1 : ∀ e, Q ⟨.listProjectRoles (cleanupQuery p), e⟩)
    (h2 : ∀ name e, Q ⟨.deleteProjectRole name, e⟩)
    (h3 : ∀ e, Q ⟨.listProjectRoleBinding (cleanupQuery p), e⟩)
    (h4 : ∀ name e, Q ⟨.deleteProjectRoleBinding name, e⟩)
    (h5 : ∀ e, Q ⟨.deleteRoleBinding (p.name ++ "-" ++ p.spec.manager), e⟩) :
    (deleteRoleAndRoleBinding p).Issues Q (fun _ => True) := by
  unfold deleteRoleAndRoleBinding
  refine M.issues_bind (storeCall_issues _ _ h1 (fun _ _ _ _ => trivial)) (fun roles _ => ?_)
  refine M.issues_bind (deleteRolesLoop_issues _ h2) (fun _ _ => ?_)
  refine M.issues_bind (storeCall_issues _ _ h3 (fun _ _ _ _ => trivial)) (fun bs _ => ?_)
  refine M.issues_bind (deleteRoleBindingsLoop_issues _ h4) (fun _ _ => ?_)
  exact tolerateNotFound_issues (storeCall_issues _ _ h5 (fun _ _ _ _ => trivial))

theorem initProjectRoleBody_issues (p : Project) (t : ProjectRole) {Q : Call → Prop}
    (h1 : ∀ e, Q ⟨.getProjectRole (desiredRole p t).name, e⟩)
    (h2 : ∀ e, Q ⟨.createProjectRole (desiredRole p t), e⟩)
    (h3 : ∀ e, Q ⟨.updateProjectRole (desiredRole p t), e⟩) :
    (initProjectRoleBody p t).Issues Q (fun _ => True) := by
  unfold initProjectRoleBody
  refine M.issues_bind
    (M.issues_attempt (storeCall_issues _ _ h1 (fun _ _ _ _ => trivial))) (fun r _ => ?_)
  cases r with
  | error e =>
    dsimp only
    split
    · exact M.issues_bind (storeCall_issues _ _ h2 (fun _ _ _ _ => trivial))
        (fun _ _ => M.issues_pure trivial)
    · exact M.issues_fail _
  | ok role =>
    dsimp only
    split
    · exact M.issues_bind (storeCall_issues _ _ h3 (fun _ _ _ _ => trivial))
        (fun _ _ => M.issues_pure trivial)
    · exact M.issues_pure trivial

theorem initProjectRoleLoop_issues (p : Project) (ts : List ProjectRole) {Q : Call → Prop}
    (h1 : ∀ t ∈ ts, ∀ e, Q ⟨.getProjectRole (desiredRole p t).name, e⟩)
    (h2 : ∀ t ∈ ts, ∀ e, Q ⟨.createProjectRole (desiredRole p t), e⟩)
    (h3 : ∀ t ∈ ts, ∀ e, Q ⟨.updateProjectRole (desiredRole p t), e⟩) :
    (initProjectRoleLoop p ts).Issues Q (fun _ => True) := by
  induction ts with
  | nil => exact M.issues_pure trivial
  | cons t rest ih =>
    unfold initProjectRoleLoop
    refine M.issues_bind
      (initProjectRoleBody_issues p t (h1 t (List.mem_cons_self _ _))
        (h2 t (List.mem_cons_self _ _)) (h3 t (List.mem_cons_self _ _))) (fun _ _ => ?_)
    exact ih (fun t ht => h1 t (List.mem_cons_of_mem _ ht))
      (fun t ht => h2 t (List.mem_cons_of_mem _ ht))
      (fun t ht => h3 t (List.mem_cons_of_mem _ ht))

/-- The calls of `initProjectRole`: for each template a get of the desired
role's name and a create or an update of the desired role. -/
theorem initProjectRole_issues (p : Project) {Q : Call → Prop}
    (h1 : ∀ t ∈ ProjectRoles, ∀ e, Q ⟨.getProjectRole (desiredRole p t).name, e⟩)
    (h2 : ∀ t ∈ ProjectRoles, ∀ e, Q ⟨.createProjectRole (desiredRole p t), e⟩)
    (h3 : ∀ t ∈ ProjectRoles, ∀ e, Q ⟨.updateProjectRole (desiredRole p t), e⟩) :
    (initProjectRole p).Issues Q (fun _ => True) :=
  initProjectRoleLoop_issues p _ h1 h2 h3

theorem initManagerRoleBindingBody_issues (p : Project) (target item : RoleBinding)
    {Q : Call → Prop}
    (h1 : ∀ e, Q ⟨.deleteProjectRoleBinding item.name, e⟩)
    (h2 : ∀ name e, Q ⟨.deleteRoleBinding name, e⟩)
    (h3 : ∀ e, Q ⟨.createProjectRoleBinding target, e⟩) :
    (initManagerRoleBindingBody p target item).Issues Q (fun _ => True) := by
  unfold initManagerRoleBindingBody
  split
  · refine M.issues_bind (P := fun _ => True) (M.issues_ofExcept _ (fun _ _ => trivial))
      (fun first _ => ?_)
    refine M.issues_bind
      (tolerateNotFound_issues (storeCall_issues _ _ h1 (fun _ _ _ _ => trivial)))
      (fun _ _ => ?_)
    refine M.issues_bind
      (tolerateNotFound_issues (storeCall_issues _ _ (h2 _) (fun _ _ _ _ => trivial)))
      (fun _ _ => ?_)
    exact M.issues_bind (storeCall_issues _ _ h3 (fun _ _ _ _ => trivial))
      (fun _ _ => M.issues_pure trivial)
  · exact M.issues_pure trivial

theorem initManagerRoleBindingLoop_issues (p : Project) (target : RoleBinding)
    (items : List RoleBinding) {Q : Call → Prop}
    (h1 : ∀ item ∈ items, ∀ e, Q ⟨.deleteProjectRoleBinding item.name, e⟩)
    (h2 : ∀ name e, Q ⟨.deleteRoleBinding name, e⟩)
    (h3 : ∀ e, Q ⟨.createProjectRoleBinding target, e⟩) :
    (initManagerRoleBindingLoop p target items).Issues Q (fun _ => True) := by
  induction items with
  | nil => exact M.issues_pure trivial
  | cons item rest ih =>
    unfold initManagerRoleBindingLoop
    refine M.issues_bind
      (initManagerRoleBindingBody_issues p target item (h1 item (List.mem_cons_self _ _)) h2 h3)
      (fun _ _ => ?_)
    exact ih (fun i hi => h1 i (List.mem_cons_of_mem _ hi))

/-- The calls of `initManagerRoleBinding`: the listing with the manager-binding
selector, deletions of bindings and global bindings, and creations of the
desired binding. -/
theorem initManagerRoleBinding_issues (p : Project) {Q : Call → Prop}
    (h0 : ∀ e, Q ⟨.listProjectRoleBinding (managerBindingQuery p), e⟩)
    (h1 : ∀ name e, Q ⟨.deleteProjectRoleBinding name, e⟩)
    (h2 : ∀ name e, Q ⟨.deleteRoleBinding name, e⟩)
    (h3 : ∀ e, Q ⟨.createProjectRoleBinding (managerBindingTarget p), e⟩) :
    (initManagerRoleBinding p).Issues Q (fun _ => True) := by
  unfold initManagerRoleBinding
  refine M.issues_bind (storeCall_issues _ _ h0 (fun _ _ _ _ => trivial)) (fun l _ => ?_)
  dsimp only
  split
  · exact M.issues_bind (storeCall_issues _ _ h3 (fun _ _ _ _ => trivial))
      (fun _ _ => M.issues_pure trivial)
  · exact initManagerRoleBindingLoop_issues _ _ _ (fun _ _ => h1 _) h2 h3

/-- The calls of `syncProjectNodeFromCluster`: a cluster listing and an update
of the project with only its member list replaced; the project it hands back
differs from the given one at most in the member list. -/
theorem syncProjectNodeFromCluster_issues (p : Project) {Q : Call → Prop}
    (h1 : ∀ sel e, Q ⟨.listClusters sel, e⟩)
    (h2 : ∀ nodes e, Q ⟨.updateProject { p with spec := { p.spec with nodes := nodes } }, e⟩) :
    (syncProjectNodeFromCluster p).Issues Q
      (fun p1 => ∃ nodes, p1 = { p with spec := { p.spec with nodes := nodes } }) := by
  unfold syncProjectNodeFromCluster
  refine M.issues_bind (P := fun _ => True) (M.issues_ofExcept _ (fun _ _ => trivial))
    (fun req _ => ?_)
  refine M.issues_bind (storeCall_issues _ _ (h1 _) (fun _ _ _ _ => trivial))
    (fun clusters _ => ?_)
  dsimp only
  split
  · exact M.issues_bind (storeCall_issues _ _ (h2 _) (fun _ _ _ _ => trivial))
      (fun _ _ => M.issues_pure ⟨_, rfl⟩)
  · exact M.issues_pure ⟨p.spec.nodes, rfl⟩

theorem removeLabelLoop_issues (p : Project) (nodes : List Node) {Q : Call → Prop}
    (h : ∀ n e, Q ⟨.updateNode n, e⟩) :
    (removeLabelLoop p nodes).Issues Q (fun _ => True) := by
  induction nodes with
  | nil => exact M.issues_pure trivial
  | cons node rest ih =>
    unfold removeLabelLoop
    dsimp only
    split
    · refine M.issues_bind (M.issues_mutate _) (fun _ _ => ?_)
      refine M.issues_bind
        (M.issues_attempt (storeCall_issues _ _ (h _) (fun _ _ _ _ => trivial))) (fun r _ => ?_)
      cases r with
      | error e => exact M.issues_fail _
      | ok _ => exact ih
    · exact ih

theorem addLabelLoop_issues (p : Project) (ids : List String) {Q : Call → Prop}
    (h1 : ∀ id e, Q ⟨.getNode id, e⟩) (h2 : ∀ n e, Q ⟨.updateNode n, e⟩) :
    (addLabelLoop p ids).Issues Q (fun _ => True) := by
  induction ids with
  | nil => exact M.issues_pure trivial
  | cons nodeID rest ih =>
    unfold addLabelLoop
    refine M.issues_bind (storeCall_issues _ _ (h1 _) (fun _ _ _ _ => trivial))
      (fun node _ => ?_)
    dsimp only
    split
    · refine M.issues_bind (P := fun _ => True) (M.issues_ofExcept _ (fun _ _ => trivial))
        (fun labels _ => ?_)
      refine M.issues_bind (M.issues_mutate _) (fun _ _ => ?_)
      exact M.issues_bind (storeCall_issues _ _ (h2 _) (fun _ _ _ _ => trivial))
        (fun _ _ => ih)
    · exact ih

/-- The calls of `syncNodeLabel`: a node listing, node gets and node updates. -/
theorem syncNodeLabel_issues (p : Project) {Q : Call → Prop}
    (h0 : ∀ sel e, Q ⟨.listNodes sel, e⟩)
    (h1 : ∀ id e, Q ⟨.getNode id, e⟩) (h2 : ∀ n e, Q ⟨.updateNode n, e⟩) :
    (syncNodeLabel p).Issues Q (fun _ => True) := by
  unfold syncNodeLabel
  refine M.issues_bind (P := fun _ => True) (M.issues_ofExcept _ (fun _ _ => trivial))
    (fun req _ => ?_)
  refine M.issues_bind (storeCall_issues _ _ (h0 _) (fun _ _ _ _ => trivial)) (fun l _ => ?_)
  exact M.issues_bind (removeLabelLoop_issues _ _ h2) (fun _ _ => addLabelLoop_issues _ _ h1 h2)

/-- The calls of `count`: a cluster listing and an update of the project with
only its counters replaced. -/
theorem count_issues (p : Project) {Q : Call → Prop}
    (h1 : ∀ sel e, Q ⟨.listClusters sel, e⟩)
    (h2 : ∀ cs e, Q ⟨.updateProject (countedCopy p cs), e⟩) :
    (count p).Issues Q (fun _ => True) := by
  unfold count
  refine M.issues_bind (P := fun _ => True) (M.issues_ofExcept _ (fun _ _ => trivial))
    (fun req _ => ?_)
  refine M.issues_bind (storeCall_issues _ _ (h1 _) (fun _ _ _ _ => trivial))
    (fun clusters _ => ?_)
  dsimp only
  split
  · exact M.issues_bind (storeCall_issues _ _ (h2 _) (fun _ _ _ _ => trivial))
      (fun _ _ => M.issues_pure trivial)
  · exact M.issues_pure trivial

end ProjectReconciler

/-! ## Running single calls and sequences -/

theorem storeCall_of_fault {α : Type} (op : Op) (body : Store → Except Err (α × Store))
    {w : World} {f : Fault} (h : w.nextFault = some f) :
    storeCall op body w = ⟨.error f.toErr, w.advance, [⟨op, some f.toErr⟩]⟩ := by
  simp [storeCall, h]

theorem storeCall_of_ok {α : Type} (op : Op) (body : Store → Except Err (α × Store))
    {w : World} {a : α} {s : Store} (h : w.nextFault = none) (hb : body w.store = .ok (a, s)) :
    storeCall op body w = ⟨.ok a, { store := s, faults := w.faults.tail }, [⟨op, none⟩]⟩ := by
  simp [storeCall, h, hb]

theorem storeCall_of_error {α : Type} (op : Op) (body : Store → Except Err (α × Store))
    {w : World} {e : Err} (h : w.nextFault = none) (hb : body w.store = .error e) :
    storeCall op body w = ⟨.error e, w.advance, [⟨op, some e⟩]⟩ := by
  simp [storeCall, h, hb]

/-- A store call logs exactly itself. -/
theorem storeCall_calls {α : Type} (op : Op) (body : Store → Except Err (α × Store))
    (w : World) : ∃ e, (storeCall op body w).calls = [⟨op, e⟩] ∧
      (e = none ↔ ∃ a, (storeCall op body w).res = .ok a) ∧
      (∀ err, e = some err ↔ (storeCall op body w).res = .error err) := by
  rcases storeCall_cases op body w with ⟨f, _, h1⟩ | ⟨a, s, _, hb, h1⟩ | ⟨e, _, _, h1⟩
  · rw [h1]; exact ⟨_, rfl, by simp, by simp⟩
  · rw [h1]; exact ⟨_, rfl, by simp, by simp⟩
  · rw [h1]; exact ⟨_, rfl, by simp, by simp⟩

theorem M.andThen_eq_prepend {α β : Type} {m : M α} (f : α → M β) {w : World} {a : α}
    (h : (m w).res = .ok a) :
    M.andThen m f w = (f a (m w).world).prepend (m w).calls :=
  M.andThen_of_ok f h

/-- The log of a sequence begins with the log of its first part. -/
theorem M.andThen_calls {α β : Type} (m : M α) (f : α → M β) (w : World) :
    ∃ rest, (M.andThen m f w).calls = (m w).calls ++ rest := by
  rcases M.andThen_cases m f w with ⟨e, _, h⟩ | ⟨a, _, h⟩
  · rw [h]; exact ⟨[], by simp⟩
  · rw [h]; exact ⟨_, rfl⟩

namespace ProjectReconciler

/-! ## `Reconcile`, branch by branch -/

theorem getProject_of_found {w : World} {name : String} {project : Project}
    (hfault : w.nextFault = none)
    (hget : getByName Project.name w.store.projects name = some project) :
    ProjectLister.Get name w = ⟨.ok project, w.advance, [⟨.getProject name, none⟩]⟩ := by
  unfold ProjectLister.Get
  rw [storeCall_of_ok _ _ hfault (a := project) (s := w.store)]
  · rfl
  · simp [storeGet, hget]

theorem Reconcile_active {w : World} {name : String} {project : Project}
    (hget : (ProjectLister.Get name w).res = .ok project)
    (hz : Time.IsZero project.objectMeta.deletionTimestamp = true) :
    Reconcile name w =
      ((ProjectWriter.UpdateProject (withFinalizer project) >>= fun project1 =>
          runPhases project1) (ProjectLister.Get name w).world).prepend
        (ProjectLister.Get name w).calls := by
  unfold Reconcile
  rw [M.bind_eq, M.andThen_eq_prepend _ (a := .ok project) (by rw [M.attempt_res, hget])]
  simp only [hz, if_true]
  rfl

theorem Reconcile_terminating {w : World} {name : String} {project : Project}
    (hget : (ProjectLister.Get name w).res = .ok project)
    (hz : Time.IsZero project.objectMeta.deletionTimestamp = false)
    (hfin : (sets.NewString project.objectMeta.finalizers).Has ProjectFinalizer = true) :
    Reconcile name w =
      ((deleteRoleAndRoleBinding project >>= fun _ =>
          ProjectWriter.UpdateProject (withoutFinalizer project) >>= fun _ =>
            (pure () : M Unit)) (ProjectLister.Get name w).world).prepend
        (ProjectLister.Get name w).calls := by
  unfold Reconcile
  rw [M.bind_eq, M.andThen_eq_prepend _ (a := .ok project) (by rw [M.attempt_res, hget])]
  simp only [hz, hfin, if_true]
  rfl

theorem Reconcile_cleaned {w : World} {name : String} {project : Project}
    (hget : (ProjectLister.Get name w).res = .ok project)
    (hz : Time.IsZero project.objectMeta.deletionTimestamp = false)
    (hfin : (sets.NewString project.objectMeta.finalizers).Has ProjectFinalizer = false) :
    Reconcile name w =
      ⟨.ok (), (ProjectLister.Get name w).world, (ProjectLister.Get name w).calls⟩ := by
  unfold Reconcile
  rw [M.bind_eq, M.andThen_eq_prepend _ (a := .ok project) (by rw [M.attempt_res, hget])]
  simp only [hz, hfin]
  simp [Out.prepend, M.attempt_world, M.attempt_calls, M.pure_eq, M.ret]

end ProjectReconciler

/-! ## String sets -/

theorem sets.mem_NewString_keys (l : List String) (x : String) :
    x ∈ (sets.NewString l).keys ↔ x ∈ l := by
  unfold sets.NewString
  rw [(List.perm_insertionSort _ _).mem_iff, List.mem_dedup]

theorem sets.NewString_Has (l : List String) (x : String) :
    (sets.NewString l).Has x = decide (x ∈ l) := by
  unfold sets.StringSet.Has
  simp only [sets.mem_NewString_keys]

namespace ProjectReconciler

theorem withFinalizer_of_not_mem {project : Project}
    (h : ProjectFinalizer ∉ project.objectMeta.finalizers) :
    withFinalizer project =
      { project with objectMeta :=
          { project.objectMeta with
            finalizers := project.objectMeta.finalizers ++ [ProjectFinalizer] } } := by
  simp [withFinalizer, sets.NewString_Has, h]

theorem withFinalizer_of_mem {project : Project}
    (h : ProjectFinalizer ∈ project.objectMeta.finalizers) :
    withFinalizer project = project := by
  simp [withFinalizer, sets.NewString_Has, h]

theorem updateProject_issues (p : Project) {Q : Call → Prop}
    (hQ : ∀ e, Q ⟨.updateProject p, e⟩) :
    (ProjectWriter.UpdateProject p).Issues Q (fun a => a = p) := by
  unfold ProjectWriter.UpdateProject
  apply storeCall_issues _ _ hQ
  intro s a s' hb
  split at hb
  · cases hb; rfl
  · cases hb

theorem updateProject_res {p a : Project} {w : World}
    (h : (ProjectWriter.UpdateProject p w).res = .ok a) : a = p :=
  ((updateProject_issues p (Q := fun _ => True) (fun _ => trivial)) w).2 a h

/-- The first call of the phases is the get of the admin role. -/
theorem runPhases_calls_head (p : Project) (w : World) :
    ∃ e rest, (runPhases p w).calls =
      ⟨.getProjectRole (p.name ++ "-" ++ "admin"), e⟩ :: rest := by
  unfold runPhases
  rw [M.bind_eq]
  obtain ⟨r1, h1⟩ := M.andThen_calls (initProjectRole p)
    (fun _ => initManagerRoleBinding p >>= fun _ =>
      syncProjectNodeFromCluster p >>= fun p1 => syncNodeLabel p1 >>= fun _ => count p1) w
  rw [h1]
  unfold initProjectRole ProjectRoles initProjectRoleLoop
  rw [M.bind_eq]
  obtain ⟨r2, h2⟩ := M.andThen_calls (initProjectRoleBody p _) (fun _ => initProjectRoleLoop p _) w
  rw [h2]
  unfold initProjectRoleBody
  rw [M.bind_eq]
  obtain ⟨r3, h3⟩ := M.andThen_calls (M.attempt (IAMOperator.GetProjectRole _)) _ w
  rw [h3, M.attempt_calls]
  unfold IAMOperator.GetProjectRole
  obtain ⟨e, he, _⟩ := storeCall_calls (.getProjectRole _) _ w
  rw [he]
  exact ⟨e, _, rfl⟩

end ProjectReconciler

namespace ProjectReconciler

theorem updateProject_calls (p : Project) (w : World) :
    ∃ e, (ProjectWriter.UpdateProject p w).calls = [⟨.updateProject p, e⟩] ∧
      (e = none ↔ ∃ a, (ProjectWriter.UpdateProject p w).res = .ok a) ∧
      (∀ err, e = some err ↔ (ProjectWriter.UpdateProject p w).res = .error err) :=
  storeCall_calls _ _ w

/-- C2, as the code behaves: for an active project that lacks the finalizer
token, `Reconcile` issues the project get and then one project update carrying
the finalizer list with the token appended. It does not stop there: when that
update succeeds the same invocation goes on with the phases, the next call
being the get of the `{project}-admin` role; the pass ends after the update
only when the update fails, and then with the update's error. -/
theorem reconcile_appends_finalizer_then_continues (w : World) (name : String)
    (project : Project) (hfault : w.nextFault = none)
    (hget : getByName Project.name w.store.projects name = some project)
    (hactive : Time.IsZero project.objectMeta.deletionTimestamp = true)
    (hfin : ProjectFinalizer ∉ project.objectMeta.finalizers) :
    ∃ e rest,
      (Reconcile name w).calls =
        ⟨.getProject name, none⟩ ::
          ⟨.updateProject
              { project with objectMeta :=
                  { project.objectMeta with
                    finalizers := project.objectMeta.finalizers ++ [ProjectFinalizer] } }, e⟩ ::
            rest ∧
      (∀ err, e = some err → rest = [] ∧ (Reconcile name w).res = .error err) ∧
      (e = none →
        ∃ e', rest.head? = some ⟨.getProjectRole (project.name ++ "-" ++ "admin"), e'⟩) := by
  have h0 := getProject_of_found hfault hget
  rw [Reconcile_active (by rw [h0]) hactive, h0, withFinalizer_of_not_mem hfin]
  simp only [M.bind_eq]
  generalize hp1 : ({ project with objectMeta :=
      { project.objectMeta with
        finalizers := project.objectMeta.finalizers ++ [ProjectFinalizer] } } : Project) = p1
  have hname : p1.name = project.name := by rw [← hp1]; rfl
  obtain ⟨e, he, hnone, hsome⟩ := updateProject_calls p1 w.advance
  cases e with
  | some err =>
    have hres : (ProjectWriter.UpdateProject p1 w.advance).res = .error err :=
      (hsome err).mp rfl
    refine ⟨some err, [], ?_, ?_, ?_⟩
    · rw [M.andThen_of_error _ hres]
      simp [Out.prepend, he]
    · intro err' h'
      cases h'
      rw [M.andThen_of_error _ hres]
      exact ⟨rfl, rfl⟩
    · intro h'; cases h'
  | none =>
    obtain ⟨a, ha⟩ := hnone.mp rfl
    have hres : (ProjectWriter.UpdateProject p1 w.advance).res = .ok a := ha
    have hap := updateProject_res hres
    subst hap
    obtain ⟨e', rest, hrest⟩ :=
      runPhases_calls_head a (ProjectWriter.UpdateProject a w.advance).world
    refine ⟨none, (runPhases a (ProjectWriter.UpdateProject a w.advance).world).calls,
      ?_, ?_, ?_⟩
    · rw [M.andThen_eq_prepend _ hres]
      simp only [Out.prepend, he, List.singleton_append, List.cons_append, List.nil_append]
    · intro err h'; cases h'
    · intro _
      exact ⟨e', by rw [hrest, hname]; rfl⟩

/-- C2, the claim at a concrete input: the project of `freshWorld` is active and
lacks the token, yet the pass that adds the token also creates the three
scoped roles and the manager binding. -/
theorem reconcile_fresh_project_runs_phases :
    (getByName Project.name freshWorld.store.projects "p").map
        (fun q => (Time.IsZero q.objectMeta.deletionTimestamp,
          decide (ProjectFinalizer ∈ q.objectMeta.finalizers))) = some (true, false) ∧
      ((Reconcile "p" freshWorld).calls.filter (fun c => c.op.isCreate)).length = 4 := by
  decide!

theorem reconcile_appends_finalizer_then_continues_witness :
    ∃ e rest,
      (Reconcile "p" freshWorld).calls =
        ⟨.getProject "p", none⟩ ::
          ⟨.updateProject
              { objectMeta := { name := "p", finalizers := [] ++ [ProjectFinalizer] }
                spec := { manager := "m", nodes := [] } }, e⟩ :: rest ∧
      (∀ err, e = some err → rest = [] ∧ (Reconcile "p" freshWorld).res = .error err) ∧
      (e = none →
        ∃ e', rest.head? = some ⟨.getProjectRole ("p" ++ "-" ++ "admin"), e'⟩) :=
  reconcile_appends_finalizer_then_continues freshWorld "p"
    { objectMeta := { name := "p" }, spec := { manager := "m", nodes := [] } }
    (by decide) (by decide) (by decide) (by decide)

/-- C4, the code at the failing input: in `terminatingWorld` the project is
being deleted and holds the token; `Reconcile` succeeds and removes the token,
but the admin role and the manager binding labelled with the project are still
in the store, because the cleanup lists with the selector
`kubeclipper.io/project-p`, which no object satisfies. -/
theorem reconcile_cleanup_leaves_labelled_objects :
    (Reconcile "p" terminatingWorld).res = .ok () ∧
      (Reconcile "p" terminatingWorld).calls.map (fun c => c.op) =
        [ .getProject "p", .listProjectRoles "kubeclipper.io/project-p",
          .listProjectRoleBinding "kubeclipper.io/project-p", .deleteRoleBinding "p-m",
          .updateProject
            { objectMeta := { name := "p", finalizers := [], deletionTimestamp := some 1 }
              spec := { manager := "m", nodes := [] } } ] ∧
      ((Reconcile "p" terminatingWorld).world.store.projectRoles.filter
        (fun r => (Requirement.equals LabelProject "p").holds r.objectMeta.labels)).length = 1 ∧
      ((Reconcile "p" terminatingWorld).world.store.projectRoleBindings.filter
        (fun b => (Requirement.equals LabelProject "p").holds b.objectMeta.labels)).length = 1 := by
  decide!

end ProjectReconciler

/-! ## Frames: what a log leaves untouched -/

theorem replay_nil (s : Store) : replay s [] = s := rfl

theorem replay_cons (s : Store) (c : Call) (cs : List Call) :
    replay s (c :: cs) = replay (applyCall s c) cs := rfl

theorem applyCall_projects {s : Store} {c : Call} (h : c.op.kind ≠ .project) :
    (applyCall s c).projects = s.projects := by
  unfold applyCall
  cases c with
  | mk op err =>
    cases err with
    | some e => cases op <;> rfl
    | none => cases op <;> first | rfl | exact absurd rfl h

theorem applyCall_clusters (s : Store) (c : Call) : (applyCall s c).clusters = s.clusters := by
  unfold applyCall
  cases c with
  | mk op err =>
    cases err with
    | some e => cases op <;> rfl
    | none => cases op <;> rfl

theorem applyCall_nodes {s : Store} {c : Call} (h : c.op.kind ≠ .node) :
    (applyCall s c).nodes = s.nodes := by
  unfold applyCall
  cases c with
  | mk op err =>
    cases err with
    | some e => cases op <;> rfl
    | none => cases op <;> first | rfl | exact absurd rfl h

theorem applyCall_projectRoles {s : Store} {c : Call} (h : c.op.kind ≠ .role) :
    (applyCall s c).projectRoles = s.projectRoles := by
  unfold applyCall
  cases c with
  | mk op err =>
    cases err with
    | some e => cases op <;> rfl
    | none => cases op <;> first | rfl | exact absurd rfl h

theorem applyCall_projectRoleBindings {s : Store} {c : Call} (h : c.op.kind ≠ .binding) :
    (applyCall s c).projectRoleBindings = s.projectRoleBindings := by
  unfold applyCall
  cases c with
  | mk op err =>
    cases err with
    | some e => cases op <;> rfl
    | none => cases op <;> first | rfl | exact absurd rfl h

theorem applyCall_roleBindings {s : Store} {c : Call} (h : c.op.kind ≠ .globalBinding) :
    (applyCall s c).roleBindings = s.roleBindings := by
  unfold applyCall
  cases c with
  | mk op err =>
    cases err with
    | some e => cases op <;> rfl
    | none => cases op <;> first | rfl | exact absurd rfl h

theorem applyCall_of_not_write {s : Store} {c : Call} (h : c.op.isWrite = false) :
    applyCall s c = s := by
  unfold applyCall
  cases c with
  | mk op err =>
    cases err with
    | some e => cases op <;> first | rfl | exact absurd h (by simp [Op.isWrite])
    | none => cases op <;> first | rfl | exact absurd h (by simp [Op.isWrite])

theorem applyCall_of_failed {s : Store} {c : Call} {e : Err} (h : c.err = some e)
    (hop : ∀ n, c.op ≠ .updateNode n) : applyCall s c = s := by
  cases c with
  | mk op err =>
    cases h
    exact applyCall_failed_of_ne hop e

theorem replay_projects {calls : List Call} (s : Store)
    (h : ∀ c ∈ calls, c.op.kind ≠ .project) : (replay s calls).projects = s.projects := by
  induction calls generalizing s with
  | nil => rfl
  | cons c cs ih =>
    rw [replay_cons, ih _ (fun c' hc' => h c' (List.mem_cons_of_mem _ hc')),
      applyCall_projects (h c (List.mem_cons_self _ _))]

theorem replay_clusters (calls : List Call) (s : Store) :
    (replay s calls).clusters = s.clusters := by
  induction calls generalizing s with
  | nil => rfl
  | cons c cs ih => rw [replay_cons, ih, applyCall_clusters]

theorem replay_nodes {calls : List Call} (s : Store)
    (h : ∀ c ∈ calls, c.op.kind ≠ .node) : (replay s calls).nodes = s.nodes := by
  induction calls generalizing s with
  | nil => rfl
  | cons c cs ih =>
    rw [replay_cons, ih _ (fun c' hc' => h c' (List.mem_cons_of_mem _ hc')),
      applyCall_nodes (h c (List.mem_cons_self _ _))]

theorem replay_projectRoles {calls : List Call} (s : Store)
    (h : ∀ c ∈ calls, c.op.kind ≠ .role) : (replay s calls).projectRoles = s.projectRoles := by
  induction calls generalizing s with
  | nil => rfl
  | cons c cs ih =>
    rw [replay_cons, ih _ (fun c' hc' => h c' (List.mem_cons_of_mem _ hc')),
      applyCall_projectRoles (h c (List.mem_cons_self _ _))]

theorem replay_projectRoleBindings {calls : List Call} (s : Store)
    (h : ∀ c ∈ calls, c.op.kind ≠ .binding) :
    (replay s calls).projectRoleBindings = s.projectRoleBindings := by
  induction calls generalizing s with
  | nil => rfl
  | cons c cs ih =>
    rw [replay_cons, ih _ (fun c' hc' => h c' (List.mem_cons_of_mem _ hc')),
      applyCall_projectRoleBindings (h c (List.mem_cons_self _ _))]

theorem replay_roleBindings {calls : List Call} (s : Store)
    (h : ∀ c ∈ calls, c.op.kind ≠ .globalBinding) :
    (replay s calls).roleBindings = s.roleBindings := by
  induction calls generalizing s with
  | nil => rfl
  | cons c cs ih =>
    rw [replay_cons, ih _ (fun c' hc' => h c' (List.mem_cons_of_mem _ hc')),
      applyCall_roleBindings (h c (List.mem_cons_self _ _))]

/-- A log whose calls are reads, or failed and were not node updates, leaves
the store as it was. -/
theorem replay_of_no_effect {calls : List Call} (s : Store)
    (h : ∀ c ∈ calls, c.op.isWrite = false ∨ (c.err ≠ none ∧ ∀ n, c.op ≠ .updateNode n)) :
    replay s calls = s := by
  induction calls generalizing s with
  | nil => rfl
  | cons c cs ih =>
    rw [replay_cons]
    have hc : applyCall s c = s := by
      rcases h c (List.mem_cons_self _ _) with h1 | h1
      · exact applyCall_of_not_write h1
      · cases he : c.err with
        | none => exact absurd he h1.1
        | some e => exact applyCall_of_failed he h1.2
    rw [hc]
    exact ih _ (fun c' hc' => h c' (List.mem_cons_of_mem _ hc'))

theorem Op.kind_of_isCleanupCall {op : Op} (h : op.isCleanupCall = true) :
    op.kind ≠ .project := by
  cases op <;> simp [Op.isCleanupCall, Op.kind] at h ⊢

/-! ## Strictness: errors are not swallowed -/

theorem M.strict_bind {α β : Type} {m : M α} {f : α → M β}
    (hm : m.Strict) (hf : ∀ a, (f a).Strict) : (m >>= f).Strict := by
  intro w c hc e he hnf
  rw [M.bind_eq] at hc ⊢
  rcases M.andThen_cases m f w with ⟨e', hres, h⟩ | ⟨a, hres, h⟩
  · rw [h] at hc ⊢
    have := hm w c hc e he hnf
    rw [hres] at this
    have he' : e' = e := by injection this
    subst he'
    rfl
  · rw [h] at hc ⊢
    rcases List.mem_append.mp hc with hc | hc
    · have := hm w c hc e he hnf
      rw [hres] at this
      cases this
    · exact hf a _ c hc e he hnf

theorem M.strict_pure {α : Type} (a : α) : (pure a : M α).Strict := by
  intro w c hc
  cases hc

theorem storeCall_strict {α : Type} (op : Op) (body : Store → Except Err (α × Store)) :
    (storeCall op body).Strict := by
  intro w c hc e he _
  obtain ⟨e', hcalls, _, hsome⟩ := storeCall_calls op body w
  rw [hcalls] at hc
  simp only [List.mem_singleton] at hc
  subst hc
  exact (hsome e).mp he

namespace ProjectReconciler

theorem tolerateNotFound_storeCall (op : Op) (body : Store → Except Err (Unit × Store))
    (w : World) :
    (tolerateNotFound (storeCall op body) w).calls = (storeCall op body w).calls ∧
    (tolerateNotFound (storeCall op body) w).world = (storeCall op body w).world ∧
    (tolerateNotFound (storeCall op body) w).res =
      (match (storeCall op body w).res with
        | .ok _ => .ok ()
        | .error e => if e.IsNotFound then .ok () else .error e) := by
  unfold tolerateNotFound
  rw [M.bind_eq, M.andThen_of_ok _ (M.attempt_res _ _)]
  simp only [M.attempt_calls, M.attempt_world]
  cases h : (storeCall op body w).res with
  | ok a => simp [M.pure_eq, M.ret]
  | error e =>
    by_cases hnf : e.IsNotFound = true
    · simp [hnf, M.pure_eq, M.ret]
    · simp [hnf, M.fail]

theorem tolerateNotFound_strict (op : Op) (body : Store → Except Err (Unit × Store)) :
    (tolerateNotFound (storeCall op body)).Strict := by
  intro w c hc e he hnf
  obtain ⟨h1, _, h3⟩ := tolerateNotFound_storeCall op body w
  rw [h1] at hc
  have := storeCall_strict op body w c hc e he hnf
  rw [h3, this]
  simp [hnf]

theorem deleteRolesLoop_strict (roles : List ProjectRole) : (deleteRolesLoop roles).Strict := by
  induction roles with
  | nil => exact M.strict_pure _
  | cons role rest ih =>
    unfold deleteRolesLoop
    exact M.strict_bind (tolerateNotFound_strict _ _) (fun _ => ih)

theorem deleteRoleBindingsLoop_strict (bs : List RoleBinding) :
    (deleteRoleBindingsLoop bs).Strict := by
  induction bs with
  | nil => exact M.strict_pure _
  | cons b rest ih =>
    unfold deleteRoleBindingsLoop
    exact M.strict_bind (tolerateNotFound_strict _ _) (fun _ => ih)

theorem deleteRoleAndRoleBinding_strict (p : Project) : (deleteRoleAndRoleBinding p).Strict := by
  unfold deleteRoleAndRoleBinding
  refine M.strict_bind (storeCall_strict _ _) (fun roles => ?_)
  refine M.strict_bind (deleteRolesLoop_strict _) (fun _ => ?_)
  refine M.strict_bind (storeCall_strict _ _) (fun bs => ?_)
  refine M.strict_bind (deleteRoleBindingsLoop_strict _) (fun _ => ?_)
  exact tolerateNotFound_strict _ _

theorem getByName_name {α : Type} {nameOf : α → String} {xs : List α} {name : String} {x : α}
    (h : getByName nameOf xs name = some x) : nameOf x = name := by
  unfold getByName at h
  have := List.find?_some h
  simpa using this

theorem getByName_mem {α : Type} {nameOf : α → String} {xs : List α} {name : String} {x : α}
    (h : getByName nameOf xs name = some x) : x ∈ xs := by
  unfold getByName at h
  exact List.mem_of_find?_eq_some h

/-- C5: for a project that is being deleted and holds the finalizer token, a
list or delete call of the cleanup that fails with an error other than
not-found makes `Reconcile` return that error; the pass then issues no project
update, the stored projects are what they were, and the stored project still
holds the token. -/
theorem reconcile_cleanup_error_keeps_finalizer (w : World) (name : String) (project : Project)
    (hfault : w.nextFault = none)
    (hget : getByName Project.name w.store.projects name = some project)
    (hdel : Time.IsZero project.objectMeta.deletionTimestamp = false)
    (hfin : ProjectFinalizer ∈ project.objectMeta.finalizers)
    (c : Call) (hc : c ∈ (Reconcile name w).calls) (hop : c.op.isCleanupCall = true)
    (e : Err) (herr : c.err = some e) (hnf : e.IsNotFound = false) :
    (Reconcile name w).res = .error e ∧
      (∀ c' ∈ (Reconcile name w).calls, ∀ q, c'.op ≠ .updateProject q) ∧
      (Reconcile name w).world.store.projects = w.store.projects ∧
      getByName Project.name (Reconcile name w).world.store.projects name = some project ∧
      ProjectFinalizer ∈ project.objectMeta.finalizers := by
  have h0 := getProject_of_found hfault hget
  have hhas : (sets.NewString project.objectMeta.finalizers).Has ProjectFinalizer = true := by
    rw [sets.NewString_Has]; simpa using hfin
  have hfoot := deleteRoleAndRoleBinding_issues project
    (Q := fun c => c.op.isCleanupCall = true)
    (fun _ => rfl) (fun _ _ => rfl) (fun _ => rfl) (fun _ _ => rfl) (fun _ => rfl) w.advance
  rw [Reconcile_terminating (by rw [h0]) hdel hhas, h0] at hc ⊢
  simp only [M.bind_eq] at hc ⊢
  simp only [Out.prepend, List.singleton_append, List.mem_cons] at hc ⊢
  rcases hc with hc | hc
  · subst hc; cases hop
  rcases M.andThen_cases (deleteRoleAndRoleBinding project)
    (fun _ => (ProjectWriter.UpdateProject (withoutFinalizer project)).andThen
      fun _ => (pure () : M Unit)) w.advance with ⟨e', hres, h⟩ | ⟨a, hres, h⟩
  · rw [h] at hc ⊢
    have hstrict := deleteRoleAndRoleBinding_strict project w.advance c hc e herr hnf
    rw [hres] at hstrict
    cases hstrict
    have hproj : (deleteRoleAndRoleBinding project w.advance).world.store.projects =
        w.store.projects := by
      rw [deleteRoleAndRoleBinding_logged project w.advance]
      rw [replay_projects]
      · rfl
      · intro c' hc'
        exact Op.kind_of_isCleanupCall (hfoot.1 c' hc')
    refine ⟨rfl, ?_, hproj, ?_, hfin⟩
    · intro c' hc' q hq
      rcases hc' with hc' | hc'
      · subst hc'; cases hq
      · have hcl : c'.op.isCleanupCall = true := hfoot.1 c' hc'
        rw [hq] at hcl
        cases hcl
    · show getByName Project.name
        (deleteRoleAndRoleBinding project w.advance).world.store.projects name = _
      rw [hproj]
      exact hget
  · rw [h] at hc
    rcases List.mem_append.mp hc with hc | hc
    · have hstrict := deleteRoleAndRoleBinding_strict project w.advance c hc e herr hnf
      rw [hres] at hstrict
      cases hstrict
    · have hupd : (ProjectWriter.UpdateProject (withoutFinalizer project) >>= fun _ =>
          (pure () : M Unit)).Issues (fun c => c.op.isCleanupCall = false) (fun _ => True) :=
        M.issues_bind (updateProject_issues _ (fun _ => rfl)) (fun _ _ => M.issues_pure trivial)
      have hcl : c.op.isCleanupCall = false := (hupd _).1 c hc
      rw [hop] at hcl
      cases hcl

end ProjectReconciler

namespace ProjectReconciler

theorem reconcile_cleanup_error_keeps_finalizer_witness :
    (⟨.listProjectRoles "kubeclipper.io/project-p", some .transient⟩ : Call) ∈
        (Reconcile "p" terminatingWorldFailing).calls ∧
      ((Reconcile "p" terminatingWorldFailing).res = .error .transient ∧
        (∀ c' ∈ (Reconcile "p" terminatingWorldFailing).calls, ∀ q, c'.op ≠ .updateProject q) ∧
        (Reconcile "p" terminatingWorldFailing).world.store.projects =
          terminatingWorldFailing.store.projects ∧
        getByName Project.name (Reconcile "p" terminatingWorldFailing).world.store.projects "p" =
          some
            { objectMeta :=
                { name := "p", finalizers := [ProjectFinalizer], deletionTimestamp := some 1 }
              spec := { manager := "m", nodes := [] } } ∧
        ProjectFinalizer ∈ [ProjectFinalizer]) :=
  ⟨by decide!,
    reconcile_cleanup_error_keeps_finalizer terminatingWorldFailing "p"
      { objectMeta :=
          { name := "p", finalizers := [ProjectFinalizer], deletionTimestamp := some 1 }
        spec := { manager := "m", nodes := [] } }
      (by decide) (by decide) (by decide) (by decide)
      ⟨.listProjectRoles "kubeclipper.io/project-p", some .transient⟩ (by decide!) (by decide)
      .transient rfl (by decide)⟩

end ProjectReconciler

/-! ## Label selectors -/

theorem splitOnChar_of_not_mem (sep : Char) (a : List Char) (h : sep ∉ a) :
    splitOnChar sep a = [a] := by
  induction a with
  | nil => rfl
  | cons c cs ih =>
    have hc : c ≠ sep := fun hc => h (by simp [hc])
    have hcs : sep ∉ cs := fun hcs => h (List.mem_cons_of_mem _ hcs)
    simp [splitOnChar, hc, ih hcs]

theorem splitOnChar_append (sep : Char) (a b : List Char) (h : sep ∉ a) :
    splitOnChar sep (a ++ sep :: b) = a :: splitOnChar sep b := by
  induction a with
  | nil => simp [splitOnChar]
  | cons c cs ih =>
    have hc : c ≠ sep := fun hc => h (by simp [hc])
    have hcs : sep ∉ cs := fun hcs => h (List.mem_cons_of_mem _ hcs)
    simp [splitOnChar, hc, ih hcs]

theorem breakAtChar_append (sep : Char) (a b : List Char) (h : sep ∉ a) :
    breakAtChar sep (a ++ sep :: b) = some (a, b) := by
  induction a with
  | nil => simp [breakAtChar]
  | cons c cs ih =>
    have hc : c ≠ sep := fun hc => h (by simp [hc])
    have hcs : sep ∉ cs := fun hcs => h (List.mem_cons_of_mem _ hcs)
    simp [breakAtChar, hc, ih hcs]

theorem breakAtChar_of_not_mem (sep : Char) (a : List Char) (h : sep ∉ a) :
    breakAtChar sep a = none := by
  induction a with
  | nil => rfl
  | cons c cs ih =>
    have hc : c ≠ sep := fun hc => h (by simp [hc])
    have hcs : sep ∉ cs := fun hcs => h (List.mem_cons_of_mem _ hcs)
    simp [breakAtChar, hc, ih hcs]

/-- A label value contains no comma. -/
theorem comma_not_mem_of_validLabelValue {value : String} (h : validLabelValue value = true) :
    ',' ∉ value.data := by
  intro hmem
  unfold validLabelValue at h
  simp only [Bool.and_eq_true, List.all_eq_true] at h
  have := h.1.1.2 ',' hmem
  revert this
  decide

/-- A label value contains no equals sign. -/
theorem eq_not_mem_of_validLabelValue {value : String} (h : validLabelValue value = true) :
    '=' ∉ value.data := by
  intro hmem
  unfold validLabelValue at h
  simp only [Bool.and_eq_true, List.all_eq_true] at h
  have := h.1.1.2 '=' hmem
  revert this
  decide

namespace ProjectReconciler

/-- The selector of the manager-binding listing reads as the two label
equalities it was built from. -/
theorem parseSelector_managerBindingQuery {p : Project} (h : validLabelValue p.name = true) :
    parseSelector (managerBindingQuery p) =
      [.equals LabelProject p.name, .equals LabelProjectRoleBindingManager "true"] := by
  have hc := comma_not_mem_of_validLabelValue h
  have htext : managerBindingQuery p =
      ⟨(LabelProject.data ++ '=' :: p.name.data) ++
        ',' :: (LabelProjectRoleBindingManager.data ++ '=' :: "true".data)⟩ := by
    apply String.ext
    simp [managerBindingQuery, AddLabelSelector, String.intercalate, String.intercalate.go,
      String.data_append]
  have hne : managerBindingQuery p ≠ "" := by
    rw [htext]
    intro h0
    have := congrArg String.data h0
    simp [LabelProject] at this
  unfold parseSelector
  rw [if_neg hne, htext]
  have h1 : ',' ∉ LabelProject.data ++ '=' :: p.name.data := by
    intro hm
    rcases List.mem_append.mp hm with hm | hm
    · revert hm; decide
    · rcases List.mem_cons.mp hm with hm | hm
      · revert hm; decide
      · exact hc hm
  rw [splitOnChar_append _ _ _ h1, splitOnChar_of_not_mem _ _ (by decide)]
  simp only [List.map_cons, List.map_nil, parseRequirement]
  rw [breakAtChar_append _ _ _ (by decide), breakAtChar_append _ _ _ (by decide)]

/-- The selector of the cleanup listing asks for the presence of one label key. -/
theorem parseSelector_cleanupQuery {p : Project} (h : validLabelValue p.name = true) :
    parseSelector (cleanupQuery p) = [.exists (LabelProject ++ "-" ++ p.name)] := by
  have hc := comma_not_mem_of_validLabelValue h
  have he := eq_not_mem_of_validLabelValue h
  have htext : (cleanupQuery p).data = LabelProject.data ++ '-' :: p.name.data := by
    simp [cleanupQuery, String.data_append]
  have hne : cleanupQuery p ≠ "" := by
    intro h0
    have := congrArg String.data h0
    rw [htext] at this
    simp [LabelProject] at this
  have h1 : ',' ∉ LabelProject.data ++ '-' :: p.name.data := by
    intro hm
    rcases List.mem_append.mp hm with hm | hm
    · revert hm; decide
    · rcases List.mem_cons.mp hm with hm | hm
      · revert hm; decide
      · exact hc hm
  have h2 : '=' ∉ LabelProject.data ++ '-' :: p.name.data := by
    intro hm
    rcases List.mem_append.mp hm with hm | hm
    · revert hm; decide
    · rcases List.mem_cons.mp hm with hm | hm
      · revert hm; decide
      · exact he hm
  unfold parseSelector
  rw [if_neg hne, htext, splitOnChar_of_not_mem _ _ h1]
  simp only [List.map_cons, List.map_nil, parseRequirement]
  rw [breakAtChar_of_not_mem _ _ h2]
  congr 2

end ProjectReconciler

/-! ## Objects by name -/

theorem getByName_eq_none_iff {α : Type} {nameOf : α → String} {xs : List α} {name : String} :
    getByName nameOf xs name = none ↔ ∀ x ∈ xs, nameOf x ≠ name := by
  unfold getByName
  simp [List.find?_eq_none]

theorem getByName_isSome_iff {α : Type} {nameOf : α → String} {xs : List α} {name : String} :
    (getByName nameOf xs name).isSome = true ↔ ∃ x ∈ xs, nameOf x = name := by
  unfold getByName
  simp [List.find?_isSome]

theorem getByName_append {α : Type} (nameOf : α → String) (xs ys : List α) (name : String) :
    getByName nameOf (xs ++ ys) name =
      (getByName nameOf xs name).or (getByName nameOf ys name) := by
  unfold getByName
  rw [List.find?_append]

theorem getByName_singleton {α : Type} (nameOf : α → String) (x : α) (name : String) :
    getByName nameOf [x] name = if nameOf x = name then some x else none := by
  unfold getByName
  by_cases h : nameOf x = name <;> simp [List.find?, h]

theorem mem_removeByName {α : Type} {nameOf : α → String} {xs : List α} {name : String} {y : α} :
    y ∈ removeByName nameOf xs name ↔ y ∈ xs ∧ nameOf y ≠ name := by
  unfold removeByName
  simp [List.mem_filter]

theorem removeByName_of_absent {α : Type} {nameOf : α → String} {xs : List α} {name : String}
    (h : getByName nameOf xs name = none) : removeByName nameOf xs name = xs := by
  unfold removeByName
  rw [List.filter_eq_self]
  intro x hx
  simpa using getByName_eq_none_iff.mp h x hx

theorem getByName_removeByName_self {α : Type} (nameOf : α → String) (xs : List α)
    (name : String) : getByName nameOf (removeByName nameOf xs name) name = none := by
  rw [getByName_eq_none_iff]
  intro x hx
  exact (mem_removeByName.mp hx).2

theorem getByName_removeByName_of_ne {α : Type} (nameOf : α → String) (xs : List α)
    {name other : String} (h : other ≠ name) :
    getByName nameOf (removeByName nameOf xs other) name = getByName nameOf xs name := by
  simp only [getByName, removeByName, ne_eq, decide_not]
  induction xs with
  | nil => rfl
  | cons x rest ih =>
    by_cases hx : nameOf x = other
    · have hxn : ¬ nameOf x = name := fun h' => h (hx ▸ h')
      have hon : ¬ other = name := h
      rw [List.filter_cons, List.find?_cons]
      simp only [hx, hon, decide_True, decide_False, Bool.not_true, Bool.false_eq_true,
        if_false]
      exact ih
    · rw [List.filter_cons]
      simp only [hx, decide_False, Bool.not_false, if_true]
      by_cases hxn : nameOf x = name
      · rw [List.find?_cons, List.find?_cons]
        simp only [hxn, decide_True]
      · rw [List.find?_cons, List.find?_cons]
        simp only [hxn, decide_False]
        exact ih

theorem mem_replaceByName {α : Type} {nameOf : α → String} {xs : List α} {obj y : α} :
    y ∈ replaceByName nameOf xs obj ↔
      (y ∈ xs ∧ nameOf y ≠ nameOf obj) ∨ (y = obj ∧ ∃ x ∈ xs, nameOf x = nameOf obj) := by
  unfold replaceByName
  rw [List.mem_map]
  constructor
  · rintro ⟨x, hx, rfl⟩
    by_cases h : nameOf x = nameOf obj
    · right; simp only [h, if_true]; exact ⟨trivial, x, hx, h⟩
    · left; simp only [h, if_false]; exact ⟨hx, h⟩
  · rintro (⟨hy, hne⟩ | ⟨rfl, x, hx, hxn⟩)
    · exact ⟨y, hy, by simp [hne]⟩
    · exact ⟨x, hx, by simp [hxn]⟩

theorem getByName_replaceByName_of_ne {α : Type} (nameOf : α → String) (xs : List α) (obj : α)
    {name : String} (h : nameOf obj ≠ name) :
    getByName nameOf (replaceByName nameOf xs obj) name = getByName nameOf xs name := by
  simp only [getByName, replaceByName]
  induction xs with
  | nil => rfl
  | cons x rest ih =>
    rw [List.map_cons, List.find?_cons, List.find?_cons]
    by_cases hx : nameOf x = nameOf obj
    · have hxn : ¬ nameOf x = name := fun h' => h (hx ▸ h')
      have hon : ¬ nameOf obj = name := h
      simp only [hx, hxn, hon, if_true, decide_False]
      exact ih
    · simp only [hx, if_false]
      by_cases hxn : nameOf x = name
      · simp only [hxn, decide_True]
      · simp only [hxn, decide_False]
        exact ih

theorem getByName_replaceByName_self {α : Type} (nameOf : α → String) (xs : List α) (obj : α)
    (h : (getByName nameOf xs (nameOf obj)).isSome = true) :
    getByName nameOf (replaceByName nameOf xs obj) (nameOf obj) = some obj := by
  simp only [getByName, replaceByName] at *
  induction xs with
  | nil => simp at h
  | cons x rest ih =>
    rw [List.map_cons, List.find?_cons]
    rw [List.find?_cons] at h
    by_cases hx : nameOf x = nameOf obj
    · simp only [hx, if_true, decide_True]
    · simp only [hx, decide_False] at h
      simp only [hx, if_false, decide_False]
      exact ih h

/-- Replacing an object by itself changes nothing when every object of that
name already is that object. -/
theorem replaceByName_of_all_eq {α : Type} {nameOf : α → String} {xs : List α} {obj : α}
    (h : ∀ x ∈ xs, nameOf x = nameOf obj → x = obj) : replaceByName nameOf xs obj = xs := by
  unfold replaceByName
  conv_rhs => rw [← List.map_id xs]
  apply List.map_congr_left
  intro x hx
  by_cases hn : nameOf x = nameOf obj
  · simp [hn, h x hx hn]
  · simp [hn]

theorem mem_sortByName {α : Type} {nameOf : α → String} {xs : List α} {y : α} :
    y ∈ sortByName nameOf xs ↔ y ∈ xs := by
  unfold sortByName
  exact (List.perm_insertionSort _ _).mem_iff

theorem sortByName_perm {α : Type} (nameOf : α → String) (xs : List α) :
    (sortByName nameOf xs).Perm xs := by
  unfold sortByName
  exact List.perm_insertionSort _ _

theorem mem_storeList {α : Type} {nameOf : α → String} {labelsOf : α → GoMap} {xs : List α}
    {selector : List Requirement} {y : α} :
    y ∈ storeList nameOf labelsOf xs selector ↔
      y ∈ xs ∧ selectorMatches selector (labelsOf y) = true := by
  unfold storeList
  rw [mem_sortByName, List.mem_filter]

theorem storeList_perm {α : Type} (nameOf : α → String) (labelsOf : α → GoMap) (xs : List α)
    (selector : List Requirement) :
    (storeList nameOf labelsOf xs selector).Perm
      (xs.filter (fun x => selectorMatches selector (labelsOf x))) :=
  sortByName_perm _ _

theorem storeList_eq_nil_iff {α : Type} {nameOf : α → String} {labelsOf : α → GoMap}
    {xs : List α} {selector : List Requirement} :
    storeList nameOf labelsOf xs selector = [] ↔
      ∀ x ∈ xs, selectorMatches selector (labelsOf x) = false := by
  constructor
  · intro h x hx
    by_contra hne
    have : x ∈ storeList nameOf labelsOf xs selector :=
      mem_storeList.mpr ⟨hx, by simpa using hne⟩
    rw [h] at this
    cases this
  · intro h
    apply List.eq_nil_iff_forall_not_mem.mpr
    intro x hx
    have := mem_storeList.mp hx
    rw [h x this.1] at this
    cases this.2

/-! ## Successful calls -/

theorem M.bind_ok_inv {α β : Type} {m : M α} {f : α → M β} {w : World} {b : β}
    (h : ((m >>= f) w).res = .ok b) :
    ∃ a, (m w).res = .ok a ∧ (m >>= f) w = (f a (m w).world).prepend (m w).calls := by
  rw [M.bind_eq] at h ⊢
  rcases M.andThen_cases m f w with ⟨e, _, h1⟩ | ⟨a, ha, h1⟩
  · rw [h1] at h; cases h
  · exact ⟨a, ha, h1⟩

theorem Fault.toErr_IsNotFound (f : Fault) : f.toErr.IsNotFound = false := by
  cases f <;> rfl

/-! ## The node lister's cache -/

theorem Store.cachedNode_name (s : Store) (n : Node) : (s.cachedNode n).name = n.name := by
  unfold Store.cachedNode
  cases h : getByName Node.name s.editedNodes n.name with
  | none => rfl
  | some m => exact ProjectReconciler.getByName_name h

theorem Store.nodeCache_names (s : Store) :
    s.nodeCache.map Node.name = s.nodes.map Node.name := by
  unfold Store.nodeCache
  rw [List.map_map]
  exact List.map_congr_left (fun n _ => s.cachedNode_name n)

/-- Without objects changed in place the lister hands out the stored nodes. -/
theorem Store.nodeCache_of_clean {s : Store} (h : s.editedNodes = []) : s.nodeCache = s.nodes := by
  unfold Store.nodeCache
  have : s.cachedNode = id := by
    funext n
    unfold Store.cachedNode
    rw [h]
    rfl
  rw [this, List.map_id]

theorem getByName_map_of_name {xs : List Node} {f : Node → Node} (hf : ∀ n, (f n).name = n.name)
    (name : String) :
    getByName Node.name (xs.map f) name = (getByName Node.name xs name).map f := by
  induction xs with
  | nil => rfl
  | cons x rest ih =>
    unfold getByName at ih ⊢
    rw [List.map_cons, List.find?_cons, List.find?_cons, hf x]
    by_cases hx : x.name = name
    · simp [hx]
    · simp only [hx, decide_False]
      exact ih

/-- The lister hands out an object under a name exactly when a node of that
name is stored: the object of its cache for that node. -/
theorem Store.getByName_nodeCache (s : Store) (name : String) :
    getByName Node.name s.nodeCache name = (getByName Node.name s.nodes name).map s.cachedNode :=
  getByName_map_of_name s.cachedNode_name name

theorem Store.getByName_nodeCache_eq_none {s : Store} {name : String} :
    getByName Node.name s.nodeCache name = none ↔ getByName Node.name s.nodes name = none := by
  rw [s.getByName_nodeCache]
  cases getByName Node.name s.nodes name <;> simp

theorem Store.getByName_nodeCache_isSome {s : Store} {name : String} :
    (getByName Node.name s.nodeCache name).isSome = (getByName Node.name s.nodes name).isSome := by
  rw [s.getByName_nodeCache]
  cases getByName Node.name s.nodes name <;> rfl

theorem Store.cachedNode_withEdit (s : Store) (n m : Node) :
    (s.withEdit n).cachedNode m = if m.name = n.name then n else s.cachedNode m := by
  unfold Store.cachedNode Store.withEdit
  show (getByName Node.name (n :: removeByName Node.name s.editedNodes n.name) m.name).getD m = _
  by_cases h : m.name = n.name
  · rw [if_pos h]
    unfold getByName
    rw [List.find?_cons]
    simp [h]
  · rw [if_neg h]
    have h' : n.name ≠ m.name := fun e => h e.symm
    have : getByName Node.name (n :: removeByName Node.name s.editedNodes n.name) m.name =
        getByName Node.name (removeByName Node.name s.editedNodes n.name) m.name := by
      unfold getByName
      rw [List.find?_cons]
      simp [h']
    rw [this, getByName_removeByName_of_ne _ _ h']

theorem map_ite_name (xs : List Node) (g : Node → Node) (hg : ∀ m, (g m).name = m.name)
    (n : Node) :
    xs.map (fun m => if m.name = n.name then n else g m) =
      replaceByName Node.name (xs.map g) n := by
  unfold replaceByName
  rw [List.map_map]
  apply List.map_congr_left
  intro m _
  show _ = if (g m).name = n.name then n else g m
  rw [hg m]

/-- A change made in place shows in the lister's cache at once. -/
theorem Store.nodeCache_withEdit (s : Store) (n : Node) :
    (s.withEdit n).nodeCache = replaceByName Node.name s.nodeCache n := by
  unfold Store.nodeCache
  rw [← map_ite_name s.nodes s.cachedNode s.cachedNode_name n]
  show s.nodes.map (s.withEdit n).cachedNode = _
  exact List.map_congr_left (fun m _ => s.cachedNode_withEdit n m)

theorem Store.nodes_withEdit (s : Store) (n : Node) : (s.withEdit n).nodes = s.nodes := rfl

/-- A stored node update shows in the lister's cache as the stored node. -/
theorem Store.nodeCache_updated (s : Store) (n : Node) :
    ({ s with nodes := replaceByName Node.name s.nodes n, editedNodes := removeByName Node.name s.editedNodes n.name } : Store).nodeCache =
      replaceByName Node.name s.nodeCache n := by
  unfold Store.nodeCache
  rw [← map_ite_name s.nodes s.cachedNode s.cachedNode_name n]
  show (replaceByName Node.name s.nodes n).map _ = _
  unfold replaceByName
  rw [List.map_map]
  apply List.map_congr_left
  intro m _
  show Store.cachedNode _ (if m.name = n.name then n else m) = _
  by_cases h : m.name = n.name
  · rw [if_pos h, if_pos h]
    unfold Store.cachedNode
    show (getByName Node.name (removeByName Node.name s.editedNodes n.name) n.name).getD n = n
    rw [getByName_removeByName_self]
    rfl
  · rw [if_neg h, if_neg h]
    unfold Store.cachedNode
    show (getByName Node.name (removeByName Node.name s.editedNodes n.name) m.name).getD m = _
    rw [getByName_removeByName_of_ne _ _ (fun e => h e.symm)]

namespace ProjectReconciler

theorem listProjectRoleBinding_run (q : String) (w : World) :
    (∃ f, w.nextFault = some f ∧ IAMOperator.ListProjectRoleBinding q w =
      ⟨.error f.toErr, w.advance, [⟨.listProjectRoleBinding q, some f.toErr⟩]⟩) ∨
    (w.nextFault = none ∧ IAMOperator.ListProjectRoleBinding q w =
      ⟨.ok (storeList RoleBinding.name (fun b => b.objectMeta.labels)
          w.store.projectRoleBindings (parseSelector q)), w.advance,
        [⟨.listProjectRoleBinding q, none⟩]⟩) := by
  unfold IAMOperator.ListProjectRoleBinding
  cases hf : w.nextFault with
  | some f => left; exact ⟨f, rfl, storeCall_of_fault _ _ hf⟩
  | none => right; exact ⟨rfl, storeCall_of_ok _ _ hf rfl⟩

theorem listProjectRoles_run (q : String) (w : World) :
    (∃ f, w.nextFault = some f ∧ IAMOperator.ListProjectRoles q w =
      ⟨.error f.toErr, w.advance, [⟨.listProjectRoles q, some f.toErr⟩]⟩) ∨
    (w.nextFault = none ∧ IAMOperator.ListProjectRoles q w =
      ⟨.ok (storeList ProjectRole.name (fun b => b.objectMeta.labels)
          w.store.projectRoles (parseSelector q)), w.advance,
        [⟨.listProjectRoles q, none⟩]⟩) := by
  unfold IAMOperator.ListProjectRoles
  cases hf : w.nextFault with
  | some f => left; exact ⟨f, rfl, storeCall_of_fault _ _ hf⟩
  | none => right; exact ⟨rfl, storeCall_of_ok _ _ hf rfl⟩

theorem listClusters_run (sel : List Requirement) (w : World) :
    (∃ f, w.nextFault = some f ∧ ClusterLister.List sel w =
      ⟨.error f.toErr, w.advance, [⟨.listClusters sel, some f.toErr⟩]⟩) ∨
    (w.nextFault = none ∧ ClusterLister.List sel w =
      ⟨.ok (storeList Cluster.name (fun c => c.objectMeta.labels) w.store.clusters sel),
        w.advance, [⟨.listClusters sel, none⟩]⟩) := by
  unfold ClusterLister.List
  cases hf : w.nextFault with
  | some f => left; exact ⟨f, rfl, storeCall_of_fault _ _ hf⟩
  | none => right; exact ⟨rfl, storeCall_of_ok _ _ hf rfl⟩

theorem listNodes_run (sel : List Requirement) (w : World) :
    (∃ f, w.nextFault = some f ∧ NodeLister.List sel w =
      ⟨.error f.toErr, w.advance, [⟨.listNodes sel, some f.toErr⟩]⟩) ∨
    (w.nextFault = none ∧ NodeLister.List sel w =
      ⟨.ok (storeList Node.name (fun c => c.objectMeta.labels) w.store.nodeCache sel),
        w.advance, [⟨.listNodes sel, none⟩]⟩) := by
  unfold NodeLister.List
  cases hf : w.nextFault with
  | some f => left; exact ⟨f, rfl, storeCall_of_fault _ _ hf⟩
  | none => right; exact ⟨rfl, storeCall_of_ok _ _ hf rfl⟩

/-- What a get returns: a scheduled failure, the stored object, or not-found. -/
theorem getProjectRole_run (name : String) (w : World) :
    (∃ f, w.nextFault = some f ∧ IAMOperator.GetProjectRole name w =
      ⟨.error f.toErr, w.advance, [⟨.getProjectRole name, some f.toErr⟩]⟩) ∨
    (∃ r, w.nextFault = none ∧
      getByName ProjectRole.name w.store.projectRoles name = some r ∧
      IAMOperator.GetProjectRole name w = ⟨.ok r, w.advance, [⟨.getProjectRole name, none⟩]⟩) ∨
    (w.nextFault = none ∧ getByName ProjectRole.name w.store.projectRoles name = none ∧
      IAMOperator.GetProjectRole name w =
        ⟨.error .notFound, w.advance, [⟨.getProjectRole name, some .notFound⟩]⟩) := by
  unfold IAMOperator.GetProjectRole
  cases hf : w.nextFault with
  | some f => left; exact ⟨f, rfl, storeCall_of_fault _ _ hf⟩
  | none =>
    right
    cases hg : getByName ProjectRole.name w.store.projectRoles name with
    | some r => left; exact ⟨r, rfl, rfl, storeCall_of_ok _ _ hf (by simp [storeGet, hg])⟩
    | none => right; exact ⟨rfl, rfl, storeCall_of_error _ _ hf (by simp [storeGet, hg])⟩

theorem getNode_run (name : String) (w : World) :
    (∃ f, w.nextFault = some f ∧ NodeLister.Get name w =
      ⟨.error f.toErr, w.advance, [⟨.getNode name, some f.toErr⟩]⟩) ∨
    (∃ n, w.nextFault = none ∧ getByName Node.name w.store.nodeCache name = some n ∧
      NodeLister.Get name w = ⟨.ok n, w.advance, [⟨.getNode name, none⟩]⟩) ∨
    (w.nextFault = none ∧ getByName Node.name w.store.nodeCache name = none ∧
      NodeLister.Get name w = ⟨.error .notFound, w.advance, [⟨.getNode name, some .notFound⟩]⟩) := by
  unfold NodeLister.Get
  cases hf : w.nextFault with
  | some f => left; exact ⟨f, rfl, storeCall_of_fault _ _ hf⟩
  | none =>
    right
    cases hg : getByName Node.name w.store.nodeCache name with
    | some r => left; exact ⟨r, rfl, rfl, storeCall_of_ok _ _ hf (by simp [storeGet, hg])⟩
    | none => right; exact ⟨rfl, rfl, storeCall_of_error _ _ hf (by simp [storeGet, hg])⟩

theorem getProject_run (name : String) (w : World) :
    (∃ f, w.nextFault = some f ∧ ProjectLister.Get name w =
      ⟨.error f.toErr, w.advance, [⟨.getProject name, some f.toErr⟩]⟩) ∨
    (∃ p, w.nextFault = none ∧ getByName Project.name w.store.projects name = some p ∧
      ProjectLister.Get name w = ⟨.ok p, w.advance, [⟨.getProject name, none⟩]⟩) ∨
    (w.nextFault = none ∧ getByName Project.name w.store.projects name = none ∧
      ProjectLister.Get name w =
        ⟨.error .notFound, w.advance, [⟨.getProject name, some .notFound⟩]⟩) := by
  unfold ProjectLister.Get
  cases hf : w.nextFault with
  | some f => left; exact ⟨f, rfl, storeCall_of_fault _ _ hf⟩
  | none =>
    right
    cases hg : getByName Project.name w.store.projects name with
    | some r => left; exact ⟨r, rfl, rfl, storeCall_of_ok _ _ hf (by simp [storeGet, hg])⟩
    | none => right; exact ⟨rfl, rfl, storeCall_of_error _ _ hf (by simp [storeGet, hg])⟩

/-- What a create does: a scheduled failure, AlreadyExists, or the object appended. -/
theorem createProjectRoleBinding_run (b : RoleBinding) (w : World) :
    (∃ f, w.nextFault = some f ∧ IAMOperator.CreateProjectRoleBinding b w =
      ⟨.error f.toErr, w.advance, [⟨.createProjectRoleBinding b, some f.toErr⟩]⟩) ∨
    (w.nextFault = none ∧
      getByName RoleBinding.name w.store.projectRoleBindings b.name = none ∧
      IAMOperator.CreateProjectRoleBinding b w =
        ⟨.ok b, World.mk
          { w.store with projectRoleBindings := w.store.projectRoleBindings ++ [b] }
          w.faults.tail, [⟨.createProjectRoleBinding b, none⟩]⟩) ∨
    (w.nextFault = none ∧
      (getByName RoleBinding.name w.store.projectRoleBindings b.name).isSome = true ∧
      IAMOperator.CreateProjectRoleBinding b w =
        ⟨.error .alreadyExists, w.advance,
          [⟨.createProjectRoleBinding b, some .alreadyExists⟩]⟩) := by
  unfold IAMOperator.CreateProjectRoleBinding
  cases hf : w.nextFault with
  | some f => left; exact ⟨f, rfl, storeCall_of_fault _ _ hf⟩
  | none =>
    right
    cases hg : getByName RoleBinding.name w.store.projectRoleBindings b.name with
    | some r =>
      right
      exact ⟨rfl, rfl, storeCall_of_error _ _ hf (by simp [storeCreate, hg])⟩
    | none => left; exact ⟨rfl, rfl, storeCall_of_ok _ _ hf (by simp [storeCreate, hg])⟩

theorem createProjectRole_run (r : ProjectRole) (w : World) :
    (∃ f, w.nextFault = some f ∧ IAMOperator.CreateProjectRole r w =
      ⟨.error f.toErr, w.advance, [⟨.createProjectRole r, some f.toErr⟩]⟩) ∨
    (w.nextFault = none ∧ getByName ProjectRole.name w.store.projectRoles r.name = none ∧
      IAMOperator.CreateProjectRole r w =
        ⟨.ok r, World.mk
          { w.store with projectRoles := w.store.projectRoles ++ [r] }
          w.faults.tail, [⟨.createProjectRole r, none⟩]⟩) ∨
    (w.nextFault = none ∧
      (getByName ProjectRole.name w.store.projectRoles r.name).isSome = true ∧
      IAMOperator.CreateProjectRole r w =
        ⟨.error .alreadyExists, w.advance, [⟨.createProjectRole r, some .alreadyExists⟩]⟩) := by
  unfold IAMOperator.CreateProjectRole
  cases hf : w.nextFault with
  | some f => left; exact ⟨f, rfl, storeCall_of_fault _ _ hf⟩
  | none =>
    right
    cases hg : getByName ProjectRole.name w.store.projectRoles r.name with
    | some r' =>
      right
      exact ⟨rfl, rfl, storeCall_of_error _ _ hf (by simp [storeCreate, hg])⟩
    | none => left; exact ⟨rfl, rfl, storeCall_of_ok _ _ hf (by simp [storeCreate, hg])⟩

/-- What an update does: a scheduled failure, not-found, or the object replaced. -/
theorem updateProjectRole_run (r : ProjectRole) (w : World) :
    (∃ f, w.nextFault = some f ∧ IAMOperator.UpdateProjectRole r w =
      ⟨.error f.toErr, w.advance, [⟨.updateProjectRole r, some f.toErr⟩]⟩) ∨
    (w.nextFault = none ∧
      (getByName ProjectRole.name w.store.projectRoles r.name).isSome = true ∧
      IAMOperator.UpdateProjectRole r w =
        ⟨.ok r, World.mk
          { w.store with projectRoles := replaceByName ProjectRole.name w.store.projectRoles r }
          w.faults.tail, [⟨.updateProjectRole r, none⟩]⟩) ∨
    (w.nextFault = none ∧ getByName ProjectRole.name w.store.projectRoles r.name = none ∧
      IAMOperator.UpdateProjectRole r w =
        ⟨.error .notFound, w.advance, [⟨.updateProjectRole r, some .notFound⟩]⟩) := by
  unfold IAMOperator.UpdateProjectRole
  cases hf : w.nextFault with
  | some f => left; exact ⟨f, rfl, storeCall_of_fault _ _ hf⟩
  | none =>
    right
    cases hg : getByName ProjectRole.name w.store.projectRoles r.name with
    | some r' => left; exact ⟨rfl, rfl, storeCall_of_ok _ _ hf (by simp [storeUpdate, hg])⟩
    | none => right; exact ⟨rfl, rfl, storeCall_of_error _ _ hf (by simp [storeUpdate, hg])⟩

theorem updateProject_run (p : Project) (w : World) :
    (∃ f, w.nextFault = some f ∧ ProjectWriter.UpdateProject p w =
      ⟨.error f.toErr, w.advance, [⟨.updateProject p, some f.toErr⟩]⟩) ∨
    (w.nextFault = none ∧ (getByName Project.name w.store.projects p.name).isSome = true ∧
      ProjectWriter.UpdateProject p w =
        ⟨.ok p, World.mk
          { w.store with projects := replaceByName Project.name w.store.projects p }
          w.faults.tail, [⟨.updateProject p, none⟩]⟩) ∨
    (w.nextFault = none ∧ getByName Project.name w.store.projects p.name = none ∧
      ProjectWriter.UpdateProject p w =
        ⟨.error .notFound, w.advance, [⟨.updateProject p, some .notFound⟩]⟩) := by
  unfold ProjectWriter.UpdateProject
  cases hf : w.nextFault with
  | some f => left; exact ⟨f, rfl, storeCall_of_fault _ _ hf⟩
  | none =>
    right
    cases hg : getByName Project.name w.store.projects p.name with
    | some r' => left; exact ⟨rfl, rfl, storeCall_of_ok _ _ hf (by simp [storeUpdate, hg])⟩
    | none => right; exact ⟨rfl, rfl, storeCall_of_error _ _ hf (by simp [storeUpdate, hg])⟩

theorem updateNode_run (n : Node) (w : World) :
    (∃ f, w.nextFault = some f ∧ NodeWriter.UpdateNode n w =
      ⟨.error f.toErr, w.advance, [⟨.updateNode n, some f.toErr⟩]⟩) ∨
    (w.nextFault = none ∧ (getByName Node.name w.store.nodes n.name).isSome = true ∧
      NodeWriter.UpdateNode n w =
        ⟨.ok n, World.mk
          { w.store with nodes := replaceByName Node.name w.store.nodes n, editedNodes := removeByName Node.name w.store.editedNodes n.name }
          w.faults.tail, [⟨.updateNode n, none⟩]⟩) ∨
    (w.nextFault = none ∧ getByName Node.name w.store.nodes n.name = none ∧
      NodeWriter.UpdateNode n w =
        ⟨.error .notFound, w.advance, [⟨.updateNode n, some .notFound⟩]⟩) := by
  unfold NodeWriter.UpdateNode
  cases hf : w.nextFault with
  | some f => left; exact ⟨f, rfl, storeCall_of_fault _ _ hf⟩
  | none =>
    right
    cases hg : getByName Node.name w.store.nodes n.name with
    | some r' => left; exact ⟨rfl, rfl, storeCall_of_ok _ _ hf (by simp [storeUpdate, hg])⟩
    | none => right; exact ⟨rfl, rfl, storeCall_of_error _ _ hf (by simp [storeUpdate, hg])⟩

/-- What a delete that tolerates not-found does: it fails only with a
scheduled failure; otherwise no object of that name is left. -/
theorem deleteProjectRoleBinding_tolerant_run (name : String) (w : World) :
    (∃ f, w.nextFault = some f ∧
      tolerateNotFound (IAMOperator.DeleteProjectRoleBinding name) w =
        ⟨.error f.toErr, w.advance, [⟨.deleteProjectRoleBinding name, some f.toErr⟩]⟩) ∨
    (∃ e, w.nextFault = none ∧
      (e = none ↔ (getByName RoleBinding.name w.store.projectRoleBindings name).isSome = true) ∧
      (e = some .notFound ↔ getByName RoleBinding.name w.store.projectRoleBindings name = none) ∧
      tolerateNotFound (IAMOperator.DeleteProjectRoleBinding name) w =
        ⟨.ok (), World.mk
          { w.store with projectRoleBindings := removeByName RoleBinding.name w.store.projectRoleBindings name }
          w.faults.tail, [⟨.deleteProjectRoleBinding name, e⟩]⟩) := by
  obtain ⟨h1, h2, h3⟩ := tolerateNotFound_storeCall (.deleteProjectRoleBinding name)
    (fun s => match storeDelete RoleBinding.name s.projectRoleBindings name with
      | .ok l => .ok ((), { s with projectRoleBindings := l })
      | .error e => .error e) w
  change (tolerateNotFound (IAMOperator.DeleteProjectRoleBinding name) w).calls =
    (IAMOperator.DeleteProjectRoleBinding name w).calls at h1
  change (tolerateNotFound (IAMOperator.DeleteProjectRoleBinding name) w).world =
    (IAMOperator.DeleteProjectRoleBinding name w).world at h2
  change (tolerateNotFound (IAMOperator.DeleteProjectRoleBinding name) w).res =
    (match (IAMOperator.DeleteProjectRoleBinding name w).res with
      | .ok _ => .ok ()
      | .error e => if e.IsNotFound then .ok () else .error e) at h3
  have hout : ∀ o : Out Unit, tolerateNotFound (IAMOperator.DeleteProjectRoleBinding name) w =
      ⟨o.res, o.world, o.calls⟩ →
      tolerateNotFound (IAMOperator.DeleteProjectRoleBinding name) w = o := fun o h => h
  cases hf : w.nextFault with
  | some f =>
    left
    refine ⟨f, rfl, ?_⟩
    have hd : IAMOperator.DeleteProjectRoleBinding name w =
        ⟨.error f.toErr, w.advance, [⟨.deleteProjectRoleBinding name, some f.toErr⟩]⟩ :=
      storeCall_of_fault _ _ hf
    rw [hd] at h1 h2 h3
    simp only [Fault.toErr_IsNotFound, Bool.false_eq_true, if_false] at h3
    rcases hw : tolerateNotFound (IAMOperator.DeleteProjectRoleBinding name) w with ⟨r, w', c⟩
    rw [hw] at h1 h2 h3
    simp only at h1 h2 h3
    rw [h1, h2, h3]
  | none =>
    right
    cases hg : getByName RoleBinding.name w.store.projectRoleBindings name with
    | some r' =>
      refine ⟨none, rfl, by simp, by simp, ?_⟩
      have hd : IAMOperator.DeleteProjectRoleBinding name w =
          ⟨.ok (), World.mk
          { w.store with projectRoleBindings := removeByName RoleBinding.name w.store.projectRoleBindings name }
          w.faults.tail, [⟨.deleteProjectRoleBinding name, none⟩]⟩ :=
        storeCall_of_ok _ _ hf (by simp [storeDelete, hg])
      rw [hd] at h1 h2 h3
      rcases hw : tolerateNotFound (IAMOperator.DeleteProjectRoleBinding name) w with ⟨r, w', c⟩
      rw [hw] at h1 h2 h3
      simp only at h1 h2 h3
      rw [h1, h2, h3]
    | none =>
      refine ⟨some .notFound, rfl, by simp, by simp, ?_⟩
      have hd : IAMOperator.DeleteProjectRoleBinding name w =
          ⟨.error .notFound, w.advance, [⟨.deleteProjectRoleBinding name, some .notFound⟩]⟩ :=
        storeCall_of_error _ _ hf (by simp [storeDelete, hg])
      rw [hd] at h1 h2 h3
      rcases hw : tolerateNotFound (IAMOperator.DeleteProjectRoleBinding name) w with ⟨r, w', c⟩
      rw [hw] at h1 h2 h3
      simp only [Err.IsNotFound, if_true] at h1 h2 h3
      rw [h1, h2, h3, removeByName_of_absent hg]
      rfl

theorem deleteRoleBinding_tolerant_run (name : String) (w : World) :
    (∃ f, w.nextFault = some f ∧
      tolerateNotFound (IAMOperator.DeleteRoleBinding name) w =
        ⟨.error f.toErr, w.advance, [⟨.deleteRoleBinding name, some f.toErr⟩]⟩) ∨
    (∃ e, w.nextFault = none ∧
      (e = none ↔ (getByName RoleBinding.name w.store.roleBindings name).isSome = true) ∧
      (e = some .notFound ↔ getByName RoleBinding.name w.store.roleBindings name = none) ∧
      tolerateNotFound (IAMOperator.DeleteRoleBinding name) w =
        ⟨.ok (), World.mk
          { w.store with roleBindings := removeByName RoleBinding.name w.store.roleBindings name }
          w.faults.tail, [⟨.deleteRoleBinding name, e⟩]⟩) := by
  obtain ⟨h1, h2, h3⟩ := tolerateNotFound_storeCall (.deleteRoleBinding name)
    (fun s => match storeDelete RoleBinding.name s.roleBindings name with
      | .ok l => .ok ((), { s with roleBindings := l })
      | .error e => .error e) w
  change (tolerateNotFound (IAMOperator.DeleteRoleBinding name) w).calls =
    (IAMOperator.DeleteRoleBinding name w).calls at h1
  change (tolerateNotFound (IAMOperator.DeleteRoleBinding name) w).world =
    (IAMOperator.DeleteRoleBinding name w).world at h2
  change (tolerateNotFound (IAMOperator.DeleteRoleBinding name) w).res =
    (match (IAMOperator.DeleteRoleBinding name w).res with
      | .ok _ => .ok ()
      | .error e => if e.IsNotFound then .ok () else .error e) at h3
  have hout : ∀ o : Out Unit, tolerateNotFound (IAMOperator.DeleteRoleBinding name) w =
      ⟨o.res, o.world, o.calls⟩ →
      tolerateNotFound (IAMOperator.DeleteRoleBinding name) w = o := fun o h => h
  cases hf : w.nextFault with
  | some f =>
    left
    refine ⟨f, rfl, ?_⟩
    have hd : IAMOperator.DeleteRoleBinding name w =
        ⟨.error f.toErr, w.advance, [⟨.deleteRoleBinding name, some f.toErr⟩]⟩ :=
      storeCall_of_fault _ _ hf
    rw [hd] at h1 h2 h3
    simp only [Fault.toErr_IsNotFound, Bool.false_eq_true, if_false] at h3
    rcases hw : tolerateNotFound (IAMOperator.DeleteRoleBinding name) w with ⟨r, w', c⟩
    rw [hw] at h1 h2 h3
    simp only at h1 h2 h3
    rw [h1, h2, h3]
  | none =>
    right
    cases hg : getByName RoleBinding.name w.store.roleBindings name with
    | some r' =>
      refine ⟨none, rfl, by simp, by simp, ?_⟩
      have hd : IAMOperator.DeleteRoleBinding name w =
          ⟨.ok (), World.mk
          { w.store with roleBindings := removeByName RoleBinding.name w.store.roleBindings name }
          w.faults.tail, [⟨.deleteRoleBinding name, none⟩]⟩ :=
        storeCall_of_ok _ _ hf (by simp [storeDelete, hg])
      rw [hd] at h1 h2 h3
      rcases hw : tolerateNotFound (IAMOperator.DeleteRoleBinding name) w with ⟨r, w', c⟩
      rw [hw] at h1 h2 h3
      simp only at h1 h2 h3
      rw [h1, h2, h3]
    | none =>
      refine ⟨some .notFound, rfl, by simp, by simp, ?_⟩
      have hd : IAMOperator.DeleteRoleBinding name w =
          ⟨.error .notFound, w.advance, [⟨.deleteRoleBinding name, some .notFound⟩]⟩ :=
        storeCall_of_error _ _ hf (by simp [storeDelete, hg])
      rw [hd] at h1 h2 h3
      rcases hw : tolerateNotFound (IAMOperator.DeleteRoleBinding name) w with ⟨r, w', c⟩
      rw [hw] at h1 h2 h3
      simp only [Err.IsNotFound, if_true] at h1 h2 h3
      rw [h1, h2, h3, removeByName_of_absent hg]
      rfl

theorem deleteProjectRole_tolerant_run (name : String) (w : World) :
    (∃ f, w.nextFault = some f ∧
      tolerateNotFound (IAMOperator.DeleteProjectRole name) w =
        ⟨.error f.toErr, w.advance, [⟨.deleteProjectRole name, some f.toErr⟩]⟩) ∨
    (∃ e, w.nextFault = none ∧
      (e = none ↔ (getByName ProjectRole.name w.store.projectRoles name).isSome = true) ∧
      (e = some .notFound ↔ getByName ProjectRole.name w.store.projectRoles name = none) ∧
      tolerateNotFound (IAMOperator.DeleteProjectRole name) w =
        ⟨.ok (), World.mk
          { w.store with projectRoles := removeByName ProjectRole.name w.store.projectRoles name }
          w.faults.tail, [⟨.deleteProjectRole name, e⟩]⟩) := by
  obtain ⟨h1, h2, h3⟩ := tolerateNotFound_storeCall (.deleteProjectRole name)
    (fun s => match storeDelete ProjectRole.name s.projectRoles name with
      | .ok l => .ok ((), { s with projectRoles := l })
      | .error e => .error e) w
  change (tolerateNotFound (IAMOperator.DeleteProjectRole name) w).calls =
    (IAMOperator.DeleteProjectRole name w).calls at h1
  change (tolerateNotFound (IAMOperator.DeleteProjectRole name) w).world =
    (IAMOperator.DeleteProjectRole name w).world at h2
  change (tolerateNotFound (IAMOperator.DeleteProjectRole name) w).res =
    (match (IAMOperator.DeleteProjectRole name w).res with
      | .ok _ => .ok ()
      | .error e => if e.IsNotFound then .ok () else .error e) at h3
  have hout : ∀ o : Out Unit, tolerateNotFound (IAMOperator.DeleteProjectRole name) w =
      ⟨o.res, o.world, o.calls⟩ →
      tolerateNotFound (IAMOperator.DeleteProjectRole name) w = o := fun o h => h
  cases hf : w.nextFault with
  | some f =>
    left
    refine ⟨f, rfl, ?_⟩
    have hd : IAMOperator.DeleteProjectRole name w =
        ⟨.error f.toErr, w.advance, [⟨.deleteProjectRole name, some f.toErr⟩]⟩ :=
      storeCall_of_fault _ _ hf
    rw [hd] at h1 h2 h3
    simp only [Fault.toErr_IsNotFound, Bool.false_eq_true, if_false] at h3
    rcases hw : tolerateNotFound (IAMOperator.DeleteProjectRole name) w with ⟨r, w', c⟩
    rw [hw] at h1 h2 h3
    simp only at h1 h2 h3
    rw [h1, h2, h3]
  | none =>
    right
    cases hg : getByName ProjectRole.name w.store.projectRoles name with
    | some r' =>
      refine ⟨none, rfl, by simp, by simp, ?_⟩
      have hd : IAMOperator.DeleteProjectRole name w =
          ⟨.ok (), World.mk
          { w.store with projectRoles := removeByName ProjectRole.name w.store.projectRoles name }
          w.faults.tail, [⟨.deleteProjectRole name, none⟩]⟩ :=
        storeCall_of_ok _ _ hf (by simp [storeDelete, hg])
      rw [hd] at h1 h2 h3
      rcases hw : tolerateNotFound (IAMOperator.DeleteProjectRole name) w with ⟨r, w', c⟩
      rw [hw] at h1 h2 h3
      simp only at h1 h2 h3
      rw [h1, h2, h3]
    | none =>
      refine ⟨some .notFound, rfl, by simp, by simp, ?_⟩
      have hd : IAMOperator.DeleteProjectRole name w =
          ⟨.error .notFound, w.advance, [⟨.deleteProjectRole name, some .notFound⟩]⟩ :=
        storeCall_of_error _ _ hf (by simp [storeDelete, hg])
      rw [hd] at h1 h2 h3
      rcases hw : tolerateNotFound (IAMOperator.DeleteProjectRole name) w with ⟨r, w', c⟩
      rw [hw] at h1 h2 h3
      simp only [Err.IsNotFound, if_true] at h1 h2 h3
      rw [h1, h2, h3, removeByName_of_absent hg]
      rfl

end ProjectReconciler

theorem M.bind_of_eq_ok {α β : Type} {m : M α} (f : α → M β) {w w1 : World} {a : α}
    {c1 : List Call} (h : m w = ⟨.ok a, w1, c1⟩) : (m >>= f) w = (f a w1).prepend c1 := by
  rw [M.bind_eq, M.andThen_of_ok f (a := a) (by rw [h]), h]
  rfl

theorem M.bind_of_eq_error {α β : Type} {m : M α} (f : α → M β) {w w1 : World} {e : Err}
    {c1 : List Call} (h : m w = ⟨.error e, w1, c1⟩) : (m >>= f) w = ⟨.error e, w1, c1⟩ := by
  rw [M.bind_eq, M.andThen_of_error f (e := e) (by rw [h]), h]

theorem M.pure_run {α : Type} (a : α) (w : World) : (pure a : M α) w = ⟨.ok a, w, []⟩ := rfl

theorem M.fail_run {α : Type} (e : Err) (w : World) : (M.fail e : M α) w = ⟨.error e, w, []⟩ :=
  rfl

theorem M.ofExcept_run {α : Type} (r : Except Err α) (w : World) :
    (M.ofExcept r : M α) w = ⟨r, w, []⟩ := rfl

theorem World.advance_store (w : World) : w.advance.store = w.store := rfl

theorem World.advance_faults (w : World) : w.advance.faults = w.faults.tail := rfl

namespace ProjectReconciler

/-- The manager-binding listing, for a project whose name is a label value:
the bindings carrying both labels, by name. -/
theorem mem_managerBindings {p : Project} (hvalid : validLabelValue p.name = true)
    (bs : List RoleBinding) (b : RoleBinding) :
    b ∈ storeList RoleBinding.name (fun b => b.objectMeta.labels) bs
        (parseSelector (managerBindingQuery p)) ↔
      b ∈ bs ∧ (Requirement.equals LabelProject p.name).holds b.objectMeta.labels = true ∧
        (Requirement.equals LabelProjectRoleBindingManager "true").holds b.objectMeta.labels =
          true := by
  rw [mem_storeList, parseSelector_managerBindingQuery hvalid]
  simp [selectorMatches]

end ProjectReconciler

theorem M.ofExcept_ok_bind {α β : Type} (a : α) (f : α → M β) :
    (M.ofExcept (.ok a) >>= f) = f a := by
  funext w
  rfl

theorem M.pure_bind_run {α β : Type} (a : α) (f : α → M β) (w : World) :
    ((pure a : M α) >>= f) w = f a w := rfl

namespace ProjectReconciler

/-- Whether `initManagerRoleBinding` treats a listed binding as stale. -/
theorem body_of_fresh {p : Project} {target item : RoleBinding}
    (h : item.subjects.head?.map Subject.name = some p.spec.manager) :
    initManagerRoleBindingBody p target item = pure () := by
  unfold initManagerRoleBindingBody
  have hlen : item.subjects.length ≠ 0 := by
    intro h0
    rw [List.length_eq_zero] at h0
    rw [h0] at h
    cases h
  simp [hlen, h]

theorem body_of_stale {p : Project} {target item : RoleBinding} {old : Subject}
    {more : List Subject} (hsub : item.subjects = old :: more)
    (hold : old.name ≠ p.spec.manager) :
    initManagerRoleBindingBody p target item =
      (tolerateNotFound (IAMOperator.DeleteProjectRoleBinding item.name) >>= fun _ =>
        tolerateNotFound (IAMOperator.DeleteRoleBinding (p.name ++ "-" ++ old.name)) >>= fun _ =>
          IAMOperator.CreateProjectRoleBinding target >>= fun _ => (pure () : M Unit)) := by
  unfold initManagerRoleBindingBody
  simp only [hsub, List.length_cons, List.head?_cons, Option.map_some', index0]
  have : (some old.name ≠ some p.spec.manager) := fun h => hold (Option.some.inj h)
  simp only [this, decide_True, Bool.or_true, if_true, ne_eq, not_false_eq_true]
  rw [M.ofExcept_ok_bind]

end ProjectReconciler

theorem World.nextFault_of_faults_nil {w : World} (h : w.faults = []) : w.nextFault = none := by
  unfold World.nextFault
  rw [h]

theorem World.faults_ne_nil_of_nextFault {w : World} {f : Fault} (h : w.nextFault = some f) :
    w.faults ≠ [] := by
  intro h0
  rw [World.nextFault_of_faults_nil h0] at h
  cases h

namespace ProjectReconciler

/-- What the loop body of `initManagerRoleBinding` does for a stale binding:
it stops at a scheduled failure, or deletes the binding and the legacy global
binding and then either creates the desired binding or stops at AlreadyExists. -/
theorem body_stale_cases (p : Project) (target : RoleBinding) {item : RoleBinding} {old : Subject}
    {more : List Subject} (hsub : item.subjects = old :: more)
    (hold : old.name ≠ p.spec.manager) (w : World) :
    (∃ f : Fault, (initManagerRoleBindingBody p target item w).res = .error f.toErr ∧
      w.faults ≠ []) ∨
    ((initManagerRoleBindingBody p target item w).res = .ok () ∧
      getByName RoleBinding.name
        (removeByName RoleBinding.name w.store.projectRoleBindings item.name) target.name =
          none ∧
      (initManagerRoleBindingBody p target item w).world =
        World.mk { w.store with projectRoleBindings := removeByName RoleBinding.name w.store.projectRoleBindings item.name ++ [target], roleBindings := removeByName RoleBinding.name w.store.roleBindings (p.name ++ "-" ++ old.name) } w.faults.tail.tail.tail ∧
      ∃ e1 e2, (initManagerRoleBindingBody p target item w).calls =
        [⟨.deleteProjectRoleBinding item.name, e1⟩,
          ⟨.deleteRoleBinding (p.name ++ "-" ++ old.name), e2⟩,
          ⟨.createProjectRoleBinding target, none⟩] ∧
        (e1 = none ↔
          (getByName RoleBinding.name w.store.projectRoleBindings item.name).isSome = true)) ∨
    ((initManagerRoleBindingBody p target item w).res = .error .alreadyExists ∧
      (getByName RoleBinding.name
        (removeByName RoleBinding.name w.store.projectRoleBindings item.name)
          target.name).isSome = true ∧
      (initManagerRoleBindingBody p target item w).world =
        World.mk { w.store with projectRoleBindings := removeByName RoleBinding.name w.store.projectRoleBindings item.name, roleBindings := removeByName RoleBinding.name w.store.roleBindings (p.name ++ "-" ++ old.name) } w.faults.tail.tail.tail) := by
  rw [body_of_stale hsub hold]
  rcases deleteProjectRoleBinding_tolerant_run item.name w with
    ⟨f, hf, h1⟩ | ⟨e1, hf1, he1, _, h1⟩
  · left
    exact ⟨f, by rw [M.bind_of_eq_error _ h1], World.faults_ne_nil_of_nextFault hf⟩
  rw [M.bind_of_eq_ok _ h1]
  rcases deleteRoleBinding_tolerant_run (p.name ++ "-" ++ old.name)
      (World.mk { w.store with projectRoleBindings := removeByName RoleBinding.name w.store.projectRoleBindings item.name } w.faults.tail) with
    ⟨f, hf, h2⟩ | ⟨e2, hf2, _, _, h2⟩
  · left
    refine ⟨f, by rw [M.bind_of_eq_error _ h2]; rfl, ?_⟩
    intro h0
    have : (World.mk { w.store with projectRoleBindings := removeByName RoleBinding.name w.store.projectRoleBindings item.name } w.faults.tail).faults = [] := by
      show w.faults.tail = []
      rw [h0]; rfl
    exact World.faults_ne_nil_of_nextFault hf this
  rw [M.bind_of_eq_ok _ h2]
  rcases createProjectRoleBinding_run target
      (World.mk { w.store with projectRoleBindings := removeByName RoleBinding.name w.store.projectRoleBindings item.name, roleBindings := removeByName RoleBinding.name w.store.roleBindings (p.name ++ "-" ++ old.name) } w.faults.tail.tail) with
    ⟨f, hf, h3⟩ | ⟨_, hg, h3⟩ | ⟨_, hg, h3⟩
  · left
    refine ⟨f, by rw [M.bind_of_eq_error _ h3]; rfl, ?_⟩
    intro h0
    have : (World.mk { w.store with projectRoleBindings := removeByName RoleBinding.name w.store.projectRoleBindings item.name, roleBindings := removeByName RoleBinding.name w.store.roleBindings (p.name ++ "-" ++ old.name) } w.faults.tail.tail).faults = [] := by
      show w.faults.tail.tail = []
      rw [h0]; rfl
    exact World.faults_ne_nil_of_nextFault hf this
  · right; left
    rw [M.bind_of_eq_ok _ h3, M.pure_run]
    exact ⟨rfl, hg, rfl, e1, e2, rfl, he1⟩
  · right; right
    rw [M.bind_of_eq_error _ h3]
    exact ⟨rfl, hg, rfl⟩

end ProjectReconciler

namespace ProjectReconciler

theorem initManagerRoleBindingLoop_nil (p : Project) (target : RoleBinding) :
    initManagerRoleBindingLoop p target [] = pure () := rfl

theorem initManagerRoleBindingLoop_cons (p : Project) (target item : RoleBinding)
    (rest : List RoleBinding) :
    initManagerRoleBindingLoop p target (item :: rest) =
      (initManagerRoleBindingBody p target item >>= fun _ =>
        initManagerRoleBindingLoop p target rest) := rfl

/-- `initManagerRoleBinding` when the listing is not empty: the listing call
followed by the loop over the listed bindings. -/
theorem initManagerRoleBinding_of_listed {p : Project} {w : World} {items : List RoleBinding}
    (hfault : w.nextFault = none) (hne : items ≠ [])
    (hlist : storeList RoleBinding.name (fun b => b.objectMeta.labels)
      w.store.projectRoleBindings (parseSelector (managerBindingQuery p)) = items) :
    initManagerRoleBinding p w =
      (initManagerRoleBindingLoop p (managerBindingTarget p) items w.advance).prepend
        [⟨.listProjectRoleBinding (managerBindingQuery p), none⟩] := by
  unfold initManagerRoleBinding
  rcases listProjectRoleBinding_run (managerBindingQuery p) w with ⟨f, hf, _⟩ | ⟨_, h⟩
  · rw [hfault] at hf; cases hf
  · rw [M.bind_of_eq_ok _ h, hlist]
    have : items.length ≠ 0 := fun h0 => hne (List.length_eq_zero.mp h0)
    simp only [this, if_false]

theorem initManagerRoleBinding_of_fault {p : Project} {w : World} {f : Fault}
    (hfault : w.nextFault = some f) :
    initManagerRoleBinding p w =
      ⟨.error f.toErr, w.advance,
        [⟨.listProjectRoleBinding (managerBindingQuery p), some f.toErr⟩]⟩ := by
  unfold initManagerRoleBinding
  rcases listProjectRoleBinding_run (managerBindingQuery p) w with ⟨f', hf, h⟩ | ⟨hf, _⟩
  · rw [hfault] at hf; cases hf
    rw [M.bind_of_eq_error _ h]
  · rw [hfault] at hf; cases hf

/-- C7: when the manager-binding listing returns exactly one binding and its
first subject is not the current manager, a successful `initManagerRoleBinding`
has deleted that binding, leaves no global binding named `{project}-{old}`,
and leaves exactly one binding carrying the project label and the manager
marker: the one named `{project}-{manager}`, with the manager as subject and
role reference `{project}-admin`. -/
theorem initManagerRoleBinding_rotates_manager (w : World) (p : Project) (item : RoleBinding)
    (old : Subject) (more : List Subject) (hvalid : validLabelValue p.name = true)
    (hlist : storeList RoleBinding.name (fun b => b.objectMeta.labels)
      w.store.projectRoleBindings (parseSelector (managerBindingQuery p)) = [item])
    (hsub : item.subjects = old :: more) (hold : old.name ≠ p.spec.manager)
    (hok : (initManagerRoleBinding p w).res = .ok ()) :
    item ∉ (initManagerRoleBinding p w).world.store.projectRoleBindings ∧
      (⟨.deleteProjectRoleBinding item.name, none⟩ : Call) ∈ (initManagerRoleBinding p w).calls ∧
      getByName RoleBinding.name (initManagerRoleBinding p w).world.store.roleBindings
        (p.name ++ "-" ++ old.name) = none ∧
      (initManagerRoleBinding p w).world.store.projectRoleBindings.filter
        (fun b => (Requirement.equals LabelProject p.name).holds b.objectMeta.labels &&
          (Requirement.equals LabelProjectRoleBindingManager "true").holds b.objectMeta.labels) =
        [managerBindingTarget p] ∧
      (managerBindingTarget p).name = p.name ++ "-" ++ p.spec.manager ∧
      (managerBindingTarget p).subjects.map Subject.name = [p.spec.manager] ∧
      (managerBindingTarget p).roleRef.name = p.name ++ "-admin" := by
  have hmem : item ∈ w.store.projectRoleBindings := by
    have : item ∈ storeList RoleBinding.name (fun b => b.objectMeta.labels)
        w.store.projectRoleBindings (parseSelector (managerBindingQuery p)) := by
      rw [hlist]; exact List.mem_singleton_self _
    exact (mem_storeList.mp this).1
  have hfault : w.nextFault = none := by
    cases hf : w.nextFault with
    | none => rfl
    | some f => rw [initManagerRoleBinding_of_fault hf] at hok; cases hok
  have hrun := initManagerRoleBinding_of_listed hfault (List.cons_ne_nil _ _) hlist
  rw [initManagerRoleBindingLoop_cons, initManagerRoleBindingLoop_nil] at hrun
  rw [hrun] at hok ⊢
  rcases body_stale_cases p (managerBindingTarget p) hsub hold w.advance with
    ⟨f, hres, _⟩ | ⟨hres, hfree, hworld, e1, e2, hcalls, he1⟩ | ⟨hres, _, _⟩
  · rw [M.bind_eq, M.andThen_of_error _ hres] at hok; cases hok
  · rw [M.bind_eq, M.andThen_of_ok _ hres, M.pure_run]
    simp only [Out.prepend, hworld, hcalls, World.advance_store]
    have hisSome : (getByName RoleBinding.name w.store.projectRoleBindings item.name).isSome =
        true := getByName_isSome_iff.mpr ⟨item, hmem, rfl⟩
    have he1n : e1 = none := he1.mpr hisSome
    subst he1n
    refine ⟨?_, by simp, getByName_removeByName_self _ _ _, ?_, rfl, rfl, rfl⟩
    · intro hin
      rcases List.mem_append.mp hin with hin | hin
      · exact (mem_removeByName.mp hin).2 rfl
      · rw [List.mem_singleton] at hin
        have := congrArg (fun b => b.subjects.head?.map Subject.name) hin
        simp only [hsub, managerBindingTarget, List.head?_cons, Option.map_some'] at this
        exact hold (Option.some.inj this)
    · rw [List.filter_append]
      have h1 : (removeByName RoleBinding.name w.store.projectRoleBindings item.name).filter
          (fun b => (Requirement.equals LabelProject p.name).holds b.objectMeta.labels &&
            (Requirement.equals LabelProjectRoleBindingManager "true").holds
              b.objectMeta.labels) = [] := by
        rw [List.filter_eq_nil_iff]
        intro b hb hpred
        rw [Bool.and_eq_true] at hpred
        obtain ⟨hb1, hb2⟩ := mem_removeByName.mp hb
        have : b ∈ storeList RoleBinding.name (fun b => b.objectMeta.labels)
            w.store.projectRoleBindings (parseSelector (managerBindingQuery p)) :=
          (mem_managerBindings hvalid _ b).mpr ⟨hb1, hpred.1, hpred.2⟩
        rw [hlist, List.mem_singleton] at this
        exact hb2 (by rw [this])
      rw [h1, List.nil_append]
      have h2 : ((Requirement.equals LabelProject p.name).holds
            (managerBindingTarget p).objectMeta.labels &&
          (Requirement.equals LabelProjectRoleBindingManager "true").holds
            (managerBindingTarget p).objectMeta.labels) = true := by
        simp [managerBindingTarget, Requirement.holds, GoMap.has, GoMap.get, GoMap.find,
          LabelProject, LabelProjectRoleBindingManager]
      simp only [List.filter_cons, h2, if_true, List.filter_nil]
  · rw [M.bind_eq, M.andThen_of_error _ hres] at hok; cases hok

end ProjectReconciler

namespace ProjectReconciler

theorem body_of_not_stale {p : Project} {target item : RoleBinding}
    (h : isStaleBinding p item = false) :
    initManagerRoleBindingBody p target item = pure () := by
  unfold initManagerRoleBindingBody
  unfold isStaleBinding at h
  simp only [h, Bool.false_eq_true, if_false]

theorem subjects_of_stale {p : Project} {item : RoleBinding}
    (h : isStaleBinding p item = true) (hne : item.subjects ≠ []) :
    ∃ old more, item.subjects = old :: more ∧ old.name ≠ p.spec.manager := by
  cases hs : item.subjects with
  | nil => exact absurd hs hne
  | cons old more =>
    refine ⟨old, more, rfl, ?_⟩
    unfold isStaleBinding at h
    simp only [hs, List.length_cons, List.head?_cons, Option.map_some', Bool.or_eq_true,
      decide_eq_true_eq] at h
    rcases h with h | h
    · omega
    · exact fun h' => h (by rw [h'])

/-- C9 (as stated, refuted): in `twoStaleWorld` the listing returns the two
stale bindings of `alice` and `carol`, the store's create obeys AlreadyExists,
and `initManagerRoleBinding` returns that error instead of success, leaving
the second stale binding's deletion done but nothing created for it. -/
theorem initManagerRoleBinding_two_stale_fails :
    (initManagerRoleBinding projectOfBob twoStaleWorld).res = .error .alreadyExists ∧
      (initManagerRoleBinding projectOfBob twoStaleWorld).calls.map (fun c => (c.op, c.err)) =
        [ (.listProjectRoleBinding (managerBindingQuery projectOfBob), none),
          (.deleteProjectRoleBinding "p-alice", none),
          (.deleteRoleBinding "p-alice", some .notFound),
          (.createProjectRoleBinding (bindingOf "bob"), none),
          (.deleteProjectRoleBinding "p-carol", none),
          (.deleteRoleBinding "p-carol", some .notFound),
          (.createProjectRoleBinding (bindingOf "bob"), some .alreadyExists) ] := by
  decide!

theorem initManagerRoleBinding_rotates_manager_witness :
    (initManagerRoleBinding projectOfBob rotationWorld).world.store.projectRoleBindings.filter
        (fun b => (Requirement.equals LabelProject "p").holds b.objectMeta.labels &&
          (Requirement.equals LabelProjectRoleBindingManager "true").holds b.objectMeta.labels) =
      [managerBindingTarget projectOfBob] :=
  (initManagerRoleBinding_rotates_manager rotationWorld projectOfBob (bindingOf "alice")
    { apiGroup := "rbac.authorization.k8s.io", kind := KindUser, name := "alice" } []
    (by decide) (by decide!) rfl (by decide) (by decide!)).2.2.2.1

end ProjectReconciler

/-! ## Objects untouched by a log -/

theorem applyCall_getRole {s : Store} {c : Call} {name : String}
    (h : c.op.target ≠ some (.role, name)) :
    getByName ProjectRole.name (applyCall s c).projectRoles name =
      getByName ProjectRole.name s.projectRoles name := by
  unfold applyCall
  cases c with
  | mk op err =>
    cases err with
    | some e => cases op <;> rfl
    | none =>
      cases op <;> try rfl
      · rename_i r
        have hne : ProjectRole.name r ≠ name := fun h' => h (by simp [Op.target, h'])
        show getByName ProjectRole.name (s.projectRoles ++ [r]) name = _
        rw [getByName_append, getByName_singleton, if_neg hne]
        cases getByName ProjectRole.name s.projectRoles name <;> rfl
      · rename_i r
        have hne : ProjectRole.name r ≠ name := fun h' => h (by simp [Op.target, h'])
        exact getByName_replaceByName_of_ne _ _ _ hne
      · rename_i n
        have hne : n ≠ name := fun h' => h (by simp [Op.target, h'])
        exact getByName_removeByName_of_ne _ _ hne

theorem replay_getRole {calls : List Call} (s : Store) {name : String}
    (h : ∀ c ∈ calls, c.op.target ≠ some (.role, name)) :
    getByName ProjectRole.name (replay s calls).projectRoles name =
      getByName ProjectRole.name s.projectRoles name := by
  induction calls generalizing s with
  | nil => rfl
  | cons c cs ih =>
    rw [replay_cons, ih _ (fun c' hc' => h c' (List.mem_cons_of_mem _ hc')),
      applyCall_getRole (h c (List.mem_cons_self _ _))]

theorem applyCall_getNode {s : Store} {c : Call} {name : String}
    (h : c.op.target ≠ some (.node, name)) :
    getByName Node.name (applyCall s c).nodes name = getByName Node.name s.nodes name := by
  unfold applyCall
  cases c with
  | mk op err =>
    cases err with
    | some e => cases op <;> rfl
    | none =>
      cases op <;> try rfl
      · rename_i n
        have hne : Node.name n ≠ name := fun h' => h (by simp [Op.target, h'])
        exact getByName_replaceByName_of_ne _ _ _ hne

theorem replay_getNode {calls : List Call} (s : Store) {name : String}
    (h : ∀ c ∈ calls, c.op.target ≠ some (.node, name)) :
    getByName Node.name (replay s calls).nodes name = getByName Node.name s.nodes name := by
  induction calls generalizing s with
  | nil => rfl
  | cons c cs ih =>
    rw [replay_cons, ih _ (fun c' hc' => h c' (List.mem_cons_of_mem _ hc')),
      applyCall_getNode (h c (List.mem_cons_self _ _))]

namespace ProjectReconciler

/-! ## `initProjectRole` -/

theorem desiredRole_name (p : Project) (t : ProjectRole) :
    (desiredRole p t).name = p.name ++ "-" ++ t.name := rfl

theorem desiredRole_name_injective (p : Project) {t1 t2 : ProjectRole}
    (h : (desiredRole p t1).name = (desiredRole p t2).name) : t1.name = t2.name := by
  rw [desiredRole_name, desiredRole_name] at h
  have := congrArg String.data h
  simp only [String.data_append, List.append_assoc] at this
  have h2 := List.append_cancel_left (List.append_cancel_left this)
  exact String.ext h2

theorem initProjectRoleLoop_cons (p : Project) (t : ProjectRole) (rest : List ProjectRole) :
    initProjectRoleLoop p (t :: rest) =
      (initProjectRoleBody p t >>= fun _ => initProjectRoleLoop p rest) := rfl

/-- The condition under which `initProjectRole` updates a stored role. -/
theorem update_condition (rule stored : ProjectRole) :
    (!GoMap.deepEqual rule.objectMeta.labels stored.objectMeta.labels ||
      !GoMap.deepEqual rule.objectMeta.annotations stored.objectMeta.annotations ||
      decide (rule.rules ≠ stored.rules)) = !roleSettled rule stored := by
  unfold roleSettled
  cases GoMap.deepEqual rule.objectMeta.labels stored.objectMeta.labels <;>
    cases GoMap.deepEqual rule.objectMeta.annotations stored.objectMeta.annotations <;>
    by_cases h : rule.rules = stored.rules <;> simp [h]

/-- The successful runs of the loop body of `initProjectRole`: the role was
stored and equal (no write), stored and different (one update), or absent (one
create). -/
theorem initProjectRoleBody_ok {p : Project} {t : ProjectRole} {w : World}
    (h : (initProjectRoleBody p t w).res = .ok ()) :
    (∃ r, getByName ProjectRole.name w.store.projectRoles (desiredRole p t).name = some r ∧
      roleSettled (desiredRole p t) r = true ∧
      (initProjectRoleBody p t w).world.store = w.store ∧
      (initProjectRoleBody p t w).calls = [⟨.getProjectRole (desiredRole p t).name, none⟩]) ∨
    (∃ r, getByName ProjectRole.name w.store.projectRoles (desiredRole p t).name = some r ∧
      roleSettled (desiredRole p t) r = false ∧
      (initProjectRoleBody p t w).world.store.projectRoles =
        replaceByName ProjectRole.name w.store.projectRoles (desiredRole p t) ∧
      (initProjectRoleBody p t w).calls =
        [⟨.getProjectRole (desiredRole p t).name, none⟩,
          ⟨.updateProjectRole (desiredRole p t), none⟩]) ∨
    (getByName ProjectRole.name w.store.projectRoles (desiredRole p t).name = none ∧
      (initProjectRoleBody p t w).world.store.projectRoles =
        w.store.projectRoles ++ [desiredRole p t] ∧
      (initProjectRoleBody p t w).calls =
        [⟨.getProjectRole (desiredRole p t).name, some .notFound⟩,
          ⟨.createProjectRole (desiredRole p t), none⟩]) := by
  unfold initProjectRoleBody at h ⊢
  simp only [update_condition] at h ⊢
  rw [M.bind_eq] at h ⊢
  rw [M.andThen_of_ok _ (M.attempt_res _ _)] at h ⊢
  simp only [M.attempt_world, M.attempt_calls] at h ⊢
  rcases getProjectRole_run (desiredRole p t).name w with
    ⟨f, _, hg⟩ | ⟨r, _, hfound, hg⟩ | ⟨_, habsent, hg⟩
  · rw [hg] at h
    simp only [Fault.toErr_IsNotFound, Bool.false_eq_true, if_false, M.fail_run] at h
    cases h
  · rw [hg] at h ⊢
    simp only at h ⊢
    cases hs : roleSettled (desiredRole p t) r with
    | true =>
      left
      simp only [hs, Bool.not_true, Bool.false_eq_true, if_false, M.pure_run] at h ⊢
      exact ⟨r, hfound, hs, rfl, rfl⟩
    | false =>
      right; left
      simp only [hs, Bool.not_false, if_true] at h ⊢
      rcases updateProjectRole_run (desiredRole p t) w.advance with
        ⟨f, _, hu⟩ | ⟨_, _, hu⟩ | ⟨_, _, hu⟩
      · rw [M.bind_of_eq_error _ hu] at h; cases h
      · rw [M.bind_of_eq_ok _ hu, M.pure_run]
        exact ⟨r, hfound, hs, rfl, rfl⟩
      · rw [M.bind_of_eq_error _ hu] at h; cases h
  · rw [hg] at h ⊢
    simp only [Err.IsNotFound, if_true] at h ⊢
    right; right
    rcases createProjectRole_run (desiredRole p t) w.advance with
      ⟨f, _, hc⟩ | ⟨_, _, hc⟩ | ⟨_, _, hc⟩
    · rw [M.bind_of_eq_error _ hc] at h; cases h
    · rw [M.bind_of_eq_ok _ hc, M.pure_run]
      exact ⟨habsent, rfl, rfl⟩
    · rw [M.bind_of_eq_error _ hc] at h; cases h

end ProjectReconciler

/-! ## Deep equality of maps -/

theorem GoMap.find_of_mem {l : List (String × String)} (h : (l.map Prod.fst).Nodup)
    {k v : String} (hm : (k, v) ∈ l) : GoMap.find k l = some v := by
  induction l with
  | nil => cases hm
  | cons kv rest ih =>
    obtain ⟨k0, v0⟩ := kv
    rw [List.map_cons, List.nodup_cons] at h
    rcases List.mem_cons.mp hm with hm | hm
    · cases hm
      simp [GoMap.find]
    · have hne : k0 ≠ k := by
        intro h0
        apply h.1
        rw [h0]
        exact List.mem_map.mpr ⟨(k, v), hm, rfl⟩
      simp only [GoMap.find, hne, if_false]
      exact ih h.2 hm

/-- A map with distinct keys is deeply equal to itself. -/
theorem GoMap.deepEqual_self (m : GoMap)
    (h : ∀ l, m = some l → (l.map Prod.fst).Nodup) : GoMap.deepEqual m m = true := by
  cases m with
  | none => rfl
  | some l =>
    simp only [GoMap.deepEqual, decide_True, Bool.true_and, List.all_eq_true,
      decide_eq_true_eq]
    intro kv hkv
    exact GoMap.find_of_mem (h l rfl) hkv

theorem GoMap.find_setEntry_self (k v : String) (l : List (String × String)) :
    GoMap.find k (GoMap.setEntry k v l) = some v := by
  induction l with
  | nil => simp [GoMap.setEntry, GoMap.find]
  | cons kv rest ih =>
    obtain ⟨k0, v0⟩ := kv
    by_cases h : k0 = k
    · simp [GoMap.setEntry, GoMap.find, h]
    · simp [GoMap.setEntry, GoMap.find, h, ih]

namespace ProjectReconciler

/-- The templates of the catalog: their names, and no labels of their own. -/
theorem ProjectRoles_names : ProjectRoles.map ProjectRole.name = ["admin", "user", "view"] := by
  decide

theorem ProjectRoles_labels : ∀ t ∈ ProjectRoles, t.objectMeta.labels = none := by
  decide

theorem ProjectRoles_annotation_keys :
    ∀ t ∈ ProjectRoles, ∀ l, t.objectMeta.annotations = some l → (l.map Prod.fst).Nodup := by
  intro t ht l hl
  simp only [ProjectRoles, List.mem_cons, List.mem_singleton, List.not_mem_nil, or_false] at ht
  rcases ht with rfl | rfl | rfl <;> (cases hl; decide)

theorem desiredRole_labels_of_catalog (p : Project) {t : ProjectRole} (ht : t ∈ ProjectRoles) :
    (desiredRole p t).objectMeta.labels = some [(LabelProject, p.name)] := by
  unfold desiredRole
  simp only [ProjectRoles_labels t ht]
  rfl

theorem roleSettled_self_of_catalog (p : Project) {t : ProjectRole} (ht : t ∈ ProjectRoles) :
    roleSettled (desiredRole p t) (desiredRole p t) = true := by
  unfold roleSettled
  rw [desiredRole_labels_of_catalog p ht]
  have h1 : GoMap.deepEqual (some [(LabelProject, p.name)]) (some [(LabelProject, p.name)]) =
      true := GoMap.deepEqual_self _ (by intro l hl; cases hl; simp)
  have h2 : GoMap.deepEqual (desiredRole p t).objectMeta.annotations
      (desiredRole p t).objectMeta.annotations = true :=
    GoMap.deepEqual_self _ (ProjectRoles_annotation_keys t ht)
  rw [h1, h2]
  simp

/-- The calls of the loop of `initProjectRole` address only the roles of its templates. -/
theorem initProjectRoleLoop_avoids (p : Project) (ts : List ProjectRole) (name : String)
    (h : ∀ t ∈ ts, (desiredRole p t).name ≠ name) (w : World) :
    ∀ c ∈ (initProjectRoleLoop p ts w).calls, c.op.target ≠ some (.role, name) := by
  have := initProjectRoleLoop_issues p ts (Q := fun c => c.op.target ≠ some (.role, name))
    (fun _ _ _ => by simp [Op.target])
    (fun t ht _ => by
      simp only [Op.target, ne_eq, Option.some.injEq, Prod.mk.injEq, true_and]
      exact h t ht)
    (fun t ht _ => by
      simp only [Op.target, ne_eq, Option.some.injEq, Prod.mk.injEq, true_and]
      exact h t ht)
  exact (this w).1

/-- Outcome of a successful loop of `initProjectRole` over templates of distinct
names: every template's role is stored and passes the comparison, and a role
that was absent has been created as the desired role. -/
theorem initProjectRoleLoop_ok (p : Project) (ts : List ProjectRole) (w : World)
    (hnodup : (ts.map ProjectRole.name).Nodup)
    (hrefl : ∀ t ∈ ts, roleSettled (desiredRole p t) (desiredRole p t) = true)
    (h : (initProjectRoleLoop p ts w).res = .ok ()) :
    ∀ t ∈ ts,
      (∃ r, getByName ProjectRole.name (initProjectRoleLoop p ts w).world.store.projectRoles
          (desiredRole p t).name = some r ∧ roleSettled (desiredRole p t) r = true) ∧
      (getByName ProjectRole.name w.store.projectRoles (desiredRole p t).name = none →
        (⟨.createProjectRole (desiredRole p t), none⟩ : Call) ∈
          (initProjectRoleLoop p ts w).calls ∧
        getByName ProjectRole.name (initProjectRoleLoop p ts w).world.store.projectRoles
          (desiredRole p t).name = some (desiredRole p t)) := by
  induction ts generalizing w with
  | nil => intro t ht; cases ht
  | cons t0 rest ih =>
    rw [initProjectRoleLoop_cons] at h ⊢
    obtain ⟨u, hbody, heq⟩ := M.bind_ok_inv h
    rw [heq] at h ⊢
    have hnodup' := (List.nodup_cons.mp hnodup).2
    have hdiff : ∀ t ∈ rest, (desiredRole p t).name ≠ (desiredRole p t0).name := by
      intro t ht heq'
      apply (List.nodup_cons.mp hnodup).1
      rw [← desiredRole_name_injective p heq']
      exact List.mem_map.mpr ⟨t, ht, rfl⟩
    have hih := ih (initProjectRoleBody p t0 w).world hnodup'
      (fun t ht => hrefl t (List.mem_cons_of_mem _ ht)) h
    -- the rest of the loop leaves the role of `t0` alone
    have hkeep : getByName ProjectRole.name
        (initProjectRoleLoop p rest (initProjectRoleBody p t0 w).world).world.store.projectRoles
          (desiredRole p t0).name =
        getByName ProjectRole.name (initProjectRoleBody p t0 w).world.store.projectRoles
          (desiredRole p t0).name := by
      rw [initProjectRoleLoop_logged p rest (initProjectRoleBody p t0 w).world]
      exact replay_getRole _ (initProjectRoleLoop_avoids p rest _ hdiff _)
    -- the body for `t0` leaves the roles of the other templates alone
    have hframe : ∀ t ∈ rest, getByName ProjectRole.name
        (initProjectRoleBody p t0 w).world.store.projectRoles (desiredRole p t).name =
        getByName ProjectRole.name w.store.projectRoles (desiredRole p t).name := by
      intro t ht
      rw [initProjectRoleBody_logged p t0 w]
      apply replay_getRole
      have := initProjectRoleBody_issues p t0
        (Q := fun c => c.op.target ≠ some (.role, (desiredRole p t).name))
        (fun _ => by simp [Op.target])
        (fun _ => by
          simp only [Op.target, ne_eq, Option.some.injEq, Prod.mk.injEq, true_and]
          exact fun h' => hdiff t ht h'.symm)
        (fun _ => by
          simp only [Op.target, ne_eq, Option.some.injEq, Prod.mk.injEq, true_and]
          exact fun h' => hdiff t ht h'.symm)
      exact (this w).1
    intro t ht
    simp only [Out.prepend]
    rcases List.mem_cons.mp ht with rfl | ht
    · rw [hkeep]
      rcases initProjectRoleBody_ok hbody with
        ⟨r, hfound, hs, hstore, _⟩ | ⟨r, hfound, _, hstore, _⟩ | ⟨habsent, hstore, hcalls⟩
      · refine ⟨⟨r, by rw [hstore]; exact hfound, hs⟩, fun hnone => ?_⟩
        rw [hfound] at hnone; cases hnone
      · refine ⟨⟨desiredRole p t, ?_, hrefl _ (List.mem_cons_self _ _)⟩, fun hnone => ?_⟩
        · rw [hstore]
          exact getByName_replaceByName_self _ _ _ (by rw [hfound]; rfl)
        · rw [hfound] at hnone; cases hnone
      · have hget : getByName ProjectRole.name
            (initProjectRoleBody p t w).world.store.projectRoles (desiredRole p t).name =
            some (desiredRole p t) := by
          rw [hstore, getByName_append, habsent, getByName_singleton]
          simp
        refine ⟨⟨desiredRole p t, hget, hrefl _ (List.mem_cons_self _ _)⟩, fun _ => ⟨?_, hget⟩⟩
        rw [hcalls]
        simp
    · obtain ⟨h1, h2⟩ := hih t ht
      refine ⟨h1, fun hnone => ?_⟩
      rw [← hframe t ht] at hnone
      obtain ⟨h3, h4⟩ := h2 hnone
      exact ⟨List.mem_append_right _ h3, h4⟩

end ProjectReconciler

namespace ProjectReconciler

/-- C10: the catalog holds the three templates admin, user and view, in that
order; in a successful run of `initProjectRole`, every template whose role
`{project}-{template}` was not stored has been created under that name with
the template's rules and annotations and with the labels of the template plus
the project label, and afterwards the three roles `{project}-admin`,
`{project}-user` and `{project}-view` are all stored. -/
theorem initProjectRole_creates_missing_roles (w : World) (p : Project)
    (hok : (initProjectRole p w).res = .ok ()) :
    ProjectRoles.map ProjectRole.name = ["admin", "user", "view"] ∧
      (∀ t ∈ ProjectRoles,
        getByName ProjectRole.name w.store.projectRoles (p.name ++ "-" ++ t.name) = none →
          (⟨.createProjectRole (desiredRole p t), none⟩ : Call) ∈ (initProjectRole p w).calls ∧
          getByName ProjectRole.name (initProjectRole p w).world.store.projectRoles
            (p.name ++ "-" ++ t.name) = some (desiredRole p t)) ∧
      (∀ t ∈ ProjectRoles,
        (desiredRole p t).name = p.name ++ "-" ++ t.name ∧
        (desiredRole p t).rules = t.rules ∧
        (desiredRole p t).objectMeta.annotations = t.objectMeta.annotations ∧
        t.objectMeta.labels = none ∧
        (desiredRole p t).objectMeta.labels = some [(LabelProject, p.name)]) ∧
      (∀ n ∈ ["admin", "user", "view"],
        (getByName ProjectRole.name (initProjectRole p w).world.store.projectRoles
          (p.name ++ "-" ++ n)).isSome = true) := by
  have hloop := initProjectRoleLoop_ok p ProjectRoles w
    (by rw [ProjectRoles_names]; decide)
    (fun t ht => roleSettled_self_of_catalog p ht) hok
  refine ⟨ProjectRoles_names, ?_, ?_, ?_⟩
  · intro t ht habsent
    exact (hloop t ht).2 habsent
  · intro t ht
    exact ⟨rfl, rfl, rfl, ProjectRoles_labels t ht, desiredRole_labels_of_catalog p ht⟩
  · intro n hn
    rw [← ProjectRoles_names] at hn
    obtain ⟨t, ht, rfl⟩ := List.mem_map.mp hn
    obtain ⟨r, hr, _⟩ := (hloop t ht).1
    show (getByName ProjectRole.name (initProjectRoleLoop p ProjectRoles w).world.store.projectRoles
      (desiredRole p t).name).isSome = true
    rw [hr]
    rfl

theorem initProjectRole_creates_missing_roles_witness :
    (getByName ProjectRole.name
      (initProjectRole projectOfBob activeWorld).world.store.projectRoles
        (projectOfBob.name ++ "-" ++ "view")).isSome = true :=
  (initProjectRole_creates_missing_roles activeWorld projectOfBob (by decide!)).2.2.2
    "view" (by decide)

end ProjectReconciler

/-! ## More on string sets -/

theorem sets.NewString_nodup (l : List String) : (sets.NewString l).keys.Nodup := by
  unfold sets.NewString
  exact (List.perm_insertionSort _ _).nodup_iff.mpr (List.nodup_dedup l)

theorem sets.NewString_sorted (l : List String) :
    (sets.NewString l).keys.Sorted (· ≤ ·) := by
  unfold sets.NewString
  exact List.sorted_insertionSort _ _

/-- Building a set from the members of a set gives the set back. -/
theorem sets.NewString_keys (l : List String) :
    sets.NewString (sets.NewString l).keys = sets.NewString l := by
  have h1 := sets.NewString_nodup l
  have h2 := sets.NewString_sorted l
  show sets.StringSet.mk _ = _
  congr 1
  rw [List.Nodup.dedup h1]
  exact List.Sorted.insertionSort_eq h2

/-- Two duplicate-free sets are `Equal` exactly when they have the same members. -/
theorem sets.Equal_iff {a b : sets.StringSet} (ha : a.keys.Nodup) (hb : b.keys.Nodup) :
    a.Equal b = true ↔ ∀ x, x ∈ a.keys ↔ x ∈ b.keys := by
  unfold sets.StringSet.Equal sets.StringSet.Has
  simp only [Bool.and_eq_true, decide_eq_true_eq, List.all_eq_true]
  constructor
  · rintro ⟨hlen, hsub⟩ x
    constructor
    · intro hx
      have hsp : b.keys.Subperm a.keys := List.subperm_of_subset hb hsub
      have hperm : b.keys.Perm a.keys := hsp.perm_of_length_le (le_of_eq hlen)
      exact hperm.mem_iff.mpr hx
    · exact hsub x
  · intro h
    have hperm : a.keys.Perm b.keys := (List.perm_ext_iff_of_nodup ha hb).mpr h
    exact ⟨hperm.length_eq, fun x hx => (h x).mpr hx⟩

theorem sets.Equal_self (l : List String) :
    (sets.NewString l).Equal (sets.NewString l) = true :=
  (sets.Equal_iff (sets.NewString_nodup l) (sets.NewString_nodup l)).mpr (fun _ => Iff.rfl)

namespace ProjectReconciler

theorem collectNodes_nil (s : sets.StringSet) : collectNodes s [] = s := rfl

theorem collectNodes_cons (s : sets.StringSet) (c : Cluster) (rest : List Cluster) :
    collectNodes s (c :: rest) = collectNodes (s.Insert c.GetAllNodes.List) rest := rfl

theorem mem_collectNodes (s : sets.StringSet) (l : List Cluster) (x : String) :
    x ∈ (collectNodes s l).keys ↔ x ∈ s.keys ∨ ∃ c ∈ l, x ∈ c.nodes := by
  induction l generalizing s with
  | nil => simp [collectNodes]
  | cons c rest ih =>
    rw [collectNodes_cons, ih]
    simp only [sets.StringSet.Insert, sets.mem_NewString_keys, List.mem_append,
      Cluster.GetAllNodes, sets.StringSet.List, List.mem_cons, exists_eq_or_imp]
    tauto

theorem collectNodes_nodup (s : sets.StringSet) (l : List Cluster) (hs : s.keys.Nodup) :
    (collectNodes s l).keys.Nodup := by
  induction l generalizing s with
  | nil => exact hs
  | cons c rest ih =>
    rw [collectNodes_cons]
    exact ih _ (sets.NewString_nodup _)

theorem collectNodes_canonical (s : sets.StringSet) (l : List Cluster)
    (hs : sets.NewString s.keys = s) :
    sets.NewString (collectNodes s l).keys = collectNodes s l := by
  induction l generalizing s with
  | nil => exact hs
  | cons c rest ih =>
    rw [collectNodes_cons]
    exact ih _ (sets.NewString_keys _)

/-- The set built by the loop of `syncProjectNodeFromCluster` is rebuilt unchanged
from its own members. -/
theorem NewString_collectNodes (l : List Cluster) :
    sets.NewString (collectNodes (sets.NewString []) l).keys =
      collectNodes (sets.NewString []) l :=
  collectNodes_canonical _ l (sets.NewString_keys [])

end ProjectReconciler

theorem NewRequirement_of_valid {key value : String} (h : validLabelValue value = true) :
    NewRequirement key value = .ok (.equals key value) := by
  simp [NewRequirement, h]

theorem NewRequirement_of_invalid {key value : String} (h : validLabelValue value = false) :
    NewRequirement key value = .error .validation := by
  simp [NewRequirement, h]

theorem M.ofExcept_error_bind {α β : Type} (e : Err) (f : α → M β) (w : World) :
    ((M.ofExcept (.error e) : M α) >>= f) w = ⟨.error e, w, []⟩ := rfl

namespace ProjectReconciler

/-! ## `syncProjectNodeFromCluster` -/

/-- The project `syncProjectNodeFromCluster` persists when the sets differ. -/
theorem syncProjectNodeFromCluster_cases (p : Project) (w : World) :
    (validLabelValue p.name = false ∧
      syncProjectNodeFromCluster p w = ⟨.error .validation, w, []⟩) ∨
    (validLabelValue p.name = true ∧ ∃ f, w.nextFault = some f ∧
      syncProjectNodeFromCluster p w =
        ⟨.error f.toErr, w.advance,
          [⟨.listClusters [.equals LabelProject p.name], some f.toErr⟩]⟩) ∨
    (validLabelValue p.name = true ∧ w.nextFault = none ∧ NodesSettled w.store p ∧
      syncProjectNodeFromCluster p w =
        ⟨.ok p, w.advance, [⟨.listClusters [.equals LabelProject p.name], none⟩]⟩) ∨
    (validLabelValue p.name = true ∧ w.nextFault = none ∧ ¬ NodesSettled w.store p ∧
      syncProjectNodeFromCluster p w =
        ((ProjectWriter.UpdateProject
            { p with spec := { p.spec with nodes :=
                (collectNodes (sets.NewString []) (projectClusters w.store p)).List } } >>=
          fun _ => (pure { p with spec := { p.spec with nodes :=
                (collectNodes (sets.NewString []) (projectClusters w.store p)).List } } :
              M Project)) w.advance).prepend
          [⟨.listClusters [.equals LabelProject p.name], none⟩]) := by
  unfold syncProjectNodeFromCluster
  cases hv : validLabelValue p.name with
  | false =>
    left
    rw [NewRequirement_of_invalid hv]
    exact ⟨rfl, rfl⟩
  | true =>
    right
    rw [NewRequirement_of_valid hv, M.ofExcept_ok_bind]
    rcases listClusters_run [.equals LabelProject p.name] w with ⟨f, hf, h⟩ | ⟨hf, h⟩
    · left
      exact ⟨rfl, f, hf, by rw [M.bind_of_eq_error _ h]⟩
    · right
      rw [M.bind_of_eq_ok _ h]
      by_cases hs : NodesSettled w.store p
      · left
        refine ⟨rfl, hf, hs, ?_⟩
        unfold NodesSettled projectClusters at hs
        simp only [hs, Bool.not_true, Bool.false_eq_true, if_false]
        rfl
      · right
        refine ⟨rfl, hf, hs, ?_⟩
        unfold NodesSettled projectClusters at hs
        have hs' : (collectNodes (sets.NewString [])
            (storeList Cluster.name (fun c => c.objectMeta.labels) w.store.clusters
              [.equals LabelProject p.name])).Equal (sets.NewString p.spec.nodes) = false := by
          simpa using hs
        simp only [hs', Bool.not_false, if_true]
        rfl

end ProjectReconciler

namespace ProjectReconciler

theorem mem_projectClusters (s : Store) (p : Project) (c : Cluster) :
    c ∈ projectClusters s p ↔
      c ∈ s.clusters ∧ (Requirement.equals LabelProject p.name).holds c.objectMeta.labels = true := by
  unfold projectClusters
  rw [mem_storeList]
  simp [selectorMatches]

/-- The member list is settled exactly when its entries are the node
identifiers of the clusters labelled with the project. -/
theorem NodesSettled_iff (s : Store) (p : Project) :
    NodesSettled s p ↔
      ∀ x, x ∈ p.spec.nodes ↔
        ∃ c ∈ s.clusters,
          (Requirement.equals LabelProject p.name).holds c.objectMeta.labels = true ∧
            x ∈ c.nodes := by
  unfold NodesSettled
  rw [sets.Equal_iff (collectNodes_nodup _ _ (sets.NewString_nodup _)) (sets.NewString_nodup _)]
  have hkey : ∀ x, (x ∈ (collectNodes (sets.NewString []) (projectClusters s p)).keys ↔
      ∃ c ∈ s.clusters,
        (Requirement.equals LabelProject p.name).holds c.objectMeta.labels = true ∧
          x ∈ c.nodes) := by
    intro x
    rw [mem_collectNodes, sets.mem_NewString_keys]
    simp only [List.not_mem_nil, false_or, mem_projectClusters]
    constructor
    · rintro ⟨c, ⟨h1, h2⟩, h3⟩; exact ⟨c, h1, h2, h3⟩
    · rintro ⟨c, h1, h2, h3⟩; exact ⟨c, ⟨h1, h2⟩, h3⟩
  constructor
  · intro h x
    rw [← hkey x, h x, sets.mem_NewString_keys]
  · intro h x
    rw [hkey x, sets.mem_NewString_keys, h x]

/-- The successful runs of `syncProjectNodeFromCluster`: the member list was
already right and nothing is written, or the project is persisted with the
member list replaced by the listed clusters' nodes. -/
theorem syncProjectNodeFromCluster_ok {p p1 : Project} {w : World}
    (h : (syncProjectNodeFromCluster p w).res = .ok p1) :
    validLabelValue p.name = true ∧
      p1 = { p with spec := { p.spec with nodes := p1.spec.nodes } } ∧
      NodesSettled (syncProjectNodeFromCluster p w).world.store p1 ∧
      ((p1 = p ∧ (syncProjectNodeFromCluster p w).world.store = w.store ∧
          (syncProjectNodeFromCluster p w).calls =
            [⟨.listClusters [.equals LabelProject p.name], none⟩]) ∨
        ((syncProjectNodeFromCluster p w).world.store =
            { w.store with projects := replaceByName Project.name w.store.projects p1 } ∧
          (getByName Project.name w.store.projects p.name).isSome = true ∧
          p1.spec.nodes = (collectNodes (sets.NewString []) (projectClusters w.store p)).List ∧
          (syncProjectNodeFromCluster p w).calls =
            [⟨.listClusters [.equals LabelProject p.name], none⟩,
              ⟨.updateProject p1, none⟩])) := by
  rcases syncProjectNodeFromCluster_cases p w with
    ⟨_, hr⟩ | ⟨_, f, _, hr⟩ | ⟨hv, _, hs, hr⟩ | ⟨hv, _, _, hr⟩
  · rw [hr] at h; cases h
  · rw [hr] at h; cases h
  · rw [hr] at h ⊢
    cases h
    exact ⟨hv, rfl, hs, Or.inl ⟨rfl, rfl, rfl⟩⟩
  · rw [hr] at h ⊢
    generalize hq : ({ p with spec := { p.spec with nodes :=
      (collectNodes (sets.NewString []) (projectClusters w.store p)).List } } : Project) = q
      at h ⊢
    rcases updateProject_run q w.advance with ⟨f, _, hu⟩ | ⟨_, hsome, hu⟩ | ⟨_, _, hu⟩
    · rw [M.bind_of_eq_error _ hu] at h; cases h
    · rw [M.bind_of_eq_ok _ hu, M.pure_run] at h ⊢
      simp only [Out.prepend] at h ⊢
      cases h
      have hname : p1.name = p.name := by rw [← hq]; rfl
      have hn : p1.spec.nodes =
          (collectNodes (sets.NewString []) (projectClusters w.store p)).keys := by
        rw [← hq]; rfl
      refine ⟨hv, ?_, ?_, Or.inr ⟨rfl, by rw [← hname]; exact hsome, hn, rfl⟩⟩
      · rw [← hq]
      unfold NodesSettled projectClusters
      show (collectNodes (sets.NewString [])
        (storeList Cluster.name (fun c => c.objectMeta.labels) w.store.clusters
          [.equals LabelProject p1.name])).Equal (sets.NewString p1.spec.nodes) = true
      rw [hname, hn]
      show (collectNodes (sets.NewString []) (projectClusters w.store p)).Equal _ = true
      rw [NewString_collectNodes]
      exact (sets.Equal_iff (collectNodes_nodup _ _ (sets.NewString_nodup _))
        (collectNodes_nodup _ _ (sets.NewString_nodup _))).mpr (fun _ => Iff.rfl)
    · rw [M.bind_of_eq_error _ hu] at h; cases h

/-- When the member list is already right, `syncProjectNodeFromCluster` only
lists the clusters. -/
theorem syncProjectNodeFromCluster_quiet {p : Project} {w : World}
    (hs : NodesSettled w.store p) :
    (∀ c ∈ (syncProjectNodeFromCluster p w).calls, c.op.isWrite = false) ∧
      (syncProjectNodeFromCluster p w).world.store = w.store ∧
      ∀ p1, (syncProjectNodeFromCluster p w).res = .ok p1 → p1 = p := by
  rcases syncProjectNodeFromCluster_cases p w with
    ⟨_, hr⟩ | ⟨_, f, _, hr⟩ | ⟨hv, _, _, hr⟩ | ⟨hv, _, hns, hr⟩
  · rw [hr]
    exact ⟨fun c hc => (by cases hc), rfl, fun p1 h => (by cases h)⟩
  · rw [hr]
    refine ⟨fun c hc => ?_, rfl, fun p1 h => (by cases h)⟩
    simp only [List.mem_singleton] at hc
    subst hc; rfl
  · rw [hr]
    refine ⟨fun c hc => ?_, rfl, fun p1 h => (by cases h; rfl)⟩
    simp only [List.mem_singleton] at hc
    subst hc; rfl
  · exact absurd hs hns

end ProjectReconciler

/-! ## Label maps -/

theorem GoMap.find_filter_ne (k : String) (l : List (String × String)) :
    GoMap.find k (l.filter (fun kv => decide (kv.1 ≠ k))) = none := by
  induction l with
  | nil => rfl
  | cons kv rest ih =>
    obtain ⟨k0, v0⟩ := kv
    by_cases h : k0 = k
    · simp only [List.filter_cons, h, ne_eq, not_true_eq_false, decide_False,
        Bool.false_eq_true, if_false]
      exact ih
    · simp only [List.filter_cons, h, ne_eq, not_false_eq_true, decide_True, if_true,
        GoMap.find, if_false]
      exact ih

theorem GoMap.has_delete_self (m : GoMap) (k : String) : (GoMap.delete m k).has k = false := by
  cases m with
  | none => rfl
  | some l =>
    simp only [GoMap.delete, GoMap.has]
    rw [GoMap.find_filter_ne]
    rfl

theorem Requirement.holds_equals_delete (m : GoMap) (k v : String) :
    (Requirement.equals k v).holds (GoMap.delete m k) = false := by
  simp [Requirement.holds, GoMap.has_delete_self]

theorem GoMap.get_of_set {m m1 : GoMap} {k v : String} (h : GoMap.set m k v = .ok m1) :
    m1.get k = v := by
  cases m with
  | none => cases h
  | some l =>
    simp only [GoMap.set] at h
    cases h
    simp [GoMap.get, GoMap.find_setEntry_self]

namespace ProjectReconciler

/-! ## `syncNodeLabel` -/

theorem removeLabelLoop_nil (p : Project) : removeLabelLoop p [] = pure () := rfl

theorem removeLabelLoop_cons_member {p : Project} {node : Node} (rest : List Node)
    (h : node.name ∈ p.spec.nodes) :
    removeLabelLoop p (node :: rest) = removeLabelLoop p rest := by
  conv_lhs => unfold removeLabelLoop
  simp [sets.NewString_Has, h]

theorem removeLabelLoop_cons_left {p : Project} {node : Node} (rest : List Node)
    (h : node.name ∉ p.spec.nodes) :
    removeLabelLoop p (node :: rest) =
      (NodeLister.mutate
          { node with objectMeta :=
              { node.objectMeta with labels := node.objectMeta.labels.delete LabelProject } } >>=
        fun _ => M.attempt (NodeWriter.UpdateNode
          { node with objectMeta :=
              { node.objectMeta with labels := node.objectMeta.labels.delete LabelProject } }) >>=
        fun r =>
          match r with
          | .error err => M.fail (.withMessage ("delete node " ++ node.name ++ "'s label") err)
          | .ok _ => removeLabelLoop p rest) := by
  conv_lhs => unfold removeLabelLoop
  simp only [sets.NewString_Has, h, decide_False, Bool.not_false, if_true]
  try rfl

/-- After a successful first loop of `syncNodeLabel`, every node the lister
hands out labelled with the project is a member, provided the labelled nodes
outside the member list were all in the list given to the loop. -/
theorem removeLabelLoop_ok (p : Project) (nodes : List Node) (w : World)
    (hinv : ∀ n ∈ w.store.nodeCache,
      (Requirement.equals LabelProject p.name).holds n.objectMeta.labels = true →
        n.name ∈ p.spec.nodes ∨ n ∈ nodes)
    (h : (removeLabelLoop p nodes w).res = .ok ()) :
    ∀ n ∈ (removeLabelLoop p nodes w).world.store.nodeCache,
      (Requirement.equals LabelProject p.name).holds n.objectMeta.labels = true →
        n.name ∈ p.spec.nodes := by
  induction nodes generalizing w with
  | nil =>
    intro n hn hl
    rcases hinv n hn hl with h1 | h1
    · exact h1
    · cases h1
  | cons node rest ih =>
    by_cases hm : node.name ∈ p.spec.nodes
    · rw [removeLabelLoop_cons_member rest hm] at h ⊢
      apply ih w _ h
      intro n hn hl
      rcases hinv n hn hl with h1 | h1
      · exact Or.inl h1
      · rcases List.mem_cons.mp h1 with h2 | h2
        · left; rw [h2]; exact hm
        · exact Or.inr h2
    · rw [removeLabelLoop_cons_left rest hm] at h ⊢
      generalize hn1 : ({ node with objectMeta :=
        { node.objectMeta with labels := node.objectMeta.labels.delete LabelProject } } : Node) =
        node1 at h ⊢
      have hname1 : node1.name = node.name := by rw [← hn1]; rfl
      have hlab1 : (Requirement.equals LabelProject p.name).holds node1.objectMeta.labels =
          false := by
        rw [← hn1]; exact Requirement.holds_equals_delete _ _ _
      rw [M.mutate_bind_run] at h ⊢
      rcases updateNode_edited_run node1 w with ⟨f, _, hu⟩ | ⟨_, _, hu⟩ | ⟨_, _, hu⟩
      · rw [M.bind_eq, M.andThen_of_ok _ (M.attempt_res _ _), hu] at h
        cases h
      · rw [M.bind_eq, M.andThen_of_ok _ (M.attempt_res _ _)] at h ⊢
        simp only [M.attempt_world, M.attempt_calls, hu] at h ⊢
        apply ih _ _ h
        intro n hn hl
        rw [Store.nodeCache_updated] at hn
        rcases mem_replaceByName.mp hn with ⟨hn', hne⟩ | ⟨rfl, _⟩
        · rcases hinv n hn' hl with h1 | h1
          · exact Or.inl h1
          · rcases List.mem_cons.mp h1 with h2 | h2
            · exact absurd (by rw [h2, hname1]) hne
            · exact Or.inr h2
        · rw [hlab1] at hl; cases hl
      · rw [M.bind_eq, M.andThen_of_ok _ (M.attempt_res _ _), hu] at h
        cases h

/-- The first loop of `syncNodeLabel` does nothing when the listed nodes are all members. -/
theorem removeLabelLoop_quiet (p : Project) (nodes : List Node) (w : World)
    (h : ∀ n ∈ nodes, n.name ∈ p.spec.nodes) :
    removeLabelLoop p nodes w = ⟨.ok (), w, []⟩ := by
  induction nodes with
  | nil => rfl
  | cons node rest ih =>
    rw [removeLabelLoop_cons_member rest (h node (List.mem_cons_self _ _))]
    exact ih (fun n hn => h n (List.mem_cons_of_mem _ hn))

end ProjectReconciler

namespace ProjectReconciler

/-- The second loop of `syncNodeLabel` does nothing on an empty member list. -/
theorem addLabelLoop_nil (p : Project) : addLabelLoop p [] = pure () := rfl

theorem addLabelLoop_cons (p : Project) (nodeID : String) (rest : List String) :
    addLabelLoop p (nodeID :: rest) =
      (NodeLister.Get nodeID >>= fun node =>
        if node.objectMeta.labels.get LabelProject ≠ p.name then
          (M.ofExcept (node.objectMeta.labels.set LabelProject p.name) >>= fun labels =>
            NodeLister.mutate
              { node with objectMeta := { node.objectMeta with labels := labels } } >>= fun _ =>
            NodeWriter.UpdateNode
              { node with objectMeta := { node.objectMeta with labels := labels } } >>= fun _ =>
              addLabelLoop p rest)
        else addLabelLoop p rest) := by
  conv_lhs => unfold addLabelLoop

/-- One successful step of the second loop of `syncNodeLabel`: the lister
hands out the node; it was labelled already and nothing is written, or it is
persisted with the project label set. -/
theorem addLabelLoop_step {p : Project} {nodeID : String} {rest : List String} {w : World}
    (h : (addLabelLoop p (nodeID :: rest) w).res = .ok ()) :
    ∃ w1 : World, ∃ calls1 : List Call,
      addLabelLoop p (nodeID :: rest) w = (addLabelLoop p rest w1).prepend calls1 ∧
      ((∃ n, getByName Node.name w.store.nodeCache nodeID = some n ∧
          n.objectMeta.labels.get LabelProject = p.name ∧ w1.store = w.store ∧
          calls1 = [⟨.getNode nodeID, none⟩]) ∨
        (∃ n1 : Node, n1.name = nodeID ∧ n1.objectMeta.labels.get LabelProject = p.name ∧
          (getByName Node.name w.store.nodes nodeID).isSome = true ∧
          w1.store = { w.store with nodes := replaceByName Node.name w.store.nodes n1, editedNodes := removeByName Node.name w.store.editedNodes n1.name } ∧
          calls1 = [⟨.getNode nodeID, none⟩, ⟨.updateNode n1, none⟩])) := by
  rw [addLabelLoop_cons] at h ⊢
  rcases getNode_run nodeID w with ⟨f, _, hg⟩ | ⟨n, _, hfound, hg⟩ | ⟨_, _, hg⟩
  · rw [M.bind_of_eq_error _ hg] at h; cases h
  · rw [M.bind_of_eq_ok _ hg] at h ⊢
    by_cases hl : n.objectMeta.labels.get LabelProject = p.name
    · simp only [hl, ne_eq, not_true_eq_false, if_false] at h ⊢
      exact ⟨w.advance, _, rfl, Or.inl ⟨n, hfound, hl, rfl, rfl⟩⟩
    · simp only [hl, ne_eq, not_false_eq_true, if_true] at h ⊢
      cases hset : GoMap.set n.objectMeta.labels LabelProject p.name with
      | error e =>
        rw [hset, M.ofExcept_error_bind] at h
        cases h
      | ok labels =>
        rw [hset, M.ofExcept_ok_bind] at h
        rw [M.ofExcept_ok_bind]
        generalize hn1 : ({ n with objectMeta := { n.objectMeta with labels := labels } } : Node) =
          n1 at h ⊢
        have hname : n1.name = nodeID := by
          rw [← hn1]; exact getByName_name (x := n) hfound
        have hlab : n1.objectMeta.labels.get LabelProject = p.name := by
          rw [← hn1]; exact GoMap.get_of_set hset
        rw [M.mutate_bind_run] at h
        rw [M.mutate_bind_run]
        rcases updateNode_edited_run n1 w.advance with ⟨f, _, hu⟩ | ⟨_, hsome, hu⟩ | ⟨_, _, hu⟩
        · rw [M.bind_of_eq_error _ hu] at h; cases h
        · rw [M.bind_of_eq_ok _ hu] at h ⊢
          refine ⟨World.mk { w.store with nodes := replaceByName Node.name w.store.nodes n1, editedNodes := removeByName Node.name w.store.editedNodes n1.name }
              w.advance.faults.tail,
            [⟨.getNode nodeID, none⟩, ⟨.updateNode n1, none⟩], ?_,
            Or.inr ⟨n1, hname, hlab, by rw [← hname]; exact hsome, rfl, rfl⟩⟩
          rfl
        · rw [M.bind_of_eq_error _ hu] at h; cases h
  · rw [M.bind_of_eq_error _ hg] at h; cases h

/-- Outcome of a successful second loop of `syncNodeLabel`, as the lister
sees it: every listed identifier names a node handed out with the project
label, nodes labelled before stay so, and the labelled nodes stay within any
set of names that contains the listed identifiers. -/
theorem addLabelLoop_ok (p : Project) (ids : List String) (w : World)
    (h : (addLabelLoop p ids w).res = .ok ()) :
    (∀ id, (∃ n, getByName Node.name w.store.nodeCache id = some n ∧
        n.objectMeta.labels.get LabelProject = p.name) ∨ id ∈ ids →
      ∃ n, getByName Node.name (addLabelLoop p ids w).world.store.nodeCache id = some n ∧
        n.objectMeta.labels.get LabelProject = p.name) ∧
    (∀ names : List String, (∀ id ∈ ids, id ∈ names) →
      (∀ n ∈ w.store.nodeCache,
        (Requirement.equals LabelProject p.name).holds n.objectMeta.labels = true →
          n.name ∈ names) →
      ∀ n ∈ (addLabelLoop p ids w).world.store.nodeCache,
        (Requirement.equals LabelProject p.name).holds n.objectMeta.labels = true →
          n.name ∈ names) := by
  induction ids generalizing w with
  | nil =>
    refine ⟨?_, fun _ _ hinv => hinv⟩
    intro id hid
    rcases hid with hid | hid
    · exact hid
    · cases hid
  | cons nodeID rest ih =>
    obtain ⟨w1, calls1, heq, hstep⟩ := addLabelLoop_step h
    rw [heq] at h ⊢
    have hih := ih w1 h
    simp only [Out.prepend]
    constructor
    · intro id hid
      apply hih.1 id
      rcases hstep with ⟨n, hfound, hl, hstore, _⟩ | ⟨n1, hname, hl, hsome, hstore, _⟩
      · rw [hstore]
        rcases hid with hid | hid
        · exact Or.inl hid
        · rcases List.mem_cons.mp hid with rfl | hid
          · exact Or.inl ⟨n, hfound, hl⟩
          · exact Or.inr hid
      · rw [hstore, Store.nodeCache_updated]
        by_cases hsame : id = nodeID
        · left
          subst hsame
          refine ⟨n1, ?_, hl⟩
          rw [← hname]
          exact getByName_replaceByName_self _ _ _
            (by rw [hname, Store.getByName_nodeCache_isSome]; exact hsome)
        · rcases hid with ⟨n, hn, hnl⟩ | hid
          · left
            refine ⟨n, ?_, hnl⟩
            rw [getByName_replaceByName_of_ne _ _ _ (by rw [hname]; exact fun h' => hsame h'.symm)]
            exact hn
          · rcases List.mem_cons.mp hid with hid | hid
            · exact absurd hid hsame
            · exact Or.inr hid
    · intro names hnames hinv
      apply hih.2 names (fun id hid => hnames id (List.mem_cons_of_mem _ hid))
      rcases hstep with ⟨n, _, _, hstore, _⟩ | ⟨n1, hname, _, _, hstore, _⟩
      · rw [hstore]; exact hinv
      · rw [hstore, Store.nodeCache_updated]
        intro n hn hl
        rcases mem_replaceByName.mp hn with ⟨hn', _⟩ | ⟨rfl, _⟩
        · exact hinv n hn' hl
        · rw [hname]; exact hnames nodeID (List.mem_cons_self _ _)

/-- The second loop of `syncNodeLabel` only reads when every listed identifier
names a node the lister hands out labelled with the project. -/
theorem addLabelLoop_quiet (p : Project) (ids : List String) (w : World)
    (hl : ∀ id ∈ ids, ∃ n, getByName Node.name w.store.nodeCache id = some n ∧
      n.objectMeta.labels.get LabelProject = p.name) :
    (∀ c ∈ (addLabelLoop p ids w).calls, c.op.isWrite = false) ∧
      (addLabelLoop p ids w).world.store = w.store := by
  induction ids generalizing w with
  | nil => exact ⟨fun c hc => (by cases hc), rfl⟩
  | cons nodeID rest ih =>
    rw [addLabelLoop_cons]
    obtain ⟨n, hfound, hlab⟩ := hl nodeID (List.mem_cons_self _ _)
    rcases getNode_run nodeID w with ⟨f, _, hg⟩ | ⟨n', _, hfound', hg⟩ | ⟨_, habsent, hg⟩
    · rw [M.bind_of_eq_error _ hg]
      refine ⟨fun c hc => ?_, rfl⟩
      simp only [List.mem_singleton] at hc
      subst hc; rfl
    · rw [hfound] at hfound'
      cases hfound'
      rw [M.bind_of_eq_ok _ hg]
      simp only [hlab, ne_eq, not_true_eq_false, if_false]
      have hih := ih w.advance (fun id hid => hl id (List.mem_cons_of_mem _ hid))
      refine ⟨fun c hc => ?_, hih.2⟩
      simp only [Out.prepend, List.singleton_append, List.mem_cons] at hc
      rcases hc with hc | hc
      · subst hc; rfl
      · exact hih.1 c hc
    · rw [hfound] at habsent; cases habsent

end ProjectReconciler

namespace ProjectReconciler

theorem syncNodeLabel_of_valid {p : Project} (hv : validLabelValue p.name = true) (w : World) :
    syncNodeLabel p w =
      ((NodeLister.List [.equals LabelProject p.name] >>= fun list =>
        removeLabelLoop p list >>= fun _ => addLabelLoop p p.spec.nodes) w) := by
  unfold syncNodeLabel
  rw [NewRequirement_of_valid hv, M.ofExcept_ok_bind]

theorem syncNodeLabel_of_invalid {p : Project} (hv : validLabelValue p.name = false)
    (w : World) : syncNodeLabel p w = ⟨.error .validation, w, []⟩ := by
  unfold syncNodeLabel
  rw [NewRequirement_of_invalid hv]
  rfl

/-- After a successful `syncNodeLabel` the labels are settled: the nodes the
lister hands out labelled with the project are members, and every member is
handed out labelled. -/
theorem syncNodeLabel_ok {p : Project} {w : World} (h : (syncNodeLabel p w).res = .ok ()) :
    validLabelValue p.name = true ∧ LabelsSettled (syncNodeLabel p w).world.store p := by
  cases hv : validLabelValue p.name with
  | false => rw [syncNodeLabel_of_invalid hv] at h; cases h
  | true =>
    refine ⟨rfl, ?_⟩
    rw [syncNodeLabel_of_valid hv] at h ⊢
    rcases listNodes_run [.equals LabelProject p.name] w with ⟨f, _, hl⟩ | ⟨_, hl⟩
    · rw [M.bind_of_eq_error _ hl] at h; cases h
    · rw [M.bind_of_eq_ok _ hl] at h ⊢
      simp only [Out.prepend] at h ⊢
      obtain ⟨u, hrem, heq⟩ := M.bind_ok_inv h
      rw [heq] at h ⊢
      simp only [Out.prepend] at h ⊢
      have hrem_inv := removeLabelLoop_ok p _ w.advance
        (fun n hn hlab => Or.inr (mem_storeList.mpr ⟨hn, by simp [selectorMatches, hlab]⟩))
        hrem
      have hadd := addLabelLoop_ok p p.spec.nodes _ h
      exact ⟨hadd.2 p.spec.nodes (fun _ hid => hid) hrem_inv, fun id hid => hadd.1 id (Or.inr hid)⟩

/-- With settled labels `syncNodeLabel` only reads. -/
theorem syncNodeLabel_quiet {p : Project} {w : World} (hs : LabelsSettled w.store p) :
    (∀ c ∈ (syncNodeLabel p w).calls, c.op.isWrite = false) ∧
      (syncNodeLabel p w).world.store = w.store := by
  cases hv : validLabelValue p.name with
  | false =>
    rw [syncNodeLabel_of_invalid hv]
    exact ⟨fun c hc => (by cases hc), rfl⟩
  | true =>
    rw [syncNodeLabel_of_valid hv]
    rcases listNodes_run [.equals LabelProject p.name] w with ⟨f, _, hl⟩ | ⟨_, hl⟩
    · rw [M.bind_of_eq_error _ hl]
      refine ⟨fun c hc => ?_, rfl⟩
      simp only [List.mem_singleton] at hc
      subst hc; rfl
    · rw [M.bind_of_eq_ok _ hl]
      have hquiet := removeLabelLoop_quiet p
        (storeList Node.name (fun c => c.objectMeta.labels) w.store.nodeCache
          [.equals LabelProject p.name]) w.advance
        (fun n hn => by
          obtain ⟨hn1, hn2⟩ := mem_storeList.mp hn
          exact hs.1 n hn1 (by simpa [selectorMatches] using hn2))
      rw [M.bind_of_eq_ok _ hquiet]
      have hadd := addLabelLoop_quiet p p.spec.nodes w.advance hs.2
      refine ⟨fun c hc => ?_, hadd.2⟩
      simp only [Out.prepend, List.singleton_append, List.nil_append, List.mem_cons] at hc
      rcases hc with hc | hc
      · subst hc; rfl
      · exact hadd.1 c hc

/-! ## `count` -/

theorem count_of_valid {p : Project} (hv : validLabelValue p.name = true) (w : World) :
    count p w =
      ((ClusterLister.List [.equals LabelProject p.name] >>= fun clusters =>
        if p ≠ countedCopy p clusters then
          (ProjectWriter.UpdateProject (countedCopy p clusters) >>= fun _ => (pure () : M Unit))
        else pure ()) w) := by
  unfold count
  rw [NewRequirement_of_valid hv, M.ofExcept_ok_bind]

theorem count_of_invalid {p : Project} (hv : validLabelValue p.name = false) (w : World) :
    count p w = ⟨.error .validation, w, []⟩ := by
  unfold count
  rw [NewRequirement_of_invalid hv]
  rfl

theorem countedCopy_idem (p : Project) (cs : List Cluster) :
    countedCopy (countedCopy p cs) cs = countedCopy p cs := rfl

/-- The successful runs of `count`: the counters were right and nothing is
written, or the project is persisted with the counters replaced. -/
theorem count_ok {p : Project} {w : World} (h : (count p w).res = .ok ()) :
    validLabelValue p.name = true ∧
      ((CountSettled w.store p ∧ (count p w).world.store = w.store) ∨
        ((getByName Project.name w.store.projects p.name).isSome = true ∧
          (count p w).world.store =
            { w.store with projects := replaceByName Project.name w.store.projects (countedCopy p (projectClusters w.store p)) })) := by
  cases hv : validLabelValue p.name with
  | false => rw [count_of_invalid hv] at h; cases h
  | true =>
    refine ⟨rfl, ?_⟩
    rw [count_of_valid hv] at h ⊢
    rcases listClusters_run [.equals LabelProject p.name] w with ⟨f, _, hl⟩ | ⟨_, hl⟩
    · rw [M.bind_of_eq_error _ hl] at h; cases h
    · rw [M.bind_of_eq_ok _ hl] at h ⊢
      by_cases hs : p = countedCopy p (projectClusters w.store p)
      · left
        unfold projectClusters at hs
        rw [if_neg (not_not.mpr hs)]
        exact ⟨hs, rfl⟩
      · right
        unfold projectClusters at hs ⊢
        rw [if_pos hs] at h ⊢
        rcases updateProject_run
            (countedCopy p (storeList Cluster.name (fun c => c.objectMeta.labels)
              w.store.clusters [.equals LabelProject p.name])) w.advance with
          ⟨f, _, hu⟩ | ⟨_, hsome, hu⟩ | ⟨_, _, hu⟩
        · rw [M.bind_of_eq_error _ hu] at h; cases h
        · rw [M.bind_of_eq_ok _ hu, M.pure_run]
          exact ⟨hsome, rfl⟩
        · rw [M.bind_of_eq_error _ hu] at h; cases h

/-- With settled counters `count` only lists the clusters. -/
theorem count_quiet {p : Project} {w : World} (hs : CountSettled w.store p) :
    (∀ c ∈ (count p w).calls, c.op.isWrite = false) ∧ (count p w).world.store = w.store := by
  cases hv : validLabelValue p.name with
  | false =>
    rw [count_of_invalid hv]
    exact ⟨fun c hc => (by cases hc), rfl⟩
  | true =>
    rw [count_of_valid hv]
    rcases listClusters_run [.equals LabelProject p.name] w with ⟨f, _, hl⟩ | ⟨_, hl⟩
    · rw [M.bind_of_eq_error _ hl]
      refine ⟨fun c hc => ?_, rfl⟩
      simp only [List.mem_singleton] at hc
      subst hc; rfl
    · rw [M.bind_of_eq_ok _ hl]
      unfold CountSettled projectClusters at hs
      rw [if_neg (not_not.mpr hs), M.pure_run]
      refine ⟨fun c hc => ?_, rfl⟩
      simp only [Out.prepend, List.append_nil, List.mem_singleton] at hc
      subst hc; rfl

end ProjectReconciler

namespace ProjectReconciler

/-! ## Phases that find their state already right -/

theorem initProjectRoleBody_quiet {p : Project} {t : ProjectRole} {w : World} {r : ProjectRole}
    (hfound : getByName ProjectRole.name w.store.projectRoles (desiredRole p t).name = some r)
    (hs : roleSettled (desiredRole p t) r = true) :
    (∀ c ∈ (initProjectRoleBody p t w).calls, c.op.isWrite = false) ∧
      (initProjectRoleBody p t w).world.store = w.store := by
  unfold initProjectRoleBody
  simp only [update_condition]
  rw [M.bind_eq, M.andThen_of_ok _ (M.attempt_res _ _)]
  simp only [M.attempt_world, M.attempt_calls]
  rcases getProjectRole_run (desiredRole p t).name w with
    ⟨f, _, hg⟩ | ⟨r', _, hfound', hg⟩ | ⟨_, habsent, hg⟩
  · rw [hg]
    simp only [Fault.toErr_IsNotFound, Bool.false_eq_true, if_false, M.fail_run]
    refine ⟨fun c hc => ?_, rfl⟩
    simp only [List.append_nil, List.mem_singleton] at hc
    subst hc; rfl
  · rw [hfound] at hfound'
    cases hfound'
    rw [hg]
    simp only [hs, Bool.not_true, Bool.false_eq_true, if_false, M.pure_run]
    refine ⟨fun c hc => ?_, rfl⟩
    simp only [List.append_nil, List.mem_singleton] at hc
    subst hc; rfl
  · rw [hfound] at habsent; cases habsent

/-- With settled roles the loop of `initProjectRole` only reads. -/
theorem initProjectRoleLoop_quiet (p : Project) (ts : List ProjectRole) (w : World)
    (hs : RolesSettled w.store p ts) :
    (∀ c ∈ (initProjectRoleLoop p ts w).calls, c.op.isWrite = false) ∧
      (initProjectRoleLoop p ts w).world.store = w.store := by
  induction ts generalizing w with
  | nil => exact ⟨fun c hc => (by cases hc), rfl⟩
  | cons t rest ih =>
    rw [initProjectRoleLoop_cons, M.bind_eq]
    obtain ⟨r, hfound, hsr⟩ := hs t (List.mem_cons_self _ _)
    have hbody := initProjectRoleBody_quiet hfound hsr
    rcases M.andThen_cases (initProjectRoleBody p t) (fun _ => initProjectRoleLoop p rest) w with
      ⟨e, _, heq⟩ | ⟨u, _, heq⟩
    · rw [heq]
      exact hbody
    · rw [heq]
      have hrest : RolesSettled (initProjectRoleBody p t w).world.store p rest := by
        rw [hbody.2]
        exact fun t' ht' => hs t' (List.mem_cons_of_mem _ ht')
      have hih := ih _ hrest
      refine ⟨fun c hc => ?_, by rw [← hbody.2]; exact hih.2⟩
      rcases List.mem_append.mp hc with hc | hc
      · exact hbody.1 c hc
      · exact hih.1 c hc

theorem initManagerRoleBindingLoop_of_fresh (p : Project) (target : RoleBinding)
    (items : List RoleBinding) (h : ∀ item ∈ items, isStaleBinding p item = false) (w : World) :
    initManagerRoleBindingLoop p target items w = ⟨.ok (), w, []⟩ := by
  induction items with
  | nil => rfl
  | cons item rest ih =>
    rw [initManagerRoleBindingLoop_cons, body_of_not_stale (h item (List.mem_cons_self _ _)),
      M.pure_bind_run]
    exact ih (fun i hi => h i (List.mem_cons_of_mem _ hi))

/-- With a settled manager binding `initManagerRoleBinding` only lists. -/
theorem initManagerRoleBinding_quiet {p : Project} {w : World}
    (hs : BindingSettled w.store p) :
    (∀ c ∈ (initManagerRoleBinding p w).calls, c.op.isWrite = false) ∧
      (initManagerRoleBinding p w).world.store = w.store := by
  cases hf : w.nextFault with
  | some f =>
    rw [initManagerRoleBinding_of_fault hf]
    refine ⟨fun c hc => ?_, rfl⟩
    simp only [List.mem_singleton] at hc
    subst hc; rfl
  | none =>
    rw [initManagerRoleBinding_of_listed hf hs.1 rfl,
      initManagerRoleBindingLoop_of_fresh p _ _ hs.2]
    refine ⟨fun c hc => ?_, rfl⟩
    simp only [Out.prepend, List.append_nil, List.mem_singleton] at hc
    subst hc; rfl

theorem body_of_stale_empty {p : Project} {t item : RoleBinding}
    (hsub : item.subjects = []) (w : World) :
    ∃ msg, (initManagerRoleBindingBody p t item w).res = .error (.panic msg) := by
  unfold initManagerRoleBindingBody
  simp only [hsub, List.length_nil, decide_True, Bool.true_or, if_true, index0]
  exact ⟨_, rfl⟩

theorem isStaleBinding_target (p : Project) : isStaleBinding p (managerBindingTarget p) = false := by
  simp [isStaleBinding, managerBindingTarget]

/-- Outcome of a successful loop of `initManagerRoleBinding`: the stored
bindings are the desired one and old ones whose name is not that of a stale
listed binding; the desired one is stored if a listed binding was stale, and
nothing changed otherwise. -/
theorem initManagerRoleBindingLoop_ok (p : Project) (target : RoleBinding)
    (items : List RoleBinding) (w : World)
    (h : (initManagerRoleBindingLoop p target items w).res = .ok ()) :
    (∀ b ∈ (initManagerRoleBindingLoop p target items w).world.store.projectRoleBindings,
      b = target ∨ (b ∈ w.store.projectRoleBindings ∧
        ∀ item ∈ items, isStaleBinding p item = true → b.name ≠ item.name)) ∧
    ((∃ item ∈ items, isStaleBinding p item = true) →
      target ∈ (initManagerRoleBindingLoop p target items w).world.store.projectRoleBindings) ∧
    ((∀ item ∈ items, isStaleBinding p item = false) →
      (initManagerRoleBindingLoop p target items w).world.store = w.store) := by
  induction items generalizing w with
  | nil =>
    refine ⟨fun b hb => Or.inr ⟨hb, fun _ hi => (by cases hi)⟩, ?_, fun _ => rfl⟩
    rintro ⟨item, hi, _⟩
    cases hi
  | cons item rest ih =>
    rw [initManagerRoleBindingLoop_cons] at h ⊢
    cases hst : isStaleBinding p item with
    | false =>
      rw [body_of_not_stale hst, M.pure_bind_run] at h ⊢
      obtain ⟨h1, h2, h3⟩ := ih w h
      refine ⟨fun b hb => ?_, ?_, fun hall => h3 (fun i hi => hall i (List.mem_cons_of_mem _ hi))⟩
      · rcases h1 b hb with hb | ⟨hb1, hb2⟩
        · exact Or.inl hb
        · refine Or.inr ⟨hb1, fun i hi his => ?_⟩
          rcases List.mem_cons.mp hi with rfl | hi
          · rw [hst] at his; cases his
          · exact hb2 i hi his
      · rintro ⟨i, hi, his⟩
        rcases List.mem_cons.mp hi with rfl | hi
        · rw [hst] at his; cases his
        · exact h2 ⟨i, hi, his⟩
    | true =>
      cases hsub : item.subjects with
      | nil =>
        obtain ⟨msg, hres⟩ := body_of_stale_empty (p := p) (t := target) hsub w
        rw [M.bind_eq, M.andThen_of_error _ hres] at h
        cases h
      | cons old more =>
        have hold : old.name ≠ p.spec.manager := by
          obtain ⟨old', more', hs', ho'⟩ := subjects_of_stale hst (by rw [hsub]; simp)
          rw [hsub] at hs'
          cases hs'
          exact ho'
        rcases body_stale_cases p target hsub hold w with
          ⟨f, hres, _⟩ | ⟨hres, _, hworld, _⟩ | ⟨hres, _, _⟩
        · rw [M.bind_eq, M.andThen_of_error _ hres] at h; cases h
        · rw [M.bind_eq, M.andThen_of_ok _ hres] at h ⊢
          simp only at h ⊢
          obtain ⟨h1, h2, h3⟩ := ih _ h
          have hp : (initManagerRoleBindingBody p target item w).world.store.projectRoleBindings =
              removeByName RoleBinding.name w.store.projectRoleBindings item.name ++ [target] := by
            rw [hworld]
          refine ⟨fun b hb => ?_, fun _ => ?_, fun hall => ?_⟩
          · rcases h1 b hb with hb | ⟨hb1, hb2⟩
            · exact Or.inl hb
            · rw [hp] at hb1
              rcases List.mem_append.mp hb1 with hb1 | hb1
              · obtain ⟨hb3, hb4⟩ := mem_removeByName.mp hb1
                refine Or.inr ⟨hb3, fun i hi his => ?_⟩
                rcases List.mem_cons.mp hi with rfl | hi
                · exact hb4
                · exact hb2 i hi his
              · exact Or.inl (List.mem_singleton.mp hb1)
          · by_cases hrest : ∃ i ∈ rest, isStaleBinding p i = true
            · exact h2 hrest
            · have hall : ∀ i ∈ rest, isStaleBinding p i = false := by
                intro i hi
                cases hsi : isStaleBinding p i with
                | false => rfl
                | true => exact absurd ⟨i, hi, hsi⟩ hrest
              rw [h3 hall, hp]
              exact List.mem_append_right _ (List.mem_singleton_self _)
          · have := hall item (List.mem_cons_self _ _)
            rw [hst] at this; cases this
        · rw [M.bind_eq, M.andThen_of_error _ hres] at h; cases h

end ProjectReconciler

namespace ProjectReconciler

theorem target_listed {p : Project} (hv : validLabelValue p.name = true)
    {l : List RoleBinding} (h : managerBindingTarget p ∈ l) :
    managerBindingTarget p ∈ storeList RoleBinding.name (fun b => b.objectMeta.labels) l
      (parseSelector (managerBindingQuery p)) := by
  rw [mem_managerBindings hv]
  refine ⟨h, ?_, ?_⟩ <;>
    simp [managerBindingTarget, Requirement.holds, GoMap.has, GoMap.get, GoMap.find,
      LabelProject, LabelProjectRoleBindingManager]

/-- After a successful `initManagerRoleBinding` the manager binding is settled:
the listing is not empty and holds no stale binding. -/
theorem initManagerRoleBinding_ok {p : Project} {w : World}
    (hv : validLabelValue p.name = true) (h : (initManagerRoleBinding p w).res = .ok ()) :
    BindingSettled (initManagerRoleBinding p w).world.store p := by
  have hfault : w.nextFault = none := by
    cases hf : w.nextFault with
    | none => rfl
    | some f => rw [initManagerRoleBinding_of_fault hf] at h; cases h
  by_cases hne : storeList RoleBinding.name (fun b => b.objectMeta.labels)
      w.store.projectRoleBindings (parseSelector (managerBindingQuery p)) = []
  · -- nothing listed: the desired binding is created
    have hrun : initManagerRoleBinding p w =
        ((IAMOperator.CreateProjectRoleBinding (managerBindingTarget p) >>= fun _ =>
          (pure () : M Unit)) w.advance).prepend
          [⟨.listProjectRoleBinding (managerBindingQuery p), none⟩] := by
      unfold initManagerRoleBinding
      rcases listProjectRoleBinding_run (managerBindingQuery p) w with ⟨f, hf, _⟩ | ⟨_, hl⟩
      · rw [hfault] at hf; cases hf
      · rw [M.bind_of_eq_ok _ hl, hne]
        simp only [List.length_nil, if_true]
    rw [hrun] at h ⊢
    rcases createProjectRoleBinding_run (managerBindingTarget p) w.advance with
      ⟨f, _, hc⟩ | ⟨_, _, hc⟩ | ⟨_, _, hc⟩
    · rw [M.bind_of_eq_error _ hc] at h; cases h
    · rw [M.bind_of_eq_ok _ hc, M.pure_run]
      simp only [Out.prepend, World.advance_store]
      have htarget := target_listed hv
        (l := w.store.projectRoleBindings ++ [managerBindingTarget p])
        (List.mem_append_right _ (List.mem_singleton_self _))
      refine ⟨fun h0 => ?_, fun b hb => ?_⟩
      · rw [h0] at htarget; cases htarget
      · obtain ⟨hb1, hb2⟩ := mem_storeList.mp hb
        rcases List.mem_append.mp hb1 with hb1 | hb1
        · have : b ∈ storeList RoleBinding.name (fun b => b.objectMeta.labels)
              w.store.projectRoleBindings (parseSelector (managerBindingQuery p)) :=
            mem_storeList.mpr ⟨hb1, hb2⟩
          rw [hne] at this; cases this
        · rw [List.mem_singleton.mp hb1]
          exact isStaleBinding_target p
    · rw [M.bind_of_eq_error _ hc] at h; cases h
  · rw [initManagerRoleBinding_of_listed hfault hne rfl] at h ⊢
    simp only [Out.prepend] at h ⊢
    obtain ⟨h1, h2, h3⟩ := initManagerRoleBindingLoop_ok p (managerBindingTarget p) _ _ h
    have hfresh : ∀ b ∈ storeList RoleBinding.name (fun b => b.objectMeta.labels)
        (initManagerRoleBindingLoop p (managerBindingTarget p)
          (storeList RoleBinding.name (fun b => b.objectMeta.labels)
            w.store.projectRoleBindings (parseSelector (managerBindingQuery p)))
          w.advance).world.store.projectRoleBindings
        (parseSelector (managerBindingQuery p)), isStaleBinding p b = false := by
      intro b hb
      obtain ⟨hb1, hb2⟩ := mem_storeList.mp hb
      rcases h1 b hb1 with rfl | ⟨hb3, hb4⟩
      · exact isStaleBinding_target p
      · cases hsb : isStaleBinding p b with
        | false => rfl
        | true =>
          exact absurd rfl (hb4 b (mem_storeList.mpr ⟨hb3, hb2⟩) hsb)
    refine ⟨fun h0 => ?_, hfresh⟩
    by_cases hstale : ∃ item ∈ storeList RoleBinding.name (fun b => b.objectMeta.labels)
        w.store.projectRoleBindings (parseSelector (managerBindingQuery p)),
        isStaleBinding p item = true
    · have := target_listed hv (h2 hstale)
      rw [h0] at this; cases this
    · have hall : ∀ item ∈ storeList RoleBinding.name (fun b => b.objectMeta.labels)
          w.store.projectRoleBindings (parseSelector (managerBindingQuery p)),
          isStaleBinding p item = false := by
        intro i hi
        cases hsi : isStaleBinding p i with
        | false => rfl
        | true => exact absurd ⟨i, hi, hsi⟩ hstale
      rw [h3 hall] at h0
      exact hne h0

end ProjectReconciler

/-! ## Frames of the phases -/

/-- A logged computation whose calls address only some kinds leaves the
objects of the other kinds as they were. -/
theorem frame_of_kinds {α : Type} {m : M α} (hl : m.Logged) {k : List Kind} {P : α → Prop}
    (hi : m.Issues (fun c => c.op.kind ∈ k) P) (w : World) :
    (Kind.project ∉ k → (m w).world.store.projects = w.store.projects) ∧
      (m w).world.store.clusters = w.store.clusters ∧
      (Kind.node ∉ k → (m w).world.store.nodes = w.store.nodes) ∧
      (Kind.role ∉ k → (m w).world.store.projectRoles = w.store.projectRoles) ∧
      (Kind.binding ∉ k →
        (m w).world.store.projectRoleBindings = w.store.projectRoleBindings) ∧
      (Kind.globalBinding ∉ k → (m w).world.store.roleBindings = w.store.roleBindings) := by
  have hk := (hi w).1
  rw [hl w]
  refine ⟨fun h => ?_, replay_clusters _ _, fun h => ?_, fun h => ?_, fun h => ?_, fun h => ?_⟩
  · exact replay_projects _ (fun c hc heq => h (heq ▸ hk c hc))
  · exact replay_nodes _ (fun c hc heq => h (heq ▸ hk c hc))
  · exact replay_projectRoles _ (fun c hc heq => h (heq ▸ hk c hc))
  · exact replay_projectRoleBindings _ (fun c hc heq => h (heq ▸ hk c hc))
  · exact replay_roleBindings _ (fun c hc heq => h (heq ▸ hk c hc))

theorem applyCall_editedNodes {s : Store} {c : Call} (h : c.op.kind ≠ .node) :
    (applyCall s c).editedNodes = s.editedNodes := by
  unfold applyCall
  cases c with
  | mk op err =>
    cases err with
    | some e => cases op <;> first | rfl | exact absurd rfl h
    | none => cases op <;> first | rfl | exact absurd rfl h

theorem replay_editedNodes {calls : List Call} (s : Store)
    (h : ∀ c ∈ calls, c.op.kind ≠ .node) : (replay s calls).editedNodes = s.editedNodes := by
  induction calls generalizing s with
  | nil => rfl
  | cons c cs ih =>
    rw [replay_cons, ih _ (fun c' hc' => h c' (List.mem_cons_of_mem _ hc')),
      applyCall_editedNodes (h c (List.mem_cons_self _ _))]

theorem Store.nodeCache_congr {s s' : Store} (h1 : s'.nodes = s.nodes)
    (h2 : s'.editedNodes = s.editedNodes) : s'.nodeCache = s.nodeCache := by
  unfold Store.nodeCache Store.cachedNode
  rw [h1, h2]

/-- A logged computation that issues no call on nodes leaves the node lister's
cache as it was. -/
theorem nodeCache_frame {α : Type} {m : M α} (hl : m.Logged) {P : α → Prop}
    (hi : m.Issues (fun c => c.op.kind ≠ .node) P) (w : World) :
    (m w).world.store.nodeCache = w.store.nodeCache := by
  rw [hl w]
  exact Store.nodeCache_congr (replay_nodes _ (hi w).1) (replay_editedNodes _ (hi w).1)

namespace ProjectReconciler

/-- `initProjectRole` changes scoped roles only. -/
theorem initProjectRole_frame (p : Project) (w : World) :
    (initProjectRole p w).world.store.projects = w.store.projects ∧
      (initProjectRole p w).world.store.clusters = w.store.clusters ∧
      (initProjectRole p w).world.store.nodes = w.store.nodes ∧
      (initProjectRole p w).world.store.projectRoleBindings = w.store.projectRoleBindings ∧
      (initProjectRole p w).world.store.roleBindings = w.store.roleBindings := by
  have h := frame_of_kinds (initProjectRole_logged p) (k := [Kind.role])
    (initProjectRole_issues p (fun _ _ _ => by simp [Op.kind]) (fun _ _ _ => by simp [Op.kind])
      (fun _ _ _ => by simp [Op.kind])) w
  exact ⟨h.1 (by decide), h.2.1, h.2.2.1 (by decide), h.2.2.2.2.1 (by decide),
    h.2.2.2.2.2 (by decide)⟩

/-- `initManagerRoleBinding` changes bindings only. -/
theorem initManagerRoleBinding_frame (p : Project) (w : World) :
    (initManagerRoleBinding p w).world.store.projects = w.store.projects ∧
      (initManagerRoleBinding p w).world.store.clusters = w.store.clusters ∧
      (initManagerRoleBinding p w).world.store.nodes = w.store.nodes ∧
      (initManagerRoleBinding p w).world.store.projectRoles = w.store.projectRoles := by
  have h := frame_of_kinds (initManagerRoleBinding_logged p)
    (k := [Kind.binding, Kind.globalBinding])
    (initManagerRoleBinding_issues p (fun _ => by simp [Op.kind]) (fun _ _ => by simp [Op.kind])
      (fun _ _ => by simp [Op.kind]) (fun _ => by simp [Op.kind])) w
  exact ⟨h.1 (by decide), h.2.1, h.2.2.1 (by decide), h.2.2.2.1 (by decide)⟩

/-- `syncProjectNodeFromCluster` changes projects only. -/
theorem syncProjectNodeFromCluster_frame (p : Project) (w : World) :
    (syncProjectNodeFromCluster p w).world.store.clusters = w.store.clusters ∧
      (syncProjectNodeFromCluster p w).world.store.nodes = w.store.nodes ∧
      (syncProjectNodeFromCluster p w).world.store.projectRoles = w.store.projectRoles ∧
      (syncProjectNodeFromCluster p w).world.store.projectRoleBindings =
        w.store.projectRoleBindings := by
  have h := frame_of_kinds (syncProjectNodeFromCluster_logged p)
    (k := [Kind.cluster, Kind.project])
    (syncProjectNodeFromCluster_issues p (fun _ _ => by simp [Op.kind])
      (fun _ _ => by simp [Op.kind])) w
  exact ⟨h.2.1, h.2.2.1 (by decide), h.2.2.2.1 (by decide), h.2.2.2.2.1 (by decide)⟩

/-- `syncNodeLabel` changes nodes only. -/
theorem syncNodeLabel_frame (p : Project) (w : World) :
    (syncNodeLabel p w).world.store.projects = w.store.projects ∧
      (syncNodeLabel p w).world.store.clusters = w.store.clusters ∧
      (syncNodeLabel p w).world.store.projectRoles = w.store.projectRoles ∧
      (syncNodeLabel p w).world.store.projectRoleBindings = w.store.projectRoleBindings := by
  have h := frame_of_kinds (syncNodeLabel_logged p) (k := [Kind.node])
    (syncNodeLabel_issues p (fun _ _ => by simp [Op.kind]) (fun _ _ => by simp [Op.kind])
      (fun _ _ => by simp [Op.kind])) w
  exact ⟨h.1 (by decide), h.2.1, h.2.2.2.1 (by decide), h.2.2.2.2.1 (by decide)⟩

/-- `count` changes projects only. -/
theorem count_frame (p : Project) (w : World) :
    (count p w).world.store.clusters = w.store.clusters ∧
      (count p w).world.store.nodes = w.store.nodes ∧
      (count p w).world.store.projectRoles = w.store.projectRoles ∧
      (count p w).world.store.projectRoleBindings = w.store.projectRoleBindings := by
  have h := frame_of_kinds (count_logged p) (k := [Kind.cluster, Kind.project])
    (count_issues p (fun _ _ => by simp [Op.kind]) (fun _ _ => by simp [Op.kind])) w
  exact ⟨h.2.1, h.2.2.1 (by decide), h.2.2.2.1 (by decide), h.2.2.2.2.1 (by decide)⟩

/-- `count` leaves the node lister's cache as it was. -/
theorem count_nodeCache (p : Project) (w : World) :
    (count p w).world.store.nodeCache = w.store.nodeCache :=
  nodeCache_frame (count_logged p)
    (count_issues p (fun _ _ => by simp [Op.kind]) (fun _ _ => by simp [Op.kind])) w

/-! ## What the settled predicates depend on -/

theorem desiredRole_congr {p p' : Project} (h : p'.name = p.name) (t : ProjectRole) :
    desiredRole p' t = desiredRole p t := by
  unfold desiredRole
  rw [h]

theorem RolesSettled_congr {s s' : Store} {p p' : Project} {ts : List ProjectRole}
    (hs : s'.projectRoles = s.projectRoles) (hp : p'.name = p.name)
    (h : RolesSettled s p ts) : RolesSettled s' p' ts := by
  intro t ht
  rw [hs, desiredRole_congr hp]
  exact h t ht

theorem managerBindingQuery_congr {p p' : Project} (h : p'.name = p.name) :
    managerBindingQuery p' = managerBindingQuery p := by
  unfold managerBindingQuery
  rw [h]

theorem isStaleBinding_congr {p p' : Project} (h : p'.spec.manager = p.spec.manager)
    (b : RoleBinding) : isStaleBinding p' b = isStaleBinding p b := by
  unfold isStaleBinding
  rw [h]

theorem BindingSettled_congr {s s' : Store} {p p' : Project}
    (hs : s'.projectRoleBindings = s.projectRoleBindings) (hp : p'.name = p.name)
    (hm : p'.spec.manager = p.spec.manager) (h : BindingSettled s p) :
    BindingSettled s' p' := by
  unfold BindingSettled at h ⊢
  rw [hs, managerBindingQuery_congr hp]
  exact ⟨h.1, fun b hb => by rw [isStaleBinding_congr hm]; exact h.2 b hb⟩

theorem projectClusters_congr {s s' : Store} {p p' : Project}
    (hs : s'.clusters = s.clusters) (hp : p'.name = p.name) :
    projectClusters s' p' = projectClusters s p := by
  unfold projectClusters
  rw [hs, hp]

theorem NodesSettled_congr {s s' : Store} {p p' : Project}
    (hs : s'.clusters = s.clusters) (hp : p'.name = p.name)
    (hn : p'.spec.nodes = p.spec.nodes) (h : NodesSettled s p) : NodesSettled s' p' := by
  unfold NodesSettled at h ⊢
  rw [projectClusters_congr hs hp, hn]
  exact h

theorem LabelsSettled_congr {s s' : Store} {p p' : Project}
    (hs : s'.nodeCache = s.nodeCache) (hp : p'.name = p.name)
    (hn : p'.spec.nodes = p.spec.nodes) (h : LabelsSettled s p) : LabelsSettled s' p' := by
  unfold LabelsSettled at h ⊢
  rw [hs, hp, hn]
  exact h

/-! ## The stored project -/

theorem StoredAs_get {s : Store} {p : Project} (h : StoredAs s p) :
    getByName Project.name s.projects p.name = some p := by
  obtain ⟨⟨q, hq, hqn⟩, hall⟩ := h
  cases hg : getByName Project.name s.projects p.name with
  | none => exact absurd hqn (getByName_eq_none_iff.mp hg q hq)
  | some r =>
    rw [hall r (getByName_mem hg) (getByName_name hg)]

theorem StoredAs_replace {s : Store} {p : Project}
    (h : (getByName Project.name s.projects p.name).isSome = true) :
    StoredAs { s with projects := replaceByName Project.name s.projects p } p := by
  obtain ⟨q, hq, hqn⟩ := getByName_isSome_iff.mp h
  constructor
  · exact ⟨p, mem_replaceByName.mpr (Or.inr ⟨rfl, q, hq, hqn⟩), rfl⟩
  · intro r hr hrn
    rcases mem_replaceByName.mp hr with ⟨_, hne⟩ | ⟨rfl, _⟩
    · exact absurd hrn hne
    · rfl

theorem StoredAs_congr {s s' : Store} {p : Project} (hs : s'.projects = s.projects)
    (h : StoredAs s p) : StoredAs s' p := by
  unfold StoredAs at h ⊢
  rw [hs]
  exact h

/-- Persisting the stored project again changes nothing. -/
theorem replaceByName_of_StoredAs {s : Store} {p : Project} (h : StoredAs s p) :
    replaceByName Project.name s.projects p = s.projects :=
  replaceByName_of_all_eq h.2

end ProjectReconciler

theorem M.bind_ok_elim {α β : Type} {m : M α} {f : α → M β} {w : World} {b : β}
    (h : ((m >>= f) w).res = .ok b) :
    ∃ a w1, (m w).res = .ok a ∧ (m w).world = w1 ∧ (f a w1).res = .ok b ∧
      ((m >>= f) w).world = (f a w1).world := by
  obtain ⟨a, ha, heq⟩ := M.bind_ok_inv h
  rw [heq] at h ⊢
  exact ⟨a, _, ha, rfl, h, rfl⟩

namespace ProjectReconciler

/-- Outcome of a successful run of the five phases on the stored project: the
store holds a project that differs from the given one at most in member list
and counters, and every phase finds its state right for it. -/
theorem runPhases_ok {p : Project} {w : World} (hst : StoredAs w.store p)
    (hok : (runPhases p w).res = .ok ()) :
    ∃ p2, StoredAs (runPhases p w).world.store p2 ∧ Settled (runPhases p w).world.store p2 ∧
      p2.objectMeta = p.objectMeta ∧ p2.spec.manager = p.spec.manager ∧
      (runPhases p w).world.store.clusters = w.store.clusters := by
  unfold runPhases at hok ⊢
  obtain ⟨_, w1, h1, hw1, hok, e1⟩ := M.bind_ok_elim hok
  obtain ⟨_, w2, h2, hw2, hok, e2⟩ := M.bind_ok_elim hok
  obtain ⟨p1, w3, h3, hw3, hok, e3⟩ := M.bind_ok_elim hok
  obtain ⟨_, w4, h4, hw4, h5, e4⟩ := M.bind_ok_elim hok
  rw [e1, e2, e3, e4]
  -- the phases, one by one
  have hroles := initProjectRoleLoop_ok p ProjectRoles w (by rw [ProjectRoles_names]; decide)
    (fun t ht => roleSettled_self_of_catalog p ht) h1
  have hf1 := initProjectRole_frame p w
  have hsync := syncProjectNodeFromCluster_ok h3
  have hv : validLabelValue p.name = true := hsync.1
  have hbind := initManagerRoleBinding_ok hv h2
  have hf2 := initManagerRoleBinding_frame p w1
  have hf3 := syncProjectNodeFromCluster_frame p w2
  have hlab := syncNodeLabel_ok h4
  have hf4 := syncNodeLabel_frame p1 w3
  have hcount := count_ok h5
  have hf5 := count_frame p1 w4
  change (∀ t ∈ ProjectRoles, _) at hroles
  have hroles1 : RolesSettled (initProjectRole p w).world.store p ProjectRoles :=
    fun t ht => (hroles t ht).1
  rw [hw1] at hroles1 hf1
  rw [hw2] at hbind hf2
  rw [hw3] at hsync hf3
  rw [hw4] at hlab hf4
  have hp1 : p1 = { p with spec := { p.spec with nodes := p1.spec.nodes } } := hsync.2.1
  have hp1name : p1.name = p.name := by rw [hp1]; rfl
  have hp1meta : p1.objectMeta = p.objectMeta := by rw [hp1]
  have hp1mgr : p1.spec.manager = p.spec.manager := by rw [hp1]
  -- the project stored after the member sync
  have hst3 : StoredAs w3.store p1 := by
    have hst2 : StoredAs w2.store p := StoredAs_congr (by rw [hf2.1, hf1.1]) hst
    rcases hsync.2.2.2 with ⟨heq, hstore, _⟩ | ⟨hstore, hsome, _, _⟩
    · rw [heq, hstore]; exact hst2
    · rw [hstore]
      exact StoredAs_replace (by rw [hp1name]; exact hsome)
  have hst4 : StoredAs w4.store p1 := StoredAs_congr hf4.1 hst3
  -- the project stored after the count
  refine ⟨countedCopy p1 (projectClusters w4.store p1), ?_, ?_, ?_, ?_, ?_⟩
  · rcases hcount.2 with ⟨hcs, hstore⟩ | ⟨hsome, hstore⟩
    · rw [hstore, ← hcs]; exact hst4
    · rw [hstore]
      exact StoredAs_replace hsome
  · have hname2 : (countedCopy p1 (projectClusters w4.store p1)).name = p.name := hp1name
    have hname21 : (countedCopy p1 (projectClusters w4.store p1)).name = p1.name := rfl
    refine ⟨by rw [hname2]; exact hv, ?_, ?_, ?_, ?_, ?_⟩
    · exact RolesSettled_congr (by rw [hf5.2.2.1, hf4.2.2.1, hf3.2.2.1, hf2.2.2.2]) hname2 hroles1
    · exact BindingSettled_congr (by rw [hf5.2.2.2, hf4.2.2.2, hf3.2.2.2]) hname2 hp1mgr hbind
    · exact NodesSettled_congr (by rw [hf5.1, hf4.2.1]) hname21 rfl hsync.2.2.1
    · exact LabelsSettled_congr (count_nodeCache p1 w4) hname21 rfl hlab.2
    · unfold CountSettled
      rw [projectClusters_congr (s := w4.store) (p := p1) hf5.1 hname21]
      rfl
  · exact hp1meta
  · exact hp1mgr
  · rw [hf5.1, hf4.2.1, hf3.1, hf2.2.1, hf1.2.1]

/-- On a store that is settled for the stored project, the five phases issue
no write and leave the store as it is. -/
theorem runPhases_quiet {p : Project} {w : World} (hs : Settled w.store p) :
    (∀ c ∈ (runPhases p w).calls, c.op.isWrite = false) ∧
      (runPhases p w).world.store = w.store := by
  obtain ⟨_, hroles, hbind, hnodes, hlabels, hcount⟩ := hs
  have q1 := initProjectRoleLoop_quiet p ProjectRoles w hroles
  change (∀ c ∈ (initProjectRole p w).calls, _) ∧ (initProjectRole p w).world.store = _ at q1
  unfold runPhases
  rw [M.bind_eq]
  rcases M.andThen_cases (initProjectRole p) _ w with ⟨e, _, heq⟩ | ⟨_, _, heq⟩
  · rw [heq]; exact q1
  rw [heq]
  have q2 := initManagerRoleBinding_quiet (w := (initProjectRole p w).world)
    (by rw [q1.2]; exact hbind)
  rw [M.bind_eq]
  rcases M.andThen_cases (initManagerRoleBinding p) _ (initProjectRole p w).world with
    ⟨e, _, heq2⟩ | ⟨_, _, heq2⟩
  · rw [heq2]
    refine ⟨fun c hc => ?_, by rw [q2.2, q1.2]⟩
    rcases List.mem_append.mp hc with hc | hc
    · exact q1.1 c hc
    · exact q2.1 c hc
  rw [heq2]
  have hs2 : (initManagerRoleBinding p (initProjectRole p w).world).world.store = w.store := by
    rw [q2.2, q1.2]
  have q3 := syncProjectNodeFromCluster_quiet
    (w := (initManagerRoleBinding p (initProjectRole p w).world).world)
    (by rw [hs2]; exact hnodes)
  rw [M.bind_eq]
  rcases M.andThen_cases (syncProjectNodeFromCluster p) _
      (initManagerRoleBinding p (initProjectRole p w).world).world with
    ⟨e, _, heq3⟩ | ⟨p1, hp1, heq3⟩
  · rw [heq3]
    refine ⟨fun c hc => ?_, by rw [q3.2.1, hs2]⟩
    rcases List.mem_append.mp hc with hc | hc
    · exact q1.1 c hc
    · rcases List.mem_append.mp hc with hc | hc
      · exact q2.1 c hc
      · exact q3.1 c hc
  rw [heq3]
  have hp1eq : p1 = p := q3.2.2 p1 hp1
  subst hp1eq
  have hs3 : (syncProjectNodeFromCluster p1
      (initManagerRoleBinding p1 (initProjectRole p1 w).world).world).world.store = w.store := by
    rw [q3.2.1, hs2]
  have q4 := syncNodeLabel_quiet (p := p1)
    (w := (syncProjectNodeFromCluster p1
      (initManagerRoleBinding p1 (initProjectRole p1 w).world).world).world)
    (by rw [hs3]; exact hlabels)
  rw [M.bind_eq]
  rcases M.andThen_cases (syncNodeLabel p1) (fun _ => count p1)
      (syncProjectNodeFromCluster p1
        (initManagerRoleBinding p1 (initProjectRole p1 w).world).world).world with
    ⟨e, _, heq4⟩ | ⟨_, _, heq4⟩
  · rw [heq4]
    refine ⟨fun c hc => ?_, by rw [q4.2, hs3]⟩
    rcases List.mem_append.mp hc with hc | hc
    · exact q1.1 c hc
    · rcases List.mem_append.mp hc with hc | hc
      · exact q2.1 c hc
      · rcases List.mem_append.mp hc with hc | hc
        · exact q3.1 c hc
        · exact q4.1 c hc
  rw [heq4]
  have hs4 : (syncNodeLabel p1 (syncProjectNodeFromCluster p1
      (initManagerRoleBinding p1 (initProjectRole p1 w).world).world).world).world.store =
      w.store := by
    rw [q4.2, hs3]
  have q5 := count_quiet (p := p1)
    (w := (syncNodeLabel p1 (syncProjectNodeFromCluster p1
      (initManagerRoleBinding p1 (initProjectRole p1 w).world).world).world).world)
    (by rw [hs4]; exact hcount)
  refine ⟨fun c hc => ?_, by rw [q5.2, hs4]⟩
  rcases List.mem_append.mp hc with hc | hc
  · exact q1.1 c hc
  · rcases List.mem_append.mp hc with hc | hc
    · exact q2.1 c hc
    · rcases List.mem_append.mp hc with hc | hc
      · exact q3.1 c hc
      · rcases List.mem_append.mp hc with hc | hc
        · exact q4.1 c hc
        · exact q5.1 c hc

end ProjectReconciler

namespace ProjectReconciler

/-! ## Whole passes on an active project -/

theorem withFinalizer_has_token (project : Project) :
    ProjectFinalizer ∈ (withFinalizer project).objectMeta.finalizers := by
  by_cases h : ProjectFinalizer ∈ project.objectMeta.finalizers
  · rw [withFinalizer_of_mem h]; exact h
  · rw [withFinalizer_of_not_mem h]
    exact List.mem_append_right _ (List.mem_singleton_self _)

theorem withFinalizer_name (project : Project) : (withFinalizer project).name = project.name := by
  by_cases h : ProjectFinalizer ∈ project.objectMeta.finalizers
  · rw [withFinalizer_of_mem h]
  · rw [withFinalizer_of_not_mem h]; rfl

theorem withFinalizer_deletionTimestamp (project : Project) :
    (withFinalizer project).objectMeta.deletionTimestamp =
      project.objectMeta.deletionTimestamp := by
  by_cases h : ProjectFinalizer ∈ project.objectMeta.finalizers
  · rw [withFinalizer_of_mem h]
  · rw [withFinalizer_of_not_mem h]

theorem withFinalizer_spec (project : Project) : (withFinalizer project).spec = project.spec := by
  by_cases h : ProjectFinalizer ∈ project.objectMeta.finalizers
  · rw [withFinalizer_of_mem h]
  · rw [withFinalizer_of_not_mem h]

/-- A successful pass on an active project, step by step: the project with
the finalizer is persisted, then the phases run on it. -/
theorem Reconcile_active_run {w : World} {name : String} {project : Project}
    (hfault : w.nextFault = none)
    (hget : getByName Project.name w.store.projects name = some project)
    (hactive : Time.IsZero project.objectMeta.deletionTimestamp = true)
    (hok : (Reconcile name w).res = .ok ()) :
    ∃ w1 : World,
      StoredAs w1.store (withFinalizer project) ∧ w1.store.clusters = w.store.clusters ∧
      (runPhases (withFinalizer project) w1).res = .ok () ∧
      Reconcile name w =
        (runPhases (withFinalizer project) w1).prepend
          [⟨.getProject name, none⟩, ⟨.updateProject (withFinalizer project), none⟩] := by
  have h0 := getProject_of_found hfault hget
  rw [Reconcile_active (by rw [h0]) hactive, h0] at hok ⊢
  rcases updateProject_run (withFinalizer project) w.advance with
    ⟨f, _, hu⟩ | ⟨_, hsome, hu⟩ | ⟨_, _, hu⟩
  · rw [M.bind_of_eq_error _ hu] at hok; cases hok
  · rw [M.bind_of_eq_ok _ hu] at hok ⊢
    exact ⟨World.mk { w.store with projects := replaceByName Project.name w.store.projects (withFinalizer project) } w.advance.faults.tail,
      StoredAs_replace hsome, rfl, hok, rfl⟩
  · rw [M.bind_of_eq_error _ hu] at hok; cases hok

/-- Outcome of a successful pass on an active project: the store holds a
project that carries the metadata persisted with the finalizer, and every
phase finds its state right for it. -/
theorem Reconcile_active_ok {w : World} {name : String} {project : Project}
    (hfault : w.nextFault = none)
    (hget : getByName Project.name w.store.projects name = some project)
    (hactive : Time.IsZero project.objectMeta.deletionTimestamp = true)
    (hok : (Reconcile name w).res = .ok ()) :
    ∃ p2, StoredAs (Reconcile name w).world.store p2 ∧
      Settled (Reconcile name w).world.store p2 ∧
      p2.objectMeta = (withFinalizer project).objectMeta ∧
      (Reconcile name w).world.store.clusters = w.store.clusters := by
  obtain ⟨w1, hst, hcl, hphases, hrun⟩ := Reconcile_active_run hfault hget hactive hok
  obtain ⟨p2, h1, h2, h3, _, h5⟩ := runPhases_ok hst hphases
  rw [hrun]
  exact ⟨p2, h1, h2, h3, by rw [← hcl]; exact h5⟩

/-- In the calls of the phases every project update carries the metadata of
the project the phases were given. -/
theorem runPhases_updates_keep_meta (p : Project) :
    (runPhases p).Issues (fun c => ∀ q, c.op = .updateProject q → q.objectMeta = p.objectMeta)
      (fun _ => True) := by
  unfold runPhases
  refine M.issues_bind (initProjectRole_issues p (fun _ _ _ q hq => by cases hq)
    (fun _ _ _ q hq => by cases hq) (fun _ _ _ q hq => by cases hq)) (fun _ _ => ?_)
  refine M.issues_bind (initManagerRoleBinding_issues p (fun _ q hq => by cases hq)
    (fun _ _ q hq => by cases hq) (fun _ _ q hq => by cases hq) (fun _ q hq => by cases hq))
    (fun _ _ => ?_)
  refine M.issues_bind (syncProjectNodeFromCluster_issues p (fun _ _ q hq => by cases hq)
    (fun _ _ q hq => by cases hq; rfl)) (fun p1 hp1 => ?_)
  obtain ⟨nodes, rfl⟩ := hp1
  refine M.issues_bind (syncNodeLabel_issues _ (fun _ _ q hq => by cases hq)
    (fun _ _ q hq => by cases hq) (fun _ _ q hq => by cases hq)) (fun _ _ => ?_)
  exact count_issues _ (fun _ _ q hq => by cases hq) (fun _ _ q hq => by cases hq; rfl)

/-- A log with a successful project update has a last persisted project, and
it is the object of one of its successful updates. -/
theorem lastPersisted_of_update {calls : List Call}
    (h : ∃ q, (⟨.updateProject q, none⟩ : Call) ∈ calls) :
    ∃ q, lastPersisted calls = some q ∧ (⟨.updateProject q, none⟩ : Call) ∈ calls := by
  induction calls with
  | nil => obtain ⟨q, hq⟩ := h; cases hq
  | cons c rest ih =>
    by_cases hrest : ∃ q, (⟨.updateProject q, none⟩ : Call) ∈ rest
    · obtain ⟨q, hq1, hq2⟩ := ih hrest
      exact ⟨q, by simp [lastPersisted, hq1], List.mem_cons_of_mem _ hq2⟩
    · obtain ⟨q, hq⟩ := h
      rcases List.mem_cons.mp hq with hq | hq
      · have hnone : lastPersisted rest = none := by
          cases hl : lastPersisted rest with
          | none => rfl
          | some r =>
            exfalso
            have : ∀ cs : List Call, ∀ r, lastPersisted cs = some r →
                (⟨.updateProject r, none⟩ : Call) ∈ cs := by
              intro cs
              induction cs with
              | nil => intro r hr; cases hr
              | cons d ds ihd =>
                intro r hr
                simp only [lastPersisted] at hr
                cases hld : lastPersisted ds with
                | some r' =>
                  rw [hld] at hr
                  cases hr
                  exact List.mem_cons_of_mem _ (ihd r hld)
                | none =>
                  rw [hld] at hr
                  cases d with
                  | mk op err =>
                    cases op <;> cases err <;> simp at hr
                    subst hr
                    exact List.mem_cons_self _ _
            exact hrest ⟨r, this rest r hl⟩
        refine ⟨q, ?_, by rw [← hq]; exact List.mem_cons_self _ _⟩
        rw [← hq]
        simp [lastPersisted, hnone]
      · exact absurd ⟨q, hq⟩ hrest

end ProjectReconciler

namespace ProjectReconciler

/-- C3: after a successful pass on a project whose deletion timestamp is
unset, whatever finalizers it started with, the project in the store holds the
controller's finalizer token, and so does the project last persisted by the
pass, as does every project update the pass issued. -/
theorem reconcile_active_keeps_finalizer (w : World) (name : String) (project : Project)
    (hfault : w.nextFault = none)
    (hget : getByName Project.name w.store.projects name = some project)
    (hactive : Time.IsZero project.objectMeta.deletionTimestamp = true)
    (hok : (Reconcile name w).res = .ok ()) :
    (∃ q, getByName Project.name (Reconcile name w).world.store.projects name = some q ∧
        ProjectFinalizer ∈ q.objectMeta.finalizers) ∧
      (∃ q, lastPersisted (Reconcile name w).calls = some q ∧
        ProjectFinalizer ∈ q.objectMeta.finalizers) ∧
      ∀ c ∈ (Reconcile name w).calls, ∀ q, c.op = .updateProject q →
        ProjectFinalizer ∈ q.objectMeta.finalizers := by
  have hname : project.name = name := getByName_name hget
  obtain ⟨p2, hst, _, hmeta, _⟩ := Reconcile_active_ok hfault hget hactive hok
  obtain ⟨w1, _, _, _, hrun⟩ := Reconcile_active_run hfault hget hactive hok
  have hp2name : p2.name = name := by
    show p2.objectMeta.name = name
    rw [hmeta]
    exact (withFinalizer_name project).trans hname
  have hall : ∀ c ∈ (Reconcile name w).calls, ∀ q, c.op = .updateProject q →
      ProjectFinalizer ∈ q.objectMeta.finalizers := by
    rw [hrun]
    intro c hc q hq
    simp only [Out.prepend, List.cons_append, List.nil_append, List.mem_cons] at hc
    rcases hc with hc | hc | hc
    · subst hc; cases hq
    · subst hc; cases hq; exact withFinalizer_has_token project
    · rw [(runPhases_updates_keep_meta (withFinalizer project) w1).1 c hc q hq]
      exact withFinalizer_has_token project
  refine ⟨⟨p2, ?_, ?_⟩, ?_, hall⟩
  · have := StoredAs_get hst
    rw [hp2name] at this
    exact this
  · rw [hmeta]; exact withFinalizer_has_token project
  · have hmem : ∃ q, (⟨.updateProject q, none⟩ : Call) ∈ (Reconcile name w).calls := by
      rw [hrun]
      exact ⟨withFinalizer project, by simp [Out.prepend]⟩
    obtain ⟨q, hq1, hq2⟩ := lastPersisted_of_update hmem
    exact ⟨q, hq1, hall _ hq2 q rfl⟩

theorem reconcile_active_keeps_finalizer_witness :
    ∃ q, lastPersisted (Reconcile "p" freshWorld).calls = some q ∧
      ProjectFinalizer ∈ q.objectMeta.finalizers :=
  (reconcile_active_keeps_finalizer freshWorld "p"
    { objectMeta := { name := "p" }, spec := { manager := "m", nodes := [] } }
    (by decide) (by decide) (by decide) (by decide!)).2.1

theorem nodes_eq_nil_of_settled {s : Store} {p : Project} (h : NodesSettled s p)
    (hnone : ∀ c ∈ s.clusters,
      (Requirement.equals LabelProject p.name).holds c.objectMeta.labels = false) :
    p.spec.nodes = [] := by
  apply List.eq_nil_iff_forall_not_mem.mpr
  intro x hx
  obtain ⟨c, hc, hl, _⟩ := ((NodesSettled_iff s p).mp h x).mp hx
  rw [hnone c hc] at hl
  cases hl

/-- C6: after a successful `syncProjectNodeFromCluster` the member list of the
project holds exactly the node identifiers of the clusters labelled with the
project (so it is empty when no cluster carries the label), whatever the
member list was, and the project with that list is the one handed on, persisted
if it changed; and after a successful pass on an active project the same holds
of the stored project. -/
theorem member_nodes_equal_cluster_union (w : World) (p p1 : Project) (name : String)
    (project : Project) :
    ((syncProjectNodeFromCluster p w).res = .ok p1 →
      (∀ x, x ∈ p1.spec.nodes ↔
        ∃ c ∈ w.store.clusters,
          (Requirement.equals LabelProject p.name).holds c.objectMeta.labels = true ∧
            c.GetAllNodes.Has x = true) ∧
      ((∀ c ∈ w.store.clusters,
          (Requirement.equals LabelProject p.name).holds c.objectMeta.labels = false) →
        p1.spec.nodes = []) ∧
      (p1 = p ∨ (⟨.updateProject p1, none⟩ : Call) ∈ (syncProjectNodeFromCluster p w).calls)) ∧
    (w.nextFault = none → getByName Project.name w.store.projects name = some project →
      Time.IsZero project.objectMeta.deletionTimestamp = true →
      (Reconcile name w).res = .ok () →
      ∃ q, getByName Project.name (Reconcile name w).world.store.projects name = some q ∧
        (∀ x, x ∈ q.spec.nodes ↔
          ∃ c ∈ (Reconcile name w).world.store.clusters,
            (Requirement.equals LabelProject name).holds c.objectMeta.labels = true ∧
              c.GetAllNodes.Has x = true) ∧
        ((∀ c ∈ (Reconcile name w).world.store.clusters,
            (Requirement.equals LabelProject name).holds c.objectMeta.labels = false) →
          q.spec.nodes = [])) := by
  have hHas : ∀ (c : Cluster) (x : String), c.GetAllNodes.Has x = true ↔ x ∈ c.nodes := by
    intro c x
    simp [Cluster.GetAllNodes, sets.NewString_Has]
  constructor
  · intro h
    obtain ⟨_, hp1, hs, hcases⟩ := syncProjectNodeFromCluster_ok h
    have hp1name : p1.name = p.name := by rw [hp1]; rfl
    have hs' : NodesSettled w.store p1 :=
      NodesSettled_congr (syncProjectNodeFromCluster_frame p w).1.symm rfl rfl hs
    refine ⟨fun x => ?_, fun hnone => ?_, ?_⟩
    · rw [(NodesSettled_iff _ _).mp hs' x, hp1name]
      simp only [hHas]
    · exact nodes_eq_nil_of_settled hs' (by rw [hp1name]; exact hnone)
    · rcases hcases with ⟨heq, _, _⟩ | ⟨_, _, _, hcalls⟩
      · exact Or.inl heq
      · right; rw [hcalls]; simp
  · intro hfault hget hactive hok
    have hname : project.name = name := getByName_name hget
    obtain ⟨p2, hst, hsettled, hmeta, _⟩ := Reconcile_active_ok hfault hget hactive hok
    have hp2name : p2.name = name := by
      show p2.objectMeta.name = name
      rw [hmeta]
      exact (withFinalizer_name project).trans hname
    have hgot := StoredAs_get hst
    rw [hp2name] at hgot
    refine ⟨p2, hgot, fun x => ?_, fun hnone => ?_⟩
    · rw [(NodesSettled_iff _ _).mp hsettled.2.2.2.1 x, hp2name]
      simp only [hHas]
    · exact nodes_eq_nil_of_settled hsettled.2.2.2.1 (by rw [hp2name]; exact hnone)

theorem member_nodes_equal_cluster_union_witness :
    ∃ q, getByName Project.name (Reconcile "p" clusterWorld).world.store.projects "p" = some q ∧
      (∀ x, x ∈ q.spec.nodes ↔
        ∃ c ∈ (Reconcile "p" clusterWorld).world.store.clusters,
          (Requirement.equals LabelProject "p").holds c.objectMeta.labels = true ∧
            c.GetAllNodes.Has x = true) ∧
      ((∀ c ∈ (Reconcile "p" clusterWorld).world.store.clusters,
          (Requirement.equals LabelProject "p").holds c.objectMeta.labels = false) →
        q.spec.nodes = []) :=
  (member_nodes_equal_cluster_union clusterWorld projectOfBob projectOfBob "p" projectOfBob).2
    (by decide) (by decide) (by decide) (by decide!)

end ProjectReconciler

namespace ProjectReconciler

/-- When the project cannot be fetched the pass ends at once: with success if
the project is gone, with the error otherwise. -/
theorem Reconcile_of_get_error {w : World} {name : String} {e : Err}
    (hget : (ProjectLister.Get name w).res = .error e) :
    Reconcile name w =
      ⟨if e.IsNotFound then .ok () else .error e, (ProjectLister.Get name w).world,
        (ProjectLister.Get name w).calls⟩ := by
  unfold Reconcile
  rw [M.bind_eq, M.andThen_eq_prepend _ (a := .error e) (by rw [M.attempt_res, hget])]
  cases h : e.IsNotFound <;>
    simp [h, Out.prepend, M.attempt_world, M.attempt_calls, M.pure_eq, M.ret, M.fail]

/-- A pass that returns success had no failure scheduled
for its first call. -/
theorem nextFault_of_Reconcile_ok {w : World} {name : String}
    (hok : (Reconcile name w).res = .ok ()) : w.nextFault = none := by
  rcases getProject_run name w with ⟨f, _, hg⟩ | ⟨_, hf, _, _⟩ | ⟨hf, _, _⟩
  · rw [Reconcile_of_get_error (e := f.toErr) (by rw [hg]), Fault.toErr_IsNotFound] at hok
    cases hok
  · exact hf
  · exact hf

/-- A pass on a stored project that is being deleted and no longer holds the
finalizer issues the fetch alone. -/
theorem Reconcile_done_run {w : World} {name : String} {project : Project}
    (hget : getByName Project.name w.store.projects name = some project)
    (hz : Time.IsZero project.objectMeta.deletionTimestamp = false)
    (hfin : (sets.NewString project.objectMeta.finalizers).Has ProjectFinalizer = false) :
    (Reconcile name w).world.store = w.store ∧
      ∃ e, (Reconcile name w).calls = [⟨.getProject name, e⟩] := by
  rcases getProject_run name w with ⟨f, _, hg⟩ | ⟨p, _, hfound, hg⟩ | ⟨_, hnone, _⟩
  · rw [Reconcile_of_get_error (e := f.toErr) (by rw [hg]), hg]
    exact ⟨rfl, _, rfl⟩
  · rw [hget] at hfound
    cases hfound
    rw [Reconcile_cleaned (by rw [hg]) hz hfin, hg]
    exact ⟨rfl, _, rfl⟩
  · rw [hget] at hnone
    cases hnone

/-- A pass on a store that is settled for the stored active project, which
holds the finalizer: the store is left as it is, and the calls are the fetch,
the update that persists the project as it stands, and calls that write
nothing. -/
theorem Reconcile_settled_run {p : Project} {w : World} (hst : StoredAs w.store p)
    (hs : Settled w.store p) (htok : ProjectFinalizer ∈ p.objectMeta.finalizers)
    (hactive : Time.IsZero p.objectMeta.deletionTimestamp = true) :
    (Reconcile p.name w).world.store = w.store ∧
      ((∃ e, (Reconcile p.name w).calls = [⟨.getProject p.name, e⟩] ∧ w.faults ≠ []) ∨
        ∃ e rest, (Reconcile p.name w).calls =
            ⟨.getProject p.name, none⟩ :: ⟨.updateProject p, e⟩ :: rest ∧
          (∀ c ∈ rest, c.op.isWrite = false) ∧ (w.faults = [] → e = none)) := by
  have hstored := StoredAs_get hst
  rcases getProject_run p.name w with ⟨f, hf, hg⟩ | ⟨p', _, hfound, hg⟩ | ⟨_, hnone, _⟩
  · rw [Reconcile_of_get_error (e := f.toErr) (by rw [hg]), hg]
    exact ⟨rfl, Or.inl ⟨_, rfl, World.faults_ne_nil_of_nextFault hf⟩⟩
  · rw [hstored] at hfound
    cases hfound
    rw [Reconcile_active (by rw [hg]) hactive, hg, withFinalizer_of_mem htok]
    have hnil : w.faults = [] → w.advance.nextFault = none := fun h =>
      World.nextFault_of_faults_nil (by rw [World.advance_faults, h]; rfl)
    rcases updateProject_run p w.advance with ⟨f, hf, hu⟩ | ⟨_, _, hu⟩ | ⟨_, hnone, _⟩
    · rw [M.bind_of_eq_error _ hu]
      refine ⟨rfl, Or.inr ⟨_, [], rfl, fun c hc => (by cases hc), fun h => ?_⟩⟩
      rw [hnil h] at hf
      cases hf
    · rw [M.bind_of_eq_ok _ hu]
      have hstore : (⟨{ w.advance.store with projects := replaceByName Project.name w.advance.store.projects p }, w.advance.faults.tail⟩ : World).store = w.store := by
        show ({ w.store with projects := replaceByName Project.name w.store.projects p } : Store) = w.store
        rw [replaceByName_of_StoredAs hst]
      have hq := runPhases_quiet (p := p) (w := ⟨{ w.advance.store with projects := replaceByName Project.name w.advance.store.projects p }, w.advance.faults.tail⟩) (by rw [hstore]; exact hs)
      refine ⟨?_, Or.inr ⟨none, _, rfl, hq.1, fun _ => rfl⟩⟩
      exact hq.2.trans hstore
    · rw [World.advance_store, hstored] at hnone
      cases hnone
  · rw [hstored] at hnone
    cases hnone

end ProjectReconciler

namespace ProjectReconciler

/-- The cleanup leaves the projects as they were. -/
theorem deleteRoleAndRoleBinding_projects (p : Project) (w : World) :
    (deleteRoleAndRoleBinding p w).world.store.projects = w.store.projects := by
  have h := frame_of_kinds (deleteRoleAndRoleBinding_logged p)
    (k := [Kind.role, Kind.binding, Kind.globalBinding])
    (deleteRoleAndRoleBinding_issues p (fun _ => by simp [Op.kind])
      (fun _ _ => by simp [Op.kind]) (fun _ => by simp [Op.kind])
      (fun _ _ => by simp [Op.kind]) (fun _ => by simp [Op.kind])) w
  exact h.1 (by decide)

theorem withoutFinalizer_lacks_token (project : Project) :
    (sets.NewString (withoutFinalizer project).objectMeta.finalizers).Has ProjectFinalizer =
      false := by
  simp [withoutFinalizer, sets.NewString_Has, sets.StringSet.Delete, sets.StringSet.List]

/-- After a successful pass on a stored project that is being deleted and
holds the finalizer, the store holds the project without the finalizer. -/
theorem Reconcile_terminating_ok {w : World} {name : String} {project : Project}
    (hget : getByName Project.name w.store.projects name = some project)
    (hz : Time.IsZero project.objectMeta.deletionTimestamp = false)
    (hfin : (sets.NewString project.objectMeta.finalizers).Has ProjectFinalizer = true)
    (hok : (Reconcile name w).res = .ok ()) :
    getByName Project.name (Reconcile name w).world.store.projects name =
      some (withoutFinalizer project) := by
  have hname : project.name = name := getByName_name hget
  have h0 := getProject_of_found (nextFault_of_Reconcile_ok hok) hget
  rw [Reconcile_terminating (by rw [h0]) hz hfin, h0] at hok ⊢
  change ((deleteRoleAndRoleBinding project >>= fun _ =>
    ProjectWriter.UpdateProject (withoutFinalizer project) >>= fun _ =>
      (pure () : M Unit)) w.advance).res = .ok () at hok
  change getByName Project.name ((deleteRoleAndRoleBinding project >>= fun _ =>
    ProjectWriter.UpdateProject (withoutFinalizer project) >>= fun _ =>
      (pure () : M Unit)) w.advance).world.store.projects name = _
  obtain ⟨_, w1, _, hw1, hok, e1⟩ := M.bind_ok_elim hok
  rw [e1]
  have hprojects : w1.store.projects = w.store.projects := by
    rw [← hw1]
    exact deleteRoleAndRoleBinding_projects project w.advance
  rcases updateProject_run (withoutFinalizer project) w1 with
    ⟨f, _, hu⟩ | ⟨_, hsome, hu⟩ | ⟨_, _, hu⟩
  · rw [M.bind_of_eq_error _ hu] at hok; cases hok
  · rw [M.bind_of_eq_ok _ hu]
    have hg := StoredAs_get (StoredAs_replace hsome)
    rw [← hname]
    exact hg
  · rw [M.bind_of_eq_error _ hu] at hok; cases hok

/-- Shape of a second pass that follows a successful one on the same store:
the store is left as it is, and the calls are either the fetch alone or, for
an active project, the fetch, an update that persists the stored project, and
calls that write nothing. -/
theorem Reconcile_again_run {w : World} {name : String} {project : Project}
    (faults : List (Option Fault))
    (hget : getByName Project.name w.store.projects name = some project)
    (hok : (Reconcile name w).res = .ok ()) :
    (Reconcile name ⟨(Reconcile name w).world.store, faults⟩).world.store =
        (Reconcile name w).world.store ∧
      ((∃ e, (Reconcile name ⟨(Reconcile name w).world.store, faults⟩).calls =
            [⟨.getProject name, e⟩] ∧
          (Time.IsZero project.objectMeta.deletionTimestamp = true → faults ≠ [])) ∨
        (Time.IsZero project.objectMeta.deletionTimestamp = true ∧
          ∃ q e rest,
            getByName Project.name (Reconcile name w).world.store.projects name = some q ∧
            (Reconcile name ⟨(Reconcile name w).world.store, faults⟩).calls =
              ⟨.getProject name, none⟩ :: ⟨.updateProject q, e⟩ :: rest ∧
            (∀ c ∈ rest, c.op.isWrite = false) ∧ (faults = [] → e = none))) := by
  have hname : project.name = name := getByName_name hget
  have hfault := nextFault_of_Reconcile_ok hok
  cases hz : Time.IsZero project.objectMeta.deletionTimestamp with
  | true =>
    obtain ⟨p2, hst, hsettled, hmeta, _⟩ := Reconcile_active_ok hfault hget hz hok
    have hp2name : p2.name = name := by
      show p2.objectMeta.name = name
      rw [hmeta]
      exact (withFinalizer_name project).trans hname
    have htok : ProjectFinalizer ∈ p2.objectMeta.finalizers := by
      rw [hmeta]; exact withFinalizer_has_token project
    have hactive : Time.IsZero p2.objectMeta.deletionTimestamp = true := by
      rw [hmeta, withFinalizer_deletionTimestamp]; exact hz
    have hgot := StoredAs_get hst
    have h2 := Reconcile_settled_run (p := p2)
      (w := ⟨(Reconcile name w).world.store, faults⟩) hst hsettled htok hactive
    rw [hp2name] at h2 hgot
    refine ⟨h2.1, ?_⟩
    rcases h2.2 with ⟨e, hc, hne⟩ | ⟨e, rest, hc, hrest, hnil⟩
    · exact Or.inl ⟨e, hc, fun _ => hne⟩
    · exact Or.inr ⟨rfl, p2, e, rest, hgot, hc, hrest, hnil⟩
  | false =>
    cases hfin : (sets.NewString project.objectMeta.finalizers).Has ProjectFinalizer with
    | true =>
      have hgot := Reconcile_terminating_ok hget hz hfin hok
      have h2 := Reconcile_done_run (w := ⟨(Reconcile name w).world.store, faults⟩) hgot
        (by exact hz) (withoutFinalizer_lacks_token project)
      obtain ⟨hs, e, hc⟩ := h2
      exact ⟨hs, Or.inl ⟨e, hc, fun h => by cases h⟩⟩
    | false =>
      have h0 := getProject_of_found hfault hget
      have hsame : (Reconcile name w).world.store = w.store := by
        rw [Reconcile_cleaned (by rw [h0]) hz hfin, h0]
        rfl
      have h2 := Reconcile_done_run (w := ⟨(Reconcile name w).world.store, faults⟩)
        (by rw [hsame]; exact hget) hz hfin
      obtain ⟨hs, e, hc⟩ := h2
      exact ⟨hs, Or.inl ⟨e, hc, fun h => by cases h⟩⟩

end ProjectReconciler

namespace ProjectReconciler

/-- C1 (as stated, refuted): on the store with the one active project `p`,
which already holds the finalizer, a first pass returns success and a second
pass on the store it left, with no failure scheduled, issues a write: the
update of the project. -/
theorem reconcile_second_run_updates_project :
    (getByName Project.name activeWorld.store.projects "p").isSome = true ∧
      (Reconcile "p" activeWorld).res = .ok () ∧
      ((Reconcile "p" ⟨(Reconcile "p" activeWorld).world.store, []⟩).calls.filter
          (fun c => c.op.isWrite)) =
        [⟨.updateProject
            { objectMeta := { name := "p", finalizers := [ProjectFinalizer] }
              spec := { manager := "m", nodes := [] } }, none⟩] := by
  decide!

/-- C1 (amended): when a pass on a stored project returned success and a second
pass runs on the store it left, under any failure schedule, the second pass
leaves the store as it is and issues at most one write; such a write is the
update of the project with which the pass on an active project begins, and its
object is the project as stored, so that nothing changes; on a project that is
being deleted the second pass issues no write; on an active project with no
failure scheduled the update is issued and succeeds. -/
theorem reconcile_second_run_only_repersists (w : World) (name : String) (project : Project)
    (faults : List (Option Fault))
    (hget : getByName Project.name w.store.projects name = some project)
    (hok : (Reconcile name w).res = .ok ()) :
    (Reconcile name ⟨(Reconcile name w).world.store, faults⟩).world.store =
        (Reconcile name w).world.store ∧
      (∀ c ∈ (Reconcile name ⟨(Reconcile name w).world.store, faults⟩).calls,
        c.op.isWrite = true →
          Time.IsZero project.objectMeta.deletionTimestamp = true ∧
          ∃ q, c.op = .updateProject q ∧
            getByName Project.name (Reconcile name w).world.store.projects name = some q) ∧
      ((Reconcile name ⟨(Reconcile name w).world.store, faults⟩).calls.filter
          (fun c => c.op.isWrite)).length ≤ 1 ∧
      (Time.IsZero project.objectMeta.deletionTimestamp = true → faults = [] →
        ∃ q, (⟨.updateProject q, none⟩ : Call) ∈
          (Reconcile name ⟨(Reconcile name w).world.store, faults⟩).calls) := by
  obtain ⟨hstore, hshape⟩ := Reconcile_again_run faults hget hok
  refine ⟨hstore, ?_⟩
  rcases hshape with ⟨e, hc, hne⟩ | ⟨hz, q, e, rest, hq, hc, hrest, hnil⟩
  · rw [hc]
    refine ⟨fun c hmem hw => ?_, by simp [Op.isWrite], fun hz h0 => absurd h0 (hne hz)⟩
    rw [List.mem_singleton] at hmem
    subst hmem
    cases hw
  · rw [hc]
    have hfilter : rest.filter (fun c => c.op.isWrite) = [] :=
      List.filter_eq_nil_iff.mpr (fun c hmem => by simp [hrest c hmem])
    refine ⟨fun c hmem hw => ?_, ?_, fun _ h0 => ?_⟩
    · simp only [List.mem_cons] at hmem
      rcases hmem with rfl | rfl | hmem
      · cases hw
      · exact ⟨hz, q, rfl, hq⟩
      · rw [hrest c hmem] at hw
        cases hw
    · rw [List.filter_cons, List.filter_cons, hfilter]
      simp [Op.isWrite]
    · rw [hnil h0]
      exact ⟨q, by simp⟩

theorem reconcile_second_run_only_repersists_witness :
    (Reconcile "p" ⟨(Reconcile "p" freshWorld).world.store, []⟩).world.store =
        (Reconcile "p" freshWorld).world.store ∧
      ((Reconcile "p" ⟨(Reconcile "p" freshWorld).world.store, []⟩).calls.filter
          (fun c => c.op.isWrite)).length ≤ 1 :=
  have h := reconcile_second_run_only_repersists freshWorld "p"
    { objectMeta := { name := "p" }, spec := { manager := "m", nodes := [] } } []
    (by decide) (by decide!)
  ⟨h.1, h.2.2.1⟩

end ProjectReconciler

namespace ProjectReconciler

/-- C18: when the fetch of the project fails, the fetch is the only call of the
pass and the store is left as it is; the pass returns success if the error is
not-found and the error itself otherwise; a key that is not in the store is
fetched as not-found. -/
theorem reconcile_fetch_error (w : World) (name : String) (e : Err)
    (hget : (ProjectLister.Get name w).res = .error e) :
    (e.IsNotFound = true → (Reconcile name w).res = .ok ()) ∧
      (e.IsNotFound = false → (Reconcile name w).res = .error e) ∧
      (Reconcile name w).calls = [⟨.getProject name, some e⟩] ∧
      (∀ c ∈ (Reconcile name w).calls, c.op.isWrite = false) ∧
      (Reconcile name w).world.store = w.store ∧
      (w.nextFault = none → (getByName Project.name w.store.projects name = none ↔ e = .notFound)) := by
  have hshape : (ProjectLister.Get name w).calls = [⟨.getProject name, some e⟩] ∧
      (ProjectLister.Get name w).world.store = w.store ∧
      (w.nextFault = none →
        (getByName Project.name w.store.projects name = none ↔ e = .notFound)) := by
    rcases getProject_run name w with ⟨f, hf, hg⟩ | ⟨p, _, _, hg⟩ | ⟨_, hnone, hg⟩
    · rw [hg] at hget ⊢
      cases hget
      exact ⟨rfl, rfl, fun h => by rw [h] at hf; cases hf⟩
    · rw [hg] at hget
      cases hget
    · rw [hg] at hget ⊢
      cases hget
      exact ⟨rfl, rfl, fun _ => ⟨fun _ => rfl, fun _ => hnone⟩⟩
  rw [Reconcile_of_get_error hget]
  refine ⟨fun h => by simp [h], fun h => by simp [h], hshape.1, ?_, hshape.2.1, hshape.2.2⟩
  intro c hc
  change c ∈ (ProjectLister.Get name w).calls at hc
  rw [hshape.1, List.mem_singleton] at hc
  subst hc
  rfl

theorem reconcile_fetch_error_witness :
    (Reconcile "gone" freshWorld).res = .ok () ∧
      (Reconcile "gone" freshWorld).calls = [⟨.getProject "gone", some .notFound⟩] :=
  have h := reconcile_fetch_error freshWorld "gone" .notFound (by decide)
  ⟨h.1 rfl, h.2.2.1⟩

/-- C19: a pass that fetches a project with a deletion timestamp and without
the finalizer returns success, issues the fetch and no other call, and leaves
the store as it is. -/
theorem reconcile_cleaned_project_noop (w : World) (name : String) (project : Project)
    (hget : (ProjectLister.Get name w).res = .ok project)
    (hz : Time.IsZero project.objectMeta.deletionTimestamp = false)
    (hfin : (sets.NewString project.objectMeta.finalizers).Has ProjectFinalizer = false) :
    (Reconcile name w).res = .ok () ∧
      (Reconcile name w).calls = [⟨.getProject name, none⟩] ∧
      (∀ c ∈ (Reconcile name w).calls, c.op.isWrite = false ∧ c.op.isCleanupCall = false) ∧
      (Reconcile name w).world.store = w.store := by
  have hshape : (ProjectLister.Get name w).calls = [⟨.getProject name, none⟩] ∧
      (ProjectLister.Get name w).world.store = w.store := by
    rcases getProject_run name w with ⟨f, _, hg⟩ | ⟨p, _, _, hg⟩ | ⟨_, _, hg⟩
    · rw [hg] at hget; cases hget
    · rw [hg]; exact ⟨rfl, rfl⟩
    · rw [hg] at hget; cases hget
  rw [Reconcile_cleaned hget hz hfin]
  refine ⟨rfl, hshape.1, ?_, hshape.2⟩
  intro c hc
  change c ∈ (ProjectLister.Get name w).calls at hc
  rw [hshape.1, List.mem_singleton] at hc
  subst hc
  exact ⟨rfl, rfl⟩

theorem reconcile_cleaned_project_noop_witness :
    (Reconcile "p" ⟨{ projects := [{ objectMeta := { name := "p", deletionTimestamp := some 1 }, spec := { manager := "m", nodes := [] } }] }, []⟩).calls =
      [⟨.getProject "p", none⟩] :=
  (reconcile_cleaned_project_noop
    ⟨{ projects := [{ objectMeta := { name := "p", deletionTimestamp := some 1 }, spec := { manager := "m", nodes := [] } }] }, []⟩
    "p" { objectMeta := { name := "p", deletionTimestamp := some 1 }, spec := { manager := "m", nodes := [] } }
    (by decide) (by decide) (by decide)).2.1

end ProjectReconciler

/-- The last part of a sequence is the outcome when the first part succeeded. -/
theorem M.andThen_last {α β : Type} {m : M α} (f : α → M β) {w : World} {a : α}
    (h : (m w).res = .ok a) (b : Out β) (hb : f a (m w).world = b) :
    M.andThen m f w = ⟨b.res, b.world, (m w).calls ++ b.calls⟩ := by
  rw [M.andThen_of_ok f h, hb]

namespace ProjectReconciler

/-- Where the phases stop: a phase that returns an error ends the run with
that error, and the log ends with the calls of that phase. -/
theorem runPhases_stops (p p1 : Project) (w w1 w2 w3 w4 : World) (e : Err)
    (hw1 : w1 = (initProjectRole p w).world)
    (hw2 : w2 = (initManagerRoleBinding p w1).world)
    (hw3 : w3 = (syncProjectNodeFromCluster p w2).world)
    (hw4 : w4 = (syncNodeLabel p1 w3).world) :
    ((initProjectRole p w).res = .error e →
      runPhases p w = ⟨.error e, w1, (initProjectRole p w).calls⟩) ∧
    ((initProjectRole p w).res = .ok () → (initManagerRoleBinding p w1).res = .error e →
      runPhases p w = ⟨.error e, w2,
        (initProjectRole p w).calls ++ (initManagerRoleBinding p w1).calls⟩) ∧
    ((initProjectRole p w).res = .ok () → (initManagerRoleBinding p w1).res = .ok () →
      (syncProjectNodeFromCluster p w2).res = .error e →
      runPhases p w = ⟨.error e, w3,
        (initProjectRole p w).calls ++ ((initManagerRoleBinding p w1).calls ++
          (syncProjectNodeFromCluster p w2).calls)⟩) ∧
    ((initProjectRole p w).res = .ok () → (initManagerRoleBinding p w1).res = .ok () →
      (syncProjectNodeFromCluster p w2).res = .ok p1 → (syncNodeLabel p1 w3).res = .error e →
      runPhases p w = ⟨.error e, w4,
        (initProjectRole p w).calls ++ ((initManagerRoleBinding p w1).calls ++
          ((syncProjectNodeFromCluster p w2).calls ++ (syncNodeLabel p1 w3).calls))⟩) ∧
    ((initProjectRole p w).res = .ok () → (initManagerRoleBinding p w1).res = .ok () →
      (syncProjectNodeFromCluster p w2).res = .ok p1 → (syncNodeLabel p1 w3).res = .ok () →
      runPhases p w = ⟨(count p1 w4).res, (count p1 w4).world,
        (initProjectRole p w).calls ++ ((initManagerRoleBinding p w1).calls ++
          ((syncProjectNodeFromCluster p w2).calls ++ ((syncNodeLabel p1 w3).calls ++
            (count p1 w4).calls)))⟩) := by
  subst hw1 hw2 hw3 hw4
  unfold runPhases
  refine ⟨fun h1 => ?_, fun h1 h2 => ?_, fun h1 h2 h3 => ?_, fun h1 h2 h3 h4 => ?_,
    fun h1 h2 h3 h4 => ?_⟩
  · rw [M.bind_eq, M.andThen_of_error _ h1]
  · rw [M.bind_eq]
    refine M.andThen_last _ h1 ⟨_, _, _⟩ ?_
    rw [M.bind_eq, M.andThen_of_error _ h2]
  · rw [M.bind_eq]
    refine M.andThen_last _ h1 ⟨_, _, _⟩ ?_
    rw [M.bind_eq]
    refine M.andThen_last _ h2 ⟨_, _, _⟩ ?_
    rw [M.bind_eq, M.andThen_of_error _ h3]
  · rw [M.bind_eq]
    refine M.andThen_last _ h1 ⟨_, _, _⟩ ?_
    rw [M.bind_eq]
    refine M.andThen_last _ h2 ⟨_, _, _⟩ ?_
    rw [M.bind_eq]
    refine M.andThen_last _ h3 ⟨_, _, _⟩ ?_
    rw [M.bind_eq, M.andThen_of_error _ h4]
  · rw [M.bind_eq, M.andThen_of_ok _ h1]
    simp only [M.bind_eq]
    rw [M.andThen_of_ok _ h2]
    simp only []
    rw [M.andThen_of_ok _ h3]
    simp only []
    rw [M.andThen_of_ok _ h4]

end ProjectReconciler

namespace ProjectReconciler

/-- C16: on a pass over an active project, once the project is fetched and
persisted with the finalizer, the phases run in the order `initProjectRole`,
`initManagerRoleBinding`, `syncProjectNodeFromCluster`, `syncNodeLabel`,
`count`, each in the world the one before left; the first phase that returns an
error ends the pass: the pass returns that error, leaves the world that phase
left, and its log ends with the calls of that phase, so that no later phase
issues a call. -/
theorem reconcile_phase_error_aborts (w : World) (name : String) (project q p1 : Project)
    (e : Err) (w0 w1 w2 w3 w4 : World)
    (hget : (ProjectLister.Get name w).res = .ok project)
    (hactive : Time.IsZero project.objectMeta.deletionTimestamp = true)
    (hupd : (ProjectWriter.UpdateProject (withFinalizer project)
      (ProjectLister.Get name w).world).res = .ok q)
    (hw0 : w0 = (ProjectWriter.UpdateProject (withFinalizer project)
      (ProjectLister.Get name w).world).world)
    (hw1 : w1 = (initProjectRole q w0).world)
    (hw2 : w2 = (initManagerRoleBinding q w1).world)
    (hw3 : w3 = (syncProjectNodeFromCluster q w2).world)
    (hw4 : w4 = (syncNodeLabel p1 w3).world) :
    ((initProjectRole q w0).res = .error e →
      Reconcile name w = ⟨.error e, w1,
        [⟨.getProject name, none⟩, ⟨.updateProject (withFinalizer project), none⟩] ++
          (initProjectRole q w0).calls⟩) ∧
    ((initProjectRole q w0).res = .ok () → (initManagerRoleBinding q w1).res = .error e →
      Reconcile name w = ⟨.error e, w2,
        [⟨.getProject name, none⟩, ⟨.updateProject (withFinalizer project), none⟩] ++
          ((initProjectRole q w0).calls ++ (initManagerRoleBinding q w1).calls)⟩) ∧
    ((initProjectRole q w0).res = .ok () → (initManagerRoleBinding q w1).res = .ok () →
      (syncProjectNodeFromCluster q w2).res = .error e →
      Reconcile name w = ⟨.error e, w3,
        [⟨.getProject name, none⟩, ⟨.updateProject (withFinalizer project), none⟩] ++
          ((initProjectRole q w0).calls ++ ((initManagerRoleBinding q w1).calls ++
            (syncProjectNodeFromCluster q w2).calls))⟩) ∧
    ((initProjectRole q w0).res = .ok () → (initManagerRoleBinding q w1).res = .ok () →
      (syncProjectNodeFromCluster q w2).res = .ok p1 → (syncNodeLabel p1 w3).res = .error e →
      Reconcile name w = ⟨.error e, w4,
        [⟨.getProject name, none⟩, ⟨.updateProject (withFinalizer project), none⟩] ++
          ((initProjectRole q w0).calls ++ ((initManagerRoleBinding q w1).calls ++
            ((syncProjectNodeFromCluster q w2).calls ++ (syncNodeLabel p1 w3).calls)))⟩) ∧
    ((initProjectRole q w0).res = .ok () → (initManagerRoleBinding q w1).res = .ok () →
      (syncProjectNodeFromCluster q w2).res = .ok p1 → (syncNodeLabel p1 w3).res = .ok () →
      (count p1 w4).res = .error e →
      Reconcile name w = ⟨.error e, (count p1 w4).world,
        [⟨.getProject name, none⟩, ⟨.updateProject (withFinalizer project), none⟩] ++
          ((initProjectRole q w0).calls ++ ((initManagerRoleBinding q w1).calls ++
            ((syncProjectNodeFromCluster q w2).calls ++ ((syncNodeLabel p1 w3).calls ++
              (count p1 w4).calls))))⟩) := by
  have hgcalls : (ProjectLister.Get name w).calls = [⟨.getProject name, none⟩] := by
    rcases getProject_run name w with ⟨f, _, hg⟩ | ⟨p, _, _, hg⟩ | ⟨_, _, hg⟩
    · rw [hg] at hget; cases hget
    · rw [hg]
    · rw [hg] at hget; cases hget
  have hucalls : (ProjectWriter.UpdateProject (withFinalizer project)
      (ProjectLister.Get name w).world).calls =
        [⟨.updateProject (withFinalizer project), none⟩] := by
    rcases updateProject_run (withFinalizer project) (ProjectLister.Get name w).world with
      ⟨f, _, hu⟩ | ⟨_, _, hu⟩ | ⟨_, _, hu⟩
    · rw [hu] at hupd; cases hupd
    · rw [hu]
    · rw [hu] at hupd; cases hupd
  have hrun : Reconcile name w =
      ⟨(runPhases q w0).res, (runPhases q w0).world,
        [⟨.getProject name, none⟩, ⟨.updateProject (withFinalizer project), none⟩] ++
          (runPhases q w0).calls⟩ := by
    rw [Reconcile_active hget hactive, M.bind_eq, M.andThen_of_ok _ hupd, hgcalls, hucalls,
      ← hw0]
    rfl
  obtain ⟨s1, s2, s3, s4, s5⟩ := runPhases_stops q p1 w0 w1 w2 w3 w4 e hw1 hw2 hw3 hw4
  rw [hrun]
  refine ⟨fun h1 => ?_, fun h1 h2 => ?_, fun h1 h2 h3 => ?_, fun h1 h2 h3 h4 => ?_,
    fun h1 h2 h3 h4 h5 => ?_⟩
  · rw [s1 h1]
  · rw [s2 h1 h2]
  · rw [s3 h1 h2 h3]
  · rw [s4 h1 h2 h3 h4]
  · rw [s5 h1 h2 h3 h4, h5]

theorem reconcile_phase_error_aborts_witness :
    (Reconcile "p" missingNodeWorld).res = .error .notFound ∧
      ((Reconcile "p" missingNodeWorld).calls.getLast? = some ⟨.getNode "n1", some .notFound⟩) :=
  have h := (reconcile_phase_error_aborts missingNodeWorld "p" projectOfBob projectOfBob
    { projectOfBob with spec := { manager := "bob", nodes := ["n1"] } } .notFound
    _ _ _ _ _ (by decide) (by decide) (by decide) rfl rfl rfl rfl rfl).2.2.2.1
      (by decide!) (by decide!) (by decide!) (by decide!)
  ⟨congrArg Out.res h, by rw [h]; decide!⟩

end ProjectReconciler

/-! ## Failed calls that end a pass -/

theorem M.stopsAt_bind {α β : Type} {m : M α} {f : α → M β} {Q : Call → Prop}
    (hm : m.StopsAt Q) (hf : ∀ a, (f a).StopsAt Q) : (m >>= f).StopsAt Q := by
  intro w c hc hq err herr
  rw [M.bind_eq] at hc ⊢
  rcases M.andThen_cases m f w with ⟨e, he, h⟩ | ⟨a, ha, h⟩
  · rw [h] at hc ⊢
    have hstop := hm w c hc hq err herr
    rw [he] at hstop
    obtain ⟨⟨e1, he1, hrel⟩, hpre⟩ := hstop
    cases he1
    exact ⟨⟨_, rfl, hrel⟩, hpre⟩
  · rw [h] at hc ⊢
    rcases List.mem_append.mp hc with hc | hc
    · obtain ⟨⟨e, he, _⟩, _⟩ := hm w c hc hq err herr
      rw [ha] at he
      cases he
    · obtain ⟨hres, pre, hpre⟩ := hf a (m w).world c hc hq err herr
      refine ⟨hres, (m w).calls ++ pre, ?_⟩
      show (m w).calls ++ (f a (m w).world).calls = _
      rw [hpre, List.append_assoc]

theorem M.stopsAt_of_issues {α : Type} {m : M α} {Q : Call → Prop} {P : α → Prop}
    (hm : m.Issues (fun c => ¬ Q c) P) : m.StopsAt Q :=
  fun w c hc hq _ _ => absurd hq ((hm w).1 c hc)

theorem M.stopsAt_pure {α : Type} (a : α) (Q : Call → Prop) : (pure a : M α).StopsAt Q :=
  fun _ _ hc => (by cases hc)

theorem M.stopsAt_fail {α : Type} (e : Err) (Q : Call → Prop) : (M.fail e : M α).StopsAt Q :=
  fun _ _ hc => (by cases hc)

theorem M.stopsAt_ofExcept {α : Type} (r : Except Err α) (Q : Call → Prop) :
    (M.ofExcept r : M α).StopsAt Q :=
  fun _ _ hc => (by cases hc)

theorem M.stopsAt_mutate (n : Node) (Q : Call → Prop) : (NodeLister.mutate n).StopsAt Q :=
  fun _ _ hc => (by cases hc)

theorem storeCall_stopsAt {α : Type} (op : Op) (body : Store → Except Err (α × Store))
    (Q : Call → Prop) : (storeCall op body).StopsAt Q := by
  intro w c hc _ err herr
  rcases storeCall_cases op body w with ⟨f, _, h1⟩ | ⟨a, s, _, _, h1⟩ | ⟨e, _, _, h1⟩
  · rw [h1] at hc ⊢
    rw [List.mem_singleton] at hc
    subst hc
    cases herr
    exact ⟨⟨_, rfl, Or.inl rfl⟩, [], rfl⟩
  · rw [h1] at hc
    rw [List.mem_singleton] at hc
    subst hc
    cases herr
  · rw [h1] at hc ⊢
    rw [List.mem_singleton] at hc
    subst hc
    cases herr
    exact ⟨⟨_, rfl, Or.inl rfl⟩, [], rfl⟩

namespace ProjectReconciler

theorem updateNode_wrapped_stopsAt (node1 : Node) (msg : String) {k : M Unit}
    {Q : Call → Prop} (hk : k.StopsAt Q) :
    (M.attempt (NodeWriter.UpdateNode node1) >>= fun r =>
      match r with
      | .error err => M.fail (.withMessage msg err)
      | .ok _ => k).StopsAt Q := by
  intro w c hc hq err herr
  rcases updateNode_run node1 w with ⟨f, _, hu⟩ | ⟨_, _, hu⟩ | ⟨_, _, hu⟩
  · have hrun : (M.attempt (NodeWriter.UpdateNode node1)) w =
        ⟨.ok (.error f.toErr), w.advance, [⟨.updateNode node1, some f.toErr⟩]⟩ := by
      unfold M.attempt
      rw [hu]
    rw [M.bind_of_eq_ok _ hrun] at hc ⊢
    simp only [Out.prepend, M.fail_run, List.append_nil, List.mem_singleton] at hc ⊢
    subst hc
    cases herr
    exact ⟨⟨_, rfl, Or.inr ⟨_, rfl⟩⟩, [], rfl⟩
  · have hrun : (M.attempt (NodeWriter.UpdateNode node1)) w =
        ⟨.ok (.ok node1), World.mk { w.store with nodes := replaceByName Node.name w.store.nodes node1, editedNodes := removeByName Node.name w.store.editedNodes node1.name } w.faults.tail, [⟨.updateNode node1, none⟩]⟩ := by
      unfold M.attempt
      rw [hu]
    rw [M.bind_of_eq_ok _ hrun] at hc ⊢
    simp only [Out.prepend, List.singleton_append, List.mem_cons] at hc ⊢
    rcases hc with hc | hc
    · subst hc
      cases herr
    · obtain ⟨hres, pre, hpre⟩ := hk _ c hc hq err herr
      exact ⟨hres, _ :: pre, by rw [hpre]; rfl⟩
  · have hrun : (M.attempt (NodeWriter.UpdateNode node1)) w =
        ⟨.ok (.error .notFound), w.advance, [⟨.updateNode node1, some .notFound⟩]⟩ := by
      unfold M.attempt
      rw [hu]
    rw [M.bind_of_eq_ok _ hrun] at hc ⊢
    simp only [Out.prepend, M.fail_run, List.append_nil, List.mem_singleton] at hc ⊢
    subst hc
    cases herr
    exact ⟨⟨_, rfl, Or.inr ⟨_, rfl⟩⟩, [], rfl⟩

theorem removeLabelLoop_stopsAt (p : Project) (nodes : List Node) (Q : Call → Prop) :
    (removeLabelLoop p nodes).StopsAt Q := by
  induction nodes with
  | nil => exact M.stopsAt_pure _ _
  | cons node rest ih =>
    by_cases hmem : node.name ∈ p.spec.nodes
    · rw [removeLabelLoop_cons_member rest hmem]
      exact ih
    · rw [removeLabelLoop_cons_left rest hmem]
      exact M.stopsAt_bind (M.stopsAt_mutate _ _) (fun _ => updateNode_wrapped_stopsAt _ _ ih)

theorem addLabelLoop_stopsAt (p : Project) (ids : List String) (Q : Call → Prop) :
    (addLabelLoop p ids).StopsAt Q := by
  induction ids with
  | nil => exact M.stopsAt_pure _ _
  | cons nodeID rest ih =>
    rw [addLabelLoop_cons]
    refine M.stopsAt_bind (storeCall_stopsAt _ _ _) (fun node => ?_)
    split
    · refine M.stopsAt_bind (M.stopsAt_ofExcept _ _) (fun labels => ?_)
      refine M.stopsAt_bind (M.stopsAt_mutate _ _) (fun _ => ?_)
      exact M.stopsAt_bind (storeCall_stopsAt _ _ _) (fun _ => ih)
    · exact ih

theorem syncNodeLabel_stopsAt (p : Project) (Q : Call → Prop) : (syncNodeLabel p).StopsAt Q := by
  unfold syncNodeLabel
  refine M.stopsAt_bind (M.stopsAt_ofExcept _ _) (fun req => ?_)
  refine M.stopsAt_bind (storeCall_stopsAt _ _ _) (fun list => ?_)
  exact M.stopsAt_bind (removeLabelLoop_stopsAt _ _ _) (fun _ => addLabelLoop_stopsAt _ _ _)

end ProjectReconciler

namespace ProjectReconciler

theorem runPhases_stopsAt_updateNode (p : Project) :
    (runPhases p).StopsAt (fun c => ∃ n, c.op = .updateNode n) := by
  unfold runPhases
  refine M.stopsAt_bind (M.stopsAt_of_issues (P := fun _ => True)
    (initProjectRole_issues p (fun _ _ _ h => by obtain ⟨n, hn⟩ := h; cases hn)
      (fun _ _ _ h => by obtain ⟨n, hn⟩ := h; cases hn)
      (fun _ _ _ h => by obtain ⟨n, hn⟩ := h; cases hn))) (fun _ => ?_)
  refine M.stopsAt_bind (M.stopsAt_of_issues (P := fun _ => True)
    (initManagerRoleBinding_issues p (fun _ h => by obtain ⟨n, hn⟩ := h; cases hn)
      (fun _ _ h => by obtain ⟨n, hn⟩ := h; cases hn)
      (fun _ _ h => by obtain ⟨n, hn⟩ := h; cases hn)
      (fun _ h => by obtain ⟨n, hn⟩ := h; cases hn))) (fun _ => ?_)
  refine M.stopsAt_bind (M.stopsAt_of_issues
    (syncProjectNodeFromCluster_issues p (fun _ _ h => by obtain ⟨n, hn⟩ := h; cases hn)
      (fun _ _ h => by obtain ⟨n, hn⟩ := h; cases hn))) (fun p1 => ?_)
  refine M.stopsAt_bind (syncNodeLabel_stopsAt p1 _) (fun _ => ?_)
  exact M.stopsAt_of_issues (P := fun _ => True)
    (count_issues p1 (fun _ _ h => by obtain ⟨n, hn⟩ := h; cases hn)
      (fun _ _ h => by obtain ⟨n, hn⟩ := h; cases hn))

theorem Reconcile_stopsAt_updateNode (name : String) :
    (Reconcile name).StopsAt (fun c => ∃ n, c.op = .updateNode n) := by
  unfold Reconcile
  refine M.stopsAt_bind (M.stopsAt_of_issues (M.issues_attempt (P := fun _ => True)
    (storeCall_issues _ _ (fun _ h => by obtain ⟨n, hn⟩ := h; cases hn)
      (fun _ _ _ _ => trivial)))) (fun r => ?_)
  cases r with
  | error e =>
    dsimp only
    split
    · exact M.stopsAt_pure _ _
    · exact M.stopsAt_fail _ _
  | ok project =>
    dsimp only
    split
    · exact M.stopsAt_bind (storeCall_stopsAt _ _ _) (fun p1 => runPhases_stopsAt_updateNode p1)
    · split
      · refine M.stopsAt_bind (M.stopsAt_of_issues (P := fun _ => True)
          (deleteRoleAndRoleBinding_issues project
            (fun _ h => by obtain ⟨n, hn⟩ := h; cases hn)
            (fun _ _ h => by obtain ⟨n, hn⟩ := h; cases hn)
            (fun _ h => by obtain ⟨n, hn⟩ := h; cases hn)
            (fun _ _ h => by obtain ⟨n, hn⟩ := h; cases hn)
            (fun _ h => by obtain ⟨n, hn⟩ := h; cases hn))) (fun _ => ?_)
        exact M.stopsAt_bind (storeCall_stopsAt _ _ _) (fun _ => M.stopsAt_pure _ _)
      · exact M.stopsAt_pure _ _

/-- C17: a failed `UpdateNode` ends `syncNodeLabel`, in either of its loops:
`syncNodeLabel` returns the error of the update (wrapped in a message when it
comes from the label-removal loop) and the failed update is the last call of
its log; and it ends the pass as well: `Reconcile` returns that error and the
failed update is the last call of the pass, so that `count` issues no call. -/
theorem syncNodeLabel_update_failure_aborts (p : Project) (name : String) (w : World)
    (n : Node) (err : Err) :
    ((⟨.updateNode n, some err⟩ : Call) ∈ (syncNodeLabel p w).calls →
      (∃ e, (syncNodeLabel p w).res = .error e ∧ (e = err ∨ ∃ msg, e = .withMessage msg err)) ∧
        ∃ pre, (syncNodeLabel p w).calls = pre ++ [⟨.updateNode n, some err⟩]) ∧
    ((⟨.updateNode n, some err⟩ : Call) ∈ (Reconcile name w).calls →
      (∃ e, (Reconcile name w).res = .error e ∧ (e = err ∨ ∃ msg, e = .withMessage msg err)) ∧
        ∃ pre, (Reconcile name w).calls = pre ++ [⟨.updateNode n, some err⟩]) :=
  ⟨fun h => syncNodeLabel_stopsAt p (fun _ => True) w _ h trivial err rfl,
    fun h => Reconcile_stopsAt_updateNode name w _ h ⟨n, rfl⟩ err rfl⟩

end ProjectReconciler

namespace ProjectReconciler

theorem syncNodeLabel_update_failure_aborts_witness :
    (∃ e, (Reconcile "p" failingNodeWorld).res = .error e ∧
        (e = .transient ∨ ∃ msg, e = .withMessage msg .transient)) ∧
      ∃ pre, (Reconcile "p" failingNodeWorld).calls = pre ++
        [⟨.updateNode { objectMeta := { name := "n1", labels := some [(LabelProject, "p")] } },
          some .transient⟩] :=
  (syncNodeLabel_update_failure_aborts projectOfBob "p" failingNodeWorld
    { objectMeta := { name := "n1", labels := some [(LabelProject, "p")] } } .transient).2
    (by decide!)

end ProjectReconciler

/-! ## Where the errors of the cleanup come from -/

theorem M.blames_bind {α β : Type} {m : M α} {f : α → M β}
    (hm : m.Blames) (hf : ∀ a, (f a).Blames) : (m >>= f).Blames := by
  intro w e he
  rw [M.bind_eq] at he ⊢
  rcases M.andThen_cases m f w with ⟨e1, he1, h⟩ | ⟨a, _, h⟩
  · rw [h] at he ⊢
    cases he
    exact hm w e he1
  · rw [h] at he ⊢
    obtain ⟨hnf, c, hc, hce⟩ := hf a (m w).world e he
    exact ⟨hnf, c, List.mem_append_right _ hc, hce⟩

theorem M.blames_pure {α : Type} (a : α) : (pure a : M α).Blames :=
  fun _ _ he => (by cases he)

/-- A listing fails only with a scheduled failure. -/
theorem storeCall_blames_of_total {α : Type} (op : Op) (body : Store → α × Store) :
    (storeCall op (fun s => .ok (body s))).Blames := by
  intro w e he
  rcases storeCall_cases op (fun s => .ok (body s)) w with
    ⟨f, _, h1⟩ | ⟨a, s, _, _, h1⟩ | ⟨e1, _, hb, _⟩
  · rw [h1] at he ⊢
    cases he
    exact ⟨Fault.toErr_IsNotFound f, _, List.mem_singleton_self _, rfl⟩
  · rw [h1] at he
    cases he
  · cases hb

namespace ProjectReconciler

theorem tolerateNotFound_blames (op : Op) (body : Store → Except Err (Unit × Store)) :
    (tolerateNotFound (storeCall op body)).Blames := by
  intro w e he
  obtain ⟨h1, _, h3⟩ := tolerateNotFound_storeCall op body w
  obtain ⟨e0, hcalls, _, herr⟩ := storeCall_calls op body w
  rw [h3] at he
  rw [h1, hcalls]
  cases hres : (storeCall op body w).res with
  | ok a =>
    rw [hres] at he
    cases he
  | error e1 =>
    rw [hres] at he
    by_cases hnf : e1.IsNotFound = true
    · simp [hnf] at he
    · simp [hnf] at he
      subst he
      exact ⟨by simpa using hnf, _, List.mem_singleton_self _, (herr e1).mpr hres⟩

theorem deleteRolesLoop_blames (roles : List ProjectRole) : (deleteRolesLoop roles).Blames := by
  induction roles with
  | nil => exact M.blames_pure _
  | cons role rest ih =>
    unfold deleteRolesLoop
    exact M.blames_bind (tolerateNotFound_blames _ _) (fun _ => ih)

theorem deleteRoleBindingsLoop_blames (bs : List RoleBinding) :
    (deleteRoleBindingsLoop bs).Blames := by
  induction bs with
  | nil => exact M.blames_pure _
  | cons b rest ih =>
    unfold deleteRoleBindingsLoop
    exact M.blames_bind (tolerateNotFound_blames _ _) (fun _ => ih)

theorem deleteRoleAndRoleBinding_blames (p : Project) : (deleteRoleAndRoleBinding p).Blames := by
  unfold deleteRoleAndRoleBinding
  refine M.blames_bind (storeCall_blames_of_total _ _) (fun roles => ?_)
  refine M.blames_bind (deleteRolesLoop_blames _) (fun _ => ?_)
  refine M.blames_bind (storeCall_blames_of_total _ _) (fun bs => ?_)
  exact M.blames_bind (deleteRoleBindingsLoop_blames _) (fun _ => tolerateNotFound_blames _ _)

/-- The cleanup succeeds exactly when none of its calls fails with an error
other than not-found. -/
theorem deleteRoleAndRoleBinding_ok_iff (p : Project) (w : World) :
    (deleteRoleAndRoleBinding p w).res = .ok () ↔
      ∀ c ∈ (deleteRoleAndRoleBinding p w).calls, ∀ e, c.err = some e → e.IsNotFound = true := by
  constructor
  · intro hok c hc e he
    by_contra hnf
    have hs := deleteRoleAndRoleBinding_strict p w c hc e he (by simpa using hnf)
    rw [hok] at hs
    cases hs
  · intro hall
    cases hres : (deleteRoleAndRoleBinding p w).res with
    | ok a => rfl
    | error e =>
      obtain ⟨hnf, c, hc, hce⟩ := deleteRoleAndRoleBinding_blames p w e hres
      rw [hall c hc e hce] at hnf
      cases hnf

end ProjectReconciler

namespace ProjectReconciler

theorem deleteRolesLoop_ops (roles : List ProjectRole) (w : World)
    (h : (deleteRolesLoop roles w).res = .ok ()) :
    (deleteRolesLoop roles w).calls.map Call.op =
      roles.map (fun r => Op.deleteProjectRole r.name) := by
  induction roles generalizing w with
  | nil => rfl
  | cons role rest ih =>
    change ((tolerateNotFound (IAMOperator.DeleteProjectRole role.name) >>= fun _ =>
      deleteRolesLoop rest) w).res = .ok () at h
    change ((tolerateNotFound (IAMOperator.DeleteProjectRole role.name) >>= fun _ =>
      deleteRolesLoop rest) w).calls.map Call.op = _
    rcases deleteProjectRole_tolerant_run role.name w with ⟨f, _, hu⟩ | ⟨e, _, _, _, hu⟩
    · rw [M.bind_of_eq_error _ hu] at h; cases h
    · rw [M.bind_of_eq_ok _ hu] at h ⊢
      simp only [Out.prepend, List.singleton_append, List.map_cons]
      rw [ih _ h]

theorem deleteRoleBindingsLoop_ops (bs : List RoleBinding) (w : World)
    (h : (deleteRoleBindingsLoop bs w).res = .ok ()) :
    (deleteRoleBindingsLoop bs w).calls.map Call.op =
      bs.map (fun b => Op.deleteProjectRoleBinding b.name) := by
  induction bs generalizing w with
  | nil => rfl
  | cons b rest ih =>
    change ((tolerateNotFound (IAMOperator.DeleteProjectRoleBinding b.name) >>= fun _ =>
      deleteRoleBindingsLoop rest) w).res = .ok () at h
    change ((tolerateNotFound (IAMOperator.DeleteProjectRoleBinding b.name) >>= fun _ =>
      deleteRoleBindingsLoop rest) w).calls.map Call.op = _
    rcases deleteProjectRoleBinding_tolerant_run b.name w with ⟨f, _, hu⟩ | ⟨e, _, _, _, hu⟩
    · rw [M.bind_of_eq_error _ hu] at h; cases h
    · rw [M.bind_of_eq_ok _ hu] at h ⊢
      simp only [Out.prepend, List.singleton_append, List.map_cons]
      rw [ih _ h]

theorem deleteRolesLoop_bindings (roles : List ProjectRole) (w : World) :
    (deleteRolesLoop roles w).world.store.projectRoleBindings = w.store.projectRoleBindings :=
  (frame_of_kinds (deleteRolesLoop_logged roles) (k := [Kind.role])
    (deleteRolesLoop_issues roles (fun _ _ => by simp [Op.kind])) w).2.2.2.2.1 (by decide)

theorem deleteRoleBinding_tolerant_ops (name : String) (w : World) :
    (tolerateNotFound (IAMOperator.DeleteRoleBinding name) w).calls.map Call.op =
      [Op.deleteRoleBinding name] := by
  rcases deleteRoleBinding_tolerant_run name w with ⟨f, _, hu⟩ | ⟨e, _, _, _, hu⟩
  · rw [hu]; rfl
  · rw [hu]; rfl

/-- The calls of a cleanup that succeeds: the role listing, a delete for every
listed role, the binding listing, a delete for every listed binding, and the
delete of the global binding `{project}-{manager}`. -/
theorem deleteRoleAndRoleBinding_ops (p : Project) (w : World)
    (h : (deleteRoleAndRoleBinding p w).res = .ok ()) :
    (deleteRoleAndRoleBinding p w).calls.map Call.op =
      Op.listProjectRoles (cleanupQuery p) ::
        ((storeList ProjectRole.name (fun r => r.objectMeta.labels) w.store.projectRoles
            (parseSelector (cleanupQuery p))).map (fun r => Op.deleteProjectRole r.name) ++
          Op.listProjectRoleBinding (cleanupQuery p) ::
            ((storeList RoleBinding.name (fun b => b.objectMeta.labels)
                w.store.projectRoleBindings (parseSelector (cleanupQuery p))).map
              (fun b => Op.deleteProjectRoleBinding b.name) ++
              [Op.deleteRoleBinding (p.name ++ "-" ++ p.spec.manager)])) := by
  unfold deleteRoleAndRoleBinding at h ⊢
  rcases listProjectRoles_run (cleanupQuery p) w with ⟨f, _, hl⟩ | ⟨_, hl⟩
  · rw [M.bind_of_eq_error _ hl] at h; cases h
  rw [M.bind_of_eq_ok _ hl] at h ⊢
  simp only [Out.prepend, List.singleton_append, List.map_cons] at h ⊢
  congr 1
  obtain ⟨_, h1, heq1⟩ := M.bind_ok_inv h
  rw [heq1] at h ⊢
  simp only [Out.prepend, List.map_append] at h ⊢
  rw [deleteRolesLoop_ops _ _ h1]
  congr 1
  rcases listProjectRoleBinding_run (cleanupQuery p)
      (deleteRolesLoop (storeList ProjectRole.name (fun r => r.objectMeta.labels)
        w.store.projectRoles (parseSelector (cleanupQuery p))) w.advance).world with
    ⟨f, _, hl2⟩ | ⟨_, hl2⟩
  · rw [M.bind_of_eq_error _ hl2] at h; cases h
  rw [M.bind_of_eq_ok _ hl2] at h ⊢
  simp only [Out.prepend, List.singleton_append, List.map_cons] at h ⊢
  simp only [deleteRolesLoop_bindings, World.advance_store] at h ⊢
  congr 1
  obtain ⟨_, h2, heq2⟩ := M.bind_ok_inv h
  rw [heq2] at h ⊢
  simp only [Out.prepend, List.map_append] at h ⊢
  rw [deleteRoleBindingsLoop_ops _ _ h2]
  congr 1
  exact deleteRoleBinding_tolerant_ops _ _

end ProjectReconciler

namespace ProjectReconciler

/-- C20: on a pass over a project that is being deleted and holds the
finalizer, the cleanup succeeds exactly when none of its calls fails with an
error other than not-found, so a delete that reports not-found is no error;
when it succeeds it has issued the delete of every listed role, of every
listed binding and of the global binding `{project}-{manager}`, whatever each
delete reported; the pass then issues the update that persists the project
without the finalizer token, and when that update succeeds the pass returns
success and the stored project is the one without the token. -/
theorem cleanup_tolerates_not_found (w : World) (name : String) (project : Project)
    (hget : (ProjectLister.Get name w).res = .ok project)
    (hz : Time.IsZero project.objectMeta.deletionTimestamp = false)
    (hfin : (sets.NewString project.objectMeta.finalizers).Has ProjectFinalizer = true) :
    ((deleteRoleAndRoleBinding project w.advance).res = .ok () ↔
      ∀ c ∈ (deleteRoleAndRoleBinding project w.advance).calls, ∀ e, c.err = some e →
        e.IsNotFound = true) ∧
    ((deleteRoleAndRoleBinding project w.advance).res = .ok () →
      (deleteRoleAndRoleBinding project w.advance).calls.map Call.op =
        Op.listProjectRoles (cleanupQuery project) ::
          ((storeList ProjectRole.name (fun r => r.objectMeta.labels) w.store.projectRoles
              (parseSelector (cleanupQuery project))).map (fun r => Op.deleteProjectRole r.name) ++
            Op.listProjectRoleBinding (cleanupQuery project) ::
              ((storeList RoleBinding.name (fun b => b.objectMeta.labels)
                  w.store.projectRoleBindings (parseSelector (cleanupQuery project))).map
                (fun b => Op.deleteProjectRoleBinding b.name) ++
                [Op.deleteRoleBinding (project.name ++ "-" ++ project.spec.manager)])) ∧
      ∃ e, (Reconcile name w).calls =
          ⟨.getProject name, none⟩ :: ((deleteRoleAndRoleBinding project w.advance).calls ++
            [⟨.updateProject (withoutFinalizer project), e⟩]) ∧
        (e = none → (Reconcile name w).res = .ok () ∧
          getByName Project.name (Reconcile name w).world.store.projects name =
            some (withoutFinalizer project))) ∧
    ProjectFinalizer ∉ (withoutFinalizer project).objectMeta.finalizers := by
  have hg : getByName Project.name w.store.projects name = some project ∧
      ProjectLister.Get name w = ⟨.ok project, w.advance, [⟨.getProject name, none⟩]⟩ := by
    rcases getProject_run name w with ⟨f, _, hg⟩ | ⟨p, _, hfound, hg⟩ | ⟨_, _, hg⟩
    · rw [hg] at hget; cases hget
    · rw [hg] at hget
      cases hget
      exact ⟨hfound, hg⟩
    · rw [hg] at hget; cases hget
  refine ⟨deleteRoleAndRoleBinding_ok_iff project w.advance, fun hok => ?_, ?_⟩
  · refine ⟨deleteRoleAndRoleBinding_ops project w.advance hok, ?_⟩
    have hrun := Reconcile_terminating hget hz hfin
    rw [hg.2, M.bind_eq, M.andThen_of_ok _ hok] at hrun
    rcases updateProject_run (withoutFinalizer project)
        (deleteRoleAndRoleBinding project w.advance).world with
      ⟨f, _, hu⟩ | ⟨_, _, hu⟩ | ⟨_, _, hu⟩
    · rw [M.bind_of_eq_error _ hu] at hrun
      refine ⟨some f.toErr, by rw [hrun]; rfl, fun h => by cases h⟩
    · rw [M.bind_of_eq_ok _ hu] at hrun
      have hres : (Reconcile name w).res = .ok () := by rw [hrun]; rfl
      exact ⟨none, by rw [hrun]; rfl, fun _ =>
        ⟨hres, Reconcile_terminating_ok hg.1 hz hfin hres⟩⟩
    · rw [M.bind_of_eq_error _ hu] at hrun
      refine ⟨some .notFound, by rw [hrun]; rfl, fun h => by cases h⟩
  · have h := withoutFinalizer_lacks_token project
    rw [sets.NewString_Has] at h
    simpa using h

theorem cleanup_tolerates_not_found_witness :
    (⟨.deleteRoleBinding "p-m", some .notFound⟩ : Call) ∈
        (deleteRoleAndRoleBinding
          { objectMeta :=
              { name := "p", finalizers := [ProjectFinalizer], deletionTimestamp := some 1 }
            spec := { manager := "m", nodes := [] } } terminatingWorld.advance).calls ∧
      (deleteRoleAndRoleBinding
          { objectMeta :=
              { name := "p", finalizers := [ProjectFinalizer], deletionTimestamp := some 1 }
            spec := { manager := "m", nodes := [] } } terminatingWorld.advance).res = .ok () :=
  ⟨by decide!,
    (cleanup_tolerates_not_found terminatingWorld "p"
      { objectMeta :=
          { name := "p", finalizers := [ProjectFinalizer], deletionTimestamp := some 1 }
        spec := { manager := "m", nodes := [] } }
      (by decide) (by decide) (by decide)).1.mpr (by decide!)⟩

end ProjectReconciler

/-! ## Scoped roles are kept -/

theorem applyCall_keeps_role_names {s : Store} {c : Call}
    (h : ∀ n, c.op ≠ .deleteProjectRole n) {x : String}
    (hx : ∃ r ∈ s.projectRoles, r.name = x) :
    ∃ r ∈ (applyCall s c).projectRoles, r.name = x := by
  obtain ⟨r, hr, hrx⟩ := hx
  unfold applyCall
  cases c with
  | mk op err =>
    cases err with
    | some e => cases op <;> exact ⟨r, hr, hrx⟩
    | none =>
      cases op with
      | createProjectRole r1 => exact ⟨r, List.mem_append_left _ hr, hrx⟩
      | updateProjectRole r1 =>
        by_cases hn : r.name = r1.name
        · exact ⟨r1, mem_replaceByName.mpr (Or.inr ⟨rfl, r, hr, hn⟩), hn.symm.trans hrx⟩
        · exact ⟨r, mem_replaceByName.mpr (Or.inl ⟨hr, hn⟩), hrx⟩
      | deleteProjectRole n => exact absurd rfl (h n)
      | _ => exact ⟨r, hr, hrx⟩

theorem replay_keeps_role_names {calls : List Call} (s : Store)
    (h : ∀ c ∈ calls, ∀ n, c.op ≠ .deleteProjectRole n) {x : String}
    (hx : ∃ r ∈ s.projectRoles, r.name = x) :
    ∃ r ∈ (replay s calls).projectRoles, r.name = x := by
  induction calls generalizing s with
  | nil => exact hx
  | cons c cs ih =>
    rw [replay_cons]
    exact ih _ (fun c' hc' => h c' (List.mem_cons_of_mem _ hc'))
      (applyCall_keeps_role_names (h c (List.mem_cons_self _ _)) hx)

namespace ProjectReconciler

theorem runPhases_no_role_delete (p : Project) :
    (runPhases p).Issues (fun c => ∀ n, c.op ≠ .deleteProjectRole n) (fun _ => True) := by
  unfold runPhases
  refine M.issues_bind (initProjectRole_issues p (fun _ _ _ n hn => by cases hn)
    (fun _ _ _ n hn => by cases hn) (fun _ _ _ n hn => by cases hn)) (fun _ _ => ?_)
  refine M.issues_bind (initManagerRoleBinding_issues p (fun _ n hn => by cases hn)
    (fun _ _ n hn => by cases hn) (fun _ _ n hn => by cases hn) (fun _ n hn => by cases hn))
    (fun _ _ => ?_)
  refine M.issues_bind (syncProjectNodeFromCluster_issues p (fun _ _ n hn => by cases hn)
    (fun _ _ n hn => by cases hn)) (fun p1 _ => ?_)
  refine M.issues_bind (syncNodeLabel_issues _ (fun _ _ n hn => by cases hn)
    (fun _ _ n hn => by cases hn) (fun _ _ n hn => by cases hn)) (fun _ _ => ?_)
  exact count_issues _ (fun _ _ n hn => by cases hn) (fun _ _ n hn => by cases hn)

/-- A pass on a stored active project issues no delete of a scoped role. -/
theorem Reconcile_active_no_role_delete {w : World} {name : String} {project : Project}
    (hget : getByName Project.name w.store.projects name = some project)
    (hactive : Time.IsZero project.objectMeta.deletionTimestamp = true) :
    ∀ c ∈ (Reconcile name w).calls, ∀ n, c.op ≠ .deleteProjectRole n := by
  rcases getProject_run name w with ⟨f, _, hg⟩ | ⟨p, _, hfound, hg⟩ | ⟨_, hnone, _⟩
  · rw [Reconcile_of_get_error (e := f.toErr) (by rw [hg]), hg]
    intro c hc n hn
    rw [List.mem_singleton] at hc
    subst hc
    cases hn
  · rw [hget] at hfound
    cases hfound
    rw [Reconcile_active (by rw [hg]) hactive, hg]
    intro c hc
    simp only [Out.prepend, List.singleton_append, List.mem_cons] at hc
    rcases hc with hc | hc
    · subst hc
      intro n hn
      cases hn
    · exact (M.issues_bind (updateProject_issues (withFinalizer project)
        (fun _ n hn => by cases hn)) (fun p1 _ => runPhases_no_role_delete p1) w.advance).1 c hc
  · rw [hget] at hnone
    cases hnone

/-- C12: `initProjectRole` issues no delete of a scoped role, and every name
under which a scoped role is stored before it is still the name of a stored
role after it, whether it returns success or an error; the same holds of a
whole pass on a stored project whose deletion timestamp is unset. -/
theorem active_pass_keeps_scoped_roles (p : Project) (w : World) (name : String)
    (project : Project) (r : ProjectRole) (hr : r ∈ w.store.projectRoles) :
    ((∀ c ∈ (initProjectRole p w).calls, ∀ n, c.op ≠ .deleteProjectRole n) ∧
      (getByName ProjectRole.name (initProjectRole p w).world.store.projectRoles
        r.name).isSome = true) ∧
    (getByName Project.name w.store.projects name = some project →
      Time.IsZero project.objectMeta.deletionTimestamp = true →
      (∀ c ∈ (Reconcile name w).calls, ∀ n, c.op ≠ .deleteProjectRole n) ∧
        (getByName ProjectRole.name (Reconcile name w).world.store.projectRoles
          r.name).isSome = true) := by
  have h1 : ∀ c ∈ (initProjectRole p w).calls, ∀ n, c.op ≠ .deleteProjectRole n :=
    (initProjectRole_issues p (fun _ _ _ n hn => by cases hn)
      (fun _ _ _ n hn => by cases hn) (fun _ _ _ n hn => by cases hn) w).1
  refine ⟨⟨h1, ?_⟩, fun hget hactive => ?_⟩
  · rw [initProjectRole_logged p w]
    exact getByName_isSome_iff.mpr (replay_keeps_role_names _ h1 ⟨r, hr, rfl⟩)
  · have h2 := Reconcile_active_no_role_delete hget hactive
    refine ⟨h2, ?_⟩
    rw [Reconcile_logged name w]
    exact getByName_isSome_iff.mpr (replay_keeps_role_names _ h2 ⟨r, hr, rfl⟩)

theorem active_pass_keeps_scoped_roles_witness :
    (getByName ProjectRole.name (Reconcile "p" staleRoleWorld).world.store.projectRoles
      "q-view").isSome = true :=
  ((active_pass_keeps_scoped_roles projectOfBob staleRoleWorld "p" projectOfBob
    { objectMeta := { name := "q-view" }, rules := none }
    (by decide)).2 (by decide) (by decide)).2

end ProjectReconciler

namespace ProjectReconciler

/-- The clusters labelled with the project, counted. -/
theorem projectClusters_length (s : Store) (p : Project) :
    (projectClusters s p).length =
      (s.clusters.filter (fun c =>
        (Requirement.equals LabelProject p.name).holds c.objectMeta.labels)).length := by
  have h := (storeList_perm Cluster.name (fun c => c.objectMeta.labels) s.clusters
    [.equals LabelProject p.name]).length_eq
  unfold projectClusters
  rw [h]
  congr 1
  apply List.filter_congr
  intro c _
  simp [selectorMatches]

/-- C14: the object `count` compares and persists is the project with only its
two counters replaced, the cluster counter by the number of clusters whose
project label is the project's name and the node counter by the length of the
member list; once the requirement is built and the clusters are listed, `count`
issues the update of that object exactly when it differs from the project, and
nothing else; the update, when it succeeds, stores that object. -/
theorem count_persists_counted_copy (p : Project) (w : World) :
    (∀ cs : List Cluster,
      (countedCopy p cs).objectMeta = p.objectMeta ∧ (countedCopy p cs).spec = p.spec ∧
      (countedCopy p cs).status.count.cluster = (cs.length : Int) ∧
      (countedCopy p cs).status.count.node = (p.spec.nodes.length : Int)) ∧
    (projectClusters w.store p).length =
      (w.store.clusters.filter (fun c =>
        (Requirement.equals LabelProject p.name).holds c.objectMeta.labels)).length ∧
    (validLabelValue p.name = false → count p w = ⟨.error .validation, w, []⟩) ∧
    (validLabelValue p.name = true → ∀ f, w.nextFault = some f →
      count p w = ⟨.error f.toErr, w.advance,
        [⟨.listClusters [.equals LabelProject p.name], some f.toErr⟩]⟩) ∧
    (validLabelValue p.name = true → w.nextFault = none →
      (p = countedCopy p (projectClusters w.store p) →
        count p w = ⟨.ok (), w.advance, [⟨.listClusters [.equals LabelProject p.name], none⟩]⟩) ∧
      (p ≠ countedCopy p (projectClusters w.store p) →
        ∃ e, (count p w).calls =
            [⟨.listClusters [.equals LabelProject p.name], none⟩,
              ⟨.updateProject (countedCopy p (projectClusters w.store p)), e⟩] ∧
          (e = none → (count p w).res = .ok () ∧
            (count p w).world.store =
              { w.store with projects := replaceByName Project.name w.store.projects (countedCopy p (projectClusters w.store p)) }) ∧
          (∀ err, e = some err →
            (count p w).res = .error err ∧ (count p w).world.store = w.store))) := by
  refine ⟨fun cs => ⟨rfl, rfl, rfl, rfl⟩, projectClusters_length w.store p,
    fun hv => count_of_invalid hv w, fun hv f hf => ?_, fun hv hf => ?_⟩
  · rw [count_of_valid hv]
    rcases listClusters_run [.equals LabelProject p.name] w with ⟨f1, hf1, hl⟩ | ⟨hf1, _⟩
    · rw [hf] at hf1
      cases hf1
      rw [M.bind_of_eq_error _ hl]
    · rw [hf] at hf1
      cases hf1
  · rw [count_of_valid hv]
    rcases listClusters_run [.equals LabelProject p.name] w with ⟨f1, hf1, _⟩ | ⟨_, hl⟩
    · rw [hf] at hf1
      cases hf1
    rw [M.bind_of_eq_ok _ hl]
    unfold projectClusters
    constructor
    · intro heq
      rw [if_neg (not_not.mpr heq)]
      rfl
    · intro hne
      rw [if_pos hne]
      rcases updateProject_run (countedCopy p (storeList Cluster.name (fun c => c.objectMeta.labels) w.store.clusters [.equals LabelProject p.name])) w.advance with
        ⟨f, _, hu⟩ | ⟨_, _, hu⟩ | ⟨_, _, hu⟩
      · rw [M.bind_of_eq_error _ hu]
        exact ⟨some f.toErr, rfl, fun h => (by cases h), fun err h => (by cases h; exact ⟨rfl, rfl⟩)⟩
      · rw [M.bind_of_eq_ok _ hu]
        exact ⟨none, rfl, fun _ => ⟨rfl, rfl⟩, fun err h => (by cases h)⟩
      · rw [M.bind_of_eq_error _ hu]
        exact ⟨some .notFound, rfl, fun h => (by cases h),
          fun err h => (by cases h; exact ⟨rfl, rfl⟩)⟩

end ProjectReconciler

namespace ProjectReconciler

theorem count_persists_counted_copy_witness :
    ∃ e, (count projectOfBob clusterWorld).calls =
      [⟨.listClusters [.equals LabelProject "p"], none⟩,
        ⟨.updateProject
          (countedCopy projectOfBob (projectClusters clusterWorld.store projectOfBob)), e⟩] :=
  (((count_persists_counted_copy projectOfBob clusterWorld).2.2.2.2
    (by decide) (by decide)).2 (by decide!)).imp (fun _ h => h.1)

end ProjectReconciler

/-! ## Where a stored project comes from -/

theorem applyCall_projects_mem {s : Store} {c : Call} {q : Project}
    (h : q ∈ (applyCall s c).projects) : q ∈ s.projects ∨ c.op = .updateProject q := by
  unfold applyCall at h
  cases c with
  | mk op err =>
    cases err with
    | some e => cases op <;> exact Or.inl h
    | none =>
      cases op with
      | updateProject p =>
        rcases mem_replaceByName.mp h with ⟨hq, _⟩ | ⟨hq, _⟩
        · exact Or.inl hq
        · exact Or.inr (by rw [hq])
      | _ => exact Or.inl h

theorem replay_projects_mem {calls : List Call} (s : Store) {q : Project}
    (h : q ∈ (replay s calls).projects) :
    q ∈ s.projects ∨ ∃ c ∈ calls, c.op = .updateProject q := by
  induction calls generalizing s with
  | nil => exact Or.inl h
  | cons c cs ih =>
    rw [replay_cons] at h
    rcases ih _ h with h1 | ⟨c', hc', hop⟩
    · rcases applyCall_projects_mem h1 with h2 | h2
      · exact Or.inl h2
      · exact Or.inr ⟨c, List.mem_cons_self _ _, h2⟩
    · exact Or.inr ⟨c', List.mem_cons_of_mem _ hc', hop⟩

namespace ProjectReconciler

/-- The member list `syncProjectNodeFromCluster` persists and returns has no
repeated entry, unless it is the list it was given. -/
theorem syncProjectNodeFromCluster_members (p : Project) :
    (syncProjectNodeFromCluster p).Issues
      (fun c => ∀ q, c.op = .updateProject q →
        q.spec.nodes.Nodup ∨ q.spec.nodes = p.spec.nodes)
      (fun p1 => p1.spec.nodes.Nodup ∨ p1.spec.nodes = p.spec.nodes) := by
  intro w
  have hnodup : (collectNodes (sets.NewString []) (projectClusters w.store p)).List.Nodup :=
    collectNodes_nodup _ _ (sets.NewString_nodup [])
  rcases syncProjectNodeFromCluster_cases p w with
    ⟨_, h⟩ | ⟨_, f, _, h⟩ | ⟨_, _, _, h⟩ | ⟨_, _, _, h⟩
  · rw [h]
    exact ⟨fun c hc => (by cases hc), fun a ha => (by cases ha)⟩
  · rw [h]
    refine ⟨fun c hc q hq => ?_, fun a ha => (by cases ha)⟩
    rw [List.mem_singleton] at hc
    subst hc
    cases hq
  · rw [h]
    refine ⟨fun c hc q hq => ?_, fun a ha => ?_⟩
    · rw [List.mem_singleton] at hc
      subst hc
      cases hq
    · cases ha
      exact Or.inr rfl
  · rw [h]
    rcases updateProject_run
        { p with spec := { p.spec with nodes :=
            (collectNodes (sets.NewString []) (projectClusters w.store p)).List } } w.advance with
      ⟨f, _, hu⟩ | ⟨_, _, hu⟩ | ⟨_, _, hu⟩
    · rw [M.bind_of_eq_error _ hu]
      refine ⟨fun c hc q hq => ?_, fun a ha => (by cases ha)⟩
      simp only [Out.prepend, List.singleton_append, List.mem_cons, List.mem_singleton,
        List.not_mem_nil, or_false] at hc
      rcases hc with hc | hc
      · subst hc; cases hq
      · subst hc; cases hq; exact Or.inl hnodup
    · rw [M.bind_of_eq_ok _ hu]
      refine ⟨fun c hc q hq => ?_, fun a ha => ?_⟩
      · simp only [Out.prepend, M.pure_run, List.singleton_append, List.append_nil,
          List.mem_cons, List.mem_singleton, List.not_mem_nil, or_false] at hc
        rcases hc with hc | hc
        · subst hc; cases hq
        · subst hc; cases hq; exact Or.inl hnodup
      · simp only [Out.prepend, M.pure_run] at ha
        cases ha
        exact Or.inl hnodup
    · rw [M.bind_of_eq_error _ hu]
      refine ⟨fun c hc q hq => ?_, fun a ha => (by cases ha)⟩
      simp only [Out.prepend, List.singleton_append, List.mem_cons, List.mem_singleton,
        List.not_mem_nil, or_false] at hc
      rcases hc with hc | hc
      · subst hc; cases hq
      · subst hc; cases hq; exact Or.inl hnodup

theorem runPhases_members (p : Project) :
    (runPhases p).Issues
      (fun c => ∀ q, c.op = .updateProject q →
        q.spec.nodes.Nodup ∨ q.spec.nodes = p.spec.nodes)
      (fun _ => True) := by
  unfold runPhases
  refine M.issues_bind (initProjectRole_issues p (fun _ _ _ q hq => by cases hq)
    (fun _ _ _ q hq => by cases hq) (fun _ _ _ q hq => by cases hq)) (fun _ _ => ?_)
  refine M.issues_bind (initManagerRoleBinding_issues p (fun _ q hq => by cases hq)
    (fun _ _ q hq => by cases hq) (fun _ _ q hq => by cases hq) (fun _ q hq => by cases hq))
    (fun _ _ => ?_)
  refine M.issues_bind (syncProjectNodeFromCluster_members p) (fun p1 hp1 => ?_)
  refine M.issues_bind (syncNodeLabel_issues _ (fun _ _ q hq => by cases hq)
    (fun _ _ q hq => by cases hq) (fun _ _ q hq => by cases hq)) (fun _ _ => ?_)
  exact count_issues _ (fun _ _ q hq => by cases hq) (fun _ _ q hq => by cases hq; exact hp1)

end ProjectReconciler

namespace ProjectReconciler

/-- C15 (as stated, refuted): on the store where project `p` owns one cluster
of the two nodes `n1` and `n2` and lists `n1` twice among its members, a pass
returns success and the persisted node counter is 3, while the union of the
cluster node sets has 2 members. -/
theorem reconcile_counts_repeated_members :
    (Reconcile "p" duplicateMemberWorld).res = .ok () ∧
      getByName Project.name (Reconcile "p" duplicateMemberWorld).world.store.projects "p" =
        some
          { objectMeta := { name := "p", finalizers := [ProjectFinalizer] }
            spec := { manager := "bob", nodes := ["n1", "n1", "n2"] }
            status := { count := { cluster := 1, node := 3 } } } ∧
      (collectNodes (sets.NewString [])
        (Reconcile "p" duplicateMemberWorld).world.store.clusters).List = ["n1", "n2"] := by
  decide!

/-- C15 (amended): after a successful pass on a stored active project, the
stored project's cluster counter is the number of clusters labelled with the
project and its node counter is the length of its member list; the members are
exactly the nodes of those clusters; and the member list has no repeated entry,
so that the node counter is the number of distinct nodes of those clusters,
whenever the starting member list had none or was not, as a set, the nodes of
those clusters. -/
theorem reconcile_counts_clusters_and_members (w : World) (name : String) (project : Project)
    (hget : getByName Project.name w.store.projects name = some project)
    (hactive : Time.IsZero project.objectMeta.deletionTimestamp = true)
    (hok : (Reconcile name w).res = .ok ()) :
    ∃ q, getByName Project.name (Reconcile name w).world.store.projects name = some q ∧
      q.status.count.cluster =
        (((Reconcile name w).world.store.clusters.filter (fun c =>
          (Requirement.equals LabelProject name).holds c.objectMeta.labels)).length : Int) ∧
      q.status.count.node = (q.spec.nodes.length : Int) ∧
      (∀ x, x ∈ q.spec.nodes ↔
        ∃ c ∈ (Reconcile name w).world.store.clusters,
          (Requirement.equals LabelProject name).holds c.objectMeta.labels = true ∧
            x ∈ c.nodes) ∧
      (project.spec.nodes.Nodup ∨ ¬ NodesSettled w.store project → q.spec.nodes.Nodup) := by
  have hname : project.name = name := getByName_name hget
  have hfault := nextFault_of_Reconcile_ok hok
  obtain ⟨p2, hst, hsettled, hmeta, hcl⟩ := Reconcile_active_ok hfault hget hactive hok
  obtain ⟨w1, hst1, _, _, hrun⟩ := Reconcile_active_run hfault hget hactive hok
  have hp2name : p2.name = name := by
    show p2.objectMeta.name = name
    rw [hmeta]
    exact (withFinalizer_name project).trans hname
  have hgot := StoredAs_get hst
  rw [hp2name] at hgot
  obtain ⟨_, _, _, hnodes, _, hcount⟩ := hsettled
  -- where the stored project comes from
  have hmem : p2 ∈ (Reconcile name w).world.store.projects := by
    obtain ⟨⟨q, hq, hqn⟩, hall⟩ := hst
    rw [← hall q hq hqn]
    exact hq
  have hfrom : p2.spec.nodes.Nodup ∨ p2.spec.nodes = project.spec.nodes := by
    rw [hrun] at hmem
    change p2 ∈ (runPhases (withFinalizer project) w1).world.store.projects at hmem
    rw [runPhases_logged (withFinalizer project) w1] at hmem
    rcases replay_projects_mem _ hmem with h | ⟨c, hc, hop⟩
    · right
      rw [hst1.2 p2 h (hp2name.trans ((withFinalizer_name project).trans hname).symm),
        withFinalizer_spec]
    · have h := (runPhases_members (withFinalizer project) w1).1 c hc p2 hop
      rw [withFinalizer_spec] at h
      exact h
  refine ⟨p2, hgot, ?_, ?_, ?_, ?_⟩
  · have h := congrArg (fun q => q.status.count.cluster) hcount
    simp only [countedCopy] at h
    rw [h, projectClusters_length, hp2name]
  · have h := congrArg (fun q => q.status.count.node) hcount
    simp only [countedCopy] at h
    exact h
  · intro x
    rw [(NodesSettled_iff _ _).mp hnodes x, hp2name]
  · intro hstart
    rcases hfrom with h | h
    · exact h
    · rcases hstart with hnd | hns
      · rw [h]; exact hnd
      · exact absurd (NodesSettled_congr hcl.symm (hname.trans hp2name.symm) h.symm hnodes) hns

theorem reconcile_counts_clusters_and_members_witness :
    ∃ q, getByName Project.name (Reconcile "p" clusterWorld).world.store.projects "p" = some q ∧
      q.status.count.cluster = 2 ∧ q.status.count.node = 4 := by
  obtain ⟨q, hq, hc, hn, _, _⟩ := reconcile_counts_clusters_and_members clusterWorld "p"
    projectOfBob (by decide) (by decide) (by decide!)
  have hval : getByName Project.name (Reconcile "p" clusterWorld).world.store.projects "p" =
      some
        { objectMeta := { name := "p", finalizers := [ProjectFinalizer] }
          spec := { manager := "bob", nodes := ["n1", "n2", "n3", "n4"] }
          status := { count := { cluster := 2, node := 4 } } } := by decide!
  refine ⟨q, hq, ?_, ?_⟩
  · rw [hc]; decide!
  · rw [hn]
    rw [hval] at hq
    cases hq
    rfl

end ProjectReconciler

/-! ## Where a stored node comes from -/

theorem GoMap.has_of_get {m : GoMap} {k v : String} (h : m.get k = v) (hv : v ≠ "") :
    m.has k = true := by
  cases m with
  | none => exact absurd h.symm hv
  | some l =>
    simp only [GoMap.get] at h
    simp only [GoMap.has]
    cases hf : GoMap.find k l with
    | none => rw [hf] at h; exact absurd h.symm hv
    | some x => rfl

namespace ProjectReconciler

end ProjectReconciler

namespace ProjectReconciler

end ProjectReconciler

namespace ProjectReconciler

end ProjectReconciler

namespace ProjectReconciler

/-! ## `initProjectRole` on a stored role -/

/-- One turn of the loop of `initProjectRole` on a template whose role is
stored: the get fails; or the role passes the comparison and nothing is
written; or it does not and the desired role is written over it with one
update, which fails or succeeds. -/
theorem initProjectRoleBody_found {p : Project} {t : ProjectRole} {w : World} {r : ProjectRole}
    (hfound : getByName ProjectRole.name w.store.projectRoles (desiredRole p t).name = some r) :
    (∃ e, initProjectRoleBody p t w =
      ⟨.error e, w.advance, [⟨.getProjectRole (desiredRole p t).name, some e⟩]⟩) ∨
    (roleSettled (desiredRole p t) r = true ∧ initProjectRoleBody p t w =
      ⟨.ok (), w.advance, [⟨.getProjectRole (desiredRole p t).name, none⟩]⟩) ∨
    (roleSettled (desiredRole p t) r = false ∧ ∃ e, initProjectRoleBody p t w =
      ⟨.error e, w.advance.advance, [⟨.getProjectRole (desiredRole p t).name, none⟩,
        ⟨.updateProjectRole (desiredRole p t), some e⟩]⟩) ∨
    (roleSettled (desiredRole p t) r = false ∧ initProjectRoleBody p t w =
      ⟨.ok (), World.mk { w.store with projectRoles := replaceByName ProjectRole.name w.store.projectRoles (desiredRole p t) } w.advance.faults.tail,
        [⟨.getProjectRole (desiredRole p t).name, none⟩,
          ⟨.updateProjectRole (desiredRole p t), none⟩]⟩) := by
  unfold initProjectRoleBody
  simp only [update_condition]
  rw [M.bind_eq, M.andThen_of_ok _ (M.attempt_res _ _)]
  simp only [M.attempt_world, M.attempt_calls]
  rcases getProjectRole_run (desiredRole p t).name w with
    ⟨f, _, hg⟩ | ⟨r', _, hfound', hg⟩ | ⟨_, habsent, hg⟩
  · left
    rw [hg]
    simp only [Fault.toErr_IsNotFound, Bool.false_eq_true, if_false, M.fail_run]
    exact ⟨_, rfl⟩
  · rw [hfound] at hfound'
    cases hfound'
    rw [hg]
    cases hs : roleSettled (desiredRole p t) r with
    | true =>
      right; left
      simp only [hs, Bool.not_true, Bool.false_eq_true, if_false, M.pure_run]
      exact ⟨trivial, rfl⟩
    | false =>
      right; right
      simp only [hs, Bool.not_false, if_true]
      rcases updateProjectRole_run (desiredRole p t) w.advance with
        ⟨f, _, hu⟩ | ⟨_, _, hu⟩ | ⟨_, _, hu⟩
      · left
        rw [M.bind_of_eq_error _ hu]
        exact ⟨trivial, _, rfl⟩
      · right
        rw [M.bind_of_eq_ok _ hu, M.pure_run]
        exact ⟨trivial, rfl⟩
      · left
        rw [M.bind_of_eq_error _ hu]
        exact ⟨trivial, _, rfl⟩
  · rw [hfound] at habsent; cases habsent

/-- A turn of the loop for a template of another name leaves a role as it is. -/
theorem initProjectRoleBody_avoids (p : Project) (t : ProjectRole) (name : String)
    (h : (desiredRole p t).name ≠ name) (w : World) :
    (∀ c ∈ (initProjectRoleBody p t w).calls, c.op.target ≠ some (.role, name)) ∧
      getByName ProjectRole.name (initProjectRoleBody p t w).world.store.projectRoles name =
        getByName ProjectRole.name w.store.projectRoles name := by
  have hcalls : ∀ c ∈ (initProjectRoleBody p t w).calls, c.op.target ≠ some (.role, name) :=
    (initProjectRoleBody_issues p t (Q := fun c => c.op.target ≠ some (.role, name))
      (fun _ => by simp [Op.target])
      (fun _ => by
        simp only [Op.target, ne_eq, Option.some.injEq, Prod.mk.injEq, true_and]
        exact h)
      (fun _ => by
        simp only [Op.target, ne_eq, Option.some.injEq, Prod.mk.injEq, true_and]
        exact h) w).1
  refine ⟨hcalls, ?_⟩
  rw [initProjectRoleBody_logged p t w]
  exact replay_getRole _ hcalls

end ProjectReconciler

namespace ProjectReconciler

/-- The loop of `initProjectRole`, seen from one template whose role is stored:
a write on that role is the update with the desired role and is issued only if
the role fails the comparison; if it fails it and the loop succeeds, the update
was issued and the desired role is stored; if it passes it, no call addresses
the role and it stays as it is. -/
theorem initProjectRoleLoop_stored (p : Project) (ts : List ProjectRole)
    (hnodup : (ts.map ProjectRole.name).Nodup) (t : ProjectRole) (ht : t ∈ ts) (w : World)
    (r : ProjectRole)
    (hget : getByName ProjectRole.name w.store.projectRoles (desiredRole p t).name = some r) :
    (∀ c ∈ (initProjectRoleLoop p ts w).calls,
      c.op.target = some (.role, (desiredRole p t).name) →
        c.op = .updateProjectRole (desiredRole p t) ∧ roleSettled (desiredRole p t) r = false) ∧
    ((initProjectRoleLoop p ts w).res = .ok () → roleSettled (desiredRole p t) r = false →
      (⟨.updateProjectRole (desiredRole p t), none⟩ : Call) ∈ (initProjectRoleLoop p ts w).calls ∧
        getByName ProjectRole.name (initProjectRoleLoop p ts w).world.store.projectRoles
          (desiredRole p t).name = some (desiredRole p t)) ∧
    (roleSettled (desiredRole p t) r = true →
      (∀ c ∈ (initProjectRoleLoop p ts w).calls,
        c.op.target ≠ some (.role, (desiredRole p t).name)) ∧
        getByName ProjectRole.name (initProjectRoleLoop p ts w).world.store.projectRoles
          (desiredRole p t).name = some r) := by
  induction ts generalizing w with
  | nil => cases ht
  | cons t0 rest ih =>
    rw [List.map_cons, List.nodup_cons] at hnodup
    rw [initProjectRoleLoop_cons]
    by_cases h0 : t0 = t
    · subst h0
      -- the turn of this template, then turns that leave its role alone
      have havoid : ∀ t' ∈ rest, (desiredRole p t').name ≠ (desiredRole p t0).name := by
        intro t' ht' heq
        exact hnodup.1 (by
          rw [← desiredRole_name_injective p heq]
          exact List.mem_map_of_mem _ ht')
      have hrest := fun w1 => initProjectRoleLoop_avoids p rest _ havoid w1
      have hkeep : ∀ w1 : World,
          getByName ProjectRole.name (initProjectRoleLoop p rest w1).world.store.projectRoles
            (desiredRole p t0).name =
          getByName ProjectRole.name w1.store.projectRoles (desiredRole p t0).name := by
        intro w1
        rw [initProjectRoleLoop_logged p rest w1]
        exact replay_getRole _ (hrest w1)
      rcases initProjectRoleBody_found hget with
        ⟨e, hb⟩ | ⟨hs, hb⟩ | ⟨hs, e, hb⟩ | ⟨hs, hb⟩
      · rw [M.bind_of_eq_error _ hb]
        refine ⟨fun c hc htar => ?_, fun hok => (by cases hok), fun hs => ⟨fun c hc htar => ?_, hget⟩⟩
        · rw [List.mem_singleton] at hc
          subst hc
          cases htar
        · rw [List.mem_singleton] at hc
          subst hc
          cases htar
      · rw [M.bind_of_eq_ok _ hb]
        refine ⟨fun c hc htar => ?_, fun _ hns => (by rw [hs] at hns; cases hns),
          fun _ => ⟨fun c hc htar => ?_, ?_⟩⟩
        · simp only [Out.prepend, List.singleton_append, List.mem_cons] at hc
          rcases hc with hc | hc
          · subst hc; cases htar
          · exact absurd htar (hrest _ c hc)
        · simp only [Out.prepend, List.singleton_append, List.mem_cons] at hc
          rcases hc with hc | hc
          · subst hc; cases htar
          · exact absurd htar (hrest _ c hc)
        · exact (hkeep _).trans hget
      · rw [M.bind_of_eq_error _ hb]
        refine ⟨fun c hc htar => ?_, fun hok => (by cases hok),
          fun hst => (by rw [hs] at hst; cases hst)⟩
        simp only [List.mem_cons, List.mem_singleton, List.not_mem_nil, or_false] at hc
        rcases hc with hc | hc
        · subst hc; cases htar
        · subst hc; exact ⟨rfl, hs⟩
      · rw [M.bind_of_eq_ok _ hb]
        refine ⟨fun c hc htar => ?_, fun _ _ => ⟨?_, ?_⟩,
          fun hst => (by rw [hs] at hst; cases hst)⟩
        · simp only [Out.prepend, List.cons_append, List.nil_append, List.mem_cons] at hc
          rcases hc with hc | hc | hc
          · subst hc; cases htar
          · subst hc; exact ⟨rfl, hs⟩
          · exact absurd htar (hrest _ c hc)
        · simp [Out.prepend]
        · refine (hkeep _).trans ?_
          exact getByName_replaceByName_self ProjectRole.name _ _ (by
            change (getByName ProjectRole.name w.store.projectRoles
              (desiredRole p t0).name).isSome = true
            rw [hget]; rfl)
    · -- a turn for another template, which leaves the role alone
      have ht' : t ∈ rest := by
        rcases List.mem_cons.mp ht with h | h
        · exact absurd h.symm h0
        · exact h
      have hne : (desiredRole p t0).name ≠ (desiredRole p t).name := by
        intro heq
        exact hnodup.1 (by
          rw [desiredRole_name_injective p heq]
          exact List.mem_map_of_mem _ ht')
      obtain ⟨hb1, hb2⟩ := initProjectRoleBody_avoids p t0 _ hne w
      rw [M.bind_eq]
      rcases M.andThen_cases (initProjectRoleBody p t0) (fun _ => initProjectRoleLoop p rest) w with
        ⟨e, _, heq⟩ | ⟨u, _, heq⟩
      · rw [heq]
        refine ⟨fun c hc htar => absurd htar (hb1 c hc), fun hok => (by cases hok),
          fun _ => ⟨hb1, hb2.trans hget⟩⟩
      · rw [heq]
        obtain ⟨i1, i2, i3⟩ := ih hnodup.2 ht' (initProjectRoleBody p t0 w).world
          (hb2.trans hget)
        refine ⟨fun c hc htar => ?_, fun hok hns => ?_, fun hst => ⟨fun c hc => ?_, (i3 hst).2⟩⟩
        · rcases List.mem_append.mp hc with hc | hc
          · exact absurd htar (hb1 c hc)
          · exact i1 c hc htar
        · obtain ⟨j1, j2⟩ := i2 hok hns
          exact ⟨List.mem_append_right _ j1, j2⟩
        · rcases List.mem_append.mp hc with hc | hc
          · exact hb1 c hc
          · exact (i3 hst).1 c hc

end ProjectReconciler

namespace ProjectReconciler

end ProjectReconciler

namespace ProjectReconciler

/-- C21: once the requirement is built and the clusters are listed,
`syncProjectNodeFromCluster` issues a project update exactly when the member
list and the union of the node sets of the labelled clusters differ as sets
(an identifier is in one and not in the other, whatever the order and the
repetitions of the member list); when they are equal as sets it returns the
project as it was, leaves the store as it was, and its only call is the
listing. When the requirement cannot be built or the listing fails, no update
is issued. -/
theorem syncProjectNodeFromCluster_updates_iff_sets_differ (p : Project) (w : World) :
    (validLabelValue p.name = true → w.nextFault = none →
      ((∃ q e, (⟨.updateProject q, e⟩ : Call) ∈ (syncProjectNodeFromCluster p w).calls) ↔
        ¬ ∀ x, x ∈ p.spec.nodes ↔
          ∃ c ∈ w.store.clusters,
            (Requirement.equals LabelProject p.name).holds c.objectMeta.labels = true ∧
              x ∈ c.nodes) ∧
      ((∀ x, x ∈ p.spec.nodes ↔
          ∃ c ∈ w.store.clusters,
            (Requirement.equals LabelProject p.name).holds c.objectMeta.labels = true ∧
              x ∈ c.nodes) →
        syncProjectNodeFromCluster p w =
          ⟨.ok p, w.advance, [⟨.listClusters [.equals LabelProject p.name], none⟩]⟩ ∧
        (syncProjectNodeFromCluster p w).world.store = w.store)) ∧
    ((validLabelValue p.name = false ∨ w.nextFault ≠ none) →
      ∀ q e, (⟨.updateProject q, e⟩ : Call) ∉ (syncProjectNodeFromCluster p w).calls) := by
  rcases syncProjectNodeFromCluster_cases p w with
    ⟨hv, h⟩ | ⟨hv, f, hf, h⟩ | ⟨hv, hf, hs, h⟩ | ⟨hv, hf, hs, h⟩
  · refine ⟨fun hv' => (by rw [hv] at hv'; cases hv'), fun _ q e hmem => ?_⟩
    rw [h] at hmem
    cases hmem
  · refine ⟨fun _ hf' => (by rw [hf] at hf'; cases hf'), fun _ q e hmem => ?_⟩
    rw [h, List.mem_singleton] at hmem
    cases hmem
  · refine ⟨fun _ _ => ⟨⟨fun ⟨q, e, hmem⟩ => ?_, fun hne => ?_⟩, fun _ => ?_⟩, fun hor => ?_⟩
    · rw [h, List.mem_singleton] at hmem
      cases hmem
    · exact absurd ((NodesSettled_iff _ _).mp hs) hne
    · exact ⟨h, by rw [h]; rfl⟩
    · rcases hor with h1 | h1
      · rw [hv] at h1; cases h1
      · exact absurd hf h1
  · refine ⟨fun _ _ => ⟨⟨fun _ => fun hall => hs ((NodesSettled_iff _ _).mpr hall),
      fun _ => ?_⟩, fun hall => absurd ((NodesSettled_iff _ _).mpr hall) hs⟩, fun hor => ?_⟩
    · generalize ({ p with spec := { p.spec with nodes :=
        (collectNodes (sets.NewString []) (projectClusters w.store p)).List } } : Project) =
        p1 at h
      rcases updateProject_run p1 w.advance with ⟨f, _, hu⟩ | ⟨_, _, hu⟩ | ⟨_, _, hu⟩
      · rw [M.bind_of_eq_error _ hu] at h
        exact ⟨p1, some f.toErr, by rw [h]; simp [Out.prepend]⟩
      · rw [M.bind_of_eq_ok _ hu] at h
        exact ⟨p1, none, by rw [h]; simp [Out.prepend]⟩
      · rw [M.bind_of_eq_error _ hu] at h
        exact ⟨p1, some .notFound, by rw [h]; simp [Out.prepend]⟩
    · rcases hor with h1 | h1
      · rw [hv] at h1; cases h1
      · exact absurd hf h1

end ProjectReconciler

namespace ProjectReconciler

theorem syncProjectNodeFromCluster_updates_iff_sets_differ_witness :
    ∃ q e, (⟨.updateProject q, e⟩ : Call) ∈
      (syncProjectNodeFromCluster projectOfBob clusterWorld).calls :=
  (((syncProjectNodeFromCluster_updates_iff_sets_differ projectOfBob clusterWorld).1
    (by decide) (by decide)).1).mpr (fun h =>
      List.not_mem_nil "n1" ((h "n1").mpr
        ⟨{ objectMeta := { name := "c1", labels := some [(LabelProject, "p")] }
           nodes := ["n1", "n2", "n3"] }, by decide, by decide, by decide⟩))

end ProjectReconciler

/-! ## The persisted member list -/

namespace ProjectReconciler

theorem collectNodes_sorted (l : List Cluster) :
    (collectNodes (sets.NewString []) l).keys.Sorted (· < ·) := by
  have hle : (collectNodes (sets.NewString []) l).keys.Sorted (· ≤ ·) := by
    rw [← NewString_collectNodes l]
    exact sets.NewString_sorted _
  exact hle.lt_of_le (collectNodes_nodup _ _ (sets.NewString_nodup []))

/-- A strictly ascending list is determined by its members. -/
theorem sorted_unique {a b : List String} (ha : a.Sorted (· < ·)) (hb : b.Sorted (· < ·))
    (h : ∀ x, x ∈ a ↔ x ∈ b) : a = b :=
  List.eq_of_perm_of_sorted ((List.perm_ext_iff_of_nodup ha.nodup hb.nodup).mpr h) ha hb

end ProjectReconciler

namespace ProjectReconciler

/-- C22: the project of an update issued by `syncProjectNodeFromCluster` is the
given project with its member list replaced; that list is strictly ascending
and its members are exactly the nodes of the clusters labelled with the
project; it is the only strictly ascending list with those members, and it is
what the collecting loop gives on the listed clusters in any order, so it
depends neither on the order of the listing nor on the previous member list. -/
theorem syncProjectNodeFromCluster_persists_sorted_union (p : Project) (w : World)
    (q : Project) (e : Option Err)
    (hmem : (⟨.updateProject q, e⟩ : Call) ∈ (syncProjectNodeFromCluster p w).calls) :
    q.spec.nodes.Sorted (· < ·) ∧
    (∀ x, x ∈ q.spec.nodes ↔
      ∃ c ∈ w.store.clusters,
        (Requirement.equals LabelProject p.name).holds c.objectMeta.labels = true ∧
          x ∈ c.nodes) ∧
    (∀ l : List String, l.Sorted (· < ·) →
      (∀ x, x ∈ l ↔
        ∃ c ∈ w.store.clusters,
          (Requirement.equals LabelProject p.name).holds c.objectMeta.labels = true ∧
            x ∈ c.nodes) →
      q.spec.nodes = l) ∧
    (∀ cs : List Cluster, cs.Perm (projectClusters w.store p) →
      (collectNodes (sets.NewString []) cs).List = q.spec.nodes) ∧
    q = { p with spec := { p.spec with nodes := q.spec.nodes } } := by
  have hq : q = { p with spec := { p.spec with nodes :=
      (collectNodes (sets.NewString []) (projectClusters w.store p)).List } } := by
    rcases syncProjectNodeFromCluster_cases p w with
      ⟨_, h⟩ | ⟨_, f, _, h⟩ | ⟨_, _, _, h⟩ | ⟨_, _, _, h⟩
    · rw [h] at hmem; cases hmem
    · rw [h, List.mem_singleton] at hmem; cases hmem
    · rw [h, List.mem_singleton] at hmem; cases hmem
    · rcases updateProject_run { p with spec := { p.spec with nodes :=
          (collectNodes (sets.NewString []) (projectClusters w.store p)).List } } w.advance with
        ⟨f, _, hu⟩ | ⟨_, _, hu⟩ | ⟨_, _, hu⟩
      · rw [M.bind_of_eq_error _ hu] at h
        rw [h] at hmem
        simp only [Out.prepend, List.singleton_append, List.mem_cons, List.mem_singleton,
          List.not_mem_nil, or_false] at hmem
        rcases hmem with h1 | h1
        · cases h1
        · cases h1; rfl
      · rw [M.bind_of_eq_ok _ hu] at h
        rw [h] at hmem
        simp only [Out.prepend, M.pure_run, List.singleton_append, List.append_nil,
          List.mem_cons, List.mem_singleton, List.not_mem_nil, or_false] at hmem
        rcases hmem with h1 | h1
        · cases h1
        · cases h1; rfl
      · rw [M.bind_of_eq_error _ hu] at h
        rw [h] at hmem
        simp only [Out.prepend, List.singleton_append, List.mem_cons, List.mem_singleton,
          List.not_mem_nil, or_false] at hmem
        rcases hmem with h1 | h1
        · cases h1
        · cases h1; rfl
  have hnodes : q.spec.nodes =
      (collectNodes (sets.NewString []) (projectClusters w.store p)).keys := by
    rw [hq]; rfl
  have hsorted : q.spec.nodes.Sorted (· < ·) := by
    rw [hnodes]; exact collectNodes_sorted _
  have hunion : ∀ (cs : List Cluster), cs.Perm (projectClusters w.store p) → ∀ x,
      x ∈ (collectNodes (sets.NewString []) cs).keys ↔
        ∃ c ∈ w.store.clusters,
          (Requirement.equals LabelProject p.name).holds c.objectMeta.labels = true ∧
            x ∈ c.nodes := by
    intro cs hperm x
    rw [mem_collectNodes]
    constructor
    · rintro (h | ⟨c, hc, hx⟩)
      · cases h
      · obtain ⟨h1, h2⟩ := (mem_projectClusters _ _ _).mp (hperm.mem_iff.mp hc)
        exact ⟨c, h1, h2, hx⟩
    · rintro ⟨c, h1, h2, hx⟩
      exact Or.inr ⟨c, hperm.mem_iff.mpr ((mem_projectClusters _ _ _).mpr ⟨h1, h2⟩), hx⟩
  have hmine : ∀ x, x ∈ q.spec.nodes ↔
      ∃ c ∈ w.store.clusters,
        (Requirement.equals LabelProject p.name).holds c.objectMeta.labels = true ∧
          x ∈ c.nodes := by
    intro x
    rw [hnodes]
    exact hunion _ (List.Perm.refl _) x
  refine ⟨hsorted, hmine, fun l hl hmem_l => ?_, fun cs hperm => ?_, ?_⟩
  · exact sorted_unique hsorted hl (fun x => (hmine x).trans (hmem_l x).symm)
  · exact sorted_unique (collectNodes_sorted cs) hsorted
      (fun x => (hunion cs hperm x).trans (hmine x).symm)
  · rw [hq]

theorem syncProjectNodeFromCluster_persists_sorted_union_witness :
    ({ projectOfBob with spec := { manager := "bob", nodes := ["n1", "n2", "n3", "n4"] } } :
      Project).spec.nodes.Sorted (· < ·) :=
  (syncProjectNodeFromCluster_persists_sorted_union projectOfBob clusterWorld
    { projectOfBob with spec := { manager := "bob", nodes := ["n1", "n2", "n3", "n4"] } } none
    (by decide!)).1

end ProjectReconciler

namespace ProjectReconciler

/-- C23: when the five phases, run on the stored project, succeed, the store
then holds a project of the same name for which every phase finds its state
right; run again on that project and that store, under any failure schedule,
the phases issue no create, update or delete and leave the store as it is. -/
theorem phases_rerun_writes_nothing (p : Project) (w : World) (faults : List (Option Fault))
    (hst : StoredAs w.store p) (hok : (runPhases p w).res = .ok ()) :
    ∃ p2, StoredAs (runPhases p w).world.store p2 ∧ p2.objectMeta = p.objectMeta ∧
      Settled (runPhases p w).world.store p2 ∧
      (∀ c ∈ (runPhases p2 ⟨(runPhases p w).world.store, faults⟩).calls,
        c.op.isWrite = false ∧ c.op.isCreate = false ∧ c.op.isDelete = false) ∧
      (runPhases p2 ⟨(runPhases p w).world.store, faults⟩).world.store =
        (runPhases p w).world.store := by
  obtain ⟨p2, h1, h2, h3, _, _⟩ := runPhases_ok hst hok
  have hq := runPhases_quiet (p := p2) (w := ⟨(runPhases p w).world.store, faults⟩) h2
  refine ⟨p2, h1, h3, h2, fun c hc => ?_, hq.2⟩
  have hw := hq.1 c hc
  refine ⟨hw, ?_, ?_⟩
  · cases hop : c.op <;> rw [hop] at hw <;> first | rfl | cases hw
  · cases hop : c.op <;> rw [hop] at hw <;> first | rfl | cases hw

theorem phases_rerun_writes_nothing_witness :
    ∃ p2, StoredAs (runPhases projectOfBob clusterWorld).world.store p2 ∧
      p2.objectMeta = projectOfBob.objectMeta ∧
      Settled (runPhases projectOfBob clusterWorld).world.store p2 ∧
      (∀ c ∈ (runPhases p2 ⟨(runPhases projectOfBob clusterWorld).world.store, []⟩).calls,
        c.op.isWrite = false ∧ c.op.isCreate = false ∧ c.op.isDelete = false) ∧
      (runPhases p2 ⟨(runPhases projectOfBob clusterWorld).world.store, []⟩).world.store =
        (runPhases projectOfBob clusterWorld).world.store :=
  phases_rerun_writes_nothing projectOfBob clusterWorld []
    ⟨⟨projectOfBob, List.mem_singleton_self _, rfl⟩,
      fun q hq _ => List.mem_singleton.mp hq⟩ (by decide!)

end ProjectReconciler

namespace ProjectReconciler

/-! ## A failed node call ends the pass -/

theorem runPhases_stopsAt_node (p : Project) (Q : Call → Prop)
    (hQ : ∀ c, Q c → c.op.kind = .node) : (runPhases p).StopsAt Q := by
  unfold runPhases
  refine M.stopsAt_bind (M.stopsAt_of_issues (P := fun _ => True)
    (initProjectRole_issues p (fun _ _ _ h => by cases hQ _ h)
      (fun _ _ _ h => by cases hQ _ h) (fun _ _ _ h => by cases hQ _ h))) (fun _ => ?_)
  refine M.stopsAt_bind (M.stopsAt_of_issues (P := fun _ => True)
    (initManagerRoleBinding_issues p (fun _ h => by cases hQ _ h)
      (fun _ _ h => by cases hQ _ h) (fun _ _ h => by cases hQ _ h)
      (fun _ h => by cases hQ _ h))) (fun _ => ?_)
  refine M.stopsAt_bind (M.stopsAt_of_issues
    (syncProjectNodeFromCluster_issues p (fun _ _ h => by cases hQ _ h)
      (fun _ _ h => by cases hQ _ h))) (fun p1 => ?_)
  refine M.stopsAt_bind (syncNodeLabel_stopsAt p1 _) (fun _ => ?_)
  exact M.stopsAt_of_issues (P := fun _ => True)
    (count_issues p1 (fun _ _ h => by cases hQ _ h) (fun _ _ h => by cases hQ _ h))

theorem Reconcile_stopsAt_node (name : String) (Q : Call → Prop)
    (hQ : ∀ c, Q c → c.op.kind = .node) : (Reconcile name).StopsAt Q := by
  unfold Reconcile
  refine M.stopsAt_bind (M.stopsAt_of_issues (M.issues_attempt (P := fun _ => True)
    (storeCall_issues _ _ (fun _ h => by cases hQ _ h)
      (fun _ _ _ _ => trivial)))) (fun r => ?_)
  cases r with
  | error e =>
    dsimp only
    split
    · exact M.stopsAt_pure _ _
    · exact M.stopsAt_fail _ _
  | ok project =>
    dsimp only
    split
    · refine M.stopsAt_bind (M.stopsAt_of_issues (P := fun _ => True)
        (storeCall_issues _ _ (fun _ h => by cases hQ _ h) (fun _ _ _ _ => trivial)))
        (fun p1 => runPhases_stopsAt_node p1 Q hQ)
    · split
      · refine M.stopsAt_bind (M.stopsAt_of_issues (P := fun _ => True)
          (deleteRoleAndRoleBinding_issues project
            (fun _ h => by cases hQ _ h) (fun _ _ h => by cases hQ _ h)
            (fun _ h => by cases hQ _ h) (fun _ _ h => by cases hQ _ h)
            (fun _ h => by cases hQ _ h))) (fun _ => ?_)
        exact M.stopsAt_bind (M.stopsAt_of_issues (P := fun _ => True)
          (storeCall_issues _ _ (fun _ h => by cases hQ _ h) (fun _ _ _ _ => trivial)))
          (fun _ => M.stopsAt_pure _ _)
      · exact M.stopsAt_pure _ _

/-- C24 (as stated, refuted): on the store where project `p` owns a cluster of
the nodes `n1` and `n2` and only `n2` is stored, the pass returns the
not-found error of the fetch of `n1`; that fetch is its last call, `n2` is
never fetched, and `count` does not run. -/
theorem reconcile_absent_member_fails :
    (Reconcile "p" absentMemberWorld).res = .error .notFound ∧
      (Reconcile "p" absentMemberWorld).calls.getLast? =
        some ⟨.getNode "n1", some .notFound⟩ ∧
      (∀ c ∈ (Reconcile "p" absentMemberWorld).calls, c.op ≠ .getNode "n2") ∧
      ((Reconcile "p" absentMemberWorld).calls.filter (fun c =>
        decide (c.op = .listClusters [.equals LabelProject "p"]))).length = 1 := by
  decide!

/-- C24 (amended): a not-found at the node fetch of `syncNodeLabel` is returned
like any other error. When the second loop reaches a member that is not
stored, the fetch reports not-found, the loop returns that error and issues no
further call; and a failed node fetch is the last call of `syncNodeLabel` and
of the whole pass, which return its error, so that no later member is
processed and `count` does not run. -/
theorem syncNodeLabel_absent_member_aborts (p : Project) (name : String) (w : World)
    (id : String) (rest : List String) (err : Err) :
    (w.nextFault = none → getByName Node.name w.store.nodes id = none →
      addLabelLoop p (id :: rest) w =
        ⟨.error .notFound, w.advance, [⟨.getNode id, some .notFound⟩]⟩) ∧
    ((⟨.getNode id, some err⟩ : Call) ∈ (syncNodeLabel p w).calls →
      (∃ e, (syncNodeLabel p w).res = .error e ∧ (e = err ∨ ∃ msg, e = .withMessage msg err)) ∧
        ∃ pre, (syncNodeLabel p w).calls = pre ++ [⟨.getNode id, some err⟩]) ∧
    ((⟨.getNode id, some err⟩ : Call) ∈ (Reconcile name w).calls →
      (∃ e, (Reconcile name w).res = .error e ∧ (e = err ∨ ∃ msg, e = .withMessage msg err)) ∧
        ∃ pre, (Reconcile name w).calls = pre ++ [⟨.getNode id, some err⟩]) := by
  refine ⟨fun hf hnone => ?_,
    fun h => syncNodeLabel_stopsAt p (fun _ => True) w _ h trivial err rfl,
    fun h => Reconcile_stopsAt_node name (fun c => ∃ i, c.op = .getNode i)
      (fun c hc => by obtain ⟨i, hi⟩ := hc; rw [hi]; rfl) w _ h ⟨id, rfl⟩ err rfl⟩
  rw [addLabelLoop_cons]
  rcases getNode_run id w with ⟨f, hf1, _⟩ | ⟨n, _, hfound, _⟩ | ⟨_, _, hg⟩
  · rw [hf] at hf1; cases hf1
  · rw [Store.getByName_nodeCache_eq_none.mpr hnone] at hfound; cases hfound
  · rw [M.bind_of_eq_error _ hg]

theorem syncNodeLabel_absent_member_aborts_witness :
    (∃ e, (Reconcile "p" absentMemberWorld).res = .error e ∧
        (e = .notFound ∨ ∃ msg, e = .withMessage msg .notFound)) ∧
      ∃ pre, (Reconcile "p" absentMemberWorld).calls =
        pre ++ [⟨.getNode "n1", some .notFound⟩] :=
  (syncNodeLabel_absent_member_aborts projectOfBob "p" absentMemberWorld "n1" [] .notFound).2.2
    (by decide!)

end ProjectReconciler

namespace ProjectReconciler

/-- C25: `findObjectsFromNode` returns one key, the value of the node's project
label, exactly when the node's deletion timestamp is set and the label is
present with a non-empty value; otherwise it returns no key. -/
theorem findObjectsFromNode_key_iff (m : ObjectMeta) :
    ((findObjectsFromNode m).length = 1 ↔
      (Time.IsZero m.deletionTimestamp = false ∧ m.labels.has LabelProject = true ∧
        m.labels.get LabelProject ≠ "")) ∧
    (Time.IsZero m.deletionTimestamp = false → m.labels.has LabelProject = true →
      m.labels.get LabelProject ≠ "" → findObjectsFromNode m = [m.labels.get LabelProject]) ∧
    ((Time.IsZero m.deletionTimestamp = true ∨ m.labels.has LabelProject = false ∨
        m.labels.get LabelProject = "") → findObjectsFromNode m = []) := by
  unfold findObjectsFromNode
  cases hz : Time.IsZero m.deletionTimestamp with
  | true => simp
  | false =>
    by_cases hg : m.labels.get LabelProject = ""
    · simp [hg]
    · have hhas : m.labels.has LabelProject = true := GoMap.has_of_get rfl hg
      simp [hg, hhas]

end ProjectReconciler

namespace ProjectReconciler

/-- C26 (refuted on the code): on the store where the manager binding of
project `p` has no subject, the listing of `initManagerRoleBinding` succeeds
and returns that binding, the loop takes the branch for a binding without
subjects and then reads its first subject, and the call ends with the
out-of-range panic, after the listing and before any delete or create; the
pass on `p` ends with the same panic. -/
theorem initManagerRoleBinding_empty_subjects_panics :
    (initManagerRoleBinding projectOfBob emptySubjectsWorld).res =
        .error (.panic "runtime error: index out of range [0] with length 0") ∧
      (initManagerRoleBinding projectOfBob emptySubjectsWorld).calls =
        [⟨.listProjectRoleBinding (managerBindingQuery projectOfBob), none⟩] ∧
      (Reconcile "p" emptySubjectsWorld).res =
        .error (.panic "runtime error: index out of range [0] with length 0") := by
  decide!

end ProjectReconciler

namespace ProjectReconciler

theorem withoutFinalizer_sorted (project : Project) :
    (withoutFinalizer project).objectMeta.finalizers.Sorted (· < ·) := by
  have hle := sets.NewString_sorted project.objectMeta.finalizers
  have hlt : (sets.NewString project.objectMeta.finalizers).keys.Sorted (· < ·) :=
    hle.lt_of_le (sets.NewString_nodup _)
  exact hlt.filter _

theorem mem_withoutFinalizer (project : Project) (x : String) :
    x ∈ (withoutFinalizer project).objectMeta.finalizers ↔
      x ∈ project.objectMeta.finalizers ∧ x ≠ ProjectFinalizer := by
  simp [withoutFinalizer, sets.StringSet.Delete, sets.StringSet.List, sets.mem_NewString_keys]

/-- C27: on a pass over a project that is being deleted and holds the
finalizer, the only project update is the one that persists the project
without the controller's token: its finalizer list is strictly ascending, its
members are exactly the other tokens of the project, and every other field is
the project's; when the pass succeeds that project is the stored one. -/
theorem reconcile_removes_only_own_finalizer (w : World) (name : String) (project : Project)
    (hget : (ProjectLister.Get name w).res = .ok project)
    (hz : Time.IsZero project.objectMeta.deletionTimestamp = false)
    (hfin : (sets.NewString project.objectMeta.finalizers).Has ProjectFinalizer = true) :
    (∀ c ∈ (Reconcile name w).calls, ∀ q, c.op = .updateProject q →
      q = withoutFinalizer project) ∧
    ((Reconcile name w).res = .ok () →
      (⟨.updateProject (withoutFinalizer project), none⟩ : Call) ∈ (Reconcile name w).calls ∧
      getByName Project.name (Reconcile name w).world.store.projects name =
        some (withoutFinalizer project)) ∧
    (withoutFinalizer project).objectMeta.finalizers.Sorted (· < ·) ∧
    (∀ x, x ∈ (withoutFinalizer project).objectMeta.finalizers ↔
      x ∈ project.objectMeta.finalizers ∧ x ≠ ProjectFinalizer) ∧
    ProjectFinalizer ∉ (withoutFinalizer project).objectMeta.finalizers ∧
    withoutFinalizer project =
      { project with objectMeta :=
          { project.objectMeta with
            finalizers := (withoutFinalizer project).objectMeta.finalizers } } := by
  have hg : getByName Project.name w.store.projects name = some project ∧
      ProjectLister.Get name w = ⟨.ok project, w.advance, [⟨.getProject name, none⟩]⟩ := by
    rcases getProject_run name w with ⟨f, _, hg⟩ | ⟨p, _, hfound, hg⟩ | ⟨_, _, hg⟩
    · rw [hg] at hget; cases hget
    · rw [hg] at hget
      cases hget
      exact ⟨hfound, hg⟩
    · rw [hg] at hget; cases hget
  have hrun := Reconcile_terminating hget hz hfin
  rw [hg.2] at hrun
  have hiss : (deleteRoleAndRoleBinding project >>= fun _ =>
      ProjectWriter.UpdateProject (withoutFinalizer project) >>= fun _ =>
        (pure () : M Unit)).Issues
      (fun c => ∀ q, c.op = .updateProject q → q = withoutFinalizer project) (fun _ => True) :=
    M.issues_bind
      (deleteRoleAndRoleBinding_issues project
        (fun _ q hq => by cases hq) (fun _ _ q hq => by cases hq) (fun _ q hq => by cases hq)
        (fun _ _ q hq => by cases hq) (fun _ q hq => by cases hq))
      (fun _ _ => M.issues_bind
        (updateProject_issues (withoutFinalizer project) (fun _ q hq => by cases hq; rfl))
        (fun _ _ => M.issues_pure trivial))
  refine ⟨fun c hc q hq => ?_, fun hok => ⟨?_, Reconcile_terminating_ok hg.1 hz hfin hok⟩,
    withoutFinalizer_sorted project, mem_withoutFinalizer project,
    fun h => ((mem_withoutFinalizer project _).mp h).2 rfl, rfl⟩
  · rw [hrun] at hc
    simp only [Out.prepend, List.singleton_append, List.mem_cons] at hc
    rcases hc with hc | hc
    · subst hc; cases hq
    · exact (hiss w.advance).1 c hc q hq
  · rw [hrun] at hok ⊢
    change ((deleteRoleAndRoleBinding project >>= fun _ =>
      ProjectWriter.UpdateProject (withoutFinalizer project) >>= fun _ =>
        (pure () : M Unit)) w.advance).res = .ok () at hok
    obtain ⟨_, hok1, heq1⟩ := M.bind_ok_inv hok
    rw [heq1] at hok ⊢
    rcases updateProject_run (withoutFinalizer project)
        (deleteRoleAndRoleBinding project w.advance).world with
      ⟨f, _, hu⟩ | ⟨_, _, hu⟩ | ⟨_, _, hu⟩
    · rw [M.bind_of_eq_error _ hu] at hok; cases hok
    · rw [M.bind_of_eq_ok _ hu]
      simp [Out.prepend]
    · rw [M.bind_of_eq_error _ hu] at hok; cases hok

end ProjectReconciler

namespace ProjectReconciler

theorem reconcile_removes_only_own_finalizer_witness :
    getByName Project.name (Reconcile "p" tokensWorld).world.store.projects "p" =
        some (withoutFinalizer projectWithTokens) ∧
      (withoutFinalizer projectWithTokens).objectMeta.finalizers =
        ["a.example.io", "z.example.io"] :=
  ⟨((reconcile_removes_only_own_finalizer tokensWorld "p" projectWithTokens
      (by decide) (by decide) (by decide!)).2.1 (by decide!)).2, by decide!⟩

end ProjectReconciler

/-! ## The binding name -/

theorem append_sep_cancel {α : Type} {x : α} :
    ∀ {l1 l2 r1 r2 : List α}, x ∉ l1 → x ∉ l2 → l1 ++ x :: r1 = l2 ++ x :: r2 →
      l1 = l2 ∧ r1 = r2
  | [], [], _, _, _, _, h => ⟨rfl, List.tail_eq_of_cons_eq h⟩
  | [], b :: l2, _, _, _, h2, h => by
    have hb : x = b := List.head_eq_of_cons_eq h
    exact absurd (hb ▸ List.mem_cons_self _ _) h2
  | a :: l1, [], _, _, h1, _, h => by
    have ha : a = x := List.head_eq_of_cons_eq h
    exact absurd (ha ▸ List.mem_cons_self _ _) h1
  | a :: l1, b :: l2, _, _, h1, h2, h => by
    have hab : a = b := List.head_eq_of_cons_eq h
    have ht := List.tail_eq_of_cons_eq h
    obtain ⟨hl, hr⟩ := append_sep_cancel (fun hm => h1 (List.mem_cons_of_mem _ hm))
      (fun hm => h2 (List.mem_cons_of_mem _ hm)) ht
    exact ⟨by rw [hab, hl], hr⟩

namespace ProjectReconciler

/-- C28 (as stated, refuted): project `a-b` with manager `c` and project `a`
with manager `b-c` have the same manager-binding name `a-b-c`, and the cleanup
of project `a` deletes the global binding of that name, the one of `a-b`. -/
theorem binding_name_shared_by_two_projects :
    (managerBindingTarget projectAB).name = (managerBindingTarget projectA).name ∧
      projectAB.name ≠ projectA.name ∧ projectAB.spec.manager ≠ projectA.spec.manager ∧
      sharedNameWorld.store.roleBindings = [managerBindingTarget projectAB] ∧
      (Reconcile "a" sharedNameWorld).res = .ok () ∧
      (Reconcile "a" sharedNameWorld).world.store.roleBindings = [] := by
  decide!

/-- C28 (amended): the manager-binding name is `{project}-{manager}`, and equal
names of two projects give the same project name and the same manager when the
project names are equal, or the managers are, or neither project name holds a
`-`, or neither manager does. -/
theorem binding_name_identifies_pair (p1 p2 : Project)
    (h : (managerBindingTarget p1).name = (managerBindingTarget p2).name)
    (hd : p1.name = p2.name ∨ p1.spec.manager = p2.spec.manager ∨
      ('-' ∉ p1.name.data ∧ '-' ∉ p2.name.data) ∨
      ('-' ∉ p1.spec.manager.data ∧ '-' ∉ p2.spec.manager.data)) :
    (managerBindingTarget p1).name = p1.name ++ "-" ++ p1.spec.manager ∧
      p1.name = p2.name ∧ p1.spec.manager = p2.spec.manager := by
  refine ⟨rfl, ?_⟩
  have hdata : p1.name.data ++ '-' :: p1.spec.manager.data =
      p2.name.data ++ '-' :: p2.spec.manager.data := by
    have := congrArg String.data h
    simpa [managerBindingTarget, RoleBinding.name, String.data_append] using this
  rcases hd with hn | hm | ⟨h1, h2⟩ | ⟨h1, h2⟩
  · rw [hn] at hdata
    have := List.append_cancel_left hdata
    exact ⟨hn, String.ext (List.tail_eq_of_cons_eq this)⟩
  · rw [hm] at hdata
    exact ⟨String.ext (List.append_cancel_right hdata), hm⟩
  · obtain ⟨ha, hb⟩ := append_sep_cancel h1 h2 hdata
    exact ⟨String.ext ha, String.ext hb⟩
  · have hrev := congrArg List.reverse hdata
    simp only [List.reverse_append, List.reverse_cons, List.append_assoc,
      List.singleton_append] at hrev
    obtain ⟨ha, hb⟩ := append_sep_cancel (by simpa using h1) (by simpa using h2) hrev
    exact ⟨String.ext (List.reverse_injective hb), String.ext (List.reverse_injective ha)⟩

theorem binding_name_identifies_pair_witness :
    (managerBindingTarget projectOfBob).name = projectOfBob.name ++ "-" ++ projectOfBob.spec.manager ∧
      projectOfBob.name = projectOfThree.name ∧
      projectOfBob.spec.manager = projectOfThree.spec.manager :=
  binding_name_identifies_pair projectOfBob projectOfThree (by decide) (Or.inr (Or.inr (Or.inl
    ⟨by decide, by decide⟩)))

end ProjectReconciler

/-! ## The cluster proxy path -/

theorem breakAtChar_some {sep : Char} :
    ∀ {s a b : List Char}, breakAtChar sep s = some (a, b) → s = a ++ sep :: b ∧ sep ∉ a
  | [], _, _, h => by cases h
  | c :: cs, a, b, h => by
    unfold breakAtChar at h
    by_cases hc : c = sep
    · simp only [hc, if_true, Option.some.injEq, Prod.mk.injEq] at h
      obtain ⟨rfl, rfl⟩ := h
      exact ⟨by rw [hc]; rfl, List.not_mem_nil _⟩
    · simp only [hc, if_false] at h
      cases hb : breakAtChar sep cs with
      | none => rw [hb] at h; cases h
      | some r =>
        obtain ⟨a1, b1⟩ := r
        rw [hb] at h
        simp only [Option.some.injEq, Prod.mk.injEq] at h
        obtain ⟨rfl, rfl⟩ := h
        obtain ⟨hs, hn⟩ := breakAtChar_some hb
        refine ⟨by rw [hs]; rfl, fun hm => ?_⟩
        rcases List.mem_cons.mp hm with h1 | h1
        · exact hc h1.symm
        · exact hn h1

theorem breakAtChar_none {sep : Char} {s : List Char} (h : breakAtChar sep s = none) :
    sep ∉ s := by
  induction s with
  | nil => exact List.not_mem_nil _
  | cons c cs ih =>
    unfold breakAtChar at h
    by_cases hc : c = sep
    · simp [hc] at h
    · simp only [hc, if_false] at h
      cases hb : breakAtChar sep cs with
      | none =>
        intro hm
        rcases List.mem_cons.mp hm with h1 | h1
        · exact hc h1.symm
        · exact ih hb h1
      | some r => rw [hb] at h; cases h

namespace proxy

/-- The result of `parseClusterFromPath` in terms of the first `/` of the trimmed path. -/
theorem parseClusterFromPath_eq (p : String) :
    parseClusterFromPath p =
      (match breakAtChar '/' (TrimPrefix p ProxyHandlerPrefix).data with
        | none => (TrimPrefix p ProxyHandlerPrefix, "")
        | some (a, b) => (String.mk a, String.mk b)) := by
  unfold parseClusterFromPath SplitN
  simp only [splitNChars]
  cases hb : breakAtChar '/' (TrimPrefix p ProxyHandlerPrefix).data with
  | none => rfl
  | some r =>
    obtain ⟨a, b⟩ := r
    rfl

/-- C29: with `t` the path without one leading `/cluster/`, the cluster name
returned by `parseClusterFromPath` holds no `/`; when `t` holds no `/` the name
is `t` and the resource is empty, otherwise `t` is the name, a `/`, and the
resource; the name is empty exactly when `t` is empty or begins with `/`, and
that is when the first check of `ServeHTTP` answers 400. -/
theorem parseClusterFromPath_splits_at_first_slash (p : String) :
    (∀ rest : String, p = ProxyHandlerPrefix ++ rest →
      TrimPrefix p ProxyHandlerPrefix = rest) ∧
    (ProxyHandlerPrefix.data.isPrefixOf p.data = false → TrimPrefix p ProxyHandlerPrefix = p) ∧
    '/' ∉ (parseClusterFromPath p).1.data ∧
    ('/' ∉ (TrimPrefix p ProxyHandlerPrefix).data →
      (parseClusterFromPath p).1 = TrimPrefix p ProxyHandlerPrefix ∧
        (parseClusterFromPath p).2 = "") ∧
    ('/' ∈ (TrimPrefix p ProxyHandlerPrefix).data →
      TrimPrefix p ProxyHandlerPrefix =
        (parseClusterFromPath p).1 ++ "/" ++ (parseClusterFromPath p).2) ∧
    ((parseClusterFromPath p).1 = "" ↔
      (TrimPrefix p ProxyHandlerPrefix = "" ∨
        (TrimPrefix p ProxyHandlerPrefix).data.head? = some '/')) ∧
    (rejectsEmptyClusterName p = true ↔ (parseClusterFromPath p).1 = "") := by
  refine ⟨fun rest hrest => ?_, fun hpre => ?_, ?_⟩
  · subst hrest
    unfold TrimPrefix
    have hp : ProxyHandlerPrefix.data.isPrefixOf (ProxyHandlerPrefix ++ rest).data = true := by
      rw [String.data_append, List.isPrefixOf_iff_prefix]
      exact List.prefix_append _ _
    rw [if_pos hp]
    apply String.ext
    simp [String.data_append]
  · unfold TrimPrefix
    rw [hpre]
    rfl
  rw [show rejectsEmptyClusterName p = decide ((parseClusterFromPath p).1 = "") from rfl,
    parseClusterFromPath_eq]
  generalize TrimPrefix p ProxyHandlerPrefix = t
  cases hb : breakAtChar '/' t.data with
  | none =>
    have hno := breakAtChar_none hb
    refine ⟨hno, fun _ => ⟨rfl, rfl⟩, fun h => absurd h hno, ⟨fun h => Or.inl h, fun h => ?_⟩,
      by simp⟩
    rcases h with h | h
    · exact h
    · exact absurd (List.mem_of_mem_head? h) hno
  | some r =>
    obtain ⟨a, b⟩ := r
    obtain ⟨hs, hna⟩ := breakAtChar_some hb
    refine ⟨hna, fun h => absurd (by rw [hs]; simp) h, fun _ => ?_, ⟨fun h => ?_, fun h => ?_⟩,
      by simp⟩
    · apply String.ext
      simp [String.data_append, hs]
    · right
      have ha : a = [] := congrArg String.data h
      rw [hs, ha]
      rfl
    · rcases h with h | h
      · have := congrArg String.data h
        rw [hs] at this
        simp at this
      · cases a with
        | nil => rfl
        | cons c cs =>
          rw [hs] at h
          simp only [List.cons_append, List.head?_cons, Option.some.injEq] at h
          exact absurd (h ▸ List.mem_cons_self _ _) hna

end proxy

namespace server

/-- C30 (refuted on the code): the role names of the catalog `Roles` are
pairwise distinct, but three roles list the dependency
`role-template-view-project`, which names no role of the catalog (the role for
viewing projects is `role-template-view-projects`); every other dependency
names a role of the catalog. -/
theorem roles_dependency_names_missing_role :
    (Roles.map GlobalRole.name).Nodup ∧
      danglingDependencies Roles =
        [("role-template-delete-projects", "role-template-view-project"),
          ("role-template-create-projects", "role-template-view-project"),
          ("role-template-edit-projects", "role-template-view-project")] ∧
      (∃ r ∈ Roles, ∃ d ∈ r.dependencies, d ∉ Roles.map GlobalRole.name) ∧
      "role-template-view-project" ∉ Roles.map GlobalRole.name ∧
      "role-template-view-projects" ∈ Roles.map GlobalRole.name := by
  decide!

end server

namespace ProjectReconciler

/-- The desired manager binding carries both labels of the manager-binding listing. -/
theorem managerBindingTarget_listed (p : Project) :
    (Requirement.equals LabelProject p.name).holds (managerBindingTarget p).objectMeta.labels =
        true ∧
      (Requirement.equals LabelProjectRoleBindingManager "true").holds
        (managerBindingTarget p).objectMeta.labels = true := by
  constructor
  · simp [Requirement.holds, managerBindingTarget, GoMap.has, GoMap.get, GoMap.find]
  · have hne : LabelProject ≠ LabelProjectRoleBindingManager := by decide
    simp [Requirement.holds, managerBindingTarget, GoMap.has, GoMap.get, GoMap.find, hne]

/-- C8 (as stated, refuted): in the store where a binding named `p-bob` carries
the project label and no manager marker, no binding carries both labels, the
listing is empty, and the create of the desired binding `p-bob` answers
AlreadyExists: `initManagerRoleBinding` returns that error, creates nothing and
leaves the store as it was. -/
theorem initManagerRoleBinding_name_taken_fails :
    (∀ b ∈ takenNameWorld.store.projectRoleBindings,
      ¬ ((Requirement.equals LabelProject "p").holds b.objectMeta.labels = true ∧
        (Requirement.equals LabelProjectRoleBindingManager "true").holds b.objectMeta.labels =
          true)) ∧
    (initManagerRoleBinding projectOfBob takenNameWorld).res = .error .alreadyExists ∧
    (initManagerRoleBinding projectOfBob takenNameWorld).calls =
      [⟨.listProjectRoleBinding (managerBindingQuery projectOfBob), none⟩,
        ⟨.createProjectRoleBinding (managerBindingTarget projectOfBob), some .alreadyExists⟩] ∧
    (initManagerRoleBinding projectOfBob takenNameWorld).world.store = takenNameWorld.store := by
  decide!

/-- C8 (amended): when no binding carries both the project label of `p` and
the manager marker, `initManagerRoleBinding` issues no delete and no create
other than one create of the desired binding: the binding named
`{p}-{manager}` with both labels, role reference `{p}-admin` and the manager
as its single subject. Its run is one of four: the listing fails and is the
only call; the create fails with a scheduled failure; no binding of the
desired name is stored, the create succeeds, the call returns success, the
store's bindings are the old ones followed by the desired binding, and that
binding is the one binding carrying both labels; or a binding of the desired
name is stored, the create answers AlreadyExists, the call returns that error
and the store is as it was. -/
theorem initManagerRoleBinding_creates_when_absent (w : World) (p : Project)
    (hvalid : validLabelValue p.name = true)
    (hnone : ∀ b ∈ w.store.projectRoleBindings,
      ¬ ((Requirement.equals LabelProject p.name).holds b.objectMeta.labels = true ∧
        (Requirement.equals LabelProjectRoleBindingManager "true").holds b.objectMeta.labels =
          true)) :
    ((∀ c ∈ (initManagerRoleBinding p w).calls, c.op.isDelete = false) ∧
      (∀ c ∈ (initManagerRoleBinding p w).calls, c.op.isCreate = true →
        c.op = .createProjectRoleBinding (managerBindingTarget p)) ∧
      ((initManagerRoleBinding p w).calls.filter (fun c => c.op.isCreate)).length ≤ 1) ∧
    (∀ f, w.nextFault = some f →
      initManagerRoleBinding p w =
        ⟨.error f.toErr, w.advance,
          [⟨.listProjectRoleBinding (managerBindingQuery p), some f.toErr⟩]⟩) ∧
    (∀ f, w.nextFault = none → w.advance.nextFault = some f →
      initManagerRoleBinding p w =
        ⟨.error f.toErr, w.advance.advance,
          [⟨.listProjectRoleBinding (managerBindingQuery p), none⟩,
            ⟨.createProjectRoleBinding (managerBindingTarget p), some f.toErr⟩]⟩) ∧
    (w.nextFault = none → w.advance.nextFault = none →
      getByName RoleBinding.name w.store.projectRoleBindings
        (p.name ++ "-" ++ p.spec.manager) = none →
      (initManagerRoleBinding p w).res = .ok () ∧
        (initManagerRoleBinding p w).calls =
          [⟨.listProjectRoleBinding (managerBindingQuery p), none⟩,
            ⟨.createProjectRoleBinding (managerBindingTarget p), none⟩] ∧
        (initManagerRoleBinding p w).world.store =
          { w.store with projectRoleBindings :=
              w.store.projectRoleBindings ++ [managerBindingTarget p] } ∧
        (initManagerRoleBinding p w).world.store.projectRoleBindings.filter
            (fun b => (Requirement.equals LabelProject p.name).holds b.objectMeta.labels &&
              (Requirement.equals LabelProjectRoleBindingManager "true").holds
                b.objectMeta.labels) =
          [managerBindingTarget p]) ∧
    (w.nextFault = none → w.advance.nextFault = none →
      (getByName RoleBinding.name w.store.projectRoleBindings
        (p.name ++ "-" ++ p.spec.manager)).isSome = true →
      initManagerRoleBinding p w =
        ⟨.error .alreadyExists, w.advance.advance,
          [⟨.listProjectRoleBinding (managerBindingQuery p), none⟩,
            ⟨.createProjectRoleBinding (managerBindingTarget p), some .alreadyExists⟩]⟩ ∧
        (initManagerRoleBinding p w).world.store = w.store) ∧
    ((managerBindingTarget p).name = p.name ++ "-" ++ p.spec.manager ∧
      (managerBindingTarget p).objectMeta.labels =
        some [(LabelProject, p.name), (LabelProjectRoleBindingManager, "true")] ∧
      (managerBindingTarget p).roleRef.name = p.name ++ "-admin" ∧
      (managerBindingTarget p).subjects.map Subject.name = [p.spec.manager]) := by
  have hlist : storeList RoleBinding.name (fun b => b.objectMeta.labels)
      w.store.projectRoleBindings (parseSelector (managerBindingQuery p)) = [] := by
    apply List.eq_nil_iff_forall_not_mem.mpr
    intro b hb
    have := (mem_managerBindings hvalid _ b).mp hb
    exact hnone b this.1 this.2
  -- the run, case by case
  have hfault : ∀ f, w.nextFault = some f →
      initManagerRoleBinding p w =
        ⟨.error f.toErr, w.advance,
          [⟨.listProjectRoleBinding (managerBindingQuery p), some f.toErr⟩]⟩ :=
    fun f hf => initManagerRoleBinding_of_fault hf
  have hstep : w.nextFault = none →
      initManagerRoleBinding p w =
        ((IAMOperator.CreateProjectRoleBinding (managerBindingTarget p) >>= fun _ =>
          (pure () : M Unit)) w.advance).prepend
          [⟨.listProjectRoleBinding (managerBindingQuery p), none⟩] := by
    intro hf
    unfold initManagerRoleBinding
    rcases listProjectRoleBinding_run (managerBindingQuery p) w with ⟨f, hf', _⟩ | ⟨_, h⟩
    · rw [hf] at hf'; cases hf'
    · rw [M.bind_of_eq_ok _ h, hlist]
      simp only [List.length_nil, if_true]
  have hcreateFault : ∀ f, w.nextFault = none → w.advance.nextFault = some f →
      initManagerRoleBinding p w =
        ⟨.error f.toErr, w.advance.advance,
          [⟨.listProjectRoleBinding (managerBindingQuery p), none⟩,
            ⟨.createProjectRoleBinding (managerBindingTarget p), some f.toErr⟩]⟩ := by
    intro f hf hf2
    rw [hstep hf]
    rcases createProjectRoleBinding_run (managerBindingTarget p) w.advance with
      ⟨f', hf', h2⟩ | ⟨hf', _, _⟩ | ⟨hf', _, _⟩
    · rw [hf2] at hf'; cases hf'
      rw [M.bind_of_eq_error _ h2]
      rfl
    · rw [hf2] at hf'; cases hf'
    · rw [hf2] at hf'; cases hf'
  have hfree : w.nextFault = none → w.advance.nextFault = none →
      getByName RoleBinding.name w.store.projectRoleBindings
        (p.name ++ "-" ++ p.spec.manager) = none →
      initManagerRoleBinding p w =
        ⟨.ok (), World.mk { w.store with projectRoleBindings := w.store.projectRoleBindings ++ [managerBindingTarget p] } w.advance.faults.tail,
          [⟨.listProjectRoleBinding (managerBindingQuery p), none⟩,
            ⟨.createProjectRoleBinding (managerBindingTarget p), none⟩]⟩ := by
    intro hf hf2 hg
    rw [hstep hf]
    rcases createProjectRoleBinding_run (managerBindingTarget p) w.advance with
      ⟨f', hf', _⟩ | ⟨_, _, h2⟩ | ⟨_, hg', _⟩
    · rw [hf2] at hf'; cases hf'
    · rw [M.bind_of_eq_ok _ h2, M.pure_run]
      rfl
    · have hg2 : getByName RoleBinding.name w.store.projectRoleBindings
          (managerBindingTarget p).name = none := hg
      have hg3 : (getByName RoleBinding.name w.store.projectRoleBindings
          (managerBindingTarget p).name).isSome = true := hg'
      rw [hg2] at hg3
      cases hg3
  have htaken : w.nextFault = none → w.advance.nextFault = none →
      (getByName RoleBinding.name w.store.projectRoleBindings
        (p.name ++ "-" ++ p.spec.manager)).isSome = true →
      initManagerRoleBinding p w =
        ⟨.error .alreadyExists, w.advance.advance,
          [⟨.listProjectRoleBinding (managerBindingQuery p), none⟩,
            ⟨.createProjectRoleBinding (managerBindingTarget p), some .alreadyExists⟩]⟩ := by
    intro hf hf2 hg
    rw [hstep hf]
    rcases createProjectRoleBinding_run (managerBindingTarget p) w.advance with
      ⟨f', hf', _⟩ | ⟨_, hg', _⟩ | ⟨_, _, h2⟩
    · rw [hf2] at hf'; cases hf'
    · have hg2 : getByName RoleBinding.name w.store.projectRoleBindings
          (managerBindingTarget p).name = none := hg'
      have hg3 : (getByName RoleBinding.name w.store.projectRoleBindings
          (managerBindingTarget p).name).isSome = true := hg
      rw [hg2] at hg3
      cases hg3
    · rw [M.bind_of_eq_error _ h2]
      rfl
  -- every run has one of these four shapes
  have hshape : (∃ e, (initManagerRoleBinding p w).calls =
        [⟨.listProjectRoleBinding (managerBindingQuery p), some e⟩]) ∨
      ∃ e, (initManagerRoleBinding p w).calls =
        [⟨.listProjectRoleBinding (managerBindingQuery p), none⟩,
          ⟨.createProjectRoleBinding (managerBindingTarget p), e⟩] := by
    cases hf : w.nextFault with
    | some f => left; rw [hfault f hf]; exact ⟨_, rfl⟩
    | none =>
      right
      cases hf2 : w.advance.nextFault with
      | some f => rw [hcreateFault f hf hf2]; exact ⟨_, rfl⟩
      | none =>
        cases hg : getByName RoleBinding.name w.store.projectRoleBindings
            (p.name ++ "-" ++ p.spec.manager) with
        | none => rw [hfree hf hf2 hg]; exact ⟨_, rfl⟩
        | some b => rw [htaken hf hf2 (by rw [hg]; rfl)]; exact ⟨_, rfl⟩
  refine ⟨⟨?_, ?_, ?_⟩, hfault, hcreateFault, fun hf hf2 hg => ?_,
    fun hf hf2 hg => ⟨htaken hf hf2 hg, ?_⟩, rfl, rfl, rfl, rfl⟩
  · intro c hc
    rcases hshape with ⟨e, h⟩ | ⟨e, h⟩ <;> rw [h] at hc
    · rw [List.mem_singleton] at hc; subst hc; rfl
    · simp only [List.mem_cons, List.mem_singleton, List.not_mem_nil, or_false] at hc
      rcases hc with hc | hc <;> subst hc <;> rfl
  · intro c hc hcr
    rcases hshape with ⟨e, h⟩ | ⟨e, h⟩ <;> rw [h] at hc
    · rw [List.mem_singleton] at hc; subst hc; cases hcr
    · simp only [List.mem_cons, List.mem_singleton, List.not_mem_nil, or_false] at hc
      rcases hc with hc | hc <;> subst hc
      · cases hcr
      · rfl
  · rcases hshape with ⟨e, h⟩ | ⟨e, h⟩ <;> rw [h] <;> simp [Op.isCreate]
  · rw [hfree hf hf2 hg]
    refine ⟨rfl, rfl, rfl, ?_⟩
    show (w.store.projectRoleBindings ++ [managerBindingTarget p]).filter _ = _
    rw [List.filter_append]
    have hold : w.store.projectRoleBindings.filter
        (fun b => (Requirement.equals LabelProject p.name).holds b.objectMeta.labels &&
          (Requirement.equals LabelProjectRoleBindingManager "true").holds
            b.objectMeta.labels) = [] := by
      apply List.filter_eq_nil_iff.mpr
      intro b hb hboth
      rw [Bool.and_eq_true] at hboth
      exact hnone b hb hboth
    rw [hold, List.nil_append, List.filter_cons, List.filter_nil]
    simp [(managerBindingTarget_listed p).1, (managerBindingTarget_listed p).2]
  · rw [htaken hf hf2 hg]
    rfl

theorem initManagerRoleBinding_creates_when_absent_witness :
    (initManagerRoleBinding projectOfBob otherProjectWorld).res = .ok () ∧
      (initManagerRoleBinding projectOfBob otherProjectWorld).world.store =
        { otherProjectWorld.store with
          projectRoleBindings :=
            otherProjectWorld.store.projectRoleBindings ++ [managerBindingTarget projectOfBob] } :=
  have h := (initManagerRoleBinding_creates_when_absent otherProjectWorld projectOfBob (by decide)
    (by decide!)).2.2.2.1 (by decide) (by decide) (by decide!)
  ⟨h.1, h.2.2.1⟩

end ProjectReconciler

namespace ProjectReconciler

/-- The loop of `initManagerRoleBinding` passes the bindings that are not stale
without a call. -/
theorem loop_skips_fresh (p : Project) (target : RoleBinding) (pre l : List RoleBinding)
    (hpre : ∀ b ∈ pre, isStaleBinding p b = false) (w : World) :
    initManagerRoleBindingLoop p target (pre ++ l) w = initManagerRoleBindingLoop p target l w := by
  induction pre with
  | nil => rfl
  | cons b rest ih =>
    rw [List.cons_append, initManagerRoleBindingLoop_cons,
      body_of_not_stale (hpre b (List.mem_cons_self _ _)), M.pure_bind_run]
    exact ih (fun b hb => hpre b (List.mem_cons_of_mem _ hb))

/-- What the loop body of `initManagerRoleBinding` does for a stored stale
binding when no failure is scheduled: it deletes the binding, deletes the
legacy global binding, tolerating its absence, and creates the desired
binding, which succeeds when the desired name is free then and answers
AlreadyExists when it is taken. -/
theorem body_stale_run (p : Project) (target : RoleBinding) {item : RoleBinding} {old : Subject}
    {more : List Subject} (hsub : item.subjects = old :: more)
    (hold : old.name ≠ p.spec.manager) (w : World) (hfaults : w.faults = [])
    (hstored : (getByName RoleBinding.name w.store.projectRoleBindings item.name).isSome = true) :
    ∃ eg, (eg = none ∨ eg = some Err.notFound) ∧
      ((getByName RoleBinding.name
          (removeByName RoleBinding.name w.store.projectRoleBindings item.name) target.name =
            none ∧
        initManagerRoleBindingBody p target item w =
          ⟨.ok (), World.mk { w.store with projectRoleBindings := removeByName RoleBinding.name w.store.projectRoleBindings item.name ++ [target], roleBindings := removeByName RoleBinding.name w.store.roleBindings (p.name ++ "-" ++ old.name) } w.faults.tail.tail.tail,
            [⟨.deleteProjectRoleBinding item.name, none⟩,
              ⟨.deleteRoleBinding (p.name ++ "-" ++ old.name), eg⟩,
              ⟨.createProjectRoleBinding target, none⟩]⟩) ∨
      ((getByName RoleBinding.name
          (removeByName RoleBinding.name w.store.projectRoleBindings item.name)
            target.name).isSome = true ∧
        initManagerRoleBindingBody p target item w =
          ⟨.error .alreadyExists, World.mk { w.store with projectRoleBindings := removeByName RoleBinding.name w.store.projectRoleBindings item.name, roleBindings := removeByName RoleBinding.name w.store.roleBindings (p.name ++ "-" ++ old.name) } w.faults.tail.tail.tail,
            [⟨.deleteProjectRoleBinding item.name, none⟩,
              ⟨.deleteRoleBinding (p.name ++ "-" ++ old.name), eg⟩,
              ⟨.createProjectRoleBinding target, some .alreadyExists⟩]⟩)) := by
  rw [body_of_stale hsub hold]
  rcases deleteProjectRoleBinding_tolerant_run item.name w with
    ⟨f, hf, _⟩ | ⟨e1, _, he1, _, h1⟩
  · exact absurd hfaults (World.faults_ne_nil_of_nextFault hf)
  have he : e1 = none := he1.mpr hstored
  subst he
  rw [M.bind_of_eq_ok _ h1]
  rcases deleteRoleBinding_tolerant_run (p.name ++ "-" ++ old.name)
      (World.mk { w.store with projectRoleBindings := removeByName RoleBinding.name w.store.projectRoleBindings item.name } w.faults.tail) with
    ⟨f, hf, _⟩ | ⟨e2, _, he2, he2', h2⟩
  · refine absurd ?_ (World.faults_ne_nil_of_nextFault hf)
    show w.faults.tail = []
    rw [hfaults]; rfl
  have heg : e2 = none ∨ e2 = some Err.notFound := by
    cases hg : getByName RoleBinding.name w.store.roleBindings (p.name ++ "-" ++ old.name) with
    | none => exact Or.inr (he2'.mpr hg)
    | some b => exact Or.inl (he2.mpr (by
        show (getByName RoleBinding.name w.store.roleBindings
          (p.name ++ "-" ++ old.name)).isSome = true
        rw [hg]; rfl))
  refine ⟨e2, heg, ?_⟩
  rw [M.bind_of_eq_ok _ h2]
  rcases createProjectRoleBinding_run target
      (World.mk { w.store with projectRoleBindings := removeByName RoleBinding.name w.store.projectRoleBindings item.name, roleBindings := removeByName RoleBinding.name w.store.roleBindings (p.name ++ "-" ++ old.name) } w.faults.tail.tail) with
    ⟨f, hf, _⟩ | ⟨_, hg, h3⟩ | ⟨_, hg, h3⟩
  · refine absurd ?_ (World.faults_ne_nil_of_nextFault hf)
    show w.faults.tail.tail = []
    rw [hfaults]; rfl
  · left
    rw [M.bind_of_eq_ok _ h3, M.pure_run]
    exact ⟨hg, rfl⟩
  · right
    rw [M.bind_of_eq_error _ h3]
    exact ⟨hg, rfl⟩

/-- C9 (amended): when the manager-binding listing, with distinct names, holds
two or more stale bindings, `s1` and `s2` being the first two in listing order
with first subjects `old1` and `old2`, and no failure is scheduled,
`initManagerRoleBinding` returns AlreadyExists and a binding named
`{project}-{manager}` is stored afterwards. Its log is the listing followed by
the processing of `s1`: its deletion, the deletion of the global binding
`{project}-{old1}`, which may answer not-found, and the creation of the
desired binding. Either that creation finds the name taken and is the last
call; or it succeeds and `s2` is processed the same way, its creation of the
desired binding answering AlreadyExists as the last call. No call addresses a
binding listed after that point. -/
theorem initManagerRoleBinding_two_stale_alreadyExists (w : World) (p : Project)
    (s1 s2 : RoleBinding) (more : List RoleBinding) (old1 old2 : Subject)
    (m1 m2 : List Subject) (hfaults : w.faults = [])
    (hnames : ((storeList RoleBinding.name (fun b => b.objectMeta.labels)
      w.store.projectRoleBindings (parseSelector (managerBindingQuery p))).map
        RoleBinding.name).Nodup)
    (hstale : (storeList RoleBinding.name (fun b => b.objectMeta.labels)
      w.store.projectRoleBindings (parseSelector (managerBindingQuery p))).filter
        (isStaleBinding p) = s1 :: s2 :: more)
    (h1 : s1.subjects = old1 :: m1) (h2 : s2.subjects = old2 :: m2) :
    (initManagerRoleBinding p w).res = .error .alreadyExists ∧
    (getByName RoleBinding.name (initManagerRoleBinding p w).world.store.projectRoleBindings
      (p.name ++ "-" ++ p.spec.manager)).isSome = true ∧
    ∃ e1, (e1 = none ∨ e1 = some Err.notFound) ∧
      (((getByName RoleBinding.name
            (removeByName RoleBinding.name w.store.projectRoleBindings s1.name)
            (p.name ++ "-" ++ p.spec.manager)).isSome = true ∧
          (initManagerRoleBinding p w).calls =
            [⟨.listProjectRoleBinding (managerBindingQuery p), none⟩,
              ⟨.deleteProjectRoleBinding s1.name, none⟩,
              ⟨.deleteRoleBinding (p.name ++ "-" ++ old1.name), e1⟩,
              ⟨.createProjectRoleBinding (managerBindingTarget p), some .alreadyExists⟩]) ∨
        (getByName RoleBinding.name
            (removeByName RoleBinding.name w.store.projectRoleBindings s1.name)
            (p.name ++ "-" ++ p.spec.manager) = none ∧
          ∃ e2, (e2 = none ∨ e2 = some Err.notFound) ∧
            (initManagerRoleBinding p w).calls =
              [⟨.listProjectRoleBinding (managerBindingQuery p), none⟩,
                ⟨.deleteProjectRoleBinding s1.name, none⟩,
                ⟨.deleteRoleBinding (p.name ++ "-" ++ old1.name), e1⟩,
                ⟨.createProjectRoleBinding (managerBindingTarget p), none⟩,
                ⟨.deleteProjectRoleBinding s2.name, none⟩,
                ⟨.deleteRoleBinding (p.name ++ "-" ++ old2.name), e2⟩,
                ⟨.createProjectRoleBinding (managerBindingTarget p),
                  some .alreadyExists⟩])) := by
  obtain ⟨pre, post, hsplit, hpre, hs1, hpost⟩ := List.filter_eq_cons_iff.mp hstale
  obtain ⟨pre2, post2, hsplit2, hpre2, hs2, _⟩ := List.filter_eq_cons_iff.mp hpost
  have hfresh : ∀ b ∈ pre, isStaleBinding p b = false := fun b hb => by
    simpa using hpre b hb
  have hfresh2 : ∀ b ∈ pre2, isStaleBinding p b = false := fun b hb => by
    simpa using hpre2 b hb
  have hold1 : old1.name ≠ p.spec.manager := by
    obtain ⟨o, m, ho, hne⟩ := subjects_of_stale hs1 (by rw [h1]; exact List.cons_ne_nil _ _)
    rw [h1] at ho
    cases ho
    exact hne
  have hold2 : old2.name ≠ p.spec.manager := by
    obtain ⟨o, m, ho, hne⟩ := subjects_of_stale hs2 (by rw [h2]; exact List.cons_ne_nil _ _)
    rw [h2] at ho
    cases ho
    exact hne
  have hne : storeList RoleBinding.name (fun b => b.objectMeta.labels)
      w.store.projectRoleBindings (parseSelector (managerBindingQuery p)) ≠ [] := by
    rw [hsplit]
    exact List.append_ne_nil_of_right_ne_nil _ (List.cons_ne_nil _ _)
  have hmem1 : s1 ∈ w.store.projectRoleBindings :=
    (mem_storeList.mp (by rw [hsplit]; exact List.mem_append_right _ (List.mem_cons_self _ _))).1
  have hmem2 : s2 ∈ w.store.projectRoleBindings :=
    (mem_storeList.mp (by
      rw [hsplit, hsplit2]
      exact List.mem_append_right _ (List.mem_cons_of_mem _
        (List.mem_append_right _ (List.mem_cons_self _ _))))).1
  have hdiff : s2.name ≠ s1.name := by
    rw [hsplit, List.map_append, List.map_cons] at hnames
    have hn := (List.nodup_cons.mp (List.Nodup.of_append_right hnames)).1
    intro heq
    apply hn
    rw [← heq, hsplit2]
    exact List.mem_map_of_mem _ (List.mem_append_right _ (List.mem_cons_self _ _))
  have hstored1 : (getByName RoleBinding.name w.advance.store.projectRoleBindings
      s1.name).isSome = true := getByName_isSome_iff.mpr ⟨s1, hmem1, rfl⟩
  rw [initManagerRoleBinding_of_listed (World.nextFault_of_faults_nil hfaults) hne rfl, hsplit,
    loop_skips_fresh p _ pre _ hfresh, initManagerRoleBindingLoop_cons]
  obtain ⟨e1, he1, hrun1⟩ := body_stale_run p (managerBindingTarget p) h1 hold1 w.advance
    (by show w.faults.tail = []; rw [hfaults]; rfl) hstored1
  rcases hrun1 with ⟨hfree, hb⟩ | ⟨htaken, hb⟩
  · -- the desired name is free once `s1` is deleted: the creation succeeds, `s2` is next
    rw [M.bind_of_eq_ok _ hb, hsplit2, loop_skips_fresh p _ pre2 _ hfresh2,
      initManagerRoleBindingLoop_cons]
    have hfree' := getByName_eq_none_iff.mp hfree
    have hs2rem : s2 ∈ removeByName RoleBinding.name w.store.projectRoleBindings s1.name :=
      mem_removeByName.mpr ⟨hmem2, hdiff⟩
    have hs2name : s2.name ≠ (managerBindingTarget p).name := hfree' s2 hs2rem
    obtain ⟨e2, he2, hrun2⟩ := body_stale_run p (managerBindingTarget p) h2 hold2
      (World.mk { w.advance.store with projectRoleBindings := removeByName RoleBinding.name w.advance.store.projectRoleBindings s1.name ++ [managerBindingTarget p], roleBindings := removeByName RoleBinding.name w.advance.store.roleBindings (p.name ++ "-" ++ old1.name) } w.advance.faults.tail.tail.tail)
      (by show w.faults.tail.tail.tail.tail = []; rw [hfaults]; rfl)
      (getByName_isSome_iff.mpr ⟨s2, List.mem_append_left _ hs2rem, rfl⟩)
    rcases hrun2 with ⟨hfree2, _⟩ | ⟨htaken2, hb2⟩
    · -- impossible: the desired binding was just created
      exfalso
      have := getByName_eq_none_iff.mp hfree2 (managerBindingTarget p)
        (mem_removeByName.mpr ⟨List.mem_append_right _ (List.mem_singleton_self _),
          fun h => hs2name h.symm⟩)
      exact this rfl
    · rw [M.bind_of_eq_error _ hb2]
      exact ⟨rfl, htaken2, e1, he1, Or.inr ⟨hfree, e2, he2, rfl⟩⟩
  · -- the desired name is taken even once `s1` is deleted
    rw [M.bind_of_eq_error _ hb]
    exact ⟨rfl, htaken, e1, he1, Or.inl ⟨htaken, rfl⟩⟩

theorem initManagerRoleBinding_two_stale_alreadyExists_witness :
    (initManagerRoleBinding projectOfBob twoStaleWorld).res = .error .alreadyExists ∧
      (getByName RoleBinding.name
        (initManagerRoleBinding projectOfBob twoStaleWorld).world.store.projectRoleBindings
          ("p" ++ "-" ++ "bob")).isSome = true :=
  have h := initManagerRoleBinding_two_stale_alreadyExists twoStaleWorld projectOfBob
    (bindingOf "alice") (bindingOf "carol") []
    { apiGroup := "rbac.authorization.k8s.io", kind := KindUser, name := "alice" }
    { apiGroup := "rbac.authorization.k8s.io", kind := KindUser, name := "carol" } [] []
    rfl (by decide!) (by decide!) rfl rfl
  ⟨h.1, h.2.1⟩

end ProjectReconciler

/-! ## Deep equality of maps, by what can be read from them -/

theorem GoMap.find_mem {l : List (String × String)} {k v : String}
    (h : GoMap.find k l = some v) : (k, v) ∈ l := by
  induction l with
  | nil => cases h
  | cons kv rest ih =>
    obtain ⟨k0, v0⟩ := kv
    by_cases hk : k0 = k
    · simp only [GoMap.find, hk, if_true, Option.some.injEq] at h
      rw [hk, h]
      exact List.mem_cons_self _ _
    · simp only [GoMap.find, hk, if_false] at h
      exact List.mem_cons_of_mem _ (ih h)

theorem GoMap.find_eq_none_iff {l : List (String × String)} {k : String} :
    GoMap.find k l = none ↔ k ∉ l.map Prod.fst := by
  induction l with
  | nil => simp [GoMap.find]
  | cons kv rest ih =>
    obtain ⟨k0, v0⟩ := kv
    by_cases hk : k0 = k
    · simp [GoMap.find, hk]
    · have hk' : ¬ k = k0 := fun h => hk h.symm
      simp [GoMap.find, hk, hk', ih]

theorem GoMap.mem_keys_iff {l : List (String × String)} {k : String} :
    k ∈ l.map Prod.fst ↔ ∃ v, GoMap.find k l = some v := by
  constructor
  · intro h
    cases hf : GoMap.find k l with
    | none => exact absurd h (GoMap.find_eq_none_iff.mp hf)
    | some v => exact ⟨v, rfl⟩
  · rintro ⟨v, hv⟩
    exact List.mem_map.mpr ⟨(k, v), GoMap.find_mem hv, rfl⟩

/-- Two entry lists with distinct keys pass the deep comparison exactly when
every key is looked up the same way in both. -/
theorem GoMap.deepEqual_some_iff {x y : List (String × String)}
    (hx : (x.map Prod.fst).Nodup) (hy : (y.map Prod.fst).Nodup) :
    GoMap.deepEqual (some x) (some y) = true ↔ ∀ k, GoMap.find k x = GoMap.find k y := by
  simp only [GoMap.deepEqual, Bool.and_eq_true, decide_eq_true_eq, List.all_eq_true]
  constructor
  · rintro ⟨hlen, hall⟩ k
    have hsub : x.map Prod.fst ⊆ y.map Prod.fst := by
      intro k' hk'
      obtain ⟨v, hv⟩ := GoMap.mem_keys_iff.mp hk'
      exact GoMap.mem_keys_iff.mpr ⟨v, hall (k', v) (GoMap.find_mem hv)⟩
    have hperm : (x.map Prod.fst).Perm (y.map Prod.fst) :=
      (List.subperm_of_subset hx hsub).perm_of_length_le
        (by rw [List.length_map, List.length_map, hlen])
    cases hf : GoMap.find k x with
    | some v => exact (hall (k, v) (GoMap.find_mem hf)).symm
    | none =>
      have hk : k ∉ y.map Prod.fst := fun h =>
        GoMap.find_eq_none_iff.mp hf (hperm.mem_iff.mpr h)
      exact (GoMap.find_eq_none_iff.mpr hk).symm
  · intro h
    constructor
    · have hperm : (x.map Prod.fst).Perm (y.map Prod.fst) := by
        refine (List.perm_ext_iff_of_nodup hx hy).mpr (fun k => ?_)
        rw [GoMap.mem_keys_iff, GoMap.mem_keys_iff, h k]
      have := hperm.length_eq
      rwa [List.length_map, List.length_map] at this
    · intro kv hkv
      rw [← h kv.1]
      exact GoMap.find_of_mem hx hkv

theorem GoMap.same_some_iff {x y : List (String × String)} :
    GoMap.Same (some x) (some y) ↔ ∀ k, GoMap.find k x = GoMap.find k y := by
  unfold GoMap.Same
  simp only [Option.isSome_some, GoMap.has, GoMap.get, true_and]
  constructor
  · intro h k
    obtain ⟨h1, h2⟩ := h k
    cases hx : GoMap.find k x with
    | none =>
      cases hy : GoMap.find k y with
      | none => rfl
      | some b => rw [hx, hy] at h1; cases h1
    | some a =>
      cases hy : GoMap.find k y with
      | none => rw [hx, hy] at h1; cases h1
      | some b =>
        rw [hx, hy] at h2
        simp only [Option.getD_some] at h2
        rw [h2]
  · intro h k
    rw [h k]
    exact ⟨rfl, rfl⟩

/-- `reflect.DeepEqual` on two maps, as rendered by `GoMap.deepEqual`, holds
exactly when the two maps read the same: both nil or both non-nil, and every
key present in both or in neither, with the same value. -/
theorem GoMap.deepEqual_iff_same (a b : GoMap) (ha : a.distinctKeys = true)
    (hb : b.distinctKeys = true) : GoMap.deepEqual a b = true ↔ GoMap.Same a b := by
  cases a with
  | none =>
    cases b with
    | none => exact ⟨fun _ => ⟨rfl, fun _ => ⟨rfl, rfl⟩⟩, fun _ => rfl⟩
    | some y =>
      constructor
      · intro h; cases h
      · intro h; cases h.1
  | some x =>
    cases b with
    | none =>
      constructor
      · intro h; cases h
      · intro h; cases h.1
    | some y =>
      rw [GoMap.same_some_iff]
      exact GoMap.deepEqual_some_iff (by simpa [GoMap.distinctKeys] using ha)
        (by simpa [GoMap.distinctKeys] using hb)

namespace ProjectReconciler

/-- The comparison of `initProjectRole` fails exactly when the stored role
differs from the desired one in its labels, annotations or rules. -/
theorem roleSettled_false_iff {rule stored : ProjectRole}
    (h1 : rule.objectMeta.labels.distinctKeys = true)
    (h2 : rule.objectMeta.annotations.distinctKeys = true)
    (h3 : stored.objectMeta.labels.distinctKeys = true)
    (h4 : stored.objectMeta.annotations.distinctKeys = true) :
    roleSettled rule stored = false ↔ roleDiffers rule stored := by
  unfold roleSettled roleDiffers
  rw [← GoMap.deepEqual_iff_same _ _ h1 h3, ← GoMap.deepEqual_iff_same _ _ h2 h4]
  cases GoMap.deepEqual rule.objectMeta.labels stored.objectMeta.labels <;>
    cases GoMap.deepEqual rule.objectMeta.annotations stored.objectMeta.annotations <;>
    by_cases hr : rule.rules = stored.rules <;> simp [hr]

theorem desiredRole_distinctKeys (p : Project) {t : ProjectRole} (ht : t ∈ ProjectRoles) :
    (desiredRole p t).objectMeta.labels.distinctKeys = true ∧
      (desiredRole p t).objectMeta.annotations.distinctKeys = true := by
  constructor
  · rw [desiredRole_labels_of_catalog p ht]
    simp [GoMap.distinctKeys]
  · have hall : ∀ t ∈ ProjectRoles, t.objectMeta.annotations.distinctKeys = true := by decide
    exact hall t ht

/-- The loop of `initProjectRole`, seen from one template whose role is stored
and fails the comparison: once the role has been read, the update with the
desired role is issued. -/
theorem initProjectRoleLoop_fetched (p : Project) (ts : List ProjectRole)
    (hnodup : (ts.map ProjectRole.name).Nodup) (t : ProjectRole) (ht : t ∈ ts) (w : World)
    (r : ProjectRole)
    (hget : getByName ProjectRole.name w.store.projectRoles (desiredRole p t).name = some r)
    (hread : (⟨.getProjectRole (desiredRole p t).name, none⟩ : Call) ∈
      (initProjectRoleLoop p ts w).calls)
    (hs : roleSettled (desiredRole p t) r = false) :
    ∃ e, (⟨.updateProjectRole (desiredRole p t), e⟩ : Call) ∈
      (initProjectRoleLoop p ts w).calls := by
  induction ts generalizing w with
  | nil => cases ht
  | cons t0 rest ih =>
    rw [List.map_cons, List.nodup_cons] at hnodup
    rw [initProjectRoleLoop_cons] at hread ⊢
    by_cases h0 : t0 = t
    · subst h0
      rcases initProjectRoleBody_found hget with
        ⟨e, hb⟩ | ⟨hs', hb⟩ | ⟨_, e, hb⟩ | ⟨_, hb⟩
      · rw [M.bind_of_eq_error _ hb] at hread
        rw [List.mem_singleton] at hread
        cases hread
      · rw [hs] at hs'; cases hs'
      · rw [M.bind_of_eq_error _ hb]
        exact ⟨some e, by simp⟩
      · rw [M.bind_of_eq_ok _ hb]
        exact ⟨none, by simp [Out.prepend]⟩
    · have ht' : t ∈ rest := by
        rcases List.mem_cons.mp ht with h | h
        · exact absurd h.symm h0
        · exact h
      have hne : (desiredRole p t0).name ≠ (desiredRole p t).name := by
        intro heq
        exact hnodup.1 (by
          rw [desiredRole_name_injective p heq]
          exact List.mem_map_of_mem _ ht')
      obtain ⟨_, hb2⟩ := initProjectRoleBody_avoids p t0 _ hne w
      have hb1 : ∀ c ∈ (initProjectRoleBody p t0 w).calls,
          c.op ≠ .getProjectRole (desiredRole p t).name :=
        (initProjectRoleBody_issues p t0
          (Q := fun c => c.op ≠ .getProjectRole (desiredRole p t).name)
          (fun _ h => hne (Op.getProjectRole.inj h))
          (fun _ h => by cases h)
          (fun _ h => by cases h) w).1
      rw [M.bind_eq] at hread ⊢
      rcases M.andThen_cases (initProjectRoleBody p t0) (fun _ => initProjectRoleLoop p rest) w with
        ⟨e, _, heq⟩ | ⟨u, _, heq⟩
      · rw [heq] at hread
        exact absurd rfl (hb1 _ hread)
      · rw [heq] at hread ⊢
        rcases List.mem_append.mp hread with hc | hc
        · exact absurd rfl (hb1 _ hc)
        · obtain ⟨e, he⟩ := ih hnodup.2 ht' (initProjectRoleBody p t0 w).world
            (hb2.trans hget) hc
          exact ⟨e, List.mem_append.mpr (Or.inr he)⟩

/-- C11: for a template of the catalog whose role `{project}-{template}` is
stored (its label and annotation maps having distinct keys, as Go maps have),
the desired role carries the template's rules and annotations and the project
label. The stored role differs from it when its labels, its annotations or its
rules do: the two maps are not both nil or both non-nil, or some key is present
in one only or has another value, or the rule lists are not the same. A write
of `initProjectRole` on that role is the update with the whole desired role,
and it is issued only if the stored role differs; if it differs and
`initProjectRole` succeeds, the update was issued and the stored role is the
desired role; if it does not differ, no call addresses the role and it stays
as it is; and if it differs, the update is issued as soon as the role has been
read, whether or not `initProjectRole` succeeds in the end. -/
theorem initProjectRole_updates_iff_differs (p : Project) (w : World) (t r : ProjectRole)
    (ht : t ∈ ProjectRoles)
    (hget : getByName ProjectRole.name w.store.projectRoles (p.name ++ "-" ++ t.name) = some r)
    (hl : r.objectMeta.labels.distinctKeys = true)
    (ha : r.objectMeta.annotations.distinctKeys = true) :
    ((desiredRole p t).name = p.name ++ "-" ++ t.name ∧
      (desiredRole p t).objectMeta.labels = some [(LabelProject, p.name)] ∧
      (desiredRole p t).objectMeta.annotations = t.objectMeta.annotations ∧
      (desiredRole p t).rules = t.rules) ∧
    (roleDiffers (desiredRole p t) r ↔
      (¬ (r.objectMeta.labels.isSome = true ∧
          ∀ k, r.objectMeta.labels.has k = decide (k = LabelProject) ∧
            r.objectMeta.labels.get k = if k = LabelProject then p.name else "") ∨
        ¬ (t.objectMeta.annotations.isSome = r.objectMeta.annotations.isSome ∧
          ∀ k, t.objectMeta.annotations.has k = r.objectMeta.annotations.has k ∧
            t.objectMeta.annotations.get k = r.objectMeta.annotations.get k) ∨
        t.rules ≠ r.rules)) ∧
    (∀ c ∈ (initProjectRole p w).calls, c.op.target = some (.role, p.name ++ "-" ++ t.name) →
      c.op = .updateProjectRole (desiredRole p t) ∧ roleDiffers (desiredRole p t) r) ∧
    ((initProjectRole p w).res = .ok () → roleDiffers (desiredRole p t) r →
      (⟨.updateProjectRole (desiredRole p t), none⟩ : Call) ∈ (initProjectRole p w).calls ∧
        getByName ProjectRole.name (initProjectRole p w).world.store.projectRoles
          (p.name ++ "-" ++ t.name) = some (desiredRole p t)) ∧
    (¬ roleDiffers (desiredRole p t) r →
      (∀ c ∈ (initProjectRole p w).calls,
        c.op.target ≠ some (.role, p.name ++ "-" ++ t.name)) ∧
        getByName ProjectRole.name (initProjectRole p w).world.store.projectRoles
          (p.name ++ "-" ++ t.name) = some r) ∧
    ((⟨.getProjectRole (p.name ++ "-" ++ t.name), none⟩ : Call) ∈ (initProjectRole p w).calls →
      roleDiffers (desiredRole p t) r →
        ∃ e, (⟨.updateProjectRole (desiredRole p t), e⟩ : Call) ∈
          (initProjectRole p w).calls) := by
  obtain ⟨i1, i2, i3⟩ := initProjectRoleLoop_stored p ProjectRoles
    (by rw [ProjectRoles_names]; decide) t ht w r hget
  have i4 := initProjectRoleLoop_fetched p ProjectRoles
    (by rw [ProjectRoles_names]; decide) t ht w r hget
  have hd := desiredRole_distinctKeys p ht
  have hiff := roleSettled_false_iff hd.1 hd.2 hl ha
  refine ⟨⟨rfl, desiredRole_labels_of_catalog p ht, rfl, rfl⟩, ?_,
    fun c hc htar => ⟨(i1 c hc htar).1, hiff.mp (i1 c hc htar).2⟩,
    fun hok hdiff => i2 hok (hiff.mpr hdiff), fun hnd => i3 ?_,
    fun hread hdiff => i4 hread (hiff.mpr hdiff)⟩
  · unfold roleDiffers GoMap.Same
    rw [desiredRole_labels_of_catalog p ht]
    have hlab : (Option.isSome (some [(LabelProject, p.name)]) = r.objectMeta.labels.isSome ∧
        ∀ k, GoMap.has (some [(LabelProject, p.name)]) k = r.objectMeta.labels.has k ∧
          GoMap.get (some [(LabelProject, p.name)]) k = r.objectMeta.labels.get k) ↔
        (r.objectMeta.labels.isSome = true ∧
          ∀ k, r.objectMeta.labels.has k = decide (k = LabelProject) ∧
            r.objectMeta.labels.get k = if k = LabelProject then p.name else "") := by
      have hhas : ∀ k, GoMap.has (some [(LabelProject, p.name)]) k = decide (k = LabelProject) := by
        intro k
        by_cases hk : k = LabelProject
        · subst hk; simp [GoMap.has, GoMap.find]
        · have hk' : ¬ LabelProject = k := fun h => hk h.symm
          simp [GoMap.has, GoMap.find, hk, hk']
      have hgetk : ∀ k, GoMap.get (some [(LabelProject, p.name)]) k =
          if k = LabelProject then p.name else "" := by
        intro k
        by_cases hk : k = LabelProject
        · subst hk; simp [GoMap.get, GoMap.find]
        · have hk' : ¬ LabelProject = k := fun h => hk h.symm
          simp [GoMap.get, GoMap.find, hk, hk']
      constructor
      · rintro ⟨h1, h2⟩
        refine ⟨h1.symm, fun k => ?_⟩
        rw [← hhas k, ← hgetk k]
        exact ⟨(h2 k).1.symm, (h2 k).2.symm⟩
      · rintro ⟨h1, h2⟩
        refine ⟨h1.symm, fun k => ?_⟩
        rw [hhas k, hgetk k]
        exact ⟨(h2 k).1.symm, (h2 k).2.symm⟩
    rw [hlab]
    rfl
  · cases hs : roleSettled (desiredRole p t) r with
    | true => rfl
    | false => exact absurd (hiff.mp hs) hnd

theorem initProjectRole_updates_iff_differs_witness :
    (⟨.updateProjectRole (desiredRole projectOfBob adminTemplate), none⟩ : Call) ∈
        (initProjectRole projectOfBob driftedLabelWorld).calls ∧
      getByName ProjectRole.name
          (initProjectRole projectOfBob driftedLabelWorld).world.store.projectRoles
          (projectOfBob.name ++ "-" ++ adminTemplate.name) =
        some (desiredRole projectOfBob adminTemplate) :=
  (initProjectRole_updates_iff_differs projectOfBob driftedLabelWorld adminTemplate
    driftedAdminRole (by decide!) (by decide!) (by decide!) (by decide!)).2.2.2.1 (by decide!)
      (Or.inl (fun h => by
        have := (h.2 LabelProject).2
        revert this
        decide!))

end ProjectReconciler

end projectcontroller
